import Mathlib

/-!
Scheduling / lowering engine: information propagation, expression linearizer, loop-nest
builder.

Shallow embedding of
* `MaxInfoPropagator::run` (src/maxinfo_propagator.cpp),
* `reorderExprsForComputeAt` and its helpers (src/lower_loops.cpp),
* the shared-memory barrier bookkeeping of `LoopNestGenerator::handle` (src/lower_loops.cpp),
* `LoopNestGenerator::pushAlloc`, `initReduction`, `handle` and `generate` with the loops they
  open and close and the statements they place (src/lower_loops.cpp).

Pointers (`TensorView*`, `Expr*`, `Val*`) are natural-number handles, `nullptr` is `none`.
Definitions come first, theorems follow.
-/

set_option autoImplicit false

/-! ## Part I. Definitions -/

namespace MaxInfo

/-- A `TensorView*`, compared by identity. -/
abbrev TensorView := Nat

/-- `NextHopType` of maxinfo_propagator: which step callback a hop uses. -/
inductive NextHopType where
  | C_AS_P
  | P_AS_C
  deriving DecidableEq, Repr

/-- `NextHopInfo`: one candidate of the propagation list. `from_` is `none` for the synthetic
hop into the reference; `info_from` is the (shared) pointer to the information of `from_`,
null for the synthetic hop, which is default-constructed. -/
structure NextHopInfo (I : Type) where
  type : NextHopType
  from_ : Option TensorView
  to_ : TensorView
  info_from : Option I
  info_to : I
  deriving DecidableEq

/-- Everything `MaxInfoPropagator::run` reads from its environment: the virtual members of
`Information` (`operator<`, `operator bool`), the graph enumeration `ir_utils::consumerTvsOf`
and `ir_utils::producerTvsOf`, and the pure virtual `computeInfoCasP` / `computeInfoPasC`. -/
structure Propagator (I : Type) where
  lt : I → I → Bool
  nonzero : I → Bool
  consumerTvsOf : TensorView → List TensorView
  producerTvsOf : TensorView → List TensorView
  computeInfoCasP : TensorView → TensorView → I → I
  computeInfoPasC : TensorView → TensorView → I → I

variable {I : Type}

/-- `Information::operator>` (maxinfo_propagator.cpp:9): `r < *this`. -/
def Propagator.gt (P : Propagator I) (a r : I) : Bool := P.lt r a

/-- `Information::operator==` (maxinfo_propagator.cpp:13): `!(r < *this) && !(*this < r)`. -/
def Propagator.eqv (P : Propagator I) (a r : I) : Bool := !(P.lt r a) && !(P.lt a r)

/-- Modelled from the spec: `NextHopInfo::operator<` is declared in maxinfo_propagator.h, which
is not among the sources. The candidate list is "sorted in the order of ascending amount of
preserved information", so candidates compare by their proposed information `info_to`. -/
def hopLt (P : Propagator I) (a b : NextHopInfo I) : Bool := P.lt a.info_to b.info_to

/-- `std::upper_bound(first, last, value)` with `operator<`: the position of the first element
`e` of the range with `value < e`, the length of the range when there is none. -/
def upper_bound (less : NextHopInfo I → NextHopInfo I → Bool) :
    List (NextHopInfo I) → NextHopInfo I → Nat
  | [], _ => 0
  | e :: rest, value => if less value e then 0 else upper_bound less rest value + 1

/-- `std::list::insert(pos, value)` at the position numbered `pos` from the front. -/
def insertAtPos (l : List (NextHopInfo I)) (pos : Nat) (value : NextHopInfo I) :
    List (NextHopInfo I) :=
  l.take pos ++ value :: l.drop pos

/-- The truth value of `*(info.info_from)`; the pointer is never null where the lambda is
called, a null pointer is read as no information. -/
def infoFromNonzero (P : Propagator I) (info : NextHopInfo I) : Bool :=
  match info.info_from with
  | some i => P.nonzero i
  | none => false

/-- The lambda `insertNextHopInfo` of `MaxInfoPropagator::run` (maxinfo_propagator.cpp:39-59),
as a function of the list `propagation` it captures. -/
def insertNextHopInfo (P : Propagator I) (propagation : List (NextHopInfo I))
    (info : NextHopInfo I) : List (NextHopInfo I) :=
  if !(infoFromNonzero P info) then propagation
  else
    match propagation.find? (fun i => i.to_ == info.to_) with
    | none =>
        insertAtPos propagation (upper_bound (hopLt P) propagation info) info
    | some existing =>
        if hopLt P existing info then
          let erased := propagation.eraseP (fun i => i.to_ == info.to_)
          insertAtPos erased (upper_bound (hopLt P) erased info) info
        else propagation

/-- One recorded invocation of a step callback: `propagateTvCasP(from, to)` or
`propagateTvPasC(from, to)`. -/
structure StepCall where
  type : NextHopType
  from_ : TensorView
  to_ : TensorView
  deriving DecidableEq, Repr

/-- The local state of `MaxInfoPropagator::run`: the set `replayed` (only `emplace` and `count`
are used, so its element order is never observed), the list `propagation`, and two logs:
`calls`, the step callbacks invoked so far, and `popped`, the candidates taken from the back of
the list so far, both oldest first. -/
structure RunState (I : Type) where
  replayed : List TensorView
  propagation : List (NextHopInfo I)
  calls : List StepCall
  popped : List (NextHopInfo I)

/-- `replayed.emplace(tv)`. -/
def emplace (replayed : List TensorView) (tv : TensorView) : List TensorView :=
  if tv ∈ replayed then replayed else replayed ++ [tv]

/-- The first `for` loop of the body (maxinfo_propagator.cpp:78-89) over the consumers. -/
def consumerLoop (P : Propagator I) (replayed : List TensorView) (next_hop : NextHopInfo I) :
    List TensorView → List (NextHopInfo I) → List (NextHopInfo I)
  | [], propagation => propagation
  | consumer_tv :: rest, propagation =>
      if consumer_tv ∈ replayed then consumerLoop P replayed next_hop rest propagation
      else
        consumerLoop P replayed next_hop rest
          (insertNextHopInfo P propagation
            { type := NextHopType.C_AS_P
              from_ := some next_hop.to_
              to_ := consumer_tv
              info_from := some next_hop.info_to
              info_to := P.computeInfoCasP next_hop.to_ consumer_tv next_hop.info_to })

/-- The second `for` loop of the body (maxinfo_propagator.cpp:91-102) over the producers. -/
def producerLoop (P : Propagator I) (replayed : List TensorView) (next_hop : NextHopInfo I) :
    List TensorView → List (NextHopInfo I) → List (NextHopInfo I)
  | [], propagation => propagation
  | producer_tv :: rest, propagation =>
      if producer_tv ∈ replayed then producerLoop P replayed next_hop rest propagation
      else
        producerLoop P replayed next_hop rest
          (insertNextHopInfo P propagation
            { type := NextHopType.P_AS_C
              from_ := some next_hop.to_
              to_ := producer_tv
              info_from := some next_hop.info_to
              info_to := P.computeInfoPasC next_hop.to_ producer_tv next_hop.info_to })

/-- The body of the `while` loop for the candidate `next_hop` just taken from the back, `rest`
being the list after `pop_back`. -/
def visit (P : Propagator I) (s : RunState I) (next_hop : NextHopInfo I)
    (rest : List (NextHopInfo I)) : RunState I :=
  let calls :=
    match next_hop.from_ with
    | some f => s.calls ++ [{ type := next_hop.type, from_ := f, to_ := next_hop.to_ }]
    | none => s.calls
  let replayed := emplace s.replayed next_hop.to_
  let afterConsumers :=
    consumerLoop P replayed next_hop (P.consumerTvsOf next_hop.to_) rest
  let afterProducers :=
    producerLoop P replayed next_hop (P.producerTvsOf next_hop.to_) afterConsumers
  { replayed := replayed
    propagation := afterProducers
    calls := calls
    popped := s.popped ++ [next_hop] }

/-- One iteration of `while (!propagation.empty())`; a state with an empty list is left as it
is (the loop has ended). -/
def iteration (P : Propagator I) (s : RunState I) : RunState I :=
  match s.propagation.getLast? with
  | none => s
  | some next_hop => visit P s next_hop s.propagation.dropLast

/-- The state on entry to the loop: nothing replayed, the list holds the synthetic hop into
`reference` carrying `reference_info`. -/
def initial (reference : TensorView) (reference_info : I) : RunState I :=
  { replayed := []
    propagation :=
      [{ type := NextHopType.C_AS_P
         from_ := none
         to_ := reference
         info_from := none
         info_to := reference_info }]
    calls := []
    popped := [] }

/-- The state after `n` iterations of the loop (fewer when the list empties before). -/
def stateAfter (P : Propagator I) (reference : TensorView) (reference_info : I) :
    Nat → RunState I
  | 0 => initial reference reference_info
  | n + 1 => iteration P (stateAfter P reference reference_info n)

/-- The loop of `MaxInfoPropagator::run` with a bound on the number of iterations: `some` of the
final state when the list empties within `fuel` iterations, `none` when it does not. -/
def runLoop (P : Propagator I) : Nat → RunState I → Option (RunState I)
  | 0, s => if s.propagation.isEmpty then some s else none
  | fuel + 1, s => if s.propagation.isEmpty then some s else runLoop P fuel (iteration P s)

/-- `MaxInfoPropagator::run()` for the members `reference` and `reference_info`. -/
def run (P : Propagator I) (reference : TensorView) (reference_info : I) (fuel : Nat) :
    Option (RunState I) :=
  runLoop P fuel (initial reference reference_info)

/-- The proposal the consumer loop makes for `consumer_tv`. -/
def consumerHop (P : Propagator I) (next_hop : NextHopInfo I) (consumer_tv : TensorView) :
    NextHopInfo I :=
  { type := NextHopType.C_AS_P
    from_ := some next_hop.to_
    to_ := consumer_tv
    info_from := some next_hop.info_to
    info_to := P.computeInfoCasP next_hop.to_ consumer_tv next_hop.info_to }

/-- The proposal the producer loop makes for `producer_tv`. -/
def producerHop (P : Propagator I) (next_hop : NextHopInfo I) (producer_tv : TensorView) :
    NextHopInfo I :=
  { type := NextHopType.P_AS_C
    from_ := some next_hop.to_
    to_ := producer_tv
    info_from := some next_hop.info_to
    info_to := P.computeInfoPasC next_hop.to_ producer_tv next_hop.info_to }

/-- The proposals one iteration hands to `insertNextHopInfo`, in order: one per consumer that
is not replayed, then one per producer that is not replayed. -/
def hops (P : Propagator I) (replayed : List TensorView) (next_hop : NextHopInfo I) :
    List (NextHopInfo I) :=
  ((P.consumerTvsOf next_hop.to_).filter (fun t => decide (t ∉ replayed))).map
      (consumerHop P next_hop) ++
    ((P.producerTvsOf next_hop.to_).filter (fun t => decide (t ∉ replayed))).map
      (producerHop P next_hop)

/-- The list after a sequence of calls of `insertNextHopInfo`. -/
def insertAll (P : Propagator I) (l : List (NextHopInfo I)) (infos : List (NextHopInfo I)) :
    List (NextHopInfo I) :=
  infos.foldl (insertNextHopInfo P) l

/-- The step callback a popped candidate triggers, none for the synthetic hop. -/
def callOf (c : NextHopInfo I) : Option StepCall :=
  match c.from_ with
  | some f => some { type := c.type, from_ := f, to_ := c.to_ }
  | none => none

/-- The loop invariant of `MaxInfoPropagator::run`. -/
structure Inv (P : Propagator I) (s : RunState I) : Prop where
  replayed_eq : s.replayed = s.popped.map (fun c => c.to_)
  replayed_nodup : s.replayed.Nodup
  dests_nodup : (s.propagation.map (fun c => c.to_)).Nodup
  fresh : ∀ c ∈ s.propagation, c.to_ ∉ s.replayed
  closed : ∀ v ∈ s.popped, P.nonzero v.info_to = true →
    ∀ n, n ∈ P.consumerTvsOf v.to_ ∨ n ∈ P.producerTvsOf v.to_ →
      n ∈ s.replayed ∨ n ∈ s.propagation.map (fun c => c.to_)
  source : ∀ c, c ∈ s.propagation ∨ c ∈ s.popped → ∀ f, c.from_ = some f →
    infoFromNonzero P c = true
  origin : ∀ c, c ∈ s.propagation ∨ c ∈ s.popped → ∀ f, c.from_ = some f →
    ∃ v ∈ s.popped, v.to_ = f ∧ c.info_from = some v.info_to ∧
      (c.to_ ∈ P.consumerTvsOf f ∨ c.to_ ∈ P.producerTvsOf f)
  calls_eq : s.calls = s.popped.filterMap callOf

/-- The candidate list is in ascending order of information: no candidate is less than one
that stands before it. -/
def SortedHops (P : Propagator I) (l : List (NextHopInfo I)) : Prop :=
  l.Pairwise (fun a b => hopLt P b a = false)

/-- The information order is a strict weak order: irreflexive, transitive, and with transitive
incomparability. -/
structure StrictWeak (P : Propagator I) : Prop where
  irrefl : ∀ a, P.lt a a = false
  trans : ∀ a b c, P.lt a b = true → P.lt b c = true → P.lt a c = true
  incomp : ∀ a b c, P.lt a b = false → P.lt b a = false → P.lt b c = false →
    P.lt c b = false → P.lt a c = false ∧ P.lt c a = false

/-- Every destination held by the candidate list satisfies `U`. -/
def InU (U : TensorView → Prop) (s : RunState I) : Prop :=
  ∀ c ∈ s.propagation, U c.to_

/-- Reachability from the reference through producer/consumer edges. -/
inductive Reachable (P : Propagator I) (reference : TensorView) : TensorView → Prop where
  | refl : Reachable P reference reference
  | consumer (t n : TensorView) : Reachable P reference t → n ∈ P.consumerTvsOf t →
      Reachable P reference n
  | producer (t n : TensorView) : Reachable P reference t → n ∈ P.producerTvsOf t →
      Reachable P reference n

/-- An `IterDomain*`. -/
abbrev IterDomain := Nat

/-- `RootIDInfo` of `MaxRootDomainInfoPropagator`: the record kept for one root axis of the
reference tensor. -/
structure RootIDInfo where
  mapped_ids : List IterDomain
  is_complete : Bool
  is_rfactor : Bool
  deriving DecidableEq, Repr

/-- `RootDomainInfo`: the member `info`. -/
structure RootDomainInfo where
  info : List RootIDInfo
  deriving DecidableEq, Repr

/-- `RootDomainInfo::operator bool` (maxinfo_propagator.cpp:106): `!info.empty()`. -/
def RootDomainInfo.toBool (x : RootDomainInfo) : Bool := !x.info.isEmpty

/-- `RootDomainInfo::operator<` (maxinfo_propagator.cpp:110-125). -/
def RootDomainInfo.lt (x rr : RootDomainInfo) : Bool :=
  if x.info.length != rr.info.length then decide (x.info.length < rr.info.length)
  else
    let l_complete := x.info.countP (fun i => i.is_complete)
    let r_complete := rr.info.countP (fun i => i.is_complete)
    decide (l_complete < r_complete)

/-- A root-domain information value with `n` records, the first `c` of them complete. -/
def mkInfo (n c : Nat) : RootDomainInfo :=
  { info := (List.range n).map
      (fun k => { mapped_ids := [k], is_complete := decide (k < c), is_rfactor := false }) }

/-- A chain of three tensors `0 → 1 → 2` (each the producer of the next) under the root-domain
information order; no axis of tensor 0 maps into tensor 1, so every hop into tensor 1 carries
empty information, every other hop keeps its information. -/
def chain3 : Propagator RootDomainInfo :=
  { lt := RootDomainInfo.lt
    nonzero := RootDomainInfo.toBool
    consumerTvsOf := fun t => if t = 0 then [1] else if t = 1 then [2] else []
    producerTvsOf := fun t => if t = 1 then [0] else if t = 2 then [1] else []
    computeInfoCasP := fun _ dst i => if dst = 1 then { info := [] } else i
    computeInfoPasC := fun _ _ i => i }

/-- A diamond `0 → 1, 0 → 2, 1 → 3, 2 → 3`; the hop from 0 into 1 loses the completeness of
every record, all other hops keep their information. -/
def diamond : Propagator RootDomainInfo :=
  { lt := RootDomainInfo.lt
    nonzero := RootDomainInfo.toBool
    consumerTvsOf := fun t => if t = 0 then [1, 2] else if t = 1 then [3] else
      if t = 2 then [3] else []
    producerTvsOf := fun t => if t = 1 then [0] else if t = 2 then [0] else
      if t = 3 then [1, 2] else []
    computeInfoCasP := fun _ dst i =>
      if dst = 1 then { info := i.info.map (fun r => { r with is_complete := false }) } else i
    computeInfoPasC := fun _ _ i => i }

/-- The diamond with two tensors added that the reference does not reach. -/
def diamondExtended : Propagator RootDomainInfo :=
  { diamond with
    consumerTvsOf := fun t => if t = 7 then [8] else diamond.consumerTvsOf t
    producerTvsOf := fun t => if t = 8 then [7] else diamond.producerTvsOf t
    computeInfoCasP := fun f dst i => if f = 7 then { info := [] } else
      diamond.computeInfoCasP f dst i }

/-- A fork `0 → 1, 0 → 2`: tensor 0 is the producer of tensors 1 and 2, and every hop keeps
its information, so the candidates for tensors 1 and 2 carry equal information. -/
def fork : Propagator RootDomainInfo :=
  { lt := RootDomainInfo.lt
    nonzero := RootDomainInfo.toBool
    consumerTvsOf := fun t => if t = 0 then [1, 2] else []
    producerTvsOf := fun t => if t = 1 then [0] else if t = 2 then [0] else []
    computeInfoCasP := fun _ _ i => i
    computeInfoPasC := fun _ _ i => i }

/-- The candidate the fork proposes for `dst` from tensor 0 with the information of the
reference. -/
def forkHop (dst : TensorView) : NextHopInfo RootDomainInfo :=
  { type := NextHopType.C_AS_P
    from_ := some 0
    to_ := dst
    info_from := some (mkInfo 2 2)
    info_to := mkInfo 2 2 }

/-- In the list `l` the candidate `a` stands before a candidate for the destination `d`, which
is nearer to the back, the end candidates are taken from. -/
def Behind (l : List (NextHopInfo I)) (a : NextHopInfo I) (d : TensorView) : Prop :=
  ∃ b, b.to_ = d ∧ List.Sublist [a, b] l

/-- The list `l` holds a candidate for the destination of `a` with more information than
`a`. -/
def Superseded (P : Propagator I) (l : List (NextHopInfo I)) (a : NextHopInfo I) : Prop :=
  ∃ z ∈ l, z.to_ = a.to_ ∧ hopLt P a z = true

/-- Whenever the candidate `a` has been popped, the destination `d` was visited before. -/
def VisitedBefore (popped : List (NextHopInfo I)) (a : NextHopInfo I) (d : TensorView) :
    Prop :=
  ∀ p1 p2, popped = p1 ++ a :: p2 → d ∈ p1.map (fun c => c.to_)

/-- What the loop keeps of a candidate `a` that stood before a candidate for `d`: while `a`
is not popped it still stands before a candidate for `d` or has been replaced by a candidate
with more information; otherwise `d` has been visited, and before `a` was popped. -/
def OrderInv (P : Propagator I) (s : RunState I) (a : NextHopInfo I) (d : TensorView) :
    Prop :=
  (a ∉ s.popped ∧ (Behind s.propagation a d ∨ Superseded P (s.propagation ++ s.popped) a)) ∨
    (d ∈ s.replayed ∧ VisitedBefore s.popped a d)

/-- What `computeInfoCasP` and `computeInfoPasC` read through code that is not among the
sources: `TensorView::hasRFactor`, `getMaybeRFactorDomain`, `getRootDomain`,
`DependencyCheck::isDependencyOf` on axes, and the maps
`PairwiseRootDomainMap(producer, consumer).mapProducerToConsumer` and `mapConsumerToProducer`
as the result of `find` (`none` is `end()`). -/
structure RootMaps where
  hasRFactor : TensorView → Bool
  getMaybeRFactorDomain : TensorView → List IterDomain
  getRootDomain : TensorView → List IterDomain
  isDependencyOf : IterDomain → IterDomain → Bool
  mapProducerToConsumer : TensorView → TensorView → IterDomain → Option IterDomain
  mapConsumerToProducer : TensorView → TensorView → IterDomain → Option IterDomain

/-- `mapRootToRFactor` (maxinfo_propagator.cpp:131-149); sets of axes are lists without
repetition. -/
def mapRootToRFactor (G : RootMaps) (tv : TensorView) (root_ids : List IterDomain) :
    List IterDomain :=
  (G.getMaybeRFactorDomain tv).foldl
    (fun mapped_rfactor_ids id =>
      if id ∈ root_ids then emplace mapped_rfactor_ids id
      else if root_ids.any (fun root_id => id == root_id || G.isDependencyOf root_id id) then
        emplace mapped_rfactor_ids id
      else mapped_rfactor_ids)
    []

/-- `mapRFactorToRoot` (maxinfo_propagator.cpp:153-170). -/
def mapRFactorToRoot (G : RootMaps) (tv : TensorView) (rfactor_ids : List IterDomain) :
    List IterDomain :=
  (G.getRootDomain tv).foldl
    (fun mapped_root_ids id =>
      if id ∈ rfactor_ids then emplace mapped_root_ids id
      else if rfactor_ids.any (fun rfactor_id => G.isDependencyOf id rfactor_id) then
        emplace mapped_root_ids id
      else mapped_root_ids)
    []

/-- The loop that maps the axes `ids` through `map` into the record `info`
(maxinfo_propagator.cpp:214-221 and 265-272): a mapped axis is inserted into `mapped_ids`, an
axis without image clears `is_complete`. -/
def mapThrough (map : IterDomain → Option IterDomain) (ids : List IterDomain)
    (info : RootIDInfo) : RootIDInfo :=
  ids.foldl
    (fun info id =>
      match map id with
      | some image => { info with mapped_ids := emplace info.mapped_ids image }
      | none => { info with is_complete := false })
    info

/-- The record `consumer_info` that `computeInfoCasP` computes for the record `info`
(maxinfo_propagator.cpp:202-221). -/
def consumerInfo (G : RootMaps) (producer consumer : TensorView) (info : RootIDInfo) :
    RootIDInfo :=
  let producer_mapped_rfactor_ids :=
    if G.hasRFactor producer && !info.is_rfactor then
      mapRootToRFactor G producer info.mapped_ids
    else info.mapped_ids
  mapThrough (G.mapProducerToConsumer producer consumer) producer_mapped_rfactor_ids
    { mapped_ids := [], is_complete := info.is_complete, is_rfactor := false }

/-- `MaxRootDomainInfoPropagator::computeInfoCasP` (maxinfo_propagator.cpp:183-229). -/
def computeInfoCasP (G : RootMaps) (from_ to_ : TensorView) (from_info : RootDomainInfo) :
    RootDomainInfo :=
  { info := from_info.info.foldl
      (fun result info =>
        let consumer_info := consumerInfo G from_ to_ info
        if !consumer_info.mapped_ids.isEmpty then result ++ [consumer_info] else result)
      [] }

/-- The record `producer_info` that `computeInfoPasC` computes for the record `info`
(maxinfo_propagator.cpp:253-272). -/
def producerInfo (G : RootMaps) (producer consumer : TensorView) (info : RootIDInfo) :
    RootIDInfo :=
  let consumer_mapped_root_ids :=
    if info.is_rfactor && G.hasRFactor consumer then
      mapRFactorToRoot G consumer info.mapped_ids
    else info.mapped_ids
  mapThrough (G.mapConsumerToProducer producer consumer) consumer_mapped_root_ids
    { mapped_ids := [], is_complete := info.is_complete, is_rfactor := true }

/-- `MaxRootDomainInfoPropagator::computeInfoPasC` (maxinfo_propagator.cpp:240-306); the
producer is `to_`, the consumer `from_`. -/
def computeInfoPasC (G : RootMaps) (from_ to_ : TensorView) (from_info : RootDomainInfo) :
    RootDomainInfo :=
  { info := from_info.info.foldl
      (fun result info =>
        let producer_info := producerInfo G to_ from_ info
        if !producer_info.mapped_ids.isEmpty then result ++ [producer_info] else result)
      [] }

end MaxInfo

namespace LowerLoops

/-- A `Val*` of the fusion IR, compared by identity. -/
abbrev Val := Nat

/-- A `TensorView*`; a tensor view is a value, so the handle is the one of the value. -/
abbrev TensorView := Nat

/-- An `Expr*`, compared by identity. -/
abbrev Expr := Nat

/-- Modelled from the spec: `ValType` is declared in type.h, which is not among the sources.
The kinds of value the sources test for are `ValType::TensorView` and `ValType::Scalar`
(lower_loops.cpp:302, 471, 824); `Other` stands for every other kind. -/
inductive ValType where
  | TensorView
  | Scalar
  | Other
  deriving DecidableEq, Repr

/-- Modelled from the spec: `MemoryType` is declared in type.h, which is not among the sources;
a tensor has "a memory kind (Local/Shared/Global)". -/
inductive MemoryType where
  | Local
  | Shared
  | Global
  deriving DecidableEq, Repr

/-- What the linearizer and the loop-nest generator read from the fusion IR through accessors
whose declarations are not among the sources (`Fusion::vals`, `Expr::inputs/outputs`,
`Val::getValType`, `ir_utils::isTVOp`, `TensorView::getMemoryType`, the compute-at members of
`TensorView`, `TensorView::definition`, `DependencyCheck::isDependencyOf`), and `hashOrder`,
which fixes the unspecified iteration order of the `std::unordered_map` keyed by tensor: the
map is iterated in ascending `hashOrder` of its keys, keys of equal `hashOrder` in insertion
order. -/
structure Fusion where
  vals : List Val
  inputs : Expr → List Val
  outputs : Expr → List Val
  getValType : Val → ValType
  isTVOp : Expr → Bool
  getMemoryType : TensorView → MemoryType
  hasComputeAt : TensorView → Bool
  getComputeAtView : TensorView → TensorView
  getRelativeComputeAtAxis : TensorView → Nat
  getThisComputeAtAxis : TensorView → Nat
  getComputeAtRelPos : TensorView → Int → Int
  definition : TensorView → Option Expr
  isDependencyOf : TensorView → TensorView → Bool
  hashOrder : TensorView → Nat

/-- `std::numeric_limits<unsigned>::max()`. -/
def UINT_MAX : Nat := 4294967295

/-- The conversion `(int)` of a 32-bit unsigned value. -/
def toInt32 (n : Int) : Int := (n + 2147483648) % 4294967296 - 2147483648

/-- The conversion of an `int` to `unsigned`. -/
def toUInt32 (n : Int) : Nat := (n % 4294967296).toNat

/-- `findOutputTensor` (lower_loops.cpp:464-475). The outer `none` is a failed
`TORCH_INTERNAL_ASSERT`, the inner `none` is `nullptr`. -/
def findOutputTensor (F : Fusion) (expr : Expr) : Option (Option TensorView) :=
  if (F.outputs expr).length ≤ 1 then
    match F.outputs expr with
    | [out] => if F.getValType out ≠ ValType.TensorView then some none else some (some out)
    | _ => some none
  else none

/-- The `while` loop of `findTargetTensor` (lower_loops.cpp:497-504) on `target` and `pos`;
`none` when the compute-at chain is longer than `fuel`. -/
def findTargetLoop (F : Fusion) : Nat → TensorView → Int → Option (TensorView × Int)
  | 0, target, pos => if F.hasComputeAt target then none else some (target, pos)
  | fuel + 1, target, pos =>
      if F.hasComputeAt target then
        if toInt32 (F.getThisComputeAtAxis target) < pos then some (target, pos)
        else
          findTargetLoop F fuel (F.getComputeAtView target)
            (if pos = 0 then 0 else F.getComputeAtRelPos target (pos - 1) + 1)
      else some (target, pos)

/-- `findTargetTensor` (lower_loops.cpp:477-507): the target (`nullptr` is `none`) and the
score of an expression. -/
def findTargetTensor (F : Fusion) (fuel : Nat) (expr : Expr) :
    Option (Option TensorView × Nat) :=
  if (F.outputs expr).length ≤ 1 then
    match findOutputTensor F expr with
    | none => none
    | some none => some (none, 0)
    | some (some out_tv) =>
        if !F.hasComputeAt out_tv then some (some out_tv, UINT_MAX)
        else
          match findTargetLoop F fuel (F.getComputeAtView out_tv)
              (toInt32 (F.getRelativeComputeAtAxis out_tv)) with
          | none => none
          | some (target, pos) => some (some target, toUInt32 pos)
  else none

/-- `ExprListT`. -/
abbrev ExprListT := List Expr

/-- `TargetGroupMapT`: the entries of the map in iteration order. -/
abbrev TargetGroupMapT := List (TensorView × ExprListT)

/-- `ExprTargetMapT`. -/
abbrev ExprTargetMapT := List (Expr × TensorView)

/-- `ExprScoreMapT`. -/
abbrev ExprScoreMapT := List (Expr × Nat)

/-- `map.find(key)`, the mapped value. -/
def lookup {β : Type} (m : List (Nat × β)) (key : Nat) : Option β :=
  (m.find? (fun p => p.1 == key)).map (fun p => p.2)

/-- `map.emplace(key, value)`: nothing happens when the key is present. -/
def emplaceKey {β : Type} (m : List (Nat × β)) (key : Nat) (value : β) : List (Nat × β) :=
  if (lookup m key).isSome then m else m ++ [(key, value)]

/-- Assignment through `map.at(key)` or `map[key]` of a present key. -/
def setKey {β : Type} (m : List (Nat × β)) (key : Nat) (value : β) : List (Nat × β) :=
  m.map (fun p => if p.1 == key then (p.1, value) else p)

/-- `map.erase(key)`; the order of the other entries is kept. -/
def eraseKey {β : Type} (m : List (Nat × β)) (key : Nat) : List (Nat × β) :=
  m.filter (fun p => !(p.1 == key))

/-- The local containers of `reorderExprsForComputeAt`. -/
structure ReorderState where
  reordered_exprs : ExprListT
  target_map : ExprTargetMapT
  computed_at_exprs : TargetGroupMapT
  scores : ExprScoreMapT

/-- `groupExpressions` (lower_loops.cpp:539-559). -/
def groupExpressions (F : Fusion) (fuel : Nat) (expr : Expr) (st : ReorderState) :
    Option ReorderState :=
  match findTargetTensor F fuel expr with
  | none => none
  | some (target_tensor, score) =>
      let scores := emplaceKey st.scores expr score
      match target_tensor with
      | none => some { st with reordered_exprs := st.reordered_exprs ++ [expr], scores := scores }
      | some target =>
          let target_map := emplaceKey st.target_map expr target
          let groups := emplaceKey st.computed_at_exprs target []
          let exprs := (lookup groups target).getD []
          some { st with
            target_map := target_map
            computed_at_exprs := setKey groups target (exprs ++ [expr])
            scores := scores }

/-- Step 1 of `reorderExprsForComputeAt`: the loop calling `groupExpressions`. -/
def groupAll (F : Fusion) (fuel : Nat) : List Expr → ReorderState → Option ReorderState
  | [], st => some st
  | expr :: rest, st =>
      match groupExpressions F fuel expr st with
      | none => none
      | some st1 => groupAll F fuel rest st1

/-- `sanityCheck` (lower_loops.cpp:516-534): whether the three assertions hold. -/
def sanityCheck (exprs : ExprListT) (st : ReorderState) : Bool :=
  decide (st.scores.length = exprs.length) &&
  decide (st.reordered_exprs.length + st.target_map.length = exprs.length) &&
  decide ((st.computed_at_exprs.map (fun p => p.2.length)).sum = st.target_map.length)

/-- `scores[expr]`: 0 when the key is absent. -/
def scoreOf (scores : ExprScoreMapT) (expr : Expr) : Nat := (lookup scores expr).getD 0

/-- `sortGroup` (lower_loops.cpp:562-569): `std::stable_sort` with the comparator
`scores[expr1] < scores[expr2]`; an expression is placed before the first one that is not
less than it, which keeps equal ones in their order. -/
def sortGroup (exprs : ExprListT) (scores : ExprScoreMapT) : ExprListT :=
  exprs.insertionSort (fun expr1 expr2 => ¬ (scoreOf scores expr2 < scoreOf scores expr1))

/-- `ir_utils::filterByType<TensorView>(expr->inputs())`. -/
def tvInputs (F : Fusion) (expr : Expr) : List TensorView :=
  (F.inputs expr).filter (fun v => F.getValType v == ValType.TensorView)

/-- `mapMissingInputsToAncestors` (lower_loops.cpp:573-589); `status` holds the keys of
`expr_status`; the result is what is appended to `ancestors`; `none` when the recursion is
deeper than `fuel` or `tv` has no definition. -/
def mapMissingInputsToAncestors (F : Fusion) (status : List Expr) :
    Nat → TensorView → Option (List TensorView)
  | 0, _ => none
  | fuel + 1, tv =>
      match F.definition tv with
      | none => none
      | some expr =>
          (tvInputs F expr).foldl
            (fun acc input =>
              match acc with
              | none => none
              | some ancestors =>
                  match F.definition input with
                  | none => some ancestors
                  | some input_definition =>
                      if input_definition ∈ status then some (ancestors ++ [input])
                      else
                        match mapMissingInputsToAncestors F status fuel input with
                        | none => none
                        | some more => some (ancestors ++ more))
            (some [])

/-- The entry `findExprTvInputs` (lower_loops.cpp:594-624) computes for `expr`. -/
def exprTvInputs (F : Fusion) (fuel : Nat) (status : List Expr) (expr : Expr) :
    Option (List TensorView) :=
  (tvInputs F expr).foldl
    (fun acc input =>
      match acc with
      | none => none
      | some tv_inputs =>
          match F.definition input with
          | none => some (tv_inputs ++ [input])
          | some input_definition =>
              if input_definition ∈ status then some (tv_inputs ++ [input])
              else
                match mapMissingInputsToAncestors F status fuel input with
                | none => none
                | some ancestors => some (ancestors ++ tv_inputs))
    (some [])

/-- The predicate `ready_to_visit` of `reorderSegmentBreadthFirst`; `status` holds the keys of
`expr_status`, `visited` those whose flag is set. -/
def readyToVisit (F : Fusion) (status visited : List Expr) (expr_inputs : List TensorView) :
    Bool :=
  expr_inputs.all (fun input =>
    match F.definition input with
    | none => true
    | some input_definition =>
        decide (input_definition ∈ status) && decide (input_definition ∈ visited))

/-- One pass of the `for` loop of `reorderSegmentBreadthFirst` over `[seg_begin, seg_end)`:
`ready` are the expressions moved in front of `seg_begin` so far, `waiting` those between
`seg_begin` and `it`. `std::iter_swap(seg_begin, it)` on a ready expression puts it at
`seg_begin` and the first waiting one where it stood. -/
def segmentPass (isReady : Expr → Bool) :
    List Expr → List Expr → List Expr → List Expr × List Expr
  | [], ready, waiting => (ready, waiting)
  | expr :: rest, ready, waiting =>
      if isReady expr then
        segmentPass isReady rest (ready ++ [expr])
          (match waiting with
           | [] => []
           | w :: ws => ws ++ [w])
      else segmentPass isReady rest ready (waiting ++ [expr])

/-- The `while (seg_begin != seg_end)` loop of `reorderSegmentBreadthFirst`: `placed` is the
part of the segment before `seg_begin`, `remaining` the part from it on; `none` when `fuel`
passes do not place everything or an input list cannot be computed. -/
def segmentLoop (F : Fusion) (inputsOf : Expr → List TensorView) (status : List Expr) :
    Nat → List Expr → List Expr → List Expr → Option (List Expr)
  | 0, placed, remaining, _ => if remaining.isEmpty then some placed else none
  | fuel + 1, placed, remaining, visited =>
      if remaining.isEmpty then some placed
      else
        let r := segmentPass (fun e => readyToVisit F status visited (inputsOf e))
          remaining [] []
        segmentLoop F inputsOf status fuel (placed ++ r.1) r.2 (visited ++ r.1)

/-- `reorderSegmentBreadthFirst` (lower_loops.cpp:628-669) on the segment `seg`. -/
def reorderSegmentBreadthFirst (F : Fusion) (fuel : Nat) (seg : List Expr) :
    Option (List Expr) :=
  match seg.mapM (fun e => (exprTvInputs F fuel seg e).map (fun i => (e, i))) with
  | none => none
  | some map_expr_to_tv_inputs =>
      segmentLoop F (fun e => (lookup map_expr_to_tv_inputs e).getD []) seg fuel [] seg []

/-- The `while` loop of `reorderGroupBreadthFirst` (lower_loops.cpp:679-697): `done` is the
list before `seg_begin`, `seg` the current segment, the third list starts at `seg_end`. -/
def groupLoop (F : Fusion) (fuel : Nat) (scores : ExprScoreMapT) :
    List Expr → List Expr → Nat → List Expr → Option (List Expr)
  | done, seg, _, [] =>
      match reorderSegmentBreadthFirst F fuel seg with
      | none => none
      | some s => some (done ++ s)
  | done, seg, seg_score, expr :: rest =>
      let cur_score := scoreOf scores expr
      if seg_score = cur_score then groupLoop F fuel scores done (seg ++ [expr]) seg_score rest
      else if seg_score < cur_score then
        match reorderSegmentBreadthFirst F fuel seg with
        | none => none
        | some s => groupLoop F fuel scores (done ++ s) [expr] cur_score rest
      else none

/-- `reorderGroupBreadthFirst` (lower_loops.cpp:675-699); a group is never empty where it is
called, an empty one is a failure. -/
def reorderGroupBreadthFirst (F : Fusion) (fuel : Nat) (exprs : ExprListT)
    (scores : ExprScoreMapT) : Option ExprListT :=
  match exprs with
  | [] => none
  | first :: _ => groupLoop F fuel scores [] [] (scoreOf scores first) exprs

/-- Step 2 of `reorderExprsForComputeAt`: every group is sorted and reordered. -/
def sortAll (F : Fusion) (fuel : Nat) (scores : ExprScoreMapT) :
    TargetGroupMapT → Option TargetGroupMapT
  | [] => some []
  | (target, group) :: rest =>
      match reorderGroupBreadthFirst F fuel (sortGroup group scores) scores with
      | none => none
      | some g =>
          match sortAll F fuel scores rest with
          | none => none
          | some rest1 => some ((target, g) :: rest1)

/-- `std::find(v.begin(), v.end(), x)` as an index, `none` for `v.end()`. -/
def findPos (v : List Expr) (x : Expr) : Option Nat :=
  if x ∈ v then some (v.indexOf x) else none

/-- `v.insert(pos, first, last)`. -/
def insertRange (v : List Expr) (pos : Nat) (range : List Expr) : List Expr :=
  v.take pos ++ range ++ v.drop pos

/-- The update loop of `mergeNonRootGroupsIntoRootGroups` (lower_loops.cpp:715-718): each
inserted expression must map to `target` and is mapped to `target_of_target`. -/
def retarget (target target_of_target : TensorView) :
    List Expr → ExprTargetMapT → Option ExprTargetMapT
  | [], target_map => some target_map
  | inserted_expr :: rest, target_map =>
      if lookup target_map inserted_expr = some target then
        retarget target target_of_target rest (setKey target_map inserted_expr target_of_target)
      else none

/-- The body of the loop of `mergeNonRootGroupsIntoRootGroups` for the entry with key
`target`. A group is never inserted into itself where the compute-at chain has no cycle; that
insertion has no defined behaviour and is a failure here. -/
def mergeOne (F : Fusion) (target : TensorView)
    (st : TargetGroupMapT × ExprTargetMapT) : Option (TargetGroupMapT × ExprTargetMapT) :=
  match lookup st.1 target with
  | none => none
  | some group =>
      if F.hasComputeAt target then
        match F.definition target with
        | none => none
        | some target_expr =>
            match lookup st.2 target_expr with
            | none => none
            | some target_of_target =>
                match lookup st.1 target_of_target with
                | none => none
                | some target_group =>
                    match findPos target_group target_expr with
                    | none => none
                    | some pos =>
                        if target_of_target = target then none
                        else
                          match retarget target target_of_target group st.2 with
                          | none => none
                          | some target_map =>
                              some (eraseKey
                                (setKey st.1 target_of_target
                                  (insertRange target_group pos group)) target,
                                target_map)
      else some st

/-- `mergeNonRootGroupsIntoRootGroups` (lower_loops.cpp:701-724); `keys` are the keys of the map
in iteration order when the loop starts. -/
def mergeNonRootGroupsIntoRootGroups (F : Fusion) :
    List TensorView → TargetGroupMapT × ExprTargetMapT →
      Option (TargetGroupMapT × ExprTargetMapT)
  | [], st => some st
  | target :: rest, st =>
      match mergeOne F target st with
      | none => none
      | some st1 => mergeNonRootGroupsIntoRootGroups F rest st1

/-- The `for` loop of `mergeGroupsIntoSortedList` (lower_loops.cpp:734-741) choosing
`cur_target`. -/
def pickTarget (F : Fusion) : List TensorView → TensorView → TensorView
  | [], cur_target => cur_target
  | target :: rest, cur_target =>
      if cur_target = target then pickTarget F rest cur_target
      else if F.isDependencyOf target cur_target then pickTarget F rest target
      else pickTarget F rest cur_target

/-- `mergeGroupsIntoSortedList` (lower_loops.cpp:727-749); every iteration erases one entry,
`fuel` bounds their number. -/
def mergeGroupsIntoSortedList (F : Fusion) :
    Nat → TargetGroupMapT → ExprListT → ExprListT
  | 0, _, reordered_exprs => reordered_exprs
  | fuel + 1, computed_at_exprs, reordered_exprs =>
      match computed_at_exprs with
      | [] => reordered_exprs
      | (first, _) :: _ =>
          let cur_target := pickTarget F (computed_at_exprs.map (fun p => p.1)) first
          mergeGroupsIntoSortedList F fuel (eraseKey computed_at_exprs cur_target)
            (reordered_exprs ++ (lookup computed_at_exprs cur_target).getD [])

/-- The entries of the `std::unordered_map` in the order in which it is iterated. -/
def iterationOrder (F : Fusion) (m : TargetGroupMapT) : TargetGroupMapT :=
  m.insertionSort (fun a b => F.hashOrder a.1 ≤ F.hashOrder b.1)

/-- The containers of `reorderExprsForComputeAt` as they are declared, all empty
(lower_loops.cpp:756-768). -/
def emptyState : ReorderState :=
  { reordered_exprs := [], target_map := [], computed_at_exprs := [], scores := [] }

/-- Steps 2 and 3 of `reorderExprsForComputeAt` with the checks that follow them
(lower_loops.cpp:784-803), on the containers `st` that step 1 has filled; `none` when an
assertion fails or a loop does not end within `fuel`. -/
def mergeSteps (F : Fusion) (fuel : Nat) (exprs : List Expr) (st : ReorderState) :
    Option ReorderState :=
  match sortAll F fuel st.scores (iterationOrder F st.computed_at_exprs) with
  | none => none
  | some sorted =>
      match mergeNonRootGroupsIntoRootGroups F (sorted.map (fun p => p.1))
          (sorted, st.target_map) with
      | none => none
      | some (groups, target_map) =>
          let st1 : ReorderState :=
            { st with computed_at_exprs := groups, target_map := target_map }
          if groups.any (fun p => F.hasComputeAt p.1) then none
          else if !sanityCheck exprs st1 then none
          else some st1

/-- The containers of `reorderExprsForComputeAt` after the second `sanityCheck`
(lower_loops.cpp:756-803), before the root groups are merged into the list. -/
def rootGroups (F : Fusion) (fuel : Nat) (exprs : List Expr) : Option ReorderState :=
  match groupAll F fuel exprs emptyState with
  | none => none
  | some st => if !sanityCheck exprs st then none else mergeSteps F fuel exprs st

/-- `reorderExprsForComputeAt` (lower_loops.cpp:755-811). -/
def reorderExprsForComputeAt (F : Fusion) (fuel : Nat) (exprs : List Expr) :
    Option (List Expr) :=
  match groupAll F fuel exprs emptyState with
  | none => none
  | some st =>
      if !sanityCheck exprs st then none
      else if st.computed_at_exprs.length = 0 then some exprs
      else
        match mergeSteps F fuel exprs st with
        | none => none
        | some st1 =>
            let reordered_exprs :=
              mergeGroupsIntoSortedList F st1.computed_at_exprs.length st1.computed_at_exprs
                st1.reordered_exprs
            if exprs.length = reordered_exprs.length then some reordered_exprs else none

/-- The expressions of all groups, group after group. -/
def flat : TargetGroupMapT → List Expr
  | [] => []
  | p :: rest => p.2 ++ flat rest

/-- The keys of a map in iteration order. -/
def keys {β : Type} (m : List (Nat × β)) : List Nat := m.map (fun p => p.1)

/-- What holds of the containers while the expressions are grouped and merged: the keys of the
groups are distinct, `target_map` and `scores` hold what `findTargetTensor` returns, an
expression of a group maps to the key of the group, and the expressions outside the groups
have no target. -/
structure GroupInv (F : Fusion) (fuel : Nat) (st : ReorderState) : Prop where
  keys_nodup : (keys st.computed_at_exprs).Nodup
  score_sound : ∀ e s, lookup st.scores e = some s →
    ∃ t, findTargetTensor F fuel e = some (t, s)
  scored : ∀ e, e ∈ st.reordered_exprs ∨ e ∈ flat st.computed_at_exprs →
    (lookup st.scores e).isSome = true
  member : ∀ p ∈ st.computed_at_exprs, ∀ e ∈ p.2, lookup st.target_map e = some p.1
  plain : ∀ e ∈ st.reordered_exprs, ∃ s, findTargetTensor F fuel e = some (none, s)

/-- While the expressions are grouped, `target_map` holds what `findTargetTensor` returns. -/
def TargetSound (F : Fusion) (fuel : Nat) (st : ReorderState) : Prop :=
  ∀ e t, lookup st.target_map e = some t → ∃ s, findTargetTensor F fuel e = some (some t, s)

/-- A list of expressions is in ascending order of score. -/
def ScoreSorted (scores : ExprScoreMapT) (l : List Expr) : Prop :=
  l.Pairwise (fun a b => scoreOf scores a ≤ scoreOf scores b)

/-- What holds of the groups and of `target_map` while groups are merged: the keys are
distinct and every expression of a group maps to the key of its group. -/
structure MergeInv (st : TargetGroupMapT × ExprTargetMapT) : Prop where
  keys_nodup : (keys st.1).Nodup
  member : ∀ p ∈ st.1, ∀ e ∈ p.2, lookup st.2 e = some p.1

/-- Scenario C: `A` (expression 0) defines tensor 10 without compute-at; `B` (expression 1)
defines tensor 11, computed at tensor 10 at position 2; `C` (expression 2) defines tensor 12,
computed at tensor 11 at position 1, beyond the compute-at position 0 that tensor 11 has in
its own axes. -/
def scenarioC : Fusion :=
  { vals := [10, 11, 12, 13]
    inputs := fun e => if e = 0 then [11] else if e = 1 then [12] else [13]
    outputs := fun e => if e = 0 then [10] else if e = 1 then [11] else [12]
    getValType := fun _ => ValType.TensorView
    isTVOp := fun _ => true
    getMemoryType := fun _ => MemoryType.Local
    hasComputeAt := fun t => decide (t = 11 ∨ t = 12)
    getComputeAtView := fun t => if t = 12 then 11 else 10
    getRelativeComputeAtAxis := fun t => if t = 11 then 2 else if t = 12 then 1 else 0
    getThisComputeAtAxis := fun t => if t = 12 then 1 else 0
    getComputeAtRelPos := fun _ p => p
    definition := fun t => if t = 10 then some 0 else if t = 11 then some 1 else
      if t = 12 then some 2 else none
    isDependencyOf := fun _ _ => false
    hashOrder := fun t => t }

/-- The statements `LoopNestGenerator::handle` pushes into the innermost open scope that matter
for the barriers: `kir::Sync`, the `kir::Allocate` of a scalar output, and the lowered
expression. -/
inductive Stmt where
  | Sync
  | Allocate (out : Val)
  | Compute (expr : Expr)
  deriving DecidableEq, Repr

/-- The members of `LoopNestGenerator` that the barrier logic reads and writes: `smem_`, and
`pushed`, the statements pushed so far in the order of the pushes (every push goes to the back
of the innermost open loop or of `lowered_exprs_`, so this is their order in the program). -/
structure GenState where
  smem_ : List (Val × Bool)
  pushed : List Stmt
  deriving DecidableEq, Repr

/-- `LoopNestGenerator::cleanSharedMemory` (lower_loops.cpp:842-846). -/
def cleanSharedMemory (smem_ : List (Val × Bool)) : List (Val × Bool) :=
  smem_.map (fun item => (item.1, false))

/-- `LoopNestGenerator::modifySharedMemory` (lower_loops.cpp:848-853). -/
def modifySharedMemory (smem_ : List (Val × Bool)) (key : Val) : List (Val × Bool) :=
  match lookup smem_ key with
  | some _ => setKey smem_ key true
  | none => smem_

/-- `LoopNestGenerator::isModifiedSharedMemory` (lower_loops.cpp:855-861). -/
def isModifiedSharedMemory (smem_ : List (Val × Bool)) (key : Val) : Bool :=
  match lookup smem_ key with
  | some flag => flag
  | none => false

/-- `LoopNestGenerator::handle` (lower_loops.cpp:294-460) as far as `smem_` and the pushed
barriers and expressions go. The loops opened and closed, the allocation of the output and
the initialization of a reduction (lower_loops.cpp:332-437, 445-459) neither read nor write
`smem_`, and what they place lies between the barrier and the expression; they are left out.
`none` is a failed assertion or a tensor operation without output. -/
def handle (F : Fusion) (expr : Expr) (st : GenState) : Option GenState :=
  if !F.isTVOp expr then
    if (F.outputs expr).all (fun out => F.getValType out == ValType.Scalar) then
      some { st with
        pushed := st.pushed ++ (F.outputs expr).map Stmt.Allocate ++ [Stmt.Compute expr] }
    else none
  else
    let shared_memory_sync := (F.inputs expr).any (fun i => isModifiedSharedMemory st.smem_ i)
    let st1 : GenState :=
      if shared_memory_sync then
        { smem_ := cleanSharedMemory st.smem_, pushed := st.pushed ++ [Stmt.Sync] }
      else st
    match (F.outputs expr).head? with
    | none => none
    | some out =>
        some { smem_ := modifySharedMemory st1.smem_ out
               pushed := st1.pushed ++ [Stmt.Compute expr] }

/-- The loop of `LoopNestGenerator::generate` calling `handle` (lower_loops.cpp:832-834). -/
def handleAll (F : Fusion) : List Expr → GenState → Option GenState
  | [], st => some st
  | expr :: rest, st =>
      match handle F expr st with
      | none => none
      | some st1 => handleAll F rest st1

/-- The loop of `LoopNestGenerator::generate` filling `smem_` (lower_loops.cpp:823-829). -/
def initSmem (F : Fusion) : List Val → List (Val × Bool) → List (Val × Bool)
  | [], smem_ => smem_
  | v :: rest, smem_ =>
      if F.getValType v = ValType.TensorView ∧ F.getMemoryType v = MemoryType.Shared then
        initSmem F rest (emplaceKey smem_ v false)
      else initSmem F rest smem_

/-- The state of the generator when the first expression is handled. -/
def initialGen (F : Fusion) : GenState :=
  { smem_ := initSmem F F.vals [], pushed := [] }

/-- `LoopNestGenerator::generate` (lower_loops.cpp:816-840), without the final insertion of
the dynamic shared-memory allocations. -/
def generate (F : Fusion) (fuel : Nat) (exprs : List Expr) : Option GenState :=
  match reorderExprsForComputeAt F fuel exprs with
  | none => none
  | some reordered => handleAll F reordered (initialGen F)

/-- The tensor `t` is a key of `smem_`: a tensor view of the fusion in shared memory. -/
def isSharedTensor (F : Fusion) (t : Val) : Bool :=
  decide (t ∈ F.vals) && decide (F.getValType t = ValType.TensorView) &&
    decide (F.getMemoryType t = MemoryType.Shared)

/-- The statements pushed after the most recent barrier. -/
def sinceBarrier : List Stmt → List Stmt
  | [] => []
  | s :: rest =>
      if Stmt.Sync ∈ rest then sinceBarrier rest
      else if s = Stmt.Sync then rest else s :: rest

/-- The statement is the expression of a tensor operation whose output is `t`. -/
def writes (F : Fusion) (t : Val) : Stmt → Bool
  | Stmt.Compute expr => F.isTVOp expr && decide ((F.outputs expr).head? = some t)
  | _ => false

/-- The tensor `t` is in shared memory and an operation handled after the most recent barrier
wrote it. -/
def writePending (F : Fusion) (pushed : List Stmt) (t : Val) : Bool :=
  isSharedTensor F t && (sinceBarrier pushed).any (writes F t)

/-- What holds of `smem_` between two calls of `handle`: its keys are the shared-memory tensor
views of the fusion, and the flag of a tensor is set just when an operation handled after
the most recent barrier wrote it. -/
structure SmemInv (F : Fusion) (st : GenState) : Prop where
  keys_shared : ∀ t, (lookup st.smem_ t).isSome = isSharedTensor F t
  flag_pending : ∀ t, isModifiedSharedMemory st.smem_ t = writePending F st.pushed t

/-- One of the inputs of `expr` is a shared-memory tensor written after the most recent
barrier. -/
def needsBarrier (F : Fusion) (pushed : List Stmt) (expr : Expr) : Bool :=
  (F.inputs expr).any (fun i => writePending F pushed i)

/-- Scenario D: `op1` (expression 0) writes the shared-memory tensor 10, `op2` (expression 1)
and `op3` (expression 2) read it and write the local tensors 11 and 12; nothing is computed
at another tensor. -/
def scenarioD : Fusion :=
  { vals := [9, 10, 11, 12]
    inputs := fun e => if e = 0 then [9] else [10]
    outputs := fun e => if e = 0 then [10] else if e = 1 then [11] else [12]
    getValType := fun _ => ValType.TensorView
    isTVOp := fun _ => true
    getMemoryType := fun t => if t = 10 then MemoryType.Shared else MemoryType.Local
    hasComputeAt := fun _ => false
    getComputeAtView := fun t => t
    getRelativeComputeAtAxis := fun _ => 0
    getThisComputeAtAxis := fun _ => 0
    getComputeAtRelPos := fun _ p => p
    definition := fun t => if t = 10 then some 0 else if t = 11 then some 1 else
      if t = 12 then some 2 else none
    isDependencyOf := fun a b => decide (a = 10 ∧ (b = 11 ∨ b = 12))
    hashOrder := fun t => t }

/-- The state of the generator after the three operations of scenario D. -/
def scenarioDFinal : GenState :=
  { smem_ := [(10, false)]
    pushed := [Stmt.Compute 0, Stmt.Sync, Stmt.Compute 1, Stmt.Compute 2] }

/-- Scenario M: expression 0 has the two tensor outputs 10 and 11, expression 1 defines
tensor 12 from tensor 10; nothing is computed at another tensor. -/
def scenarioM : Fusion :=
  { vals := [9, 10, 11, 12]
    inputs := fun e => if e = 0 then [9] else [10]
    outputs := fun e => if e = 0 then [10, 11] else [12]
    getValType := fun _ => ValType.TensorView
    isTVOp := fun _ => true
    getMemoryType := fun _ => MemoryType.Local
    hasComputeAt := fun _ => false
    getComputeAtView := fun t => t
    getRelativeComputeAtAxis := fun _ => 0
    getThisComputeAtAxis := fun _ => 0
    getComputeAtRelPos := fun _ p => p
    definition := fun t => if t = 10 ∨ t = 11 then some 0 else if t = 12 then some 1 else none
    isDependencyOf := fun a b => decide ((a = 10 ∨ a = 11) ∧ b = 12)
    hashOrder := fun t => t }

/-- Scenario P: expression 0 is a tensor operation that defines tensor 10 from the input
tensor 9, expression 1 a scalar operation that defines the scalar 50 from the scalar 49;
no tensor has a compute-at. -/
def scenarioP : Fusion :=
  { vals := [9, 10, 49, 50]
    inputs := fun e => if e = 0 then [9] else [49]
    outputs := fun e => if e = 0 then [10] else [50]
    getValType := fun v => if v = 49 ∨ v = 50 then ValType.Scalar else ValType.TensorView
    isTVOp := fun e => decide (e = 0)
    getMemoryType := fun _ => MemoryType.Local
    hasComputeAt := fun _ => false
    getComputeAtView := fun t => t
    getRelativeComputeAtAxis := fun _ => 0
    getThisComputeAtAxis := fun _ => 0
    getComputeAtRelPos := fun _ p => p
    definition := fun t => if t = 10 then some 0 else if t = 50 then some 1 else none
    isDependencyOf := fun _ _ => false
    hashOrder := fun t => t }

/-- The operations of the segment `seg` that define an input of `expr`, the inputs being those
`findExprTvInputs` computes for `expr` (an input defined outside the segment is replaced by
its ancestors that are defined inside). -/
def segmentDefiners (F : Fusion) (fuel : Nat) (seg : List Expr) (expr : Expr) : List Expr :=
  ((exprTvInputs F fuel seg expr).getD []).filterMap (fun input =>
    match F.definition input with
    | some input_definition => if input_definition ∈ seg then some input_definition else none
    | none => none)

/-- A breadth-first level on the segment `seg`: an operation without a definer in the segment
has level 0, another one has one more than the greatest level of its definers. -/
def IsLevel (F : Fusion) (fuel : Nat) (seg : List Expr) (lvl : Expr → Nat) : Prop :=
  ∀ e ∈ seg,
    (segmentDefiners F fuel seg e = [] → lvl e = 0) ∧
    (∀ d ∈ segmentDefiners F fuel seg e, lvl d < lvl e) ∧
    (segmentDefiners F fuel seg e ≠ [] → ∃ d ∈ segmentDefiners F fuel seg e, lvl e = lvl d + 1)

/-- The ways in which `reorderGroupBreadthFirst` does not return a reordered group. -/
inductive GroupFailure where
  /-- `scores.at(*seg_begin)` is read of an empty group. -/
  | emptyGroup
  /-- A call of `reorderSegmentBreadthFirst` does not return. -/
  | segment
  /-- The assertion "Unexpected expression" fails (lower_loops.cpp:691-695). -/
  | unexpectedExpression
  deriving DecidableEq, Repr

/-- The `while` loop of `reorderGroupBreadthFirst` (lower_loops.cpp:679-697) as `groupLoop`,
telling the failures apart. -/
def groupLoopChecked (F : Fusion) (fuel : Nat) (scores : ExprScoreMapT) :
    List Expr → List Expr → Nat → List Expr → Except GroupFailure (List Expr)
  | done, seg, _, [] =>
      match reorderSegmentBreadthFirst F fuel seg with
      | none => Except.error GroupFailure.segment
      | some s => Except.ok (done ++ s)
  | done, seg, seg_score, expr :: rest =>
      let cur_score := scoreOf scores expr
      if seg_score = cur_score then
        groupLoopChecked F fuel scores done (seg ++ [expr]) seg_score rest
      else if seg_score < cur_score then
        match reorderSegmentBreadthFirst F fuel seg with
        | none => Except.error GroupFailure.segment
        | some s => groupLoopChecked F fuel scores (done ++ s) [expr] cur_score rest
      else Except.error GroupFailure.unexpectedExpression

/-- `reorderGroupBreadthFirst` (lower_loops.cpp:675-699), telling the failures apart. -/
def reorderGroupBreadthFirstChecked (F : Fusion) (fuel : Nat) (exprs : ExprListT)
    (scores : ExprScoreMapT) : Except GroupFailure ExprListT :=
  match exprs with
  | [] => Except.error GroupFailure.emptyGroup
  | first :: _ => groupLoopChecked F fuel scores [] [] (scoreOf scores first) exprs

/-- In the list `l`, an expression that defines a tensor input of an expression of the same
score stands before it. -/
def DefinersFirst (F : Fusion) (scores : ExprScoreMapT) (l : List Expr) : Prop :=
  ∀ d e x, d ∈ l → e ∈ l → scoreOf scores d = scoreOf scores e → x ∈ tvInputs F e →
    F.definition x = some d → [d, e].Sublist l

end LowerLoops

namespace LoopNest

open LowerLoops

/-- An `IterDomain*`; `GpuLower::lowerValue` gives every value of the fusion IR one value of
the kernel IR, so a kernel `IterDomain` has the handle of the one it lowers. -/
abbrev IterDomain := Nat

/-- Modelled from the spec: `ParallelType` is declared in type.h, which is not among the
sources; an axis has "a parallel binding (Serial/Unroll/Vectorize/Unswitch/ThreadDim/
BlockDim)". -/
inductive ParallelType where
  | Serial
  | Unroll
  | Vectorize
  | Unswitch
  | ThreadDim
  | BlockDim
  deriving DecidableEq, Repr

/-- Modelled from the spec: `IterDomain::isThreadDim` is declared in a header that is not
among the sources; the axis is bound to a thread dimension. -/
def ParallelType.isThreadDim (pt : ParallelType) : Bool := pt == ParallelType.ThreadDim

/-- Modelled from the spec: `IterDomain::isBlockDim` is declared in a header that is not
among the sources; the axis is bound to a block (grid) dimension. -/
def ParallelType.isBlockDim (pt : ParallelType) : Bool := pt == ParallelType.BlockDim

/-- Modelled from the spec: `IterDomain::isThread` is declared in a header that is not among
the sources; the axis is bound to a thread or to a block dimension. -/
def ParallelType.isThread (pt : ParallelType) : Bool := pt.isThreadDim || pt.isBlockDim

/-- A `kir::Val*` as far as the generator builds it: a `kir::Int` with its optional value, a
`kir::NamedScalar` named after a parallel type, the lowering of a value of the fusion, and the
product `IrBuilder::mulExpr` returns. -/
inductive KirVal where
  | Int (value : Option Int)
  | NamedScalar (name : ParallelType)
  | Lowered (v : Val)
  | Mul (lhs rhs : KirVal)
  deriving DecidableEq, Repr

/-- A `kir::Expr*` placed in a scope. `id` is the identity of the node (nodes are compared by
address); a `kir::ForLoop` is held by its identity, its fields are in the table of loops of
the generator. -/
inductive KirExpr where
  | Allocate (id : Nat) (buffer : Val) (memory_type : MemoryType) (size : KirVal)
  | Sync (id : Nat)
  | UnaryOpSet (id : Nat) (out : Val) (in_ : Val)
  | Lowered (id : Nat) (expr : Expr)
  | ForLoop (id : Nat)
  deriving DecidableEq, Repr

/-- The fields of a `kir::ForLoop` the generator sets and reads: the index, the iteration
domain, the parent scope given to the constructor and the body. -/
structure ForLoop where
  index : KirVal
  iter_domain : IterDomain
  parent_scope : Option Nat
  body : List KirExpr
  deriving DecidableEq, Repr

/-- What the loop-nest generator reads of tensors and axes through accessors whose
declarations are not among the sources (`TensorView::nDims/axis/getComputeAtAxis/
hasReduction`, `IterDomain::isReduction/isBroadcast/getParallelType/rawExtent`,
`Fusion::hasInput/hasOutput`, `ReductionOp::init`), the helper `loop_utils::getAllocPoint`,
which is given the open loops as pairs of a loop and its iteration domain and returns the
allocation loop (`none` is `nullptr`) and the allocation position, and
`kir::ExpressionEvaluator::isConst`. -/
structure Domains where
  nDims : TensorView → Nat
  axis : TensorView → Nat → IterDomain
  getComputeAtAxis : TensorView → Nat → IterDomain × TensorView
  isReduction : IterDomain → Bool
  isBroadcast : IterDomain → Bool
  getParallelType : IterDomain → ParallelType
  rawExtent : IterDomain → Val
  hasReduction : TensorView → Bool
  hasInput : TensorView → Bool
  hasOutput : TensorView → Bool
  init : Expr → Val
  getAllocPoint : TensorView → List (Nat × IterDomain) → Option Nat × Nat
  isConst : KirVal → Bool

/-- The members of `LoopNestGenerator` (lower_loops.h is not among the sources, the members are
those lower_loops.cpp uses), with `loops`, the `kir::ForLoop` nodes created so far, and
`created`, the number of nodes created so far, which is the identity of the next one. -/
structure Gen where
  lowered_exprs_ : List KirExpr
  for_loops_ : List Nat
  for_loop_allocations_ : List (Nat × Nat)
  lowered_exprs_allocations_ : Nat
  dynamic_smem_ : List KirExpr
  smem_ : List (Val × Bool)
  loops : List (Nat × ForLoop)
  created : Nat
  deriving DecidableEq, Repr

/-- `Scope::push_back` on the body of the loop `l` (kernel_ir.h:371); `none` when there is no
such loop. -/
def bodyPushBack (st : Gen) (l : Nat) (e : KirExpr) : Option Gen :=
  match lookup st.loops l with
  | none => none
  | some fl => some { st with loops := setKey st.loops l { fl with body := fl.body ++ [e] } }

/-- `std::vector::insert(begin + pos, e)`. -/
def insertAt (v : List KirExpr) (pos : Nat) (e : KirExpr) : List KirExpr :=
  v.take pos ++ e :: v.drop pos

/-- `Scope::insert(size_t pos, Expr* expr)` on the body of the loop `l` ("Insert expr before
expression at pos", kernel_ir.h:362). -/
def bodyInsert (st : Gen) (l : Nat) (pos : Nat) (e : KirExpr) : Option Gen :=
  match lookup st.loops l with
  | none => none
  | some fl => some { st with loops := setKey st.loops l { fl with body := insertAt fl.body pos e } }

/-- `Scope::insert_after(Expr* ref, Expr* expr)` on the body of the loop `l` ("Insert expr
after ref", kernel_ir.h:368; the definition is not among the sources); `none` when `ref` is
not in the body. -/
def bodyInsertAfter (st : Gen) (l : Nat) (ref e : KirExpr) : Option Gen :=
  match lookup st.loops l with
  | none => none
  | some fl =>
      if ref ∈ fl.body then
        some { st with
          loops := setKey st.loops l
            { fl with body := insertAt fl.body (fl.body.indexOf ref + 1) e } }
      else none

/-- `for_loop_allocations_[l]`, which is 0 for a loop without entry. -/
def allocationsOf (st : Gen) (l : Nat) : Nat := (lookup st.for_loop_allocations_ l).getD 0

/-- `++for_loop_allocations_[l]`. -/
def incrAllocations (st : Gen) (l : Nat) : Gen :=
  { st with
    for_loop_allocations_ :=
      setKey (emplaceKey st.for_loop_allocations_ l 0) l (allocationsOf st l + 1) }

/-- The index `openForHelper` and `initReduction` give a new loop over `id`: the named scalar
of the parallel type for a thread or block dimension, a new `kir::Int` without value
otherwise. -/
def loopIndex (D : Domains) (id : IterDomain) : KirVal :=
  if (D.getParallelType id).isThread then KirVal.NamedScalar (D.getParallelType id)
  else KirVal.Int none

/-- `openForHelper` (lower_loops.cpp:123-143): the new loop and the state. -/
def openForHelper (D : Domains) (st : Gen) (scope : Option Nat) (id : IterDomain) :
    Option (Nat × Gen) :=
  let new_scope := st.created
  let st1 : Gen :=
    { st with
      loops := st.loops ++
        [(new_scope, { index := loopIndex D id, iter_domain := id, parent_scope := scope,
                       body := [] })]
      created := st.created + 1 }
  match scope with
  | none => some (new_scope, st1)
  | some s =>
      match bodyPushBack st1 s (KirExpr.ForLoop new_scope) with
      | none => none
      | some st2 => some (new_scope, st2)

/-- `LoopNestGenerator::openFor` (lower_loops.cpp:147-156). -/
def openFor (D : Domains) (st : Gen) (iter_domain : IterDomain) : Option Gen :=
  match st.for_loops_.getLast? with
  | some back =>
      match openForHelper D st (some back) iter_domain with
      | none => none
      | some (new_scope, st1) =>
          some { st1 with
            for_loop_allocations_ := emplaceKey st1.for_loop_allocations_ new_scope 0
            for_loops_ := st1.for_loops_ ++ [new_scope] }
  | none =>
      match openForHelper D st none iter_domain with
      | none => none
      | some (new_scope, st1) =>
          some { st1 with
            for_loops_ := st1.for_loops_ ++ [new_scope]
            lowered_exprs_ := st1.lowered_exprs_ ++ [KirExpr.ForLoop new_scope] }

/-- `LoopNestGenerator::closeFor` (lower_loops.cpp:158-161); `none` is the failed
assertion. -/
def closeFor (st : Gen) : Option Gen :=
  if st.for_loops_.isEmpty then none
  else some { st with for_loops_ := st.for_loops_.dropLast }

/-- `LoopNestGenerator::pushBack` (lower_loops.cpp:163-169). -/
def pushBack (st : Gen) (expr : KirExpr) : Option Gen :=
  match st.for_loops_.getLast? with
  | none => some { st with lowered_exprs_ := st.lowered_exprs_ ++ [expr] }
  | some back => bodyPushBack st back expr

/-- The open loops with their iteration domains, outermost first. -/
def openLoops (st : Gen) : List (Nat × IterDomain) :=
  st.for_loops_.filterMap (fun l => (lookup st.loops l).map (fun fl => (l, fl.iter_domain)))

/-- Whether the loop of `pushAlloc` over the axes (lower_loops.cpp:42-80) takes the extent of
axis `i` into `alloc_dims`. -/
def keepsAxis (F : Fusion) (D : Domains) (tv : TensorView) (alloc_pos : Nat) (i : Nat) :
    Bool :=
  let compute_at_dim := (D.getComputeAtAxis tv i).1
  let local_dim := D.axis tv i
  let memory_type := F.getMemoryType tv
  if D.isReduction local_dim || D.isBroadcast local_dim then false
  else if i < alloc_pos then
    if !((memory_type == MemoryType.Shared &&
          (D.getParallelType compute_at_dim).isThreadDim) ||
         (memory_type == MemoryType.Global &&
          (D.getParallelType compute_at_dim).isThread)) then false
    else true
  else
    if (memory_type == MemoryType.Shared && (D.getParallelType compute_at_dim).isBlockDim) ||
       (memory_type == MemoryType.Local && (D.getParallelType compute_at_dim).isThread) then
      false
    else true

/-- The axes of `tv` whose extent `pushAlloc` takes into `alloc_dims`, in order. -/
def allocAxes (F : Fusion) (D : Domains) (tv : TensorView) (alloc_pos : Nat) : List Nat :=
  (List.range (D.nDims tv)).filter (keepsAxis F D tv alloc_pos)

/-- The vector `alloc_dims` of `pushAlloc`. -/
def allocDims (F : Fusion) (D : Domains) (tv : TensorView) (alloc_pos : Nat) : List Val :=
  (allocAxes F D tv alloc_pos).map (fun i => D.rawExtent (D.getComputeAtAxis tv i).1)

/-- The size `pushAlloc` computes from `alloc_dims` (lower_loops.cpp:84-92). -/
def allocSize (alloc_dims : List Val) : KirVal :=
  match alloc_dims with
  | [] => KirVal.Int (some 1)
  | first :: rest =>
      rest.foldl (fun size d => KirVal.Mul size (KirVal.Lowered d)) (KirVal.Lowered first)

/-- `LoopNestGenerator::pushAlloc` (lower_loops.cpp:28-118): the returned allocation (`none`
is `nullptr`) and the state; the outer `none` is a failed assertion or a loop that does not
exist. -/
def pushAlloc (F : Fusion) (D : Domains) (st : Gen) (tv : TensorView) :
    Option (Option KirExpr × Gen) :=
  if D.hasInput tv || D.hasOutput tv then none
  else
    let alloc_point := D.getAllocPoint tv (openLoops st)
    let alloc_loop := alloc_point.1
    let alloc_pos := alloc_point.2
    let size := allocSize (allocDims F D tv alloc_pos)
    let alloc := KirExpr.Allocate st.created tv (F.getMemoryType tv) size
    let st1 : Gen := { st with created := st.created + 1 }
    if F.getMemoryType tv = MemoryType.Shared ∧ D.isConst size = false then
      some (none, { st1 with dynamic_smem_ := alloc :: st1.dynamic_smem_ })
    else
      match alloc_loop with
      | some l =>
          match bodyInsert st1 l (allocationsOf st1 l) alloc with
          | none => none
          | some st2 => some (some alloc, incrAllocations st2 l)
      | none =>
          some (some alloc,
            { st1 with
              lowered_exprs_ := insertAt st1.lowered_exprs_ st1.lowered_exprs_allocations_ alloc
              lowered_exprs_allocations_ := st1.lowered_exprs_allocations_ + 1 })

/-- The values multiplied together in a size, from left to right. -/
def factors : KirVal → List Val
  | KirVal.Mul lhs rhs => factors lhs ++ factors rhs
  | KirVal.Lowered v => [v]
  | KirVal.Int _ => []
  | KirVal.NamedScalar _ => []

/-- The identity of a node. -/
def KirExpr.id : KirExpr → Nat
  | KirExpr.Allocate id _ _ _ => id
  | KirExpr.Sync id => id
  | KirExpr.UnaryOpSet id _ _ => id
  | KirExpr.Lowered id _ => id
  | KirExpr.ForLoop id => id

/-- The vector `ids` of `initReduction` (lower_loops.cpp:200-207): the compute-at axes of the
axes of `tv` from `alloc_pos` on that are not reductions. -/
def initIds (D : Domains) (tv : TensorView) (alloc_pos : Nat) : List IterDomain :=
  (((List.range (D.nDims tv)).drop alloc_pos).filter
    (fun i => !D.isReduction (D.axis tv i))).map (fun i => (D.getComputeAtAxis tv i).1)

/-- The `kir::ForLoop` that `initReduction` creates over `id` inside `inner_fl`
(lower_loops.cpp:225-237). -/
def newLoop (D : Domains) (id : IterDomain) (inner_fl : Option Nat) : ForLoop :=
  { index := loopIndex D id, iter_domain := id, parent_scope := inner_fl, body := [] }

/-- The loop of `initReduction` over `ids` (lower_loops.cpp:222-251) on `init_loop_nest`,
`inner_fl` and the state; `none` when `inner_fl` is `nullptr` where it is dereferenced. -/
def initLoop (D : Domains) :
    List IterDomain → Option KirExpr → Option Nat → Gen → Option (Option KirExpr × Option Nat × Gen)
  | [], init_loop_nest, inner_fl, st => some (init_loop_nest, inner_fl, st)
  | id :: rest, init_loop_nest, inner_fl, st =>
      let new_fl := st.created
      let st1 : Gen :=
        { st with
          loops := st.loops ++ [(new_fl, newLoop D id inner_fl)]
          created := st.created + 1
          for_loop_allocations_ := emplaceKey st.for_loop_allocations_ new_fl 0 }
      match init_loop_nest with
      | none => initLoop D rest (some (KirExpr.ForLoop new_fl)) (some new_fl) st1
      | some nest =>
          match inner_fl with
          | none => none
          | some fl =>
              match bodyPushBack st1 fl (KirExpr.ForLoop new_fl) with
              | none => none
              | some st2 => initLoop D rest (some nest) (some new_fl) st2

/-- The part of `initReduction` that builds the initialization (lower_loops.cpp:192-264) for
the allocation position `alloc_pos`: `init_loop_nest` and the state. `none` when
`for_loops_[alloc_pos - 1]` does not exist. -/
def initNest (D : Domains) (st : Gen) (tv : TensorView) (init_val : Val) (alloc_pos : Nat) :
    Option (KirExpr × Gen) :=
  let ids := initIds D tv alloc_pos
  match (if 1 ≤ alloc_pos then (st.for_loops_.get? (alloc_pos - 1)).map some else some none) with
  | none => none
  | some inner_fl0 =>
      match initLoop D ids none inner_fl0 st with
      | none => none
      | some (init_loop_nest, inner_fl, st1) =>
          let init_stmt := KirExpr.UnaryOpSet st1.created tv init_val
          let st2 : Gen := { st1 with created := st1.created + 1 }
          match init_loop_nest with
          | none => some (init_stmt, st2)
          | some nest =>
              match inner_fl with
              | none => none
              | some fl =>
                  match bodyPushBack st2 fl init_stmt with
                  | none => none
                  | some st3 => some (nest, st3)

/-- The part of `initReduction` that places the initialization (lower_loops.cpp:266-291);
`none` is the failed assertion, or an allocation loop that does not hold `alloc_expr`. -/
def placeInit (st : Gen) (alloc_loop : Option Nat) (alloc_expr : Option KirExpr)
    (init_loop_nest : KirExpr) : Option Gen :=
  match alloc_loop with
  | none =>
      match alloc_expr with
      | some a =>
          if a ∈ st.lowered_exprs_ then
            some { st with
              lowered_exprs_ :=
                insertAt st.lowered_exprs_ (st.lowered_exprs_.indexOf a + 1) init_loop_nest }
          else none
      | none => some { st with lowered_exprs_ := insertAt st.lowered_exprs_ 0 init_loop_nest }
  | some l =>
      match alloc_expr with
      | some a =>
          match bodyInsertAfter st l a init_loop_nest with
          | none => none
          | some st1 => some (incrAllocations st1 l)
      | none => bodyInsert st l 0 init_loop_nest

/-- `LoopNestGenerator::initReduction` (lower_loops.cpp:174-292). -/
def initReduction (D : Domains) (st : Gen) (tv : TensorView) (init_val : Val)
    (alloc_expr : Option KirExpr) : Option Gen :=
  if !D.hasReduction tv then
    pushBack { st with created := st.created + 1 } (KirExpr.UnaryOpSet st.created tv init_val)
  else
    let alloc_point := D.getAllocPoint tv (openLoops st)
    let alloc_loop := alloc_point.1
    let alloc_pos := alloc_point.2
    match initNest D st tv init_val alloc_pos with
    | none => none
    | some (init_loop_nest, st1) => placeInit st1 alloc_loop alloc_expr init_loop_nest

/-- The statement `stmt` is a nest of loops over `ids`, the outermost first, in which the body
of every loop holds the next loop and nothing else and the body of the innermost holds
`init_stmt` and nothing else; without `ids` it is `init_stmt`. -/
def isNest (loops : List (Nat × ForLoop)) : List IterDomain → KirExpr → KirExpr → Bool
  | [], stmt, init_stmt => stmt == init_stmt
  | id :: rest, KirExpr.ForLoop l, init_stmt =>
      match lookup loops l with
      | some fl =>
          fl.iter_domain == id &&
            (match fl.body with
             | [inner] => isNest loops rest inner init_stmt
             | _ => false)
      | none => false
  | _ :: _, _, _ => false

/-- The statements of the scope that owns an allocation: `lowered_exprs_` without allocation
loop, the body of the allocation loop otherwise. -/
def scopeOf (st : Gen) (alloc_loop : Option Nat) : List KirExpr :=
  match alloc_loop with
  | none => st.lowered_exprs_
  | some l =>
      match lookup st.loops l with
      | some fl => fl.body
      | none => []

/-- The local variables of `handle` that the computation of the loop structure updates
(lower_loops.cpp:335-340). -/
structure LoopStructure where
  loop_structure : List IterDomain
  last_ca_view : Option TensorView
  last_ca_view_ind : Nat
  deriving DecidableEq, Repr

/-- The loop over `ca_i` (lower_loops.cpp:372-383) on the values of `ca_i` that remain. -/
def scanView (D : Domains) (ca_view : TensorView) (ca_id : IterDomain) :
    List Nat → LoopStructure → LoopStructure
  | [], s => s
  | ca_i :: rest, s =>
      let s1 : LoopStructure :=
        { loop_structure := s.loop_structure ++ [(D.getComputeAtAxis ca_view ca_i).1]
          last_ca_view_ind := ca_i
          last_ca_view := some ca_view }
      if (D.getComputeAtAxis ca_view ca_i).1 = ca_id then s1 else scanView D ca_view ca_id rest s1

/-- The value of `start` (lower_loops.cpp:353-368); `none` when `loop_structure.back()` is
read of an empty deque. -/
def findStart (D : Domains) (ca_view : TensorView) (s : LoopStructure) : Option Nat :=
  match s.last_ca_view with
  | none => some 0
  | some last =>
      if last = ca_view then some (s.last_ca_view_ind + 1)
      else
        match s.loop_structure.getLast? with
        | none => none
        | some back =>
            some ((((List.range (D.nDims ca_view)).find?
              (fun start => back == (D.getComputeAtAxis ca_view start).1)).getD
                (D.nDims ca_view)) + 1)

/-- One iteration of the loop over `out_i` (lower_loops.cpp:343-389); `none` is the failed
assertion. -/
def axisStep (D : Domains) (out : TensorView) (out_i : Nat) (s : LoopStructure) :
    Option LoopStructure :=
  let ca_point := D.getComputeAtAxis out out_i
  let ca_view := ca_point.2
  let ca_id := ca_point.1
  match findStart D ca_view s with
  | none => none
  | some start =>
      let s1 := scanView D ca_view ca_id ((List.range (D.nDims ca_view)).drop start) s
      if (D.getComputeAtAxis ca_view s1.last_ca_view_ind).1 = ca_id then some s1 else none

/-- The loop over `out_i` (lower_loops.cpp:343-389) on the values of `out_i` that remain. -/
def axisLoop (D : Domains) (out : TensorView) : List Nat → LoopStructure → Option LoopStructure
  | [], s => some s
  | out_i :: rest, s =>
      match axisStep D out out_i s with
      | none => none
      | some s1 => axisLoop D out rest s1

/-- The deque `loop_structure` that `handle` computes for the output `out`
(lower_loops.cpp:335-399). -/
def loopStructure (F : Fusion) (D : Domains) (out : TensorView) : Option (List IterDomain) :=
  match axisLoop D out (List.range (F.getThisComputeAtAxis out))
      { loop_structure := [], last_ca_view := none, last_ca_view_ind := 0 } with
  | none => none
  | some s =>
      some (s.loop_structure ++
        ((List.range (D.nDims out)).drop (F.getThisComputeAtAxis out)).map
          (fun out_i => (D.getComputeAtAxis out out_i).1))

/-- The loop that pops the loops already opened out of `loops_to_open`
(lower_loops.cpp:407-416), on the iteration domains of the loops of `for_loops_` that
remain. -/
def popOpened : List IterDomain → List IterDomain → List IterDomain
  | [], loops_to_open => loops_to_open
  | existing_loop :: rest, loops_to_open =>
      match loops_to_open with
      | [] => []
      | front :: more =>
          if front = existing_loop then popOpened rest more
          else popOpened rest (front :: more)

/-- The loop that opens the loops of `loops_to_open` (lower_loops.cpp:420-423). -/
def openAll (D : Domains) : List IterDomain → Gen → Option Gen
  | [], st => some st
  | front :: rest, st =>
      match openFor D st front with
      | none => none
      | some st1 => openAll D rest st1

/-- The iteration domains of the open loops, outermost first. -/
def openDomains (st : Gen) : List IterDomain := (openLoops st).map (fun p => p.2)

/-- The loop-opening step of `handle` for the output `out` (lower_loops.cpp:335-423). -/
def openStep (F : Fusion) (D : Domains) (out : TensorView) (st : Gen) : Option Gen :=
  match loopStructure F D out with
  | none => none
  | some loop_structure => openAll D (popOpened (openDomains st) loop_structure) st

/-- The iteration domain of `for_loops_.back()`. -/
def backDomain (st : Gen) : Option IterDomain :=
  match st.for_loops_.getLast? with
  | none => none
  | some back => (lookup st.loops back).map (fun fl => fl.iter_domain)

/-- A loop `while (!for_loops_.empty() && !stop) closeFor();` run for at most `n` iterations;
with the number of open loops for `n` it runs to its end. -/
def closeLoop (stop : Gen → Bool) : Nat → Gen → Option Gen
  | 0, st => if st.for_loops_.isEmpty || stop st then some st else none
  | n + 1, st =>
      if st.for_loops_.isEmpty || stop st then some st
      else
        match closeFor st with
        | none => none
        | some st1 => closeLoop stop n st1

/-- The step of `handle` that reduces the loop nest back to the compute-at position
(lower_loops.cpp:445-459). -/
def closeStep (F : Fusion) (D : Domains) (out : TensorView) (st : Gen) : Option Gen :=
  if F.getThisComputeAtAxis out = 0 then
    closeLoop (fun _ => false) st.for_loops_.length st
  else
    let ca_axis := F.getThisComputeAtAxis out - 1
    let target_domain := (D.getComputeAtAxis out ca_axis).1
    closeLoop (fun s => decide (backDomain s = some target_domain)) st.for_loops_.length st

/-- The loop of `handle` over the outputs of an expression that is not a tensor operation
(lower_loops.cpp:300-312); `none` is the failed assertion. -/
def scalarAllocs (F : Fusion) : List Val → Gen → Option Gen
  | [], st => some st
  | out :: rest, st =>
      if F.getValType out = ValType.Scalar then
        match pushBack { st with created := st.created + 1 }
            (KirExpr.Allocate st.created out MemoryType.Local (KirVal.Int (some 1))) with
        | none => none
        | some st1 => scalarAllocs F rest st1
      else none

/-- The barrier step of `handle` (lower_loops.cpp:317-330); pushing to the back of the last
open loop or else of `lowered_exprs_` is what `pushBack` does. -/
def syncStep (F : Fusion) (expr : Expr) (st : Gen) : Option Gen :=
  let shared_memory_sync := (F.inputs expr).any (fun i => isModifiedSharedMemory st.smem_ i)
  if shared_memory_sync then
    match pushBack { st with created := st.created + 1 } (KirExpr.Sync st.created) with
    | none => none
    | some st1 => some { st1 with smem_ := cleanSharedMemory st1.smem_ }
  else some st

/-- The steps of `handle` between the opening and the closing of the loops
(lower_loops.cpp:425-443). -/
def placeStep (F : Fusion) (D : Domains) (expr : Expr) (out : TensorView) (st : Gen) :
    Option Gen :=
  match (if !D.hasInput out && !D.hasOutput out then pushAlloc F D st out
         else some (none, st)) with
  | none => none
  | some (alloc_expr, st1) =>
      match (if D.hasReduction out then initReduction D st1 out (D.init expr) alloc_expr
             else some st1) with
      | none => none
      | some st2 =>
          match pushBack { st2 with created := st2.created + 1 }
              (KirExpr.Lowered st2.created expr) with
          | none => none
          | some st3 => some { st3 with smem_ := modifySharedMemory st3.smem_ out }

/-- `LoopNestGenerator::handle` (lower_loops.cpp:294-460); `none` is a failed assertion or an
access that is not defined. -/
def handle (F : Fusion) (D : Domains) (expr : Expr) (st : Gen) : Option Gen :=
  if !F.isTVOp expr then
    match scalarAllocs F (F.outputs expr) st with
    | none => none
    | some st1 =>
        pushBack { st1 with created := st1.created + 1 } (KirExpr.Lowered st1.created expr)
  else
    match syncStep F expr st with
    | none => none
    | some st1 =>
        match (F.outputs expr).head? with
        | none => none
        | some out =>
            match openStep F D out st1 with
            | none => none
            | some st2 =>
                match placeStep F D expr out st2 with
                | none => none
                | some st3 => closeStep F D out st3

/-- The loop of `LoopNestGenerator::generate` calling `handle` (lower_loops.cpp:832-834). -/
def handleAll (F : Fusion) (D : Domains) : List Expr → Gen → Option Gen
  | [], st => some st
  | expr :: rest, st =>
      match handle F D expr st with
      | none => none
      | some st1 => handleAll F D rest st1

/-- The generator when `generate` has filled `smem_` (lower_loops.cpp:819-829). -/
def initialGen (F : Fusion) : Gen :=
  { lowered_exprs_ := []
    for_loops_ := []
    for_loop_allocations_ := []
    lowered_exprs_allocations_ := 0
    dynamic_smem_ := []
    smem_ := initSmem F F.vals []
    loops := []
    created := 0 }

/-- The generator when `generate` has handled the reordered expressions
(lower_loops.cpp:816-834). -/
def handled (F : Fusion) (D : Domains) (fuel : Nat) (exprs : List Expr) : Option Gen :=
  match reorderExprsForComputeAt F fuel exprs with
  | none => none
  | some reordered => handleAll F D reordered (initialGen F)

/-- The last loop of `generate` (lower_loops.cpp:837-839) on the allocations of
`dynamic_smem_` that remain. -/
def insertDynamicSmem : List KirExpr → List KirExpr → List KirExpr
  | [], lowered_exprs_ => lowered_exprs_
  | smem_alloc :: rest, lowered_exprs_ =>
      insertDynamicSmem rest (insertAt lowered_exprs_ 0 smem_alloc)

/-- `LoopNestGenerator::generate` (lower_loops.cpp:816-840). -/
def generate (F : Fusion) (D : Domains) (fuel : Nat) (exprs : List Expr) : Option Gen :=
  match handled F D fuel exprs with
  | none => none
  | some st =>
      some { st with lowered_exprs_ := insertDynamicSmem st.dynamic_smem_ st.lowered_exprs_ }

/-- Scenario E. Tensor 19 is an input of the fusion. Expression 0 defines the Global tensor 20
(axes 200, 201), computed at position 1 of tensor 24, which expression 4 defines from it
(axes 240, 241, an output of the fusion). Expression 1 defines the Local tensor 21 (axes 210,
211 bound to a thread dimension, 212 a reduction), expression 2 the Shared tensor 22 (axes
220, 221 bound to a block dimension). Expression 5 defines the Shared tensor 25, expression 6
the Shared tensor 26 from 25, expression 7 the output 27 from 26 (one axis each). -/
def scenarioE : Fusion :=
  { vals := [19, 20, 21, 22, 24, 25, 26, 27]
    inputs := fun e => if e = 4 then [20] else if e = 6 then [25] else
      if e = 7 then [26] else [19]
    outputs := fun e => [20 + e]
    getValType := fun _ => ValType.TensorView
    isTVOp := fun _ => true
    getMemoryType := fun t => if t = 20 then MemoryType.Global else
      if t = 22 ∨ t = 25 ∨ t = 26 then MemoryType.Shared else MemoryType.Local
    hasComputeAt := fun t => decide (t = 20)
    getComputeAtView := fun t => if t = 20 then 24 else t
    getRelativeComputeAtAxis := fun t => if t = 20 then 1 else 0
    getThisComputeAtAxis := fun t => if t = 20 then 1 else 0
    getComputeAtRelPos := fun _ p => p
    definition := fun t => if 20 ≤ t ∧ t ≤ 27 ∧ t ≠ 23 then some (t - 20) else none
    isDependencyOf := fun a b =>
      decide ((a = 20 ∧ b = 24) ∨ (a = 25 ∧ (b = 26 ∨ b = 27)) ∨ (a = 26 ∧ b = 27))
    hashOrder := fun t => t }

/-- The axes of scenario E. Axis `i` of tensor `t` is `10 * t + i`; the extent of an axis is
a symbol, 1000 more than the axis; a size is constant when it has no symbol for factor; a
tensor computed at position `k + 1` is allocated in the loop open at depth `k`, a tensor
computed at position 0 outside of the loops. -/
def domainsE : Domains :=
  { nDims := fun t => if t = 21 then 3 else if 25 ≤ t then 1 else 2
    axis := fun t i => 10 * t + i
    getComputeAtAxis := fun t i => if t = 20 ∧ i = 0 then (240, 24) else (10 * t + i, t)
    isReduction := fun id => decide (id = 212)
    isBroadcast := fun _ => false
    getParallelType := fun id => if id = 211 then ParallelType.ThreadDim else
      if id = 221 then ParallelType.BlockDim else ParallelType.Serial
    rawExtent := fun id => 1000 + id
    hasReduction := fun t => decide (t = 21)
    hasInput := fun t => decide (t = 19)
    hasOutput := fun t => decide (t = 24 ∨ t = 27)
    init := fun _ => 99
    getAllocPoint := fun t loops =>
      if t = 20 then ((loops.get? 0).map (fun p => p.1), 1) else (none, 0)
    isConst := fun size => (factors size).isEmpty }

/-- Scenario E when `handle` has opened the loops for tensor 20 from the initial state: loop 0
over axis 240 of tensor 24, loop 1 over axis 201 inside it. -/
def scenarioEOpen20 : Gen :=
  { lowered_exprs_ := [KirExpr.ForLoop 0]
    for_loops_ := [0, 1]
    for_loop_allocations_ := [(1, 0)]
    lowered_exprs_allocations_ := 0
    dynamic_smem_ := []
    smem_ := [(22, false), (25, false), (26, false)]
    loops :=
      [(0, { index := KirVal.Int none, iter_domain := 240, parent_scope := none,
             body := [KirExpr.ForLoop 1] }),
       (1, { index := KirVal.Int none, iter_domain := 201, parent_scope := some 0,
             body := [] })]
    created := 2 }

/-- Scenario E when `handle` has opened the loops for tensor 21 from the initial state and
`pushAlloc` has placed its allocation. -/
def scenarioEAlloc21 : Gen :=
  { lowered_exprs_ :=
      [KirExpr.Allocate 3 21 MemoryType.Local (KirVal.Lowered 1210), KirExpr.ForLoop 0]
    for_loops_ := [0, 1, 2]
    for_loop_allocations_ := [(1, 0), (2, 0)]
    lowered_exprs_allocations_ := 1
    dynamic_smem_ := []
    smem_ := [(22, false), (25, false), (26, false)]
    loops :=
      [(0, { index := KirVal.Int none, iter_domain := 210, parent_scope := none,
             body := [KirExpr.ForLoop 1] }),
       (1, { index := KirVal.NamedScalar ParallelType.ThreadDim, iter_domain := 211,
             parent_scope := some 0, body := [KirExpr.ForLoop 2] }),
       (2, { index := KirVal.Int none, iter_domain := 212, parent_scope := some 1,
             body := [] })]
    created := 4 }

/-- Scenario E when `initReduction` has placed the initialization of tensor 21 after its
allocation: loop 4 over axis 210 holds loop 5 over axis 211, which holds the
initialization. -/
def scenarioEInit21 : Gen :=
  { scenarioEAlloc21 with
    lowered_exprs_ :=
      [KirExpr.Allocate 3 21 MemoryType.Local (KirVal.Lowered 1210), KirExpr.ForLoop 4,
       KirExpr.ForLoop 0]
    for_loop_allocations_ := [(1, 0), (2, 0), (4, 0), (5, 0)]
    loops := scenarioEAlloc21.loops ++
      [(4, { index := KirVal.Int none, iter_domain := 210, parent_scope := none,
             body := [KirExpr.ForLoop 5] }),
       (5, { index := KirVal.NamedScalar ParallelType.ThreadDim, iter_domain := 211,
             parent_scope := some 4, body := [KirExpr.UnaryOpSet 6 21 99] })]
    created := 7 }

/-- The loops the loop of `initReduction` appends to the table, when the last loop created
is `k` with fields `fl` and the loops over `ids` remain to be created; `tail` is what the
innermost body receives. -/
def chain (D : Domains) (tail : List KirExpr) : Nat → ForLoop → List IterDomain →
    List (Nat × ForLoop)
  | k, fl, [] => [(k, { fl with body := fl.body ++ tail })]
  | k, fl, id :: rest =>
      (k, { fl with body := fl.body ++ [KirExpr.ForLoop (k + 1)] }) ::
        chain D tail (k + 1) (newLoop D id (some k)) rest

/-- The state is well formed: every loop of the table was created before, so that its
identity is below `created`, and every open loop is in the table. -/
structure WF (st : Gen) : Prop where
  fresh : ∀ p ∈ st.loops, p.1 < st.created
  open_exist : ∀ l ∈ st.for_loops_, l ∈ keys st.loops

/-- The allocations queued in `dynamic_smem_` stand from the one created last to the one
created first, and all were created before. The identity of a node is the number of nodes
created before it. -/
structure HoistInv (st : Gen) : Prop where
  ordered : (st.dynamic_smem_.map KirExpr.id).Pairwise (fun a b => b < a)
  created_before : ∀ a ∈ st.dynamic_smem_, a.id < st.created

/-- Scenario E when the generator has handled expression 0 from the initial state: loop 0
over axis 240 is left open, it holds the allocation of tensor 20 and loop 1 over axis 201,
which holds the expression. -/
def scenarioEAfter0 : Gen :=
  { lowered_exprs_ := [KirExpr.ForLoop 0]
    for_loops_ := [0]
    for_loop_allocations_ := [(1, 0), (0, 1)]
    lowered_exprs_allocations_ := 0
    dynamic_smem_ := []
    smem_ := [(22, false), (25, false), (26, false)]
    loops :=
      [(0, { index := KirVal.Int none, iter_domain := 240, parent_scope := none,
             body := [KirExpr.Allocate 2 20 MemoryType.Global (KirVal.Lowered 1201),
                      KirExpr.ForLoop 1] }),
       (1, { index := KirVal.Int none, iter_domain := 201, parent_scope := some 0,
             body := [KirExpr.Lowered 3 0] })]
    created := 4 }

/-- Scenario E when the generator has handled expressions 5, 6 and 7 from the initial state:
the allocations of the Shared tensors 25 and 26 are queued, that of 26 in front; every
expression is in a loop of its own, a barrier stands before the loops of expressions 6 and
7. -/
def scenarioEHandled567 : Gen :=
  { lowered_exprs_ :=
      [KirExpr.ForLoop 0, KirExpr.Sync 3, KirExpr.ForLoop 4, KirExpr.Sync 7, KirExpr.ForLoop 8]
    for_loops_ := []
    for_loop_allocations_ := []
    lowered_exprs_allocations_ := 0
    dynamic_smem_ :=
      [KirExpr.Allocate 5 26 MemoryType.Shared (KirVal.Lowered 1260),
       KirExpr.Allocate 1 25 MemoryType.Shared (KirVal.Lowered 1250)]
    smem_ := [(22, false), (25, false), (26, false)]
    loops :=
      [(0, { index := KirVal.Int none, iter_domain := 250, parent_scope := none,
             body := [KirExpr.Lowered 2 5] }),
       (4, { index := KirVal.Int none, iter_domain := 260, parent_scope := none,
             body := [KirExpr.Lowered 6 6] }),
       (8, { index := KirVal.Int none, iter_domain := 270, parent_scope := none,
             body := [KirExpr.Lowered 9 7] })]
    created := 10 }

/-- Scenario E when `generate` returns for the expressions 5, 6 and 7. -/
def scenarioEGenerated567 : Gen :=
  { scenarioEHandled567 with
    lowered_exprs_ :=
      [KirExpr.Allocate 1 25 MemoryType.Shared (KirVal.Lowered 1250),
       KirExpr.Allocate 5 26 MemoryType.Shared (KirVal.Lowered 1260),
       KirExpr.ForLoop 0, KirExpr.Sync 3, KirExpr.ForLoop 4, KirExpr.Sync 7,
       KirExpr.ForLoop 8] }

/-- Scenario A: the producer `p` (tensor 30, Local, defined by expression 0 from the input 29)
and the consumer `c` (tensor 31, an output, defined by expression 1 from `p`) have three
axes each; `p` is computed at position 3 of `c`. -/
def scenarioA : Fusion :=
  { vals := [29, 30, 31]
    inputs := fun e => if e = 0 then [29] else [30]
    outputs := fun e => [30 + e]
    getValType := fun _ => ValType.TensorView
    isTVOp := fun _ => true
    getMemoryType := fun _ => MemoryType.Local
    hasComputeAt := fun t => decide (t = 30)
    getComputeAtView := fun t => if t = 30 then 31 else t
    getRelativeComputeAtAxis := fun t => if t = 30 then 3 else 0
    getThisComputeAtAxis := fun t => if t = 30 then 3 else 0
    getComputeAtRelPos := fun _ p => p
    definition := fun t => if t = 30 then some 0 else if t = 31 then some 1 else none
    isDependencyOf := fun a b => decide (a = 30 ∧ b = 31)
    hashOrder := fun t => t }

/-- The axes of scenario A. Axis `i` of tensor `t` is `10 * t + i`, and the three axes of `p`
are computed at the three axes of `c`; extents are symbols; `p` is allocated in the loop open
at depth 2, at position 3. -/
def domainsA : Domains :=
  { nDims := fun _ => 3
    axis := fun t i => 10 * t + i
    getComputeAtAxis := fun t i => if t = 30 then (310 + i, 31) else (10 * t + i, t)
    isReduction := fun _ => false
    isBroadcast := fun _ => false
    getParallelType := fun _ => ParallelType.Serial
    rawExtent := fun id => 1000 + id
    hasReduction := fun _ => false
    hasInput := fun t => decide (t = 29)
    hasOutput := fun t => decide (t = 31)
    init := fun _ => 99
    getAllocPoint := fun t loops =>
      if t = 30 then ((loops.get? 2).map (fun p => p.1), 3) else (none, 0)
    isConst := fun size => (factors size).isEmpty }

/-- Scenario A when `handle` has opened the loops for `p` from the initial state: loops 0, 1,
2 over the axes 310, 311, 312 of `c`, each inside the one before. -/
def scenarioAOpen : Gen :=
  { lowered_exprs_ := [KirExpr.ForLoop 0]
    for_loops_ := [0, 1, 2]
    for_loop_allocations_ := [(1, 0), (2, 0)]
    lowered_exprs_allocations_ := 0
    dynamic_smem_ := []
    smem_ := []
    loops :=
      [(0, { index := KirVal.Int none, iter_domain := 310, parent_scope := none,
             body := [KirExpr.ForLoop 1] }),
       (1, { index := KirVal.Int none, iter_domain := 311, parent_scope := some 0,
             body := [KirExpr.ForLoop 2] }),
       (2, { index := KirVal.Int none, iter_domain := 312, parent_scope := some 1,
             body := [] })]
    created := 3 }

/-- Scenario A when `pushAlloc` has placed the allocation of `p` in the innermost loop. -/
def scenarioAAlloc : Gen :=
  { scenarioAOpen with
    for_loop_allocations_ := [(1, 0), (2, 1)]
    loops :=
      [(0, { index := KirVal.Int none, iter_domain := 310, parent_scope := none,
             body := [KirExpr.ForLoop 1] }),
       (1, { index := KirVal.Int none, iter_domain := 311, parent_scope := some 0,
             body := [KirExpr.ForLoop 2] }),
       (2, { index := KirVal.Int none, iter_domain := 312, parent_scope := some 1,
             body := [KirExpr.Allocate 3 30 MemoryType.Local (KirVal.Int (some 1))] })]
    created := 4 }

/-- The statements of the innermost open scope: the body of the last loop of `for_loops_`,
`lowered_exprs_` when no loop is open. -/
def innermostScope (st : Gen) : List KirExpr := scopeOf st st.for_loops_.getLast?

/-- The allocations `handle` pushes for the outputs `outs` of an expression that is not a
tensor operation, the first being the node created as number `created`. -/
def scalarAllocations (created : Nat) (outs : List Val) : List KirExpr :=
  (outs.enumFrom created).map
    (fun p => KirExpr.Allocate p.1 p.2 MemoryType.Local (KirVal.Int (some 1)))

/-- The iteration domain of the loop `l`. -/
def domainOf (st : Gen) (l : Nat) : Option IterDomain :=
  (lookup st.loops l).map (fun fl => fl.iter_domain)

end LoopNest

namespace MaxPosCalculator

/-- What `MaxPosCalculator::isAllowedID` reads of an axis of a tensor: whether it is a
reduction, whether it is bound to `Vectorize` or `MisalignedVectorize`, and whether it is in
`unmappable_dims_`. -/
structure Axis where
  isReduction : Bool
  isVectorized : Bool
  isUnmappable : Bool
  deriving DecidableEq, Repr

/-- Modelled from the spec: the definition of `MaxPosCalculator::isAllowedID` is not among
the sources (inline_propagator.h:46 declares it). "An axis blocks extension past it if: it is
Reduction and reduction is disallowed; it is Vectorize/MisalignedVectorize-bound and
vectorization is disallowed; it (or its mapped producer axis) is unmappable and that is
disallowed." -/
def isAllowedID (id : Axis) (allow_reduction allow_vectorize allow_unmappable : Bool) : Bool :=
  !((id.isReduction && !allow_reduction) || (id.isVectorized && !allow_vectorize) ||
    (id.isUnmappable && !allow_unmappable))

/-- Modelled from the spec: the definition of `MaxPosCalculator::getMaxPosSelf` is not among
the sources (inline_propagator.h:55 declares it, "Returns the position at which tv can be
inlined within"). The axes of `tv` are scanned from left to right, `pos` counting the axes
passed; "the returned position is the index of the first blocking axis (full length if
none)". -/
def scanDomain (allow_reduction allow_vectorize allow_unmappable : Bool) :
    List Axis → Nat → Nat
  | [], pos => pos
  | id :: rest, pos =>
      if isAllowedID id allow_reduction allow_vectorize allow_unmappable then
        scanDomain allow_reduction allow_vectorize allow_unmappable rest (pos + 1)
      else pos

/-- Modelled from the spec: `MaxPosCalculator::getMaxPosSelf` on the axes of `tv`, the scan
of `scanDomain` from position 0. -/
def getMaxPosSelf (tv : List Axis) (allow_reduction allow_vectorize allow_unmappable : Bool) :
    Nat :=
  scanDomain allow_reduction allow_vectorize allow_unmappable tv 0

/-- An axis that is an iteration axis, not vectorized, mappable. -/
def plainAxis : Axis := { isReduction := false, isVectorized := false, isUnmappable := false }

/-- A reduction axis. -/
def reductionAxis : Axis := { isReduction := true, isVectorized := false, isUnmappable := false }

end MaxPosCalculator

namespace scheduler_utils

/-- An `IterDomain` as the scheduler utilities see it: an axis of the fusion (with an identity
and its `isReduction` flag) or the merge of two axes. -/
inductive IterDomain where
  | axis (id : Nat) (reduction : Bool)
  | merged (outer inner : IterDomain)
  deriving DecidableEq, Repr

/-- Modelled from the spec: `IterDomain::isReduction` of a merged axis (the class is not among
the sources). The utilities merge two axes only when both are reductions or both are not, and
the merge is of the same kind. -/
def IterDomain.isReduction : IterDomain → Bool
  | IterDomain.axis _ reduction => reduction
  | IterDomain.merged outer _ => outer.isReduction

/-- Modelled from the spec: `tv->merge(i, j)` (`TensorView::merge` is not among the sources)
"replacing axes i and j by their merge at position i"; the utilities call it with `i < j`
only, and `none` is a call with other positions or with a position that is not an axis. -/
def merge (tv : List IterDomain) (i j : Nat) : Option (List IterDomain) :=
  match tv.get? i, tv.get? j with
  | some outer, some inner =>
      if i < j then some ((tv.set i (IterDomain.merged outer inner)).eraseIdx j) else none
  | _, _ => none

/-- A position of `reorder` counted from the end when negative; `none` when it is not the
position of an axis. -/
def normalizePos (n : Nat) (pos : Int) : Option Nat :=
  let p := if pos < 0 then pos + n else pos
  if 0 ≤ p ∧ p < n then some p.toNat else none

/-- The old position every new position receives: the one `old2new` names for it, otherwise
the next of the old positions that `old2new` does not move. -/
def fillPositions (old2new : List (Nat × Nat)) : List Nat → List Nat → List Nat
  | [], _ => []
  | new_pos :: more, left =>
      match old2new.find? (fun p => p.2 == new_pos) with
      | some p => p.1 :: fillPositions old2new more left
      | none =>
          match left with
          | [] => []
          | old_pos :: left1 => old_pos :: fillPositions old2new more left1

/-- Modelled from the spec: `tv->reorder(old2new)` (`TensorView::reorder` is not among the
sources) "moving the named axis to the given (possibly negative, end-relative) position while
keeping the others in order"; `none` when a position is not the position of an axis. -/
def reorder (tv : List IterDomain) (old2new : List (Int × Int)) : Option (List IterDomain) :=
  match old2new.mapM (fun p =>
      match normalizePos tv.length p.1, normalizePos tv.length p.2 with
      | some o, some n => some (o, n)
      | _, _ => none) with
  | none => none
  | some pairs =>
      let left := (List.range tv.length).filter (fun o => !(pairs.map (fun p => p.1)).contains o)
      some ((fillPositions pairs (List.range tv.length) left).filterMap (fun o => tv.get? o))

/-- The local variables of the loops of `merge_3d`, with the axes of `tv`; `failed` is set
when a call of `merge` has no defined result. -/
structure MergeState where
  tv : List IterDomain
  active_is_reduction : Bool
  first_dim : Bool
  prev_i : Int
  failed : Bool
  deriving DecidableEq, Repr

/-- The statements `tv->merge(i, prev_i); prev_i = i;`. -/
def mergeStep (s : MergeState) (i : Nat) : MergeState :=
  match merge s.tv i s.prev_i.toNat with
  | some tv => { s with tv := tv, prev_i := i }
  | none => { s with failed := true }

/-- The first loop of `merge_3d` (utils.cpp:34-50) on the values of `i` that remain; it ends
at the first axis of the other kind. -/
def firstLoop (dont_merge : IterDomain → Bool) : List Nat → MergeState → MergeState
  | [], s => s
  | i :: rest, s =>
      match s.tv.get? i with
      | none => { s with failed := true }
      | some id =>
          if dont_merge id then firstLoop dont_merge rest s
          else if s.first_dim then
            firstLoop dont_merge rest
              { s with active_is_reduction := id.isReduction, prev_i := i, first_dim := false }
          else if id.isReduction != s.active_is_reduction then s
          else firstLoop dont_merge rest (mergeStep s i)

/-- The second and the third loop of `merge_3d` (utils.cpp:63-76 and 92-104) on the values of
`i` that remain; an axis of the other kind is passed over. -/
def nextLoop (dont_merge : IterDomain → Bool) : List Nat → MergeState → MergeState
  | [], s => s
  | i :: rest, s =>
      match s.tv.get? i with
      | none => { s with failed := true }
      | some id =>
          if dont_merge id then nextLoop dont_merge rest s
          else if s.first_dim then
            nextLoop dont_merge rest
              { s with active_is_reduction := id.isReduction, prev_i := i, first_dim := false }
          else if id.isReduction == s.active_is_reduction then
            nextLoop dont_merge rest (mergeStep s i)
          else nextLoop dont_merge rest s

/-- The values `n - 1, ..., 0` of `i` in a loop `for (int i = n - 1; i >= 0; i--)`. -/
def downFrom (n : Nat) : List Nat := (List.range n).reverse

/-- The state on entry to a loop of `merge_3d`. -/
def loopEntry (tv : List IterDomain) : MergeState :=
  { tv := tv, active_is_reduction := false, first_dim := true, prev_i := -1, failed := false }

/-- The swap `if (tv->axis(a)->isReduction() && !tv->axis(b)->isReduction())
tv->reorder({{a, b}, {b, a}})` of `merge_3d`. -/
def swapIf (tv : List IterDomain) (a b : Nat) : Option (List IterDomain) :=
  match tv.get? a, tv.get? b with
  | some x, some y =>
      if x.isReduction && !y.isReduction then reorder tv [((a : Int), (b : Int)), (b, a)]
      else some tv
  | _, _ => none

/-- `merge_3d` (utils.cpp:27-133): the value returned and the axes of `tv` on return; `none`
when `merge`, `reorder` or `axis` is called at a position that is not an axis. -/
def merge_3d (tv : List IterDomain) (dont_merge : IterDomain → Bool) :
    Option (Nat × List IterDomain) :=
  let s1 := firstLoop dont_merge (downFrom tv.length) (loopEntry tv)
  if s1.failed then none
  else if s1.prev_i = -1 then some (0, s1.tv)
  else
    match reorder s1.tv [(s1.prev_i, -1)] with
    | none => none
    | some tv1 =>
        let s2 := nextLoop dont_merge (downFrom (tv1.length - 1)) (loopEntry tv1)
        if s2.failed then none
        else if s2.prev_i = -1 then
          match reorder s2.tv [(-1, 0)] with
          | none => none
          | some tv2 => some (1, tv2)
        else
          match reorder s2.tv [(s2.prev_i, -2)] with
          | none => none
          | some tv2 =>
              let s3 := nextLoop dont_merge (downFrom (tv2.length - 2)) (loopEntry tv2)
              if s3.failed then none
              else if s3.prev_i = -1 then
                match reorder s3.tv [(-1, 0), (-2, 1)] with
                | none => none
                | some tv3 =>
                    match tv3.get? 0 with
                    | none => none
                    | some first =>
                        if first.isReduction then
                          match reorder tv3 [(0, 1), (1, 0)] with
                          | none => none
                          | some tv4 => some (2, tv4)
                        else some (2, tv3)
              else
                match reorder s3.tv [(s3.prev_i, -3)] with
                | none => none
                | some tv3 =>
                    match swapIf tv3 0 1 with
                    | none => none
                    | some tv4 =>
                        match swapIf tv4 1 2 with
                        | none => none
                        | some tv5 =>
                            match swapIf tv5 0 1 with
                            | none => none
                            | some tv6 => some (3, tv6)

/-- The loop of `mergeReduction` and of `mergeNonReduction` (utils.cpp:140-151 and 168-179)
on the values of `i` that remain; `skip` tells the axes that are passed over by their kind. -/
def mergeLoop (skip : IterDomain → Bool) (dont_merge : IterDomain → Bool) :
    List Nat → MergeState × Nat → MergeState × Nat
  | [], s => s
  | i :: rest, (s, num_merged) =>
      match s.tv.get? i with
      | none => ({ s with failed := true }, num_merged)
      | some id =>
          if skip id || dont_merge id then mergeLoop skip dont_merge rest (s, num_merged)
          else if s.prev_i = -1 then
            mergeLoop skip dont_merge rest ({ s with prev_i := i }, num_merged)
          else mergeLoop skip dont_merge rest (mergeStep s i, num_merged + 1)

/-- `mergeReduction` (utils.cpp:135-157): the value returned and the axes of `tv` on
return. -/
def mergeReduction (tv : List IterDomain) (dont_merge : IterDomain → Bool) :
    Option (Nat × List IterDomain) :=
  let r := mergeLoop (fun id => !id.isReduction) dont_merge (downFrom tv.length)
    (loopEntry tv, 0)
  if r.1.failed then none
  else
    match (if r.1.prev_i ≠ 0 then reorder r.1.tv [(r.1.prev_i, 0)] else some r.1.tv) with
    | none => none
    | some tv1 => some (if r.1.prev_i = -1 then 0 else r.2 + 1, tv1)

/-- `mergeNonReduction` (utils.cpp:159-184): the value returned and the axes of `tv` on
return. -/
def mergeNonReduction (tv : List IterDomain) (dont_merge : IterDomain → Bool) :
    Option (Nat × List IterDomain) :=
  if tv.length = 0 then some (0, tv)
  else
    let r := mergeLoop (fun id => id.isReduction) dont_merge (downFrom tv.length)
      (loopEntry tv, 0)
    if r.1.failed then none
    else
      match (if r.1.prev_i ≠ -1 then reorder r.1.tv [(r.1.prev_i, 0)] else some r.1.tv) with
      | none => none
      | some tv1 => some (if r.1.prev_i = -1 then 0 else r.2 + 1, tv1)

/-- The axes `I1, R2, I3, I4, R3{1}` of the first example in the comment on `merge_3d`. -/
def exampleAxes : List IterDomain :=
  [IterDomain.axis 1 false, IterDomain.axis 2 true, IterDomain.axis 3 false,
   IterDomain.axis 4 false, IterDomain.axis 5 true]

/-- The set `dont_merge` of the example: it holds `R3{1}`. -/
def exampleDontMerge (id : IterDomain) : Bool := id == IterDomain.axis 5 true

/-- A `TensorView*` of the scheduler utilities. -/
abbrev TensorView := Nat

/-- What `computeAtBetween` reads of the fusion: the axes of a tensor
(`consumer->domain()->domain()`, with `nDims` their number), and the set
`DependencyCheck::getAllValsBetween({producer}, overall_consumers)` as a test of membership;
axes are named by numbers here. -/
structure Graph where
  domain : TensorView → List Nat
  between : TensorView → List TensorView → TensorView → Bool

/-- One call `producer->computeAt(consumer, pos, mode)`; the mode is the one handed to
`computeAtBetween` in every call. -/
structure ComputeAtCall where
  producer : TensorView
  consumer : TensorView
  pos : Int
  deriving DecidableEq, Repr

/-- The position `std::find_if` returns in the axes of a consumer: the index of the first axis
in `mapped_to_trivial_reduction`, `none` for the end. -/
def findMapped (mapped_to_trivial_reduction : Nat → Bool) (domain : List Nat) : Option Nat :=
  let i := domain.findIdx mapped_to_trivial_reduction
  if i < domain.length then some i else none

/-- The assignment to `pos` of `computeAtBetween` (utils.cpp:376-383). -/
def nextPos (G : Graph) (mapped_to_trivial_reduction : Nat → Bool) (consumer : TensorView)
    (pos : Int) : Int :=
  match findMapped mapped_to_trivial_reduction (G.domain consumer) with
  | none => pos
  | some i => min ((i : Int) + 1) (if pos < 0 then pos + (G.domain consumer).length else pos)

/-- The inner loop of `computeAtBetween` over the consumers (utils.cpp:363-389) for one
producer: the variable `pos` and the calls of `computeAt` made so far. -/
def consumerLoop (G : Graph) (mapped_to_trivial_reduction : Nat → Bool)
    (overall_consumers : List TensorView) (producer : TensorView) :
    List TensorView → Int × List ComputeAtCall → Int × List ComputeAtCall
  | [], st => st
  | consumer :: rest, (pos, calls) =>
      if G.between producer overall_consumers consumer then
        if producer = consumer then
          consumerLoop G mapped_to_trivial_reduction overall_consumers producer rest (pos, calls)
        else
          let pos1 := nextPos G mapped_to_trivial_reduction consumer pos
          consumerLoop G mapped_to_trivial_reduction overall_consumers producer rest
            (pos1, calls ++ [{ producer := producer, consumer := consumer, pos := pos1 }])
      else consumerLoop G mapped_to_trivial_reduction overall_consumers producer rest (pos, calls)

/-- `computeAtBetween` (utils.cpp:348-391): the calls of `computeAt` it makes, in order. -/
def computeAtBetween (G : Graph) (producers overall_consumers : List TensorView) (pos : Int)
    (mapped_to_trivial_reduction : Nat → Bool) : List ComputeAtCall :=
  (producers.foldl
    (fun st producer =>
      consumerLoop G mapped_to_trivial_reduction overall_consumers producer overall_consumers st)
    (pos, [])).2

/-- The position the description of `computeAtBetween` gives for a consumer, from the position
handed to the function. -/
def positionFor (G : Graph) (mapped_to_trivial_reduction : Nat → Bool) (pos : Int)
    (consumer : TensorView) : Int :=
  nextPos G mapped_to_trivial_reduction consumer pos

/-- A producer 1 with the consumers 2 and 3: tensor 2 has the axes 20, 21, tensor 3 the axes
30, 31, 32; both consumers are between the producer and the consumers. -/
def exampleGraph : Graph :=
  { domain := fun t => if t = 2 then [20, 21] else if t = 3 then [30, 31, 32] else [10]
    between := fun _ _ t => decide (t = 2 ∨ t = 3) }

/-- The set `mapped_to_trivial_reduction` of the example: it holds axis 20 of tensor 2. -/
def exampleMapped (id : Nat) : Bool := id == 20

end scheduler_utils

namespace reduction_scheduler_utils

/-- The values of `ParallelType` that `id_lt` compares with; every other value is `Other`. -/
inductive ParallelType where
  | Serial
  | Unroll
  | Vectorize
  | MisalignedVectorize
  | Unswitch
  | Other
  deriving DecidableEq, Repr

/-- What `id_lt` reads of an `IterDomain` through accessors that are not among the sources:
`isReduction`, `getParallelType`, `extent()->isOneInt()`, `extent()->isConstScalar()`,
`isBroadcast`, `isImplicitBroadcast`, `isThread`, `isBlockDim`, `isThreadDim`, and whether
`getIterType()` is `IterType::Gather`. -/
structure IterDomain where
  isReduction : Bool
  getParallelType : ParallelType
  extentIsOneInt : Bool
  extentIsConstScalar : Bool
  isBroadcast : Bool
  isImplicitBroadcast : Bool
  isThread : Bool
  isBlockDim : Bool
  isThreadDim : Bool
  isGather : Bool
  deriving DecidableEq, Repr

/-- `id_lt::operator()` (reduction_utils.cpp:491-581), "Return if id0 should be before id1";
`none` is a failed assertion. -/
def id_lt (id0 id1 : IterDomain) : Option Bool :=
  if id0.isReduction && id0.getParallelType == ParallelType.Serial && id0.extentIsOneInt then
    some false
  else if id1.isReduction && id1.getParallelType == ParallelType.Serial &&
      id1.extentIsOneInt then
    some true
  else if id0.isBroadcast || id0.isImplicitBroadcast then some false
  else if id1.isBroadcast || id1.isImplicitBroadcast then some true
  else if !id0.extentIsConstScalar && !id0.isThread && !id1.extentIsConstScalar &&
      !id1.isThread then
    if id0.isReduction && !id1.isReduction then some false else some true
  else if !id0.extentIsConstScalar && !id0.isThread then some true
  else if !id1.extentIsConstScalar && !id1.isThread then some false
  else if id0.isReduction && !id1.isReduction then some false
  else if !id0.isReduction && id1.isReduction then some true
  else if id0.isBlockDim then some true
  else if id1.isBlockDim then some false
  else if id0.isThreadDim then some true
  else if id1.isThreadDim then some false
  else if id0.getParallelType == ParallelType.Unroll ||
      id0.getParallelType == ParallelType.Vectorize ||
      id0.getParallelType == ParallelType.MisalignedVectorize then
    some false
  else if id1.getParallelType == ParallelType.Unroll ||
      id1.getParallelType == ParallelType.Vectorize ||
      id1.getParallelType == ParallelType.MisalignedVectorize then
    some true
  else if id0.getParallelType == ParallelType.Unswitch then some false
  else if id1.getParallelType == ParallelType.Unswitch then some true
  else if id0.extentIsConstScalar then some false
  else if id1.extentIsConstScalar then some true
  else none

/-- A serial iteration axis whose extent is a symbol. -/
def symbolicAxis : IterDomain :=
  { isReduction := false, getParallelType := ParallelType.Serial, extentIsOneInt := false,
    extentIsConstScalar := false, isBroadcast := false, isImplicitBroadcast := false,
    isThread := false, isBlockDim := false, isThreadDim := false, isGather := false }

/-- A serial reduction axis whose extent is a symbol. -/
def symbolicReduction : IterDomain := { symbolicAxis with isReduction := true }

/-- An iteration axis bound to a block dimension, with a constant extent. -/
def blockAxis : IterDomain :=
  { symbolicAxis with
    getParallelType := ParallelType.Other, extentIsConstScalar := true, isThread := true,
    isBlockDim := true }

end reduction_scheduler_utils

/-! ## `ExprMutator` (kernel_ir_dispatch.cpp)

The mutator keeps the list `exprs_` of the top-level expressions, the pending insertions and
the pending replacements. A pointer to an expression is `none` for `nullptr` and `some h`
for the expression with handle `h`; a pointer to a scope is `none` for `nullptr` and
`some s` for the scope with handle `s`, whose expressions are kept in a table. -/

namespace ExprMutator

/-- A pointer to an expression; `none` is `nullptr`. -/
abbrev ExprPtr := Option Nat

/-- A pointer to a scope; `none` is `nullptr`. -/
abbrev ScopePtr := Option Nat

/-- The mode of a mutation: `MutationMode`. -/
inductive MutationMode where
  | BEFORE
  | AFTER
  | REPLACE
  deriving DecidableEq, Repr

/-- A registered mutation: `MutationInformation`. -/
structure MutationInformation where
  reference : ExprPtr
  new_expr : ExprPtr
  scope : ScopePtr
  mode : MutationMode
  deriving DecidableEq, Repr

/-- The methods of `Scope` that `kernel_ir.h` declares and another file defines, as
functions on the expressions of the scope; `none` is a failed assertion. -/
structure ScopeMethods where
  insert_before : List ExprPtr → ExprPtr → ExprPtr → Option (List ExprPtr)
  insert_after : List ExprPtr → ExprPtr → ExprPtr → Option (List ExprPtr)
  erase : List ExprPtr → ExprPtr → Option (List ExprPtr)

/-- The members of the mutator that `mutate` reads and writes, and the expressions of the
scopes by handle. -/
structure Mutator where
  exprs_ : List ExprPtr
  insertions_ : List MutationInformation
  replacements_ : List MutationInformation
  scopes : List (Nat × List ExprPtr)
  deriving DecidableEq, Repr

/-- The position `std::find(exprs.begin(), exprs.end(), reference)` returns: the index of
the first occurrence, `none` for `end()`. -/
def find : List ExprPtr → ExprPtr → Option Nat
  | [], _ => none
  | e :: rest, reference =>
      if e = reference then some 0 else (find rest reference).map (fun i => i + 1)

/-- The list after `exprs.insert(pos, expr)`. -/
def insert (exprs : List ExprPtr) (pos : Nat) (expr : ExprPtr) : List ExprPtr :=
  exprs.take pos ++ expr :: exprs.drop pos

/-- The list after `exprs.erase(pos)`. -/
def erase (exprs : List ExprPtr) (pos : Nat) : List ExprPtr :=
  exprs.take pos ++ exprs.drop (pos + 1)

/-- The expressions `scope->exprs()` of the scope with handle `scope`. -/
def scopeExprs (st : Mutator) (scope : Nat) : List ExprPtr :=
  ((st.scopes.find? (fun p => p.1 == scope)).map (fun p => p.2)).getD []

/-- The state with the expressions of the scope with handle `scope` replaced. -/
def setScope (st : Mutator) (scope : Nat) (exprs : List ExprPtr) : Mutator :=
  { st with
    scopes := (scope, exprs) :: st.scopes.filter (fun p => !(p.1 == scope)) }

/-- The lambda `run_insertion` of `mutate`; `none` is a failed assertion. -/
def run_insertion (S : ScopeMethods) (st : Mutator) (info : MutationInformation) :
    Option Mutator :=
  match info.scope with
  | none =>
      if st.exprs_.isEmpty && info.reference == none then
        some { st with exprs_ := st.exprs_ ++ [info.new_expr] }
      else
        match find st.exprs_ info.reference with
        | none => none
        | some pos_it =>
            if info.mode = MutationMode.BEFORE then
              some { st with exprs_ := insert st.exprs_ pos_it info.new_expr }
            else
              some { st with exprs_ := insert st.exprs_ (pos_it + 1) info.new_expr }
  | some scope =>
      if (scopeExprs st scope).isEmpty && info.reference == none then
        some (setScope st scope (scopeExprs st scope ++ [info.new_expr]))
      else if info.mode = MutationMode.BEFORE then
        (S.insert_before (scopeExprs st scope) info.reference info.new_expr).map
          (setScope st scope)
      else
        (S.insert_after (scopeExprs st scope) info.reference info.new_expr).map
          (setScope st scope)

/-- The loop of `mutate` over the insertions, in the order given. -/
def insertionLoop (S : ScopeMethods) : Mutator → List MutationInformation → Option Mutator
  | st, [] => some st
  | st, info :: rest =>
      match run_insertion S st info with
      | none => none
      | some st1 => insertionLoop S st1 rest

/-- The body of the loop of `mutate` over the replacements; `none` is a failed assertion. -/
def run_replacement (S : ScopeMethods) (st : Mutator)
    (replacement_info : MutationInformation) : Option Mutator :=
  match replacement_info.scope with
  | none =>
      match find st.exprs_ replacement_info.reference with
      | none => none
      | some pos_it =>
          let inserted := insert st.exprs_ pos_it replacement_info.new_expr
          match find inserted replacement_info.reference with
          | none => none
          | some pos_it2 => some { st with exprs_ := erase inserted pos_it2 }
  | some scope =>
      match S.insert_before (scopeExprs st scope) replacement_info.reference
          replacement_info.new_expr with
      | none => none
      | some inserted =>
          (S.erase inserted replacement_info.reference).map (setScope st scope)

/-- The loop of `mutate` over the replacements. -/
def replacementLoop (S : ScopeMethods) : Mutator → List MutationInformation → Option Mutator
  | st, [] => some st
  | st, replacement_info :: rest =>
      match run_replacement S st replacement_info with
      | none => none
      | some st1 => replacementLoop S st1 rest

/-- The method `ExprMutator::mutate`: the list returned and the state left, `none` for a
failed assertion. -/
def mutate (S : ScopeMethods) (st : Mutator) (reverse_order : Bool) :
    Option (List ExprPtr × Mutator) :=
  if st.insertions_.isEmpty && st.replacements_.isEmpty then some (st.exprs_, st)
  else
    match insertionLoop S st
        (if reverse_order then st.insertions_.reverse else st.insertions_) with
    | none => none
    | some st1 =>
        match replacementLoop S st1 st.replacements_ with
        | none => none
        | some st2 =>
            some (st2.exprs_, { st2 with insertions_ := [], replacements_ := [] })

/-- The method `ExprMutator::registerMutation`. -/
def registerMutation (st : Mutator) (reference new_expr : ExprPtr) (scope : ScopePtr)
    (mode : MutationMode) : Mutator :=
  let mutation : MutationInformation :=
    { reference := reference, new_expr := new_expr, scope := scope, mode := mode }
  if mode = MutationMode.BEFORE ∨ mode = MutationMode.AFTER then
    { st with insertions_ := st.insertions_ ++ [mutation] }
  else
    { st with replacements_ := st.replacements_ ++ [mutation] }

/-- Scope methods that fail on every call, for examples that use no scope. -/
def noScopes : ScopeMethods :=
  { insert_before := fun _ _ _ => none
    insert_after := fun _ _ _ => none
    erase := fun _ _ => none }

/-- A mutator with the top-level expressions 1, 2, 3 and nothing pending. -/
def exampleMutator : Mutator :=
  { exprs_ := [some 1, some 2, some 3], insertions_ := [], replacements_ := [], scopes := [] }

end ExprMutator

/-! ## Part II. Theorems -/

namespace MaxInfo

variable {I : Type}

/-! ### Insertion into the candidate list -/

/-- The destinations of the candidates of a list. -/
theorem mem_dests_iff (l : List (NextHopInfo I)) (d : TensorView) :
    d ∈ l.map (fun c => c.to_) ↔ ∃ c ∈ l, c.to_ = d := by
  simp [List.mem_map]

theorem insertAtPos_perm (l : List (NextHopInfo I)) (k : Nat) (v : NextHopInfo I) :
    (insertAtPos l k v).Perm (v :: l) := by
  unfold insertAtPos
  have h1 : (l.take k ++ v :: l.drop k).Perm (v :: (l.take k ++ l.drop k)) := List.perm_middle
  rw [List.take_append_drop] at h1
  exact h1

theorem mem_insertAtPos (l : List (NextHopInfo I)) (k : Nat) (v c : NextHopInfo I) :
    c ∈ insertAtPos l k v ↔ c = v ∨ c ∈ l := by
  rw [(insertAtPos_perm l k v).mem_iff, List.mem_cons]

/-- The four outcomes of `insertNextHopInfo`. -/
theorem insertNextHopInfo_cases (P : Propagator I) (l : List (NextHopInfo I))
    (info : NextHopInfo I) :
    (infoFromNonzero P info = false ∧ insertNextHopInfo P l info = l) ∨
    (infoFromNonzero P info = true ∧ l.find? (fun i => i.to_ == info.to_) = none ∧
      insertNextHopInfo P l info = insertAtPos l (upper_bound (hopLt P) l info) info) ∨
    (infoFromNonzero P info = true ∧
      ∃ e, l.find? (fun i => i.to_ == info.to_) = some e ∧ hopLt P e info = true ∧
        insertNextHopInfo P l info =
          insertAtPos (l.eraseP (fun i => i.to_ == info.to_))
            (upper_bound (hopLt P) (l.eraseP (fun i => i.to_ == info.to_)) info) info) ∨
    (infoFromNonzero P info = true ∧
      ∃ e, l.find? (fun i => i.to_ == info.to_) = some e ∧ hopLt P e info = false ∧
        insertNextHopInfo P l info = l) := by
  unfold insertNextHopInfo
  cases hnz : infoFromNonzero P info
  · left; simp
  · right
    cases hf : l.find? (fun i => i.to_ == info.to_) with
    | none => left; simp
    | some e =>
      right
      cases hlt : hopLt P e info
      · right; exact ⟨rfl, e, rfl, hlt, by simp [hlt]⟩
      · left; exact ⟨rfl, e, rfl, hlt, by simp [hlt]⟩

theorem find_none_not_dest (l : List (NextHopInfo I)) (a : TensorView)
    (h : l.find? (fun i => i.to_ == a) = none) : a ∉ l.map (fun c => c.to_) := by
  intro hm
  rcases (mem_dests_iff l a).1 hm with ⟨c, hc, hca⟩
  have := List.find?_eq_none.1 h c hc
  simp [hca] at this

theorem find_some_dest (l : List (NextHopInfo I)) (a : TensorView) (e : NextHopInfo I)
    (h : l.find? (fun i => i.to_ == a) = some e) : e ∈ l ∧ e.to_ = a := by
  refine ⟨List.mem_of_find?_eq_some h, ?_⟩
  have := List.find?_some h
  simpa using this

theorem not_dest_eraseP (l : List (NextHopInfo I)) (a : TensorView)
    (h : (l.map (fun c => c.to_)).Nodup) :
    a ∉ (l.eraseP (fun i => i.to_ == a)).map (fun c => c.to_) := by
  induction l with
  | nil => simp
  | cons x xs ih =>
    simp only [List.map_cons, List.nodup_cons] at h
    by_cases hx : x.to_ = a
    · have : (x :: xs).eraseP (fun i => i.to_ == a) = xs := by
        simp [List.eraseP_cons, hx]
      rw [this, ← hx]
      exact h.1
    · have : (x :: xs).eraseP (fun i => i.to_ == a) = x :: xs.eraseP (fun i => i.to_ == a) := by
        simp [List.eraseP_cons, hx]
      rw [this, List.map_cons, List.mem_cons]
      intro hm
      rcases hm with hm | hm
      · exact hx hm.symm
      · exact ih h.2 hm

theorem mem_eraseP_of_ne (l : List (NextHopInfo I)) (a : TensorView) (c : NextHopInfo I)
    (hc : c ∈ l) (hne : c.to_ ≠ a) : c ∈ l.eraseP (fun i => i.to_ == a) := by
  induction l with
  | nil => simp at hc
  | cons x xs ih =>
    by_cases hx : x.to_ = a
    · have : (x :: xs).eraseP (fun i => i.to_ == a) = xs := by
        simp [List.eraseP_cons, hx]
      rw [this]
      rcases List.mem_cons.1 hc with h | h
      · subst h; exact absurd hx hne
      · exact h
    · have : (x :: xs).eraseP (fun i => i.to_ == a) = x :: xs.eraseP (fun i => i.to_ == a) := by
        simp [List.eraseP_cons, hx]
      rw [this]
      rcases List.mem_cons.1 hc with h | h
      · subst h; simp
      · exact List.mem_cons_of_mem _ (ih h)

/-- Every candidate of the list after an insertion was there before or is the new one, and the
new one is taken only when its source information is not empty. -/
theorem mem_insertNextHopInfo (P : Propagator I) (l : List (NextHopInfo I))
    (info c : NextHopInfo I) (h : c ∈ insertNextHopInfo P l info) :
    c ∈ l ∨ (c = info ∧ infoFromNonzero P info = true) := by
  rcases insertNextHopInfo_cases P l info with ⟨_, he⟩ | ⟨hnz, _, he⟩ | ⟨hnz, e, _, _, he⟩ |
    ⟨_, e, _, _, he⟩
  · rw [he] at h; exact Or.inl h
  · rw [he, mem_insertAtPos] at h
    rcases h with h | h
    · exact Or.inr ⟨h, hnz⟩
    · exact Or.inl h
  · rw [he, mem_insertAtPos] at h
    rcases h with h | h
    · exact Or.inr ⟨h, hnz⟩
    · exact Or.inl (List.mem_of_mem_eraseP h)
  · rw [he] at h; exact Or.inl h

/-- A destination that has a candidate keeps one through an insertion. -/
theorem dest_insertNextHopInfo (P : Propagator I) (l : List (NextHopInfo I))
    (info : NextHopInfo I) (d : TensorView) (h : d ∈ l.map (fun c => c.to_)) :
    d ∈ (insertNextHopInfo P l info).map (fun c => c.to_) := by
  rcases insertNextHopInfo_cases P l info with ⟨_, he⟩ | ⟨_, _, he⟩ | ⟨_, e, _, _, he⟩ |
    ⟨_, e, _, _, he⟩
  · rw [he]; exact h
  · rw [he, mem_dests_iff]
    rcases (mem_dests_iff l d).1 h with ⟨c, hc, hcd⟩
    exact ⟨c, (mem_insertAtPos _ _ _ _).2 (Or.inr hc), hcd⟩
  · rw [he, mem_dests_iff]
    rcases (mem_dests_iff l d).1 h with ⟨c, hc, hcd⟩
    by_cases hd : d = info.to_
    · exact ⟨info, (mem_insertAtPos _ _ _ _).2 (Or.inl rfl), hd.symm⟩
    · refine ⟨c, (mem_insertAtPos _ _ _ _).2 (Or.inr ?_), hcd⟩
      exact mem_eraseP_of_ne l info.to_ c hc (by rw [hcd]; exact hd)
  · rw [he]; exact h

/-- After the insertion of a proposal whose source information is not empty, its destination
has a candidate. -/
theorem dest_of_insertNextHopInfo (P : Propagator I) (l : List (NextHopInfo I))
    (info : NextHopInfo I) (hnz : infoFromNonzero P info = true) :
    info.to_ ∈ (insertNextHopInfo P l info).map (fun c => c.to_) := by
  rcases insertNextHopInfo_cases P l info with ⟨h0, _⟩ | ⟨_, _, he⟩ | ⟨_, e, _, _, he⟩ |
    ⟨_, e, hf, _, he⟩
  · rw [hnz] at h0; cases h0
  · rw [he, mem_dests_iff]
    exact ⟨info, (mem_insertAtPos _ _ _ _).2 (Or.inl rfl), rfl⟩
  · rw [he, mem_dests_iff]
    exact ⟨info, (mem_insertAtPos _ _ _ _).2 (Or.inl rfl), rfl⟩
  · rw [he, mem_dests_iff]
    exact ⟨e, (find_some_dest l info.to_ e hf).1, (find_some_dest l info.to_ e hf).2⟩

/-- An insertion keeps the destinations of the list pairwise distinct. -/
theorem nodup_insertNextHopInfo (P : Propagator I) (l : List (NextHopInfo I))
    (info : NextHopInfo I) (h : (l.map (fun c => c.to_)).Nodup) :
    ((insertNextHopInfo P l info).map (fun c => c.to_)).Nodup := by
  rcases insertNextHopInfo_cases P l info with ⟨_, he⟩ | ⟨_, hf, he⟩ | ⟨_, e, _, _, he⟩ |
    ⟨_, e, _, _, he⟩
  · rw [he]; exact h
  · rw [he]
    have hp := (insertAtPos_perm l (upper_bound (hopLt P) l info) info).map (fun c => c.to_)
    rw [hp.nodup_iff, List.map_cons, List.nodup_cons]
    exact ⟨find_none_not_dest l info.to_ hf, h⟩
  · rw [he]
    have hp := (insertAtPos_perm (l.eraseP (fun i => i.to_ == info.to_))
      (upper_bound (hopLt P) (l.eraseP (fun i => i.to_ == info.to_)) info) info).map
        (fun c => c.to_)
    rw [hp.nodup_iff, List.map_cons, List.nodup_cons]
    refine ⟨not_dest_eraseP l info.to_ h, ?_⟩
    exact List.Nodup.sublist ((List.eraseP_sublist l).map _) h
  · rw [he]; exact h

/-! ### The two loops of the body as a sequence of insertions -/

theorem consumerLoop_eq (P : Propagator I) (replayed : List TensorView)
    (next_hop : NextHopInfo I) (cs : List TensorView) (l : List (NextHopInfo I)) :
    consumerLoop P replayed next_hop cs l =
      insertAll P l ((cs.filter (fun t => decide (t ∉ replayed))).map
        (consumerHop P next_hop)) := by
  induction cs generalizing l with
  | nil => rfl
  | cons c rest ih =>
    by_cases hc : c ∈ replayed
    · simp only [consumerLoop, hc, if_true, ih]
      simp [List.filter_cons, hc]
    · simp only [consumerLoop, hc, if_false, ih]
      simp [List.filter_cons, hc, insertAll, consumerHop]

theorem producerLoop_eq (P : Propagator I) (replayed : List TensorView)
    (next_hop : NextHopInfo I) (ps : List TensorView) (l : List (NextHopInfo I)) :
    producerLoop P replayed next_hop ps l =
      insertAll P l ((ps.filter (fun t => decide (t ∉ replayed))).map
        (producerHop P next_hop)) := by
  induction ps generalizing l with
  | nil => rfl
  | cons c rest ih =>
    by_cases hc : c ∈ replayed
    · simp only [producerLoop, hc, if_true, ih]
      simp [List.filter_cons, hc]
    · simp only [producerLoop, hc, if_false, ih]
      simp [List.filter_cons, hc, insertAll, producerHop]

theorem visit_propagation (P : Propagator I) (s : RunState I) (next_hop : NextHopInfo I)
    (rest : List (NextHopInfo I)) :
    (visit P s next_hop rest).propagation =
      insertAll P rest (hops P (emplace s.replayed next_hop.to_) next_hop) := by
  simp only [visit, consumerLoop_eq, producerLoop_eq, hops, insertAll, List.foldl_append]

theorem mem_insertAll (P : Propagator I) (infos l : List (NextHopInfo I)) (c : NextHopInfo I)
    (h : c ∈ insertAll P l infos) :
    c ∈ l ∨ (c ∈ infos ∧ infoFromNonzero P c = true) := by
  induction infos generalizing l with
  | nil => exact Or.inl h
  | cons i rest ih =>
    simp only [insertAll, List.foldl_cons] at h
    rcases ih _ h with h1 | ⟨h1, h2⟩
    · rcases mem_insertNextHopInfo P l i c h1 with h3 | ⟨h3, h4⟩
      · exact Or.inl h3
      · subst h3; exact Or.inr ⟨List.mem_cons_self _ _, h4⟩
    · exact Or.inr ⟨List.mem_cons_of_mem _ h1, h2⟩

theorem dest_insertAll (P : Propagator I) (infos l : List (NextHopInfo I)) (d : TensorView)
    (h : d ∈ l.map (fun c => c.to_)) : d ∈ (insertAll P l infos).map (fun c => c.to_) := by
  induction infos generalizing l with
  | nil => exact h
  | cons i rest ih =>
    simp only [insertAll, List.foldl_cons]
    exact ih _ (dest_insertNextHopInfo P l i d h)

theorem covers_insertAll (P : Propagator I) (infos l : List (NextHopInfo I))
    (info : NextHopInfo I) (hi : info ∈ infos) (hnz : infoFromNonzero P info = true) :
    info.to_ ∈ (insertAll P l infos).map (fun c => c.to_) := by
  induction infos generalizing l with
  | nil => simp at hi
  | cons i rest ih =>
    simp only [insertAll, List.foldl_cons]
    rcases List.mem_cons.1 hi with h | h
    · subst h
      exact dest_insertAll P rest _ _ (dest_of_insertNextHopInfo P l info hnz)
    · exact ih _ h

theorem nodup_insertAll (P : Propagator I) (infos l : List (NextHopInfo I))
    (h : (l.map (fun c => c.to_)).Nodup) :
    ((insertAll P l infos).map (fun c => c.to_)).Nodup := by
  induction infos generalizing l with
  | nil => exact h
  | cons i rest ih =>
    simp only [insertAll, List.foldl_cons]
    exact ih _ (nodup_insertNextHopInfo P l i h)

/-- What is known of every proposal of one iteration. -/
theorem mem_hops (P : Propagator I) (replayed : List TensorView) (next_hop c : NextHopInfo I)
    (h : c ∈ hops P replayed next_hop) :
    c.to_ ∉ replayed ∧ c.from_ = some next_hop.to_ ∧ c.info_from = some next_hop.info_to ∧
      (c.to_ ∈ P.consumerTvsOf next_hop.to_ ∨ c.to_ ∈ P.producerTvsOf next_hop.to_) := by
  unfold hops at h
  rcases List.mem_append.1 h with h | h
  · rcases List.mem_map.1 h with ⟨t, ht, rfl⟩
    rcases List.mem_filter.1 ht with ⟨ht1, ht2⟩
    exact ⟨by simpa using ht2, rfl, rfl, Or.inl ht1⟩
  · rcases List.mem_map.1 h with ⟨t, ht, rfl⟩
    rcases List.mem_filter.1 ht with ⟨ht1, ht2⟩
    exact ⟨by simpa using ht2, rfl, rfl, Or.inr ht1⟩

theorem hops_cover (P : Propagator I) (replayed : List TensorView) (next_hop : NextHopInfo I)
    (n : TensorView)
    (hn : n ∈ P.consumerTvsOf next_hop.to_ ∨ n ∈ P.producerTvsOf next_hop.to_)
    (hr : n ∉ replayed) :
    ∃ c ∈ hops P replayed next_hop, c.to_ = n ∧ c.info_from = some next_hop.info_to := by
  unfold hops
  rcases hn with hn | hn
  · refine ⟨consumerHop P next_hop n, List.mem_append.2 (Or.inl ?_), rfl, rfl⟩
    exact List.mem_map.2 ⟨n, List.mem_filter.2 ⟨hn, by simpa using hr⟩, rfl⟩
  · refine ⟨producerHop P next_hop n, List.mem_append.2 (Or.inr ?_), rfl, rfl⟩
    exact List.mem_map.2 ⟨n, List.mem_filter.2 ⟨hn, by simpa using hr⟩, rfl⟩

/-! ### The loop invariant -/

theorem inv_initial (P : Propagator I) (reference : TensorView) (reference_info : I) :
    Inv P (initial reference reference_info) := by
  refine ⟨rfl, List.nodup_nil, by simp [initial], by simp [initial], by simp [initial], ?_, ?_,
    rfl⟩
  · intro c hc f hf
    simp only [initial, List.mem_singleton, List.not_mem_nil, or_false] at hc
    subst hc
    cases hf
  · intro c hc f hf
    simp only [initial, List.mem_singleton, List.not_mem_nil, or_false] at hc
    subst hc
    cases hf

theorem propagation_split (s : RunState I) (next_hop : NextHopInfo I)
    (h : s.propagation.getLast? = some next_hop) :
    s.propagation = s.propagation.dropLast ++ [next_hop] :=
  (List.dropLast_append_getLast? next_hop h).symm

theorem inv_visit (P : Propagator I) (s : RunState I) (next_hop : NextHopInfo I)
    (h : s.propagation.getLast? = some next_hop) (hs : Inv P s) :
    Inv P (visit P s next_hop s.propagation.dropLast) ∧
      next_hop.to_ ∉ s.replayed ∧
      (visit P s next_hop s.propagation.dropLast).replayed = s.replayed ++ [next_hop.to_] := by
  have hsplit := propagation_split s next_hop h
  have hmem : next_hop ∈ s.propagation := by rw [hsplit]; simp
  have hfresh : next_hop.to_ ∉ s.replayed := hs.fresh next_hop hmem
  have hnd := hs.dests_nodup
  rw [hsplit, List.map_append, List.nodup_append] at hnd
  have hrest_nd : (s.propagation.dropLast.map (fun c => c.to_)).Nodup := hnd.1
  have hnot : next_hop.to_ ∉ s.propagation.dropLast.map (fun c => c.to_) := by
    intro hm
    exact hnd.2.2 hm (by simp)
  have hrep : emplace s.replayed next_hop.to_ = s.replayed ++ [next_hop.to_] := by
    simp [emplace, hfresh]
  have hprop := visit_propagation P s next_hop s.propagation.dropLast
  have hreplayed : (visit P s next_hop s.propagation.dropLast).replayed =
      s.replayed ++ [next_hop.to_] := by simp [visit, hrep]
  have hpopped : (visit P s next_hop s.propagation.dropLast).popped =
      s.popped ++ [next_hop] := rfl
  refine ⟨⟨?_, ?_, ?_, ?_, ?_, ?_, ?_, ?_⟩, hfresh, hreplayed⟩
  · rw [hreplayed, hpopped, hs.replayed_eq]; simp
  · rw [hreplayed]
    exact List.Nodup.append hs.replayed_nodup (List.nodup_singleton _)
      (by
        intro a ha hb
        rw [List.mem_singleton] at hb
        subst hb
        exact hfresh ha)
  · rw [hprop]; exact nodup_insertAll P _ _ hrest_nd
  · intro c hc
    rw [hprop] at hc
    rw [hreplayed]
    rcases mem_insertAll P _ _ c hc with h1 | ⟨h1, _⟩
    · intro hm
      rcases List.mem_append.1 hm with hm | hm
      · exact hs.fresh c (List.mem_of_mem_dropLast h1) hm
      · rw [List.mem_singleton] at hm
        exact hnot (by rw [← hm]; exact List.mem_map_of_mem _ h1)
    · have := (mem_hops P _ next_hop c h1).1
      rw [hrep] at this
      exact this
  · intro v hv hnz n hn
    rw [hreplayed, hprop]
    rw [hpopped] at hv
    rcases List.mem_append.1 hv with hv | hv
    · rcases hs.closed v hv hnz n hn with h1 | h1
      · exact Or.inl (List.mem_append_left _ h1)
      · rw [hsplit, List.map_append, List.mem_append] at h1
        rcases h1 with h1 | h1
        · exact Or.inr (dest_insertAll P _ _ n h1)
        · simp only [List.map_cons, List.map_nil, List.mem_singleton] at h1
          exact Or.inl (by rw [h1]; simp)
    · rw [List.mem_singleton] at hv
      subst hv
      by_cases hr : n ∈ s.replayed ++ [v.to_]
      · exact Or.inl hr
      · right
        rcases hops_cover P (s.replayed ++ [v.to_]) v n hn hr with ⟨c, hc, hcn, hcf⟩
        rw [← hcn, hrep]
        exact covers_insertAll P _ _ c hc (by simp [infoFromNonzero, hcf, hnz])
  · intro c hc f hf
    rcases hc with hc | hc
    · rw [hprop] at hc
      rcases mem_insertAll P _ _ c hc with h1 | ⟨_, h2⟩
      · exact hs.source c (Or.inl (List.mem_of_mem_dropLast h1)) f hf
      · exact h2
    · rw [hpopped] at hc
      rcases List.mem_append.1 hc with hc | hc
      · exact hs.source c (Or.inr hc) f hf
      · rw [List.mem_singleton] at hc
        subst hc
        exact hs.source c (Or.inl hmem) f hf
  · intro c hc f hf
    rw [hpopped]
    have hold : ∀ c, c ∈ s.propagation ∨ c ∈ s.popped → ∀ f, c.from_ = some f →
        ∃ v ∈ s.popped ++ [next_hop], v.to_ = f ∧ c.info_from = some v.info_to ∧
          (c.to_ ∈ P.consumerTvsOf f ∨ c.to_ ∈ P.producerTvsOf f) := by
      intro c hc f hf
      rcases hs.origin c hc f hf with ⟨v, hv, h1⟩
      exact ⟨v, List.mem_append_left _ hv, h1⟩
    rcases hc with hc | hc
    · rw [hprop] at hc
      rcases mem_insertAll P _ _ c hc with h1 | ⟨h1, _⟩
      · exact hold c (Or.inl (List.mem_of_mem_dropLast h1)) f hf
      · have hm := mem_hops P _ next_hop c h1
        rw [hm.2.1] at hf
        simp only [Option.some.injEq] at hf
        subst hf
        exact ⟨next_hop, by simp, rfl, hm.2.2.1, hm.2.2.2⟩
    · rw [hpopped] at hc
      rcases List.mem_append.1 hc with hc | hc
      · exact hold c (Or.inr hc) f hf
      · rw [List.mem_singleton] at hc
        subst hc
        exact hold c (Or.inl hmem) f hf
  · rw [hpopped, List.filterMap_append, ← hs.calls_eq]
    simp only [visit]
    cases hfr : next_hop.from_ <;> simp [callOf, hfr]

theorem inv_iteration (P : Propagator I) (s : RunState I) (hs : Inv P s) :
    Inv P (iteration P s) := by
  unfold iteration
  cases h : s.propagation.getLast? with
  | none => exact hs
  | some next_hop => exact (inv_visit P s next_hop h hs).1

theorem inv_stateAfter (P : Propagator I) (reference : TensorView) (reference_info : I)
    (n : Nat) : Inv P (stateAfter P reference reference_info n) := by
  induction n with
  | zero => exact inv_initial P reference reference_info
  | succ k ih => exact inv_iteration P _ ih

/-! ### Termination -/

theorem iteration_of_empty (P : Propagator I) (s : RunState I) (h : s.propagation = []) :
    iteration P s = s := by
  simp [iteration, h]

theorem getLast_of_ne_nil (l : List (NextHopInfo I)) (h : l ≠ []) :
    ∃ c, l.getLast? = some c := by
  cases hl : l.getLast? with
  | none => exact absurd (List.getLast?_eq_none_iff.1 hl) h
  | some c => exact ⟨c, rfl⟩

theorem stateAfter_eq_iterate (P : Propagator I) (reference : TensorView) (reference_info : I)
    (n : Nat) :
    stateAfter P reference reference_info n =
      (iteration P)^[n] (initial reference reference_info) := by
  induction n with
  | zero => rfl
  | succ k ih => rw [Function.iterate_succ_apply', ← ih]; rfl

theorem iterate_of_empty (P : Propagator I) (s : RunState I) (h : s.propagation = [])
    (n : Nat) : (iteration P)^[n] s = s := by
  induction n with
  | zero => rfl
  | succ k ih => rw [Function.iterate_succ_apply, iteration_of_empty P s h, ih]

theorem runLoop_of_empty (P : Propagator I) (n : Nat) (s : RunState I)
    (h : ((iteration P)^[n] s).propagation = []) :
    runLoop P n s = some ((iteration P)^[n] s) := by
  induction n generalizing s with
  | zero =>
    simp only [Function.iterate_zero, id_eq] at h
    simp [runLoop, h]
  | succ k ih =>
    by_cases he : s.propagation = []
    · rw [iterate_of_empty P s he]
      simp [runLoop, he]
    · rw [Function.iterate_succ_apply] at h ⊢
      have : runLoop P (k + 1) s = runLoop P k (iteration P s) := by
        simp [runLoop, he]
      rw [this]
      exact ih _ h

theorem run_of_empty (P : Propagator I) (reference : TensorView) (reference_info : I) (n : Nat)
    (h : (stateAfter P reference reference_info n).propagation = []) :
    run P reference reference_info n = some (stateAfter P reference reference_info n) := by
  rw [stateAfter_eq_iterate] at h ⊢
  exact runLoop_of_empty P n _ h

theorem stateAfter_nonempty_pred (P : Propagator I) (reference : TensorView)
    (reference_info : I) (n : Nat)
    (h : (stateAfter P reference reference_info (n + 1)).propagation ≠ []) :
    (stateAfter P reference reference_info n).propagation ≠ [] := by
  intro he
  apply h
  show (iteration P (stateAfter P reference reference_info n)).propagation = []
  rw [iteration_of_empty P _ he]
  exact he

theorem iteration_popped (P : Propagator I) (s : RunState I) (h : s.propagation ≠ []) :
    (iteration P s).popped.length = s.popped.length + 1 := by
  rcases getLast_of_ne_nil _ h with ⟨c, hc⟩
  simp [iteration, hc, visit]

theorem popped_length (P : Propagator I) (reference : TensorView) (reference_info : I)
    (n : Nat) (h : (stateAfter P reference reference_info n).propagation ≠ []) :
    (stateAfter P reference reference_info n).popped.length = n := by
  induction n with
  | zero => rfl
  | succ k ih =>
    have hk := stateAfter_nonempty_pred P reference reference_info k h
    show (iteration P (stateAfter P reference reference_info k)).popped.length = k + 1
    rw [iteration_popped P _ hk, ih hk]

theorem inU_initial (U : TensorView → Prop) (reference : TensorView) (reference_info : I)
    (h : U reference) : InU U (initial reference reference_info) := by
  intro c hc
  simp only [initial, List.mem_singleton] at hc
  subst hc
  exact h

theorem inU_iteration (P : Propagator I) (U : TensorView → Prop)
    (hclosed : ∀ t, U t → ∀ n, n ∈ P.consumerTvsOf t ∨ n ∈ P.producerTvsOf t → U n)
    (s : RunState I) (hs : InU U s) : InU U (iteration P s) := by
  unfold iteration
  cases h : s.propagation.getLast? with
  | none => exact hs
  | some next_hop =>
    have hsplit := propagation_split s next_hop h
    have hmem : next_hop ∈ s.propagation := by rw [hsplit]; simp
    intro c hc
    show U c.to_
    rw [visit_propagation] at hc
    rcases mem_insertAll P _ _ c hc with h1 | ⟨h1, _⟩
    · exact hs c (List.mem_of_mem_dropLast h1)
    · exact hclosed _ (hs next_hop hmem) _ (mem_hops P _ next_hop c h1).2.2.2

theorem inU_stateAfter (P : Propagator I) (U : TensorView → Prop)
    (hclosed : ∀ t, U t → ∀ n, n ∈ P.consumerTvsOf t ∨ n ∈ P.producerTvsOf t → U n)
    (reference : TensorView) (reference_info : I) (h : U reference) (n : Nat) :
    InU U (stateAfter P reference reference_info n) := by
  induction n with
  | zero => exact inU_initial U reference reference_info h
  | succ k ih => exact inU_iteration P U hclosed _ ih

/-- Every replayed tensor was a destination held by the list, so it satisfies `U`. -/
theorem replayed_inU (P : Propagator I) (U : TensorView → Prop)
    (hclosed : ∀ t, U t → ∀ n, n ∈ P.consumerTvsOf t ∨ n ∈ P.producerTvsOf t → U n)
    (reference : TensorView) (reference_info : I) (h : U reference) (n : Nat) :
    ∀ t ∈ (stateAfter P reference reference_info n).replayed, U t := by
  induction n with
  | zero => intro t ht; simp [stateAfter, initial] at ht
  | succ k ih =>
    intro t ht
    change t ∈ (iteration P (stateAfter P reference reference_info k)).replayed at ht
    unfold iteration at ht
    cases hl : (stateAfter P reference reference_info k).propagation.getLast? with
    | none => rw [hl] at ht; exact ih t ht
    | some next_hop =>
      rw [hl] at ht
      have hv := inv_visit P _ next_hop hl (inv_stateAfter P reference reference_info k)
      simp only [] at ht
      rw [hv.2.2] at ht
      rcases List.mem_append.1 ht with ht | ht
      · exact ih t ht
      · rw [List.mem_singleton] at ht
        subst ht
        have hsplit := propagation_split _ next_hop hl
        exact inU_stateAfter P U hclosed reference reference_info h k next_hop
          (by rw [hsplit]; simp)

theorem nodup_subset_length (l tvs : List TensorView) (hnd : l.Nodup)
    (hsub : ∀ t ∈ l, t ∈ tvs) : l.length ≤ tvs.dedup.length := by
  have h1 : l.Subperm tvs.dedup :=
    List.Nodup.subperm hnd (fun t ht => List.mem_dedup.2 (hsub t ht))
  exact h1.length_le

/-- On a finite graph the list is empty after as many iterations as there are tensors. -/
theorem empty_after_all (P : Propagator I) (tvs : List TensorView) (reference : TensorView)
    (reference_info : I) (href : reference ∈ tvs)
    (hclosed : ∀ t ∈ tvs, ∀ n, n ∈ P.consumerTvsOf t ∨ n ∈ P.producerTvsOf t → n ∈ tvs) :
    (stateAfter P reference reference_info tvs.dedup.length).propagation = [] := by
  by_contra hne
  have hlen := popped_length P reference reference_info _ hne
  have hinv := inv_stateAfter P reference reference_info tvs.dedup.length
  rcases getLast_of_ne_nil _ hne with ⟨c, hc⟩
  have hsplit := propagation_split _ c hc
  have hcm : c ∈ (stateAfter P reference reference_info tvs.dedup.length).propagation := by
    rw [hsplit]; simp
  have hcU : c.to_ ∈ tvs :=
    inU_stateAfter P (fun t => t ∈ tvs) hclosed reference reference_info href _ c hcm
  have hfresh := hinv.fresh c hcm
  have hnd : ((stateAfter P reference reference_info tvs.dedup.length).replayed ++
      [c.to_]).Nodup :=
    List.Nodup.append hinv.replayed_nodup (List.nodup_singleton _)
      (by
        intro a ha hb
        rw [List.mem_singleton] at hb
        subst hb
        exact hfresh ha)
  have hsub : ∀ t ∈ (stateAfter P reference reference_info tvs.dedup.length).replayed ++
      [c.to_], t ∈ tvs := by
    intro t ht
    rcases List.mem_append.1 ht with ht | ht
    · exact replayed_inU P (fun t => t ∈ tvs) hclosed reference reference_info href _ t ht
    · rw [List.mem_singleton] at ht
      subst ht
      exact hcU
  have hle := nodup_subset_length _ tvs hnd hsub
  rw [List.length_append, hinv.replayed_eq, List.length_map, hlen] at hle
  simp at hle

/-! ### Sortedness of the candidate list -/

theorem lt_asymm_of (P : Propagator I) (hS : StrictWeak P) (a b : I) (h : P.lt a b = true) :
    P.lt b a = false := by
  cases hba : P.lt b a with
  | false => rfl
  | true =>
    have := hS.trans a b a h hba
    rw [hS.irrefl a] at this
    cases this

theorem insertAtPos_cons_zero (e : NextHopInfo I) (rest : List (NextHopInfo I))
    (v : NextHopInfo I) : insertAtPos (e :: rest) 0 v = v :: e :: rest := by
  simp [insertAtPos]

theorem insertAtPos_cons_succ (e : NextHopInfo I) (rest : List (NextHopInfo I)) (k : Nat)
    (v : NextHopInfo I) : insertAtPos (e :: rest) (k + 1) v = e :: insertAtPos rest k v := by
  simp [insertAtPos]

theorem sorted_insertAtPos (P : Propagator I) (hS : StrictWeak P) (l : List (NextHopInfo I))
    (v : NextHopInfo I) (h : SortedHops P l) :
    SortedHops P (insertAtPos l (upper_bound (hopLt P) l v) v) := by
  induction l with
  | nil => simp [SortedHops, upper_bound, insertAtPos]
  | cons e rest ih =>
    unfold SortedHops at h
    rw [List.pairwise_cons] at h
    by_cases hlt : hopLt P v e = true
    · have hub : upper_bound (hopLt P) (e :: rest) v = 0 := by simp [upper_bound, hlt]
      rw [hub, insertAtPos_cons_zero]
      unfold SortedHops
      rw [List.pairwise_cons, List.pairwise_cons]
      refine ⟨?_, h⟩
      intro x hx
      rcases List.mem_cons.1 hx with hx | hx
      · subst hx
        exact lt_asymm_of P hS _ _ hlt
      · have hxe := h.1 x hx
        cases hxv : hopLt P x v with
        | false => rfl
        | true =>
          have := hS.trans _ _ _ hxv hlt
          unfold hopLt at hxe
          rw [hxe] at this
          cases this
    · have hlt2 : hopLt P v e = false := by simpa using hlt
      have hub : upper_bound (hopLt P) (e :: rest) v = upper_bound (hopLt P) rest v + 1 := by
        simp [upper_bound, hlt2]
      rw [hub, insertAtPos_cons_succ]
      unfold SortedHops
      rw [List.pairwise_cons]
      refine ⟨?_, ih h.2⟩
      intro y hy
      rcases (mem_insertAtPos _ _ _ _).1 hy with hy | hy
      · subst hy; exact hlt2
      · exact h.1 y hy

theorem sorted_insertNextHopInfo (P : Propagator I) (hS : StrictWeak P)
    (l : List (NextHopInfo I)) (info : NextHopInfo I) (h : SortedHops P l) :
    SortedHops P (insertNextHopInfo P l info) := by
  rcases insertNextHopInfo_cases P l info with ⟨_, he⟩ | ⟨_, _, he⟩ | ⟨_, e, _, _, he⟩ |
    ⟨_, e, _, _, he⟩
  · rw [he]; exact h
  · rw [he]; exact sorted_insertAtPos P hS l info h
  · rw [he]
    exact sorted_insertAtPos P hS _ info (List.Pairwise.sublist (List.eraseP_sublist l) h)
  · rw [he]; exact h

theorem sorted_insertAll (P : Propagator I) (hS : StrictWeak P)
    (infos l : List (NextHopInfo I)) (h : SortedHops P l) :
    SortedHops P (insertAll P l infos) := by
  induction infos generalizing l with
  | nil => exact h
  | cons i rest ih =>
    simp only [insertAll, List.foldl_cons]
    exact ih _ (sorted_insertNextHopInfo P hS l i h)

theorem sorted_iteration (P : Propagator I) (hS : StrictWeak P) (s : RunState I)
    (h : SortedHops P s.propagation) : SortedHops P (iteration P s).propagation := by
  unfold iteration
  cases hl : s.propagation.getLast? with
  | none => exact h
  | some next_hop =>
    show SortedHops P (visit P s next_hop s.propagation.dropLast).propagation
    rw [visit_propagation]
    exact sorted_insertAll P hS _ _ (List.Pairwise.sublist (List.dropLast_sublist _) h)

theorem sorted_stateAfter (P : Propagator I) (hS : StrictWeak P) (reference : TensorView)
    (reference_info : I) (n : Nat) :
    SortedHops P (stateAfter P reference reference_info n).propagation := by
  induction n with
  | zero => simp [stateAfter, initial, SortedHops]
  | succ k ih => exact sorted_iteration P hS _ ih

/-- In a strict weak order, `v < x` gives `v < z` or `z < x` for every `z`. -/
theorem lt_cotrans (P : Propagator I) (hS : StrictWeak P) (v x z : I)
    (h : P.lt v x = true) (hzx : P.lt z x = false) : P.lt v z = true := by
  cases hvz : P.lt v z with
  | true => rfl
  | false =>
    have hzv : P.lt z v = false := by
      cases hzv : P.lt z v with
      | false => rfl
      | true =>
        have := hS.trans _ _ _ hzv h
        rw [hzx] at this
        cases this
    have hxz : P.lt x z = false := by
      cases hxz : P.lt x z with
      | false => rfl
      | true =>
        have := hS.trans _ _ _ h hxz
        rw [hvz] at this
        cases this
    have := (hS.incomp v z x hvz hzv hzx hxz).1
    rw [h] at this
    cases this

/-- A sorted list is partitioned with respect to `value < element` for every value, which is
what `std::upper_bound` requires of its range. -/
theorem sorted_partitioned (P : Propagator I) (hS : StrictWeak P)
    (l : List (NextHopInfo I)) (h : SortedHops P l) (v : NextHopInfo I)
    (pre post : List (NextHopInfo I)) (e : NextHopInfo I) (hl : l = pre ++ e :: post)
    (hve : hopLt P v e = true) : ∀ z ∈ post, hopLt P v z = true := by
  intro z hz
  unfold SortedHops at h
  rw [hl, List.pairwise_append] at h
  have hze : hopLt P z e = false := (List.pairwise_cons.1 h.2.1).1 z hz
  exact lt_cotrans P hS _ _ _ hve hze

/-! ### Independence of the part of the graph that is not reached -/

theorem insertNextHopInfo_congr (P Q : Propagator I) (hlt : ∀ a b, P.lt a b = Q.lt a b)
    (hnz : ∀ a, P.nonzero a = Q.nonzero a) (l : List (NextHopInfo I)) (info : NextHopInfo I) :
    insertNextHopInfo P l info = insertNextHopInfo Q l info := by
  have h1 : hopLt P = hopLt Q := by
    funext a b
    exact hlt _ _
  have h2 : infoFromNonzero P info = infoFromNonzero Q info := by
    unfold infoFromNonzero
    cases info.info_from with
    | none => rfl
    | some i => exact hnz i
  unfold insertNextHopInfo
  rw [h1, h2]

theorem insertAll_congr (P Q : Propagator I) (hlt : ∀ a b, P.lt a b = Q.lt a b)
    (hnz : ∀ a, P.nonzero a = Q.nonzero a) (infos l : List (NextHopInfo I)) :
    insertAll P l infos = insertAll Q l infos := by
  induction infos generalizing l with
  | nil => rfl
  | cons i rest ih =>
    simp only [insertAll, List.foldl_cons]
    rw [insertNextHopInfo_congr P Q hlt hnz]
    exact ih _

theorem iteration_congr (P Q : Propagator I) (U : TensorView → Prop)
    (hlt : ∀ a b, P.lt a b = Q.lt a b) (hnz : ∀ a, P.nonzero a = Q.nonzero a)
    (hc : ∀ t, U t → P.consumerTvsOf t = Q.consumerTvsOf t)
    (hp : ∀ t, U t → P.producerTvsOf t = Q.producerTvsOf t)
    (hcp : ∀ t, U t → ∀ u i, P.computeInfoCasP t u i = Q.computeInfoCasP t u i)
    (hpc : ∀ t, U t → ∀ u i, P.computeInfoPasC t u i = Q.computeInfoPasC t u i)
    (s : RunState I) (hs : InU U s) : iteration P s = iteration Q s := by
  unfold iteration
  cases hl : s.propagation.getLast? with
  | none => rfl
  | some next_hop =>
    have hsplit := propagation_split s next_hop hl
    have hU : U next_hop.to_ := hs next_hop (by rw [hsplit]; simp)
    have hhops : ∀ r, hops P r next_hop = hops Q r next_hop := by
      intro r
      have e1 : consumerHop P next_hop = consumerHop Q next_hop := by
        funext t
        simp [consumerHop, hcp _ hU]
      have e2 : producerHop P next_hop = producerHop Q next_hop := by
        funext t
        simp [producerHop, hpc _ hU]
      unfold hops
      rw [hc _ hU, hp _ hU, e1, e2]
    have hprop := visit_propagation P s next_hop s.propagation.dropLast
    have hprop2 := visit_propagation Q s next_hop s.propagation.dropLast
    rw [hhops, insertAll_congr P Q hlt hnz] at hprop
    have : (visit P s next_hop s.propagation.dropLast).propagation =
        (visit Q s next_hop s.propagation.dropLast).propagation := by
      rw [hprop, hprop2]
    show visit P s next_hop s.propagation.dropLast = visit Q s next_hop s.propagation.dropLast
    have hv : ∀ R : Propagator I, visit R s next_hop s.propagation.dropLast =
        { replayed := emplace s.replayed next_hop.to_
          propagation := (visit R s next_hop s.propagation.dropLast).propagation
          calls := (match next_hop.from_ with
            | some f => s.calls ++ [{ type := next_hop.type, from_ := f, to_ := next_hop.to_ }]
            | none => s.calls)
          popped := s.popped ++ [next_hop] } := fun _ => rfl
    rw [hv P, hv Q, this]

theorem stateAfter_congr (P Q : Propagator I) (U : TensorView → Prop)
    (reference : TensorView) (reference_info : I) (href : U reference)
    (hclosed : ∀ t, U t → ∀ n, n ∈ P.consumerTvsOf t ∨ n ∈ P.producerTvsOf t → U n)
    (hlt : ∀ a b, P.lt a b = Q.lt a b) (hnz : ∀ a, P.nonzero a = Q.nonzero a)
    (hc : ∀ t, U t → P.consumerTvsOf t = Q.consumerTvsOf t)
    (hp : ∀ t, U t → P.producerTvsOf t = Q.producerTvsOf t)
    (hcp : ∀ t, U t → ∀ u i, P.computeInfoCasP t u i = Q.computeInfoCasP t u i)
    (hpc : ∀ t, U t → ∀ u i, P.computeInfoPasC t u i = Q.computeInfoPasC t u i) (n : Nat) :
    stateAfter P reference reference_info n = stateAfter Q reference reference_info n := by
  induction n with
  | zero => rfl
  | succ k ih =>
    show iteration P (stateAfter P reference reference_info k) =
      iteration Q (stateAfter Q reference reference_info k)
    rw [← ih]
    exact iteration_congr P Q U hlt hnz hc hp hcp hpc _
      (inU_stateAfter P U hclosed reference reference_info href k)

theorem runLoop_congr (P Q : Propagator I) (U : TensorView → Prop)
    (hclosed : ∀ t, U t → ∀ n, n ∈ P.consumerTvsOf t ∨ n ∈ P.producerTvsOf t → U n)
    (hlt : ∀ a b, P.lt a b = Q.lt a b) (hnz : ∀ a, P.nonzero a = Q.nonzero a)
    (hc : ∀ t, U t → P.consumerTvsOf t = Q.consumerTvsOf t)
    (hp : ∀ t, U t → P.producerTvsOf t = Q.producerTvsOf t)
    (hcp : ∀ t, U t → ∀ u i, P.computeInfoCasP t u i = Q.computeInfoCasP t u i)
    (hpc : ∀ t, U t → ∀ u i, P.computeInfoPasC t u i = Q.computeInfoPasC t u i)
    (fuel : Nat) (s : RunState I) (hs : InU U s) : runLoop P fuel s = runLoop Q fuel s := by
  induction fuel generalizing s with
  | zero => rfl
  | succ k ih =>
    simp only [runLoop]
    rw [← iteration_congr P Q U hlt hnz hc hp hcp hpc s hs]
    rw [ih _ (inU_iteration P U hclosed s hs)]

/-- The only candidate without a source is the synthetic hop into the reference. -/
theorem seed_only (P : Propagator I) (reference : TensorView) (reference_info : I) (n : Nat)
    (c : NextHopInfo I)
    (hc : c ∈ (stateAfter P reference reference_info n).propagation ∨
      c ∈ (stateAfter P reference reference_info n).popped)
    (hf : c.from_ = none) : c.to_ = reference := by
  induction n generalizing c with
  | zero =>
    simp only [stateAfter, initial, List.mem_singleton, List.not_mem_nil, or_false] at hc
    rw [hc]
  | succ k ih =>
    change c ∈ (iteration P (stateAfter P reference reference_info k)).propagation ∨
      c ∈ (iteration P (stateAfter P reference reference_info k)).popped at hc
    unfold iteration at hc
    cases hl : (stateAfter P reference reference_info k).propagation.getLast? with
    | none => rw [hl] at hc; exact ih c hc hf
    | some next_hop =>
      rw [hl] at hc
      simp only [] at hc
      have hsplit := propagation_split _ next_hop hl
      rcases hc with hc | hc
      · rw [visit_propagation] at hc
        rcases mem_insertAll P _ _ c hc with h1 | ⟨h1, _⟩
        · exact ih c (Or.inl (List.mem_of_mem_dropLast h1)) hf
        · have := (mem_hops P _ next_hop c h1).2.1
          rw [hf] at this
          cases this
      · have hpopped : (visit P (stateAfter P reference reference_info k) next_hop
            (stateAfter P reference reference_info k).propagation.dropLast).popped =
            (stateAfter P reference reference_info k).popped ++ [next_hop] := rfl
        rw [hpopped] at hc
        rcases List.mem_append.1 hc with hc | hc
        · exact ih c (Or.inr hc) hf
        · rw [List.mem_singleton] at hc
          subst hc
          exact ih c (Or.inl (by rw [hsplit]; simp)) hf

/-- The reference is replayed or still has its candidate. -/
theorem reference_tracked (P : Propagator I) (reference : TensorView) (reference_info : I)
    (n : Nat) :
    reference ∈ (stateAfter P reference reference_info n).replayed ∨
      reference ∈ (stateAfter P reference reference_info n).propagation.map
        (fun c => c.to_) := by
  induction n with
  | zero => right; simp [stateAfter, initial]
  | succ k ih =>
    show reference ∈ (iteration P (stateAfter P reference reference_info k)).replayed ∨
      reference ∈ (iteration P (stateAfter P reference reference_info k)).propagation.map
        (fun c => c.to_)
    unfold iteration
    cases hl : (stateAfter P reference reference_info k).propagation.getLast? with
    | none => exact ih
    | some next_hop =>
      have hv := inv_visit P _ next_hop hl (inv_stateAfter P reference reference_info k)
      have hsplit := propagation_split _ next_hop hl
      simp only []
      rw [hv.2.2, visit_propagation]
      rcases ih with h | h
      · exact Or.inl (List.mem_append_left _ h)
      · rw [hsplit, List.map_append, List.mem_append] at h
        rcases h with h | h
        · exact Or.inr (dest_insertAll P _ _ _ h)
        · simp only [List.map_cons, List.map_nil, List.mem_singleton] at h
          exact Or.inl (by rw [h]; simp)

/-! ### The root-domain information order -/

theorem RootDomainInfo.lt_iff (x y : RootDomainInfo) :
    RootDomainInfo.lt x y = true ↔
      x.info.length < y.info.length ∨
        (x.info.length = y.info.length ∧
          x.info.countP (fun i => i.is_complete) < y.info.countP (fun i => i.is_complete)) := by
  unfold RootDomainInfo.lt
  by_cases h : x.info.length = y.info.length
  · simp [h]
  · simp [h]

theorem RootDomainInfo.lt_false_iff (x y : RootDomainInfo) :
    RootDomainInfo.lt x y = false ↔
      ¬ (x.info.length < y.info.length ∨
        (x.info.length = y.info.length ∧
          x.info.countP (fun i => i.is_complete) < y.info.countP (fun i => i.is_complete))) := by
  rw [← RootDomainInfo.lt_iff]
  simp

theorem strictWeak_of_rootDomain (P : Propagator RootDomainInfo)
    (h : P.lt = RootDomainInfo.lt) : StrictWeak P := by
  refine ⟨?_, ?_, ?_⟩
  · intro a
    rw [h, RootDomainInfo.lt_false_iff]
    omega
  · intro a b c
    rw [h, RootDomainInfo.lt_iff, RootDomainInfo.lt_iff, RootDomainInfo.lt_iff]
    omega
  · intro a b c
    rw [h]
    simp only [RootDomainInfo.lt_false_iff]
    omega

/-- The four tensors of the diamond are closed under consumers and producers. -/
theorem diamond_closed : ∀ t ∈ [0, 1, 2, 3], ∀ n,
    n ∈ diamond.consumerTvsOf t ∨ n ∈ diamond.producerTvsOf t → n ∈ [0, 1, 2, 3] := by
  intro t ht n hn
  rcases hn with hn | hn
  · exact (by decide : ∀ t ∈ [0, 1, 2, 3], ∀ n ∈ diamond.consumerTvsOf t, n ∈ [0, 1, 2, 3])
      t ht n hn
  · exact (by decide : ∀ t ∈ [0, 1, 2, 3], ∀ n ∈ diamond.producerTvsOf t, n ∈ [0, 1, 2, 3])
      t ht n hn

/-! ### The claims on `MaxInfoPropagator::run` -/

/-- C2, counterexample: in the chain `0 → 1 → 2` with reference 0, tensor 2 is reachable
through consumer edges, yet the run ends having visited tensors 0 and 1 only, because the
information that arrives at tensor 1 is empty and nothing is proposed from there. -/
theorem reachable_not_visited :
    Reachable chain3 0 2 ∧
      (run chain3 0 (mkInfo 2 2) 3).map (fun s => s.popped.map (fun c => c.to_)) =
        some [0, 1] := by
  refine ⟨?_, by decide⟩
  exact Reachable.consumer 1 2 (Reachable.consumer 0 1 Reachable.refl (by decide)) (by decide)

/-- C2, amended: on a finite graph the run ends; no tensor is the destination of two popped
candidates; the reference is visited; every consumer and producer of a tensor that was
visited with non-empty information is visited; and nothing else is visited: a visited tensor
is the reference or a consumer or producer of a tensor visited with non-empty information. -/
theorem run_visits (P : Propagator I) (tvs : List TensorView) (reference : TensorView)
    (reference_info : I) (href : reference ∈ tvs)
    (hclosed : ∀ t ∈ tvs, ∀ n, n ∈ P.consumerTvsOf t ∨ n ∈ P.producerTvsOf t → n ∈ tvs) :
    ∃ s, run P reference reference_info tvs.dedup.length = some s ∧
      (s.popped.map (fun c => c.to_)).Nodup ∧
      reference ∈ s.popped.map (fun c => c.to_) ∧
      (∀ v ∈ s.popped, P.nonzero v.info_to = true →
        ∀ n, n ∈ P.consumerTvsOf v.to_ ∨ n ∈ P.producerTvsOf v.to_ →
          n ∈ s.popped.map (fun c => c.to_)) ∧
      ∀ c ∈ s.popped, c.to_ = reference ∨
        ∃ v ∈ s.popped, P.nonzero v.info_to = true ∧
          (c.to_ ∈ P.consumerTvsOf v.to_ ∨ c.to_ ∈ P.producerTvsOf v.to_) := by
  have hempty := empty_after_all P tvs reference reference_info href hclosed
  have hinv := inv_stateAfter P reference reference_info tvs.dedup.length
  refine ⟨_, run_of_empty P reference reference_info _ hempty, ?_, ?_, ?_, ?_⟩
  rotate_right
  · intro c hc
    cases hf : c.from_ with
    | none => exact Or.inl (seed_only P reference reference_info _ c (Or.inr hc) hf)
    | some f =>
      right
      rcases hinv.origin c (Or.inr hc) f hf with ⟨v, hv, h1, h2, h3⟩
      have hnz := hinv.source c (Or.inr hc) f hf
      unfold infoFromNonzero at hnz
      rw [h2] at hnz
      refine ⟨v, hv, hnz, ?_⟩
      rw [h1]
      exact h3
  · rw [← hinv.replayed_eq]; exact hinv.replayed_nodup
  · rw [← hinv.replayed_eq]
    rcases reference_tracked P reference reference_info tvs.dedup.length with h | h
    · exact h
    · rw [hempty] at h; simp at h
  · intro v hv hnz n hn
    rw [← hinv.replayed_eq]
    rcases hinv.closed v hv hnz n hn with h | h
    · exact h
    · rw [hempty] at h; simp at h

/-- C2, witness on the diamond. -/
theorem run_visits_witness :
    ∃ s, run diamond 0 (mkInfo 2 2) [0, 1, 2, 3].dedup.length = some s ∧
      (s.popped.map (fun c => c.to_)).Nodup ∧
      (0 : TensorView) ∈ s.popped.map (fun c => c.to_) ∧
      (∀ v ∈ s.popped, diamond.nonzero v.info_to = true →
        ∀ n, n ∈ diamond.consumerTvsOf v.to_ ∨ n ∈ diamond.producerTvsOf v.to_ →
          n ∈ s.popped.map (fun c => c.to_)) ∧
      ∀ c ∈ s.popped, c.to_ = 0 ∨
        ∃ v ∈ s.popped, diamond.nonzero v.info_to = true ∧
          (c.to_ ∈ diamond.consumerTvsOf v.to_ ∨ c.to_ ∈ diamond.producerTvsOf v.to_) :=
  run_visits diamond [0, 1, 2, 3] 0 (mkInfo 2 2) (by decide) diamond_closed

/-- C3: with a strict weak information order, at every iteration the candidate list is sorted
in ascending order of information, the candidate at the back is not less than any candidate of
the list, and the list is partitioned for every value as `std::upper_bound` requires. -/
theorem propagation_sorted (P : Propagator I) (hS : StrictWeak P) (reference : TensorView)
    (reference_info : I) (n : Nat) :
    SortedHops P (stateAfter P reference reference_info n).propagation ∧
      (∀ next_hop, (stateAfter P reference reference_info n).propagation.getLast? =
          some next_hop →
        ∀ c ∈ (stateAfter P reference reference_info n).propagation,
          P.lt next_hop.info_to c.info_to = false) ∧
      (∀ v pre post e,
        (stateAfter P reference reference_info n).propagation = pre ++ e :: post →
          hopLt P v e = true → ∀ z ∈ post, hopLt P v z = true) := by
  have hsorted := sorted_stateAfter P hS reference reference_info n
  refine ⟨hsorted, ?_, ?_⟩
  · intro next_hop hl c hc
    have hsplit := propagation_split _ next_hop hl
    rw [hsplit] at hc hsorted
    unfold SortedHops at hsorted
    rw [List.pairwise_append] at hsorted
    rcases List.mem_append.1 hc with hc | hc
    · exact hsorted.2.2 c hc next_hop (by simp)
    · rw [List.mem_singleton] at hc
      subst hc
      exact hS.irrefl _
  · intro v pre post e hl hve
    exact sorted_partitioned P hS _ hsorted v pre post e hl hve

/-- C3, witness on the diamond, after the reference has been visited. -/
theorem propagation_sorted_witness :
    StrictWeak diamond ∧
      SortedHops diamond (stateAfter diamond 0 (mkInfo 2 2) 1).propagation :=
  ⟨strictWeak_of_rootDomain diamond rfl,
    (propagation_sorted diamond (strictWeak_of_rootDomain diamond rfl) 0 (mkInfo 2 2) 1).1⟩

/-- C4, counterexample: in the chain the proposal into tensor 1 carries empty information for
its destination, yet it is inserted into the candidate list (it is the list after the first
iteration) and tensor 1, which is not the reference, is visited with empty information. -/
theorem empty_proposal_inserted :
    (stateAfter chain3 0 (mkInfo 2 2) 1).propagation.map
        (fun c => (c.to_, chain3.nonzero c.info_to)) = [(1, false)] ∧
      (run chain3 0 (mkInfo 2 2) 3).map
        (fun s => s.popped.map (fun c => (c.to_, chain3.nonzero c.info_to))) =
          some [(0, true), (1, false)] := by
  decide

/-- C4, amended: a proposal is never inserted when the information of the tensor it starts
from is empty: at every iteration each candidate in the list and each candidate popped so far,
other than the synthetic hop into the reference, has a source whose information is not empty.
So no hop is taken out of a tensor visited with empty information. -/
theorem source_information_nonzero (P : Propagator I) (reference : TensorView)
    (reference_info : I) (n : Nat) (c : NextHopInfo I) :
    (c ∈ (stateAfter P reference reference_info n).propagation ∨
      c ∈ (stateAfter P reference reference_info n).popped) →
    ∀ f, c.from_ = some f → ∃ i, c.info_from = some i ∧ P.nonzero i = true := by
  intro hc f hf
  have h := (inv_stateAfter P reference reference_info n).source c hc f hf
  unfold infoFromNonzero at h
  cases hi : c.info_from with
  | none => rw [hi] at h; cases h
  | some i => rw [hi] at h; exact ⟨i, rfl, h⟩

/-- C4, witness: the candidate into tensor 1 of the chain. -/
theorem source_information_nonzero_witness :
    ∃ i, (consumerHop chain3
        { type := NextHopType.C_AS_P, from_ := none, to_ := 0, info_from := none,
          info_to := mkInfo 2 2 } 1).info_from = some i ∧
      chain3.nonzero i = true :=
  source_information_nonzero chain3 0 (mkInfo 2 2) 1
    (consumerHop chain3
      { type := NextHopType.C_AS_P, from_ := none, to_ := 0, info_from := none,
        info_to := mkInfo 2 2 } 1)
    (Or.inl (by decide)) 0 rfl

theorem fresh_insertAll (P : Propagator I) (r : List TensorView)
    (infos l : List (NextHopInfo I)) (hl : ∀ c ∈ l, c.to_ ∉ r)
    (hi : ∀ c ∈ infos, c.to_ ∉ r) : ∀ c ∈ insertAll P l infos, c.to_ ∉ r := by
  intro c hc
  rcases mem_insertAll P _ _ c hc with h | ⟨h, _⟩
  · exact hl c h
  · exact hi c h

/-- C5: at every iteration the candidate list holds no two candidates with the same
destination and no candidate whose destination is already replayed, and so does every list
between two insertions of the iteration; a proposal for a destination that has a candidate
leaves the list unchanged unless the candidate is less than the proposal, and when the list
changes the proposal is the only candidate for that destination and all others are kept. -/
theorem candidates_distinct (P : Propagator I) (reference : TensorView)
    (reference_info : I) (n : Nat) :
    ((stateAfter P reference reference_info n).propagation.map (fun c => c.to_)).Nodup ∧
      (∀ c ∈ (stateAfter P reference reference_info n).propagation,
        c.to_ ∉ (stateAfter P reference reference_info n).replayed) ∧
      (∀ next_hop,
        (stateAfter P reference reference_info n).propagation.getLast? = some next_hop →
        ∀ k,
          ((insertAll P (stateAfter P reference reference_info n).propagation.dropLast
            ((hops P (emplace (stateAfter P reference reference_info n).replayed next_hop.to_)
              next_hop).take k)).map (fun c => c.to_)).Nodup ∧
          ∀ c ∈ insertAll P (stateAfter P reference reference_info n).propagation.dropLast
            ((hops P (emplace (stateAfter P reference reference_info n).replayed next_hop.to_)
              next_hop).take k),
            c.to_ ∉ emplace (stateAfter P reference reference_info n).replayed next_hop.to_) ∧
      (∀ (l : List (NextHopInfo I)) (info existing : NextHopInfo I),
        (l.map (fun c => c.to_)).Nodup → existing ∈ l → existing.to_ = info.to_ →
          (hopLt P existing info = false → insertNextHopInfo P l info = l) ∧
          (insertNextHopInfo P l info ≠ l →
            hopLt P existing info = true ∧ info ∈ insertNextHopInfo P l info ∧
            (∀ c ∈ insertNextHopInfo P l info, c.to_ = info.to_ → c = info) ∧
            ∀ c, c.to_ ≠ info.to_ → (c ∈ insertNextHopInfo P l info ↔ c ∈ l))) := by
  have hinv := inv_stateAfter P reference reference_info n
  refine ⟨hinv.dests_nodup, hinv.fresh, ?_, ?_⟩
  · intro next_hop hl k
    have hsplit := propagation_split _ next_hop hl
    have hnd := hinv.dests_nodup
    rw [hsplit, List.map_append, List.nodup_append] at hnd
    have hfresh := hinv.fresh next_hop (by rw [hsplit]; simp)
    refine ⟨nodup_insertAll P _ _ hnd.1, ?_⟩
    apply fresh_insertAll
    · intro c hc hm
      have hrep : emplace (stateAfter P reference reference_info n).replayed next_hop.to_ =
          (stateAfter P reference reference_info n).replayed ++ [next_hop.to_] := by
        simp [emplace, hfresh]
      rw [hrep] at hm
      rcases List.mem_append.1 hm with hm | hm
      · exact hinv.fresh c (List.mem_of_mem_dropLast hc) hm
      · rw [List.mem_singleton] at hm
        exact hnd.2.2 (List.mem_map_of_mem _ hc) (by rw [hm]; simp)
    · intro c hc
      exact (mem_hops P _ next_hop c (List.mem_of_mem_take hc)).1
  · intro l info existing hnd hex hto
    have hsame : ∀ e, l.find? (fun i => i.to_ == info.to_) = some e → e = existing := by
      intro e he
      have h1 := find_some_dest l info.to_ e he
      exact List.inj_on_of_nodup_map hnd h1.1 hex (by rw [h1.2, hto])
    rcases insertNextHopInfo_cases P l info with ⟨_, he⟩ | ⟨_, hf, _⟩ | ⟨_, e, hf, hlt, he⟩ |
      ⟨_, e, hf, hlt, he⟩
    · exact ⟨fun _ => he, fun hne => absurd he hne⟩
    · exact absurd (by rw [← hto]; exact List.mem_map_of_mem _ hex)
        (find_none_not_dest l info.to_ hf)
    · rw [hsame e hf] at hlt
      refine ⟨fun h => absurd (hlt.symm.trans h) (by simp), fun _ => ⟨hlt, ?_, ?_, ?_⟩⟩
      · rw [he]; exact (mem_insertAtPos _ _ _ _).2 (Or.inl rfl)
      · intro c hc hct
        rw [he] at hc
        rcases (mem_insertAtPos _ _ _ _).1 hc with hc | hc
        · exact hc
        · have hm : c.to_ ∈ (l.eraseP (fun i => i.to_ == info.to_)).map (fun c => c.to_) :=
            List.mem_map_of_mem _ hc
          rw [hct] at hm
          exact absurd hm (not_dest_eraseP l info.to_ hnd)
      · intro c hct
        rw [he, mem_insertAtPos]
        constructor
        · intro hc
          rcases hc with hc | hc
          · rw [hc] at hct; exact absurd rfl hct
          · exact List.mem_of_mem_eraseP hc
        · intro hc
          exact Or.inr (mem_eraseP_of_ne l info.to_ c hc hct)
    · exact ⟨fun _ => he, fun hne => absurd he hne⟩

/-- C5, witness on the diamond after the reference has been visited. -/
theorem candidates_distinct_witness :
    ((stateAfter diamond 0 (mkInfo 2 2) 1).propagation.map (fun c => c.to_)).Nodup ∧
      ∀ c ∈ (stateAfter diamond 0 (mkInfo 2 2) 1).propagation,
        c.to_ ∉ (stateAfter diamond 0 (mkInfo 2 2) 1).replayed :=
  ⟨(candidates_distinct diamond 0 (mkInfo 2 2) 1).1,
    (candidates_distinct diamond 0 (mkInfo 2 2) 1).2.1⟩

/-- C6: on every finite tensor graph the run ends within as many iterations as there are
tensors, and each iteration that starts with a non-empty list adds one tensor to the replayed
set that was not in it. -/
theorem run_terminates (P : Propagator I) (tvs : List TensorView) (reference : TensorView)
    (reference_info : I) (href : reference ∈ tvs)
    (hclosed : ∀ t ∈ tvs, ∀ n, n ∈ P.consumerTvsOf t ∨ n ∈ P.producerTvsOf t → n ∈ tvs) :
    (∃ s, run P reference reference_info tvs.dedup.length = some s ∧
      s.propagation = [] ∧ s.popped.length ≤ tvs.dedup.length) ∧
    ∀ n, (stateAfter P reference reference_info n).propagation ≠ [] →
      ∃ t, t ∉ (stateAfter P reference reference_info n).replayed ∧
        (stateAfter P reference reference_info (n + 1)).replayed =
          (stateAfter P reference reference_info n).replayed ++ [t] := by
  have hempty := empty_after_all P tvs reference reference_info href hclosed
  have hinv := inv_stateAfter P reference reference_info tvs.dedup.length
  refine ⟨⟨_, run_of_empty P reference reference_info _ hempty, hempty, ?_⟩, ?_⟩
  · have h1 := nodup_subset_length _ tvs hinv.replayed_nodup
      (replayed_inU P (fun t => t ∈ tvs) hclosed reference reference_info href _)
    rw [hinv.replayed_eq, List.length_map] at h1
    exact h1
  · intro n hne
    rcases getLast_of_ne_nil _ hne with ⟨c, hc⟩
    have hv := inv_visit P _ c hc (inv_stateAfter P reference reference_info n)
    refine ⟨c.to_, hv.2.1, ?_⟩
    show (iteration P (stateAfter P reference reference_info n)).replayed = _
    unfold iteration
    rw [hc]
    exact hv.2.2

/-- C6, witness on the diamond. -/
theorem run_terminates_witness :
    ∃ s, run diamond 0 (mkInfo 2 2) [0, 1, 2, 3].dedup.length = some s ∧
      s.propagation = [] ∧ s.popped.length ≤ [0, 1, 2, 3].dedup.length :=
  (run_terminates diamond [0, 1, 2, 3] 0 (mkInfo 2 2) (by decide) diamond_closed).1

/-- C7: the step callbacks a run invokes, and their order, are a function of the reference,
the initial information, the information order and the producer/consumer enumeration on the
tensors reached: two propagators that agree on a set of tensors that holds the reference and
is closed under producers and consumers invoke the same callbacks on the same (from, to)
pairs in the same order, after every number of iterations and at the end of the run. -/
theorem run_deterministic (P Q : Propagator I) (U : TensorView → Prop)
    (reference : TensorView) (reference_info : I) (href : U reference)
    (hclosed : ∀ t, U t → ∀ n, n ∈ P.consumerTvsOf t ∨ n ∈ P.producerTvsOf t → U n)
    (hlt : ∀ a b, P.lt a b = Q.lt a b) (hnz : ∀ a, P.nonzero a = Q.nonzero a)
    (hc : ∀ t, U t → P.consumerTvsOf t = Q.consumerTvsOf t)
    (hp : ∀ t, U t → P.producerTvsOf t = Q.producerTvsOf t)
    (hcp : ∀ t, U t → ∀ u i, P.computeInfoCasP t u i = Q.computeInfoCasP t u i)
    (hpc : ∀ t, U t → ∀ u i, P.computeInfoPasC t u i = Q.computeInfoPasC t u i) :
    (∀ n, (stateAfter P reference reference_info n).calls =
      (stateAfter Q reference reference_info n).calls) ∧
    ∀ fuel, (run P reference reference_info fuel).map (fun s => s.calls) =
      (run Q reference reference_info fuel).map (fun s => s.calls) := by
  constructor
  · intro n
    rw [stateAfter_congr P Q U reference reference_info href hclosed hlt hnz hc hp hcp hpc n]
  · intro fuel
    unfold run
    rw [runLoop_congr P Q U hclosed hlt hnz hc hp hcp hpc fuel _
      (inU_initial U reference reference_info href)]

/-- C7, witness: the diamond and the diamond with two unreached tensors. -/
theorem run_deterministic_witness :
    (run diamond 0 (mkInfo 2 2) 4).map (fun s => s.calls) =
      (run diamondExtended 0 (mkInfo 2 2) 4).map (fun s => s.calls) :=
  (run_deterministic diamond diamondExtended (fun t => t ∈ [0, 1, 2, 3]) 0 (mkInfo 2 2)
    (by decide) diamond_closed (fun _ _ => rfl) (fun _ => rfl)
    (by decide) (by decide)
    (by
      intro t ht u i
      have h7 : t ≠ 7 := by
        rintro rfl
        exact absurd ht (by decide)
      simp [diamondExtended, h7])
    (fun _ _ _ _ => rfl)).2 4

/-! ### The derived comparisons and the root-domain order -/

/-- C19: for all information values `a` and `b`, `a > b` holds exactly when `b < a`, and
`a == b` holds exactly when neither `a < b` nor `b < a`. -/
theorem information_gt_eq_derived (P : Propagator I) (a b : I) :
    (P.gt a b = true ↔ P.lt b a = true) ∧
      (P.eqv a b = true ↔ (P.lt a b = false ∧ P.lt b a = false)) := by
  unfold Propagator.gt Propagator.eqv
  constructor
  · exact Iff.rfl
  · cases P.lt a b <;> cases P.lt b a <;> simp

/-- C20: for root-domain information values, `a < b` holds exactly when `a` has fewer records
than `b`, or as many records and fewer complete records; the relation is irreflexive and
transitive, and being incomparable is transitive. -/
theorem root_domain_order_strict_weak :
    (∀ a b : RootDomainInfo, RootDomainInfo.lt a b = true ↔
      a.info.length < b.info.length ∨
        (a.info.length = b.info.length ∧
          a.info.countP (fun i => i.is_complete) < b.info.countP (fun i => i.is_complete))) ∧
    (∀ a : RootDomainInfo, RootDomainInfo.lt a a = false) ∧
    (∀ a b c : RootDomainInfo, RootDomainInfo.lt a b = true → RootDomainInfo.lt b c = true →
      RootDomainInfo.lt a c = true) ∧
    (∀ a b c : RootDomainInfo,
      (RootDomainInfo.lt a b = false ∧ RootDomainInfo.lt b a = false) →
      (RootDomainInfo.lt b c = false ∧ RootDomainInfo.lt c b = false) →
      (RootDomainInfo.lt a c = false ∧ RootDomainInfo.lt c a = false)) := by
  refine ⟨RootDomainInfo.lt_iff, ?_, ?_, ?_⟩
  · intro a
    rw [RootDomainInfo.lt_false_iff]
    omega
  · intro a b c
    rw [RootDomainInfo.lt_iff, RootDomainInfo.lt_iff, RootDomainInfo.lt_iff]
    omega
  · intro a b c
    simp only [RootDomainInfo.lt_false_iff]
    omega

/-! ### The step callbacks of a run -/

theorem runLoop_some (P : Propagator I) (fuel : Nat) (s0 s : RunState I)
    (h : runLoop P fuel s0 = some s) :
    ∃ k, s = (iteration P)^[k] s0 ∧ s.propagation = [] := by
  induction fuel generalizing s0 with
  | zero =>
    unfold runLoop at h
    by_cases he : s0.propagation.isEmpty = true
    · rw [if_pos he] at h
      cases h
      exact ⟨0, rfl, List.isEmpty_iff.mp he⟩
    · rw [if_neg he] at h
      cases h
  | succ n ih =>
    unfold runLoop at h
    by_cases he : s0.propagation.isEmpty = true
    · rw [if_pos he] at h
      cases h
      exact ⟨0, rfl, List.isEmpty_iff.mp he⟩
    · rw [if_neg he] at h
      rcases ih _ h with ⟨k, hk, hnil⟩
      exact ⟨k + 1, by rw [Function.iterate_succ_apply]; exact hk, hnil⟩

theorem run_some (P : Propagator I) (reference : TensorView) (reference_info : I)
    (fuel : Nat) (s : RunState I) (h : run P reference reference_info fuel = some s) :
    ∃ k, s = stateAfter P reference reference_info (k + 1) ∧ s.propagation = [] := by
  rcases runLoop_some P fuel _ s h with ⟨k, hk, hnil⟩
  rw [← stateAfter_eq_iterate] at hk
  cases k with
  | zero =>
    rw [hk] at hnil
    simp [stateAfter, initial] at hnil
  | succ j => exact ⟨j, hk, hnil⟩

theorem popped_head (P : Propagator I) (reference : TensorView) (reference_info : I)
    (n : Nat) :
    ∃ rest, (stateAfter P reference reference_info (n + 1)).popped =
      { type := NextHopType.C_AS_P, from_ := none, to_ := reference, info_from := none,
        info_to := reference_info } :: rest := by
  induction n with
  | zero => exact ⟨[], rfl⟩
  | succ k ih =>
    rcases ih with ⟨rest, hrest⟩
    show ∃ rest, (iteration P (stateAfter P reference reference_info (k + 1))).popped = _
    unfold iteration
    cases hl : (stateAfter P reference reference_info (k + 1)).propagation.getLast? with
    | none => exact ⟨rest, hrest⟩
    | some c =>
      refine ⟨rest ++ [c], ?_⟩
      show (stateAfter P reference reference_info (k + 1)).popped ++ [c] = _
      rw [hrest]
      rfl

/-- The step callbacks after any number of iterations: the candidates popped after the
synthetic hop each carry a source and a destination other than the reference, and the
callbacks invoked are theirs, in order. -/
theorem calls_of_stateAfter (P : Propagator I) (reference : TensorView) (reference_info : I)
    (n : Nat) :
    ∃ rest, (stateAfter P reference reference_info (n + 1)).popped =
        { type := NextHopType.C_AS_P, from_ := none, to_ := reference, info_from := none,
          info_to := reference_info } :: rest ∧
      (∀ c ∈ rest, c.to_ ≠ reference ∧ ∃ f, c.from_ = some f) ∧
      (stateAfter P reference reference_info (n + 1)).calls.map some = rest.map callOf ∧
      (stateAfter P reference reference_info (n + 1)).replayed =
        reference :: rest.map (fun c => c.to_) ∧
      (stateAfter P reference reference_info (n + 1)).replayed.Nodup := by
  have hinv := inv_stateAfter P reference reference_info (n + 1)
  rcases popped_head P reference reference_info n with ⟨rest, hrest⟩
  have hrep : (stateAfter P reference reference_info (n + 1)).replayed =
      reference :: rest.map (fun c => c.to_) := by
    rw [hinv.replayed_eq, hrest]
    rfl
  have hnd := hinv.replayed_nodup
  have hprop : ∀ c ∈ rest, c.to_ ≠ reference ∧ ∃ f, c.from_ = some f := by
    intro c hc
    have hne : c.to_ ≠ reference := by
      intro he
      rw [hrep, List.nodup_cons] at hnd
      exact hnd.1 (he ▸ List.mem_map_of_mem (fun c => c.to_) hc)
    refine ⟨hne, ?_⟩
    cases hf : c.from_ with
    | some f => exact ⟨f, rfl⟩
    | none =>
      exact absurd (seed_only P reference reference_info (n + 1) c
        (Or.inr (by rw [hrest]; exact List.mem_cons_of_mem _ hc)) hf) hne
  refine ⟨rest, hrest, hprop, ?_, hrep, hnd⟩
  rw [hinv.calls_eq, hrest]
  have h0 : callOf
      ({ type := NextHopType.C_AS_P, from_ := none, to_ := reference, info_from := none,
         info_to := reference_info } : NextHopInfo I) = none := rfl
  rw [List.filterMap_cons_none h0]
  clear hrest hrep
  induction rest with
  | nil => rfl
  | cons c more ih =>
    rcases (hprop c (List.mem_cons_self _ _)).2 with ⟨f, hf⟩
    have hc : callOf c = some { type := c.type, from_ := f, to_ := c.to_ } := by
      unfold callOf
      rw [hf]
    rw [List.filterMap_cons_some hc, List.map_cons, List.map_cons, hc,
      ih (fun x hx => hprop x (List.mem_cons_of_mem _ hx))]

/-- C29: a run that ends has popped the synthetic hop into the reference and then the
candidates `rest`; each of them has a source tensor and a destination other than the
reference; the step callbacks invoked are, in order, one per candidate of `rest`, of the
type of the candidate and with its (from, to) pair; the tensors visited are the reference
and the destinations of `rest`, without repetition; so every visited tensor other than the
reference is the destination of exactly one callback, and the reference and the tensors not
visited are the destination of none. -/
theorem step_callbacks_once (P : Propagator I) (reference : TensorView) (reference_info : I)
    (fuel : Nat) (s : RunState I) (h : run P reference reference_info fuel = some s) :
    ∃ rest, s.popped =
        { type := NextHopType.C_AS_P, from_ := none, to_ := reference, info_from := none,
          info_to := reference_info } :: rest ∧
      (∀ c ∈ rest, c.to_ ≠ reference ∧ ∃ f, c.from_ = some f ∧
        callOf c = some { type := c.type, from_ := f, to_ := c.to_ }) ∧
      s.calls.map some = rest.map callOf ∧
      s.replayed = reference :: rest.map (fun c => c.to_) ∧
      s.replayed.Nodup ∧
      (∀ t ∈ s.replayed, t ≠ reference → (s.calls.map (fun c => c.to_)).count t = 1) ∧
      (s.calls.map (fun c => c.to_)).count reference = 0 ∧
      (∀ t, t ∉ s.replayed → (s.calls.map (fun c => c.to_)).count t = 0) := by
  rcases run_some P reference reference_info fuel s h with ⟨k, hk, -⟩
  rcases calls_of_stateAfter P reference reference_info k with ⟨rest, h1, h2, h3, h4, h5⟩
  rw [← hk] at h1 h3 h4 h5
  have hto : s.calls.map (fun c => c.to_) = rest.map (fun c => c.to_) := by
    have hmap : (s.calls.map some).map (fun o => o.map (fun c => c.to_)) =
        (rest.map callOf).map (fun o => o.map (fun c => c.to_)) := by rw [h3]
    rw [List.map_map, List.map_map] at hmap
    have hr : ∀ c ∈ rest, (Option.map (fun c => c.to_) ∘ callOf) c = some c.to_ := by
      intro c hc
      rcases (h2 c hc).2 with ⟨f, hf⟩
      simp [callOf, hf]
    have hl : (s.calls.map (Option.map (fun c => c.to_) ∘ some)) =
        (s.calls.map (fun c => c.to_)).map some := by
      rw [List.map_map]
      rfl
    have hr2 : rest.map (Option.map (fun c => c.to_) ∘ callOf) =
        (rest.map (fun c => c.to_)).map some := by
      rw [List.map_map]
      exact List.map_congr_left hr
    rw [hl, hr2] at hmap
    exact List.map_injective_iff.mpr (Option.some_injective _) hmap
  have hnd : (reference :: rest.map (fun c => c.to_)).Nodup := h4 ▸ h5
  refine ⟨rest, h1, ?_, h3, h4, h5, ?_, ?_, ?_⟩
  · intro c hc
    rcases h2 c hc with ⟨hne, f, hf⟩
    refine ⟨hne, f, hf, ?_⟩
    unfold callOf
    rw [hf]
  · intro t ht hne
    rw [hto]
    rw [h4] at ht
    rcases List.mem_cons.mp ht with h | h
    · exact absurd h hne
    · exact List.count_eq_one_of_mem (List.nodup_cons.mp hnd).2 h
  · rw [hto]
    exact List.count_eq_zero_of_not_mem (List.nodup_cons.mp hnd).1
  · intro t ht
    rw [hto]
    apply List.count_eq_zero_of_not_mem
    intro hm
    exact ht (h4 ▸ List.mem_cons_of_mem _ hm)

/-- C29, witness: the run on the diamond from tensor 0. -/
theorem step_callbacks_once_witness :
    ∃ s, run diamond 0 (mkInfo 2 2) 4 = some s ∧
      s.calls =
        [{ type := NextHopType.C_AS_P, from_ := 0, to_ := 2 },
         { type := NextHopType.C_AS_P, from_ := 2, to_ := 3 },
         { type := NextHopType.P_AS_C, from_ := 3, to_ := 1 }] ∧
      s.replayed = [0, 2, 3, 1] ∧
      (∀ t ∈ s.replayed, t ≠ 0 → (s.calls.map (fun c => c.to_)).count t = 1) ∧
      (s.calls.map (fun c => c.to_)).count 0 = 0 := by
  have hrun : (run diamond 0 (mkInfo 2 2) 4).isSome = true := by decide
  rcases Option.isSome_iff_exists.mp hrun with ⟨s, hs⟩
  rcases step_callbacks_once diamond 0 (mkInfo 2 2) 4 s hs with
    ⟨rest, -, -, -, -, -, h6, h7, -⟩
  have hcalls : (run diamond 0 (mkInfo 2 2) 4).map (fun s => s.calls) =
      some [{ type := NextHopType.C_AS_P, from_ := 0, to_ := 2 },
         { type := NextHopType.C_AS_P, from_ := 2, to_ := 3 },
         { type := NextHopType.P_AS_C, from_ := 3, to_ := 1 }] := by decide
  have hrep : (run diamond 0 (mkInfo 2 2) 4).map (fun s => s.replayed) =
      some [0, 2, 3, 1] := by decide
  rw [hs] at hcalls hrep
  exact ⟨s, hs, Option.some.inj hcalls, Option.some.inj hrep, h6, h7⟩

/-! ### The order of visit among candidates of equal information -/

/-- The place `std::upper_bound` finds in a sorted list: no candidate before it has more
information than the value, every candidate from it on has. -/
theorem insert_place (P : Propagator I) (hS : StrictWeak P) (l : List (NextHopInfo I))
    (y : NextHopInfo I) (h : SortedHops P l) :
    ∃ l1 l2, insertAtPos l (upper_bound (hopLt P) l y) y = l1 ++ y :: l2 ∧ l = l1 ++ l2 ∧
      (∀ c ∈ l1, hopLt P y c = false) ∧ (∀ c ∈ l2, hopLt P y c = true) := by
  induction l with
  | nil => exact ⟨[], [], rfl, rfl, by simp, by simp⟩
  | cons e rest ih =>
    by_cases hlt : hopLt P y e = true
    · have hub : upper_bound (hopLt P) (e :: rest) y = 0 := by simp [upper_bound, hlt]
      rw [hub, insertAtPos_cons_zero]
      refine ⟨[], e :: rest, rfl, rfl, by simp, ?_⟩
      intro c hc
      rcases List.mem_cons.mp hc with rfl | hc
      · exact hlt
      · exact sorted_partitioned P hS (e :: rest) h y [] rest e rfl hlt c hc
    · have hub : upper_bound (hopLt P) (e :: rest) y = upper_bound (hopLt P) rest y + 1 := by
        simp [upper_bound, hlt]
      rw [hub, insertAtPos_cons_succ]
      have hrest : SortedHops P rest := by
        unfold SortedHops at h ⊢
        exact (List.pairwise_cons.mp h).2
      rcases ih hrest with ⟨l1, l2, h1, h2, h3, h4⟩
      refine ⟨e :: l1, l2, by rw [h1]; rfl, by rw [h2]; rfl, ?_, h4⟩
      intro c hc
      rcases List.mem_cons.mp hc with rfl | hc
      · simpa using hlt
      · exact h3 c hc

theorem sublist_insertAtPos (l : List (NextHopInfo I)) (k : Nat) (v : NextHopInfo I) :
    List.Sublist l (insertAtPos l k v) := by
  unfold insertAtPos
  have h : List.Sublist (l.take k ++ l.drop k) (l.take k ++ v :: l.drop k) :=
    List.Sublist.append (List.Sublist.refl _) (List.sublist_cons_self _ _)
  rwa [List.take_append_drop] at h

theorem eq_of_dest (l : List (NextHopInfo I)) (h : (l.map (fun c => c.to_)).Nodup)
    (c1 c2 : NextHopInfo I) (h1 : c1 ∈ l) (h2 : c2 ∈ l) (he : c1.to_ = c2.to_) : c1 = c2 :=
  List.inj_on_of_nodup_map h h1 h2 he

theorem behind_mem (l : List (NextHopInfo I)) (a b : NextHopInfo I)
    (h : List.Sublist [a, b] l) : a ∈ l ∧ b ∈ l :=
  ⟨h.subset (by simp), h.subset (by simp)⟩

theorem behind_dest_ne (l : List (NextHopInfo I)) (hnd : (l.map (fun c => c.to_)).Nodup)
    (a b : NextHopInfo I) (h : List.Sublist [a, b] l) : a.to_ ≠ b.to_ := by
  have h2 : ([a, b].map (fun c => c.to_)).Nodup := List.Nodup.sublist (h.map _) hnd
  intro he
  simp [he] at h2

/-- A candidate inserted behind is not preceded by one with more information. -/
theorem sorted_pair (P : Propagator I) (l : List (NextHopInfo I)) (h : SortedHops P l)
    (a b : NextHopInfo I) (hsub : List.Sublist [a, b] l) : hopLt P b a = false := by
  have h2 := List.Pairwise.sublist hsub h
  simpa using h2

theorem behind_insertNextHopInfo (P : Propagator I) (hS : StrictWeak P)
    (l : List (NextHopInfo I)) (hs : SortedHops P l) (hnd : (l.map (fun c => c.to_)).Nodup)
    (y a : NextHopInfo I) (d : TensorView) (h : Behind l a d) :
    Behind (insertNextHopInfo P l y) a d ∨ Superseded P (insertNextHopInfo P l y) a := by
  rcases h with ⟨b, hb, hsub⟩
  rcases behind_mem l a b hsub with ⟨ha, hbl⟩
  rcases insertNextHopInfo_cases P l y with ⟨-, he⟩ | ⟨-, -, he⟩ | ⟨-, e, hf, hlt, he⟩ |
    ⟨-, e, -, -, he⟩
  · rw [he]; exact Or.inl ⟨b, hb, hsub⟩
  · rw [he]; exact Or.inl ⟨b, hb, hsub.trans (sublist_insertAtPos _ _ _)⟩
  · rw [he]
    rcases find_some_dest l y.to_ e hf with ⟨hel, hey⟩
    by_cases hya : y.to_ = a.to_
    · right
      have hea : e = a := eq_of_dest l hnd e a hel ha (hey.trans hya)
      exact ⟨y, (mem_insertAtPos _ _ _ _).2 (Or.inl rfl), hya, hea ▸ hlt⟩
    · left
      by_cases hyd : y.to_ = d
      · have heb : e = b := eq_of_dest l hnd e b hel hbl (hey.trans (hyd.trans hb.symm))
        have hsE : SortedHops P (l.eraseP (fun i => i.to_ == y.to_)) :=
          List.Pairwise.sublist (List.eraseP_sublist l) hs
        rcases insert_place P hS _ y hsE with ⟨l1, l2, h1, h2, h3, h4⟩
        rw [h1]
        have haE : a ∈ l.eraseP (fun i => i.to_ == y.to_) :=
          mem_eraseP_of_ne l y.to_ a ha (fun h => hya h.symm)
        have hba : hopLt P b a = false := sorted_pair P l hs a b hsub
        have hya2 : hopLt P y a = false := by
          cases hc : hopLt P y a with
          | false => rfl
          | true =>
            have := hS.trans _ _ _ (heb ▸ hlt : hopLt P b y = true) hc
            unfold hopLt at hba
            rw [hba] at this
            cases this
        have hal1 : a ∈ l1 := by
          rw [h2] at haE
          rcases List.mem_append.mp haE with h | h
          · exact h
          · rw [h4 a h] at hya2
            cases hya2
        refine ⟨y, hyd, ?_⟩
        exact List.Sublist.append (List.singleton_sublist.2 hal1)
          (List.singleton_sublist.2 (List.mem_cons_self _ _))
      · have hE := List.Sublist.eraseP (p := fun i : NextHopInfo I => i.to_ == y.to_) hsub
        have hab : [a, b].eraseP (fun i : NextHopInfo I => i.to_ == y.to_) = [a, b] := by
          have hpa2 : (a.to_ == y.to_) = false := by
            rw [beq_eq_false_iff_ne]
            exact fun h => hya h.symm
          have hpb2 : (b.to_ == y.to_) = false := by
            rw [beq_eq_false_iff_ne]
            exact fun h => hyd (h.symm.trans hb)
          simp [List.eraseP_cons, hpa2, hpb2]
        rw [hab] at hE
        exact ⟨b, hb, hE.trans (sublist_insertAtPos _ _ _)⟩
  · rw [he]; exact Or.inl ⟨b, hb, hsub⟩

theorem superseded_insertNextHopInfo (P : Propagator I) (hS : StrictWeak P)
    (l : List (NextHopInfo I)) (hnd : (l.map (fun c => c.to_)).Nodup)
    (y a : NextHopInfo I) (h : Superseded P l a) :
    Superseded P (insertNextHopInfo P l y) a := by
  rcases h with ⟨z, hz, hza, hlt⟩
  rcases insertNextHopInfo_cases P l y with ⟨-, he⟩ | ⟨-, -, he⟩ | ⟨-, e, hf, hey, he⟩ |
    ⟨-, e, -, -, he⟩
  · rw [he]; exact ⟨z, hz, hza, hlt⟩
  · rw [he]; exact ⟨z, (mem_insertAtPos _ _ _ _).2 (Or.inr hz), hza, hlt⟩
  · rw [he]
    rcases find_some_dest l y.to_ e hf with ⟨hel, hed⟩
    by_cases hyz : y.to_ = z.to_
    · have hez : e = z := eq_of_dest l hnd e z hel hz (hed.trans hyz)
      refine ⟨y, (mem_insertAtPos _ _ _ _).2 (Or.inl rfl), hyz.trans hza, ?_⟩
      exact hS.trans _ _ _ hlt (hez ▸ hey)
    · exact ⟨z, (mem_insertAtPos _ _ _ _).2
        (Or.inr (mem_eraseP_of_ne l y.to_ z hz (fun h => hyz h.symm))), hza, hlt⟩
  · rw [he]; exact ⟨z, hz, hza, hlt⟩

theorem behind_insertAll (P : Propagator I) (hS : StrictWeak P)
    (ys l : List (NextHopInfo I)) (hs : SortedHops P l)
    (hnd : (l.map (fun c => c.to_)).Nodup) (a : NextHopInfo I) (d : TensorView)
    (h : Behind l a d ∨ Superseded P l a) :
    Behind (insertAll P l ys) a d ∨ Superseded P (insertAll P l ys) a := by
  induction ys generalizing l with
  | nil => exact h
  | cons y rest ih =>
    simp only [insertAll, List.foldl_cons]
    apply ih _ (sorted_insertNextHopInfo P hS l y hs) (nodup_insertNextHopInfo P l y hnd)
    rcases h with h | h
    · exact behind_insertNextHopInfo P hS l hs hnd y a d h
    · exact Or.inr (superseded_insertNextHopInfo P hS l hnd y a h)
theorem sublist_pair_concat (m : List (NextHopInfo I)) (a b x : NextHopInfo I)
    (h : List.Sublist [a, b] (m ++ [x])) : a ∈ m ∧ (List.Sublist [a, b] m ∨ b = x) := by
  have h2 := List.reverse_sublist.2 h
  simp only [List.reverse_cons, List.reverse_nil, List.nil_append, List.singleton_append,
    List.reverse_append] at h2
  cases h2 with
  | cons _ h3 =>
    have h4 := List.reverse_sublist.2 h3
    simp only [List.reverse_cons, List.reverse_nil, List.nil_append, List.singleton_append,
      List.reverse_reverse] at h4
    exact ⟨h4.subset (by simp), Or.inl h4⟩
  | cons₂ _ h3 =>
    have h4 : a ∈ m.reverse := List.singleton_sublist.1 h3
    exact ⟨List.mem_reverse.1 h4, Or.inr rfl⟩

theorem superseded_mono (P : Propagator I) (l l2 : List (NextHopInfo I)) (a : NextHopInfo I)
    (h : Superseded P l a) (hsub : ∀ z ∈ l, z ∈ l2) : Superseded P l2 a := by
  rcases h with ⟨z, hz, h1, h2⟩
  exact ⟨z, hsub z hz, h1, h2⟩

/-- One iteration of the loop keeps `OrderInv`. -/
theorem orderInv_iteration (P : Propagator I) (hS : StrictWeak P) (s : RunState I)
    (hinv : Inv P s) (hs : SortedHops P s.propagation) (a : NextHopInfo I) (d : TensorView)
    (h : OrderInv P s a d) : OrderInv P (iteration P s) a d := by
  unfold iteration
  cases hl : s.propagation.getLast? with
  | none => exact h
  | some x =>
    show OrderInv P (visit P s x s.propagation.dropLast) a d
    have hsplit := propagation_split s x hl
    have hxl : x ∈ s.propagation := by rw [hsplit]; simp
    rcases inv_visit P s x hl hinv with ⟨-, hfresh, hrep⟩
    have hpop : (visit P s x s.propagation.dropLast).popped = s.popped ++ [x] := rfl
    have hprop := visit_propagation P s x s.propagation.dropLast
    have hnd := hinv.dests_nodup
    have hndr : (s.propagation.dropLast.map (fun c => c.to_)).Nodup :=
      List.Nodup.sublist ((List.dropLast_sublist _).map _) hnd
    have hsr : SortedHops P s.propagation.dropLast :=
      List.Pairwise.sublist (List.dropLast_sublist _) hs
    have hnot : x.to_ ∉ s.propagation.dropLast.map (fun c => c.to_) := by
      intro hm
      have hnd2 := hnd
      rw [hsplit, List.map_append, List.nodup_append] at hnd2
      exact hnd2.2.2 hm (by simp)
    unfold OrderInv
    rw [hpop, hprop, hrep]
    rcases h with ⟨hap, hB | hS2⟩ | ⟨hd, hv⟩
    · rcases hB with ⟨b, hb, hsub⟩
      rw [hsplit] at hsub
      rcases sublist_pair_concat _ a b x hsub with ⟨ham, hcase⟩
      have hax : a ≠ x := by
        intro hax
        exact hnot (hax ▸ List.mem_map_of_mem (fun c => c.to_) ham)
      have hap2 : a ∉ s.popped ++ [x] := by
        intro hm
        rcases List.mem_append.mp hm with hm | hm
        · exact hap hm
        · exact hax (List.mem_singleton.mp hm)
      rcases hcase with hsubm | hbx
      · left
        refine ⟨hap2, ?_⟩
        rcases behind_insertAll P hS _ _ hsr hndr a d (Or.inl ⟨b, hb, hsubm⟩) with h1 | h1
        · exact Or.inl h1
        · exact Or.inr (superseded_mono P _ _ a h1
            (fun z hz => List.mem_append.mpr (Or.inl hz)))
      · right
        refine ⟨List.mem_append.mpr (Or.inr (by rw [← hbx, hb]; simp)), ?_⟩
        intro p1 p2 hp
        exact absurd (by rw [hp]; simp) hap2
    · rcases hS2 with ⟨z, hz, hza, hlt⟩
      have hax : a ≠ x := by
        intro hax
        rcases List.mem_append.mp hz with hz | hz
        · have hzeq : z = a := eq_of_dest _ hnd z a hz (hax ▸ hxl) hza
          rw [hzeq] at hlt
          unfold hopLt at hlt
          rw [hS.irrefl] at hlt
          cases hlt
        · apply hfresh
          rw [hinv.replayed_eq, ← hax, ← hza]
          exact List.mem_map_of_mem (fun c => c.to_) hz
      have hap2 : a ∉ s.popped ++ [x] := by
        intro hm
        rcases List.mem_append.mp hm with hm | hm
        · exact hap hm
        · exact hax (List.mem_singleton.mp hm)
      left
      refine ⟨hap2, ?_⟩
      rcases List.mem_append.mp hz with hz | hz
      · rw [hsplit] at hz
        rcases List.mem_append.mp hz with hz | hz
        · rcases behind_insertAll P hS _ _ hsr hndr a d (Or.inr ⟨z, hz, hza, hlt⟩) with h1 | h1
          · exact Or.inl h1
          · exact Or.inr (superseded_mono P _ _ a h1
              (fun z hz => List.mem_append.mpr (Or.inl hz)))
        · exact Or.inr ⟨z, List.mem_append.mpr (Or.inr (List.mem_append.mpr (Or.inr hz))),
            hza, hlt⟩
      · exact Or.inr ⟨z, List.mem_append.mpr (Or.inr (List.mem_append.mpr (Or.inl hz))),
          hza, hlt⟩
    · right
      refine ⟨List.mem_append.mpr (Or.inl hd), ?_⟩
      intro p1 p2 hp
      rcases List.eq_nil_or_concat p2 with rfl | ⟨q, w, rfl⟩
      · have h2 := List.append_inj' hp rfl
        rw [← h2.1, ← hinv.replayed_eq]
        exact hd
      · have hp2 : s.popped ++ [x] = (p1 ++ a :: q) ++ [w] := by
          rw [hp]; simp
        have h2 := List.append_inj' hp2 rfl
        exact hv p1 q h2.1

theorem orderInv_stateAfter (P : Propagator I) (hS : StrictWeak P) (reference : TensorView)
    (reference_info : I) (a : NextHopInfo I) (d : TensorView) (n k : Nat)
    (h : OrderInv P (stateAfter P reference reference_info n) a d) :
    OrderInv P (stateAfter P reference reference_info (n + k)) a d := by
  induction k with
  | zero => exact h
  | succ j ih =>
    exact orderInv_iteration P hS _ (inv_stateAfter P reference reference_info (n + j))
      (sorted_stateAfter P hS reference reference_info (n + j)) a d ih

/-- C30, counterexample: in the fork `0 → 1, 0 → 2` the candidate for tensor 1 is proposed and
inserted before the candidate for tensor 2, the two carry equal information and have
different destinations, and the run visits tensor 2 before tensor 1. -/
theorem equal_candidates_last_first :
    hops fork [0] { type := NextHopType.C_AS_P, from_ := none, to_ := 0, info_from := none,
                    info_to := mkInfo 2 2 } = [forkHop 1, forkHop 2] ∧
      insertNextHopInfo fork [] (forkHop 1) = [forkHop 1] ∧
      insertNextHopInfo fork [forkHop 1] (forkHop 2) = [forkHop 1, forkHop 2] ∧
      fork.eqv (forkHop 1).info_to (forkHop 2).info_to = true ∧
      (forkHop 1).to_ ≠ (forkHop 2).to_ ∧
      (stateAfter fork 0 (mkInfo 2 2) 1).propagation = [forkHop 1, forkHop 2] ∧
      (run fork 0 (mkInfo 2 2) 3).map (fun s => s.popped.map (fun c => c.to_)) =
        some [0, 2, 1] := by
  decide

/-- C30, amended: under a strict weak information order, a candidate that is inserted stands,
in the sorted list, behind every candidate for another destination that carries equal
information, that is, nearer to the back, where candidates are taken from; later insertions
keep a candidate before the candidate for a destination that stood behind it, unless the
earlier candidate is replaced by one with more information; and in the run a candidate that
stands before a candidate for the destination `d` is popped, if ever, only after `d` has been
visited: of two candidates of equal information the one inserted last is visited first. -/
theorem later_candidate_first (P : Propagator I) (hS : StrictWeak P) (reference : TensorView)
    (reference_info : I) :
    (∀ l y a, SortedHops P l → infoFromNonzero P y = true →
      (∀ e ∈ l, e.to_ = y.to_ → hopLt P e y = true) → a ∈ l → a.to_ ≠ y.to_ →
      P.eqv y.info_to a.info_to = true → Behind (insertNextHopInfo P l y) a y.to_) ∧
    (∀ l y a d, SortedHops P l → (l.map (fun c => c.to_)).Nodup → Behind l a d →
      Behind (insertNextHopInfo P l y) a d ∨ Superseded P (insertNextHopInfo P l y) a) ∧
    (∀ n a d, Behind (stateAfter P reference reference_info n).propagation a d →
      ∀ k, VisitedBefore (stateAfter P reference reference_info (n + k)).popped a d) := by
  refine ⟨?_, ?_, ?_⟩
  · intro l y a hs hnz hex ha hne heq
    have hya : hopLt P y a = false := by
      unfold Propagator.eqv at heq
      unfold hopLt
      simp only [Bool.and_eq_true, Bool.not_eq_true'] at heq
      exact heq.2
    have place : ∀ L : List (NextHopInfo I), SortedHops P L → a ∈ L →
        Behind (insertAtPos L (upper_bound (hopLt P) L y) y) a y.to_ := by
      intro L hL haL
      rcases insert_place P hS L y hL with ⟨l1, l2, h1, h2, -, h4⟩
      rw [h1]
      have hal1 : a ∈ l1 := by
        rw [h2] at haL
        rcases List.mem_append.mp haL with h | h
        · exact h
        · rw [h4 a h] at hya
          cases hya
      exact ⟨y, rfl, List.Sublist.append (List.singleton_sublist.2 hal1)
        (List.singleton_sublist.2 (List.mem_cons_self _ _))⟩
    rcases insertNextHopInfo_cases P l y with ⟨h0, -⟩ | ⟨-, -, he⟩ | ⟨-, e, -, -, he⟩ |
      ⟨-, e, hf, hlt, -⟩
    · rw [hnz] at h0
      cases h0
    · rw [he]
      exact place l hs ha
    · rw [he]
      exact place _ (List.Pairwise.sublist (List.eraseP_sublist l) hs)
        (mem_eraseP_of_ne l y.to_ a ha hne)
    · rcases find_some_dest l y.to_ e hf with ⟨hel, hey⟩
      rw [hex e hel hey] at hlt
      cases hlt
  · intro l y a d hs hnd h
    exact behind_insertNextHopInfo P hS l hs hnd y a d h
  · intro n a d h k
    have hinv := inv_stateAfter P reference reference_info n
    have ha : a ∉ (stateAfter P reference reference_info n).popped := by
      intro hm
      rcases h with ⟨b, -, hsub⟩
      have hal := (behind_mem _ a b hsub).1
      apply hinv.fresh a hal
      rw [hinv.replayed_eq]
      exact List.mem_map_of_mem (fun c => c.to_) hm
    have h0 : OrderInv P (stateAfter P reference reference_info n) a d :=
      Or.inl ⟨ha, Or.inl h⟩
    rcases orderInv_stateAfter P hS reference reference_info a d n k h0 with ⟨hap, -⟩ | ⟨-, hv⟩
    · intro p1 p2 hp
      exact absurd (by rw [hp]; simp) hap
    · exact hv

/-- C30, witness: in the fork, after the first iteration the candidate for tensor 1 stands
before the candidate for tensor 2, and when it has been popped tensor 2 was visited before. -/
theorem later_candidate_first_witness :
    StrictWeak fork ∧
      Behind (stateAfter fork 0 (mkInfo 2 2) 1).propagation (forkHop 1) 2 ∧
      VisitedBefore (stateAfter fork 0 (mkInfo 2 2) (1 + 2)).popped (forkHop 1) 2 ∧
      (stateAfter fork 0 (mkInfo 2 2) (1 + 2)).popped.map (fun c => c.to_) = [0, 2, 1] := by
  have hS : StrictWeak fork := strictWeak_of_rootDomain fork rfl
  have hl : (stateAfter fork 0 (mkInfo 2 2) 1).propagation = [forkHop 1, forkHop 2] := by
    decide
  have hB : Behind (stateAfter fork 0 (mkInfo 2 2) 1).propagation (forkHop 1) 2 :=
    ⟨forkHop 2, rfl, by rw [hl]⟩
  exact ⟨hS, hB, (later_candidate_first fork hS 0 (mkInfo 2 2)).2.2 1 (forkHop 1) 2 hB 2,
    by decide⟩

/-! ### The information computed for a hop -/

theorem mapThrough_complete (map : IterDomain → Option IterDomain) (ids : List IterDomain)
    (info : RootIDInfo) (h : (mapThrough map ids info).is_complete = true) :
    info.is_complete = true := by
  unfold mapThrough at h
  induction ids generalizing info with
  | nil => exact h
  | cons id rest ih =>
    rw [List.foldl_cons] at h
    have := ih _ h
    cases hm : map id with
    | none =>
      rw [hm] at this
      cases this
    | some image =>
      rw [hm] at this
      exact this

/-- The loop that pushes the records kept: the records computed for the records of
`from_info`, in order, without those that map to no axis. -/
theorem foldl_push (f : RootIDInfo → RootIDInfo) (l acc : List RootIDInfo) :
    l.foldl (fun result info => if !(f info).mapped_ids.isEmpty then result ++ [f info]
      else result) acc =
      acc ++ (l.map f).filter (fun r => !r.mapped_ids.isEmpty) := by
  induction l generalizing acc with
  | nil => simp
  | cons i rest ih =>
    rw [List.foldl_cons, ih, List.map_cons, List.filter_cons]
    by_cases hp : (!(f i).mapped_ids.isEmpty) = true
    · rw [if_pos hp, if_pos hp, List.append_assoc]
      rfl
    · rw [if_neg hp, if_neg hp]

theorem kept_records (f : RootIDInfo → RootIDInfo)
    (hf : ∀ i, (f i).is_complete = true → i.is_complete = true) (l : List RootIDInfo) :
    ((l.map f).filter (fun r => !r.mapped_ids.isEmpty)).length ≤ l.length ∧
      ((l.map f).filter (fun r => !r.mapped_ids.isEmpty)).countP (fun i => i.is_complete) ≤
        l.countP (fun i => i.is_complete) ∧
      (∀ r ∈ (l.map f).filter (fun r => !r.mapped_ids.isEmpty), r.mapped_ids ≠ []) ∧
      ∃ kept : List RootIDInfo, kept.Sublist l ∧
        (l.map f).filter (fun r => !r.mapped_ids.isEmpty) = kept.map f := by
  induction l with
  | nil => exact ⟨by simp, by simp, by simp, [], List.Sublist.refl _, rfl⟩
  | cons i rest ih =>
    obtain ⟨h1, h2, h3, kept, h4, h5⟩ := ih
    rw [List.map_cons, List.filter_cons]
    by_cases hp : (!(f i).mapped_ids.isEmpty) = true
    · rw [if_pos hp]
      refine ⟨by simp only [List.length_cons]; omega, ?_, ?_, i :: kept, h4.cons₂ i, ?_⟩
      · rw [List.countP_cons, List.countP_cons]
        by_cases hc : (f i).is_complete = true
        · rw [if_pos hc, if_pos (hf i hc)]
          omega
        · rw [if_neg hc]
          split <;> omega
      · intro r hr
        rcases List.mem_cons.1 hr with hr | hr
        · rw [hr]
          intro hnil
          rw [hnil] at hp
          simp at hp
        · exact h3 r hr
      · rw [h5]
        rfl
    · rw [if_neg hp]
      refine ⟨by simp only [List.length_cons]; omega, ?_, h3, kept, h4.cons i, h5⟩
      rw [List.countP_cons]
      omega

/-- C34: the information `computeInfoCasP` and `computeInfoPasC` return is not greater than
`from_info` under `RootDomainInfo::operator<`: it has at most as many records and at most as
many complete records; every record kept maps to an axis; and the records returned are the
records computed for a sublist of the records of `from_info`, in order, a record computed
being complete only when the record of `from_info` is. -/
theorem computeInfo_not_greater (G : RootMaps) (from_ to_ : TensorView)
    (from_info : RootDomainInfo) :
    (RootDomainInfo.lt from_info (computeInfoCasP G from_ to_ from_info) = false ∧
      (computeInfoCasP G from_ to_ from_info).info.length ≤ from_info.info.length ∧
      (computeInfoCasP G from_ to_ from_info).info.countP (fun i => i.is_complete) ≤
        from_info.info.countP (fun i => i.is_complete) ∧
      (∀ r ∈ (computeInfoCasP G from_ to_ from_info).info, r.mapped_ids ≠ []) ∧
      ∃ kept : List RootIDInfo, kept.Sublist from_info.info ∧
        (computeInfoCasP G from_ to_ from_info).info = kept.map (consumerInfo G from_ to_) ∧
        ∀ i, (consumerInfo G from_ to_ i).is_complete = true → i.is_complete = true) ∧
    (RootDomainInfo.lt from_info (computeInfoPasC G from_ to_ from_info) = false ∧
      (computeInfoPasC G from_ to_ from_info).info.length ≤ from_info.info.length ∧
      (computeInfoPasC G from_ to_ from_info).info.countP (fun i => i.is_complete) ≤
        from_info.info.countP (fun i => i.is_complete) ∧
      (∀ r ∈ (computeInfoPasC G from_ to_ from_info).info, r.mapped_ids ≠ []) ∧
      ∃ kept : List RootIDInfo, kept.Sublist from_info.info ∧
        (computeInfoPasC G from_ to_ from_info).info = kept.map (producerInfo G to_ from_) ∧
        ∀ i, (producerInfo G to_ from_ i).is_complete = true → i.is_complete = true) := by
  have hc : ∀ i, (consumerInfo G from_ to_ i).is_complete = true → i.is_complete = true := by
    intro i h
    unfold consumerInfo at h
    simp only at h
    have h2 := mapThrough_complete _ _ _ h
    exact h2
  have hp : ∀ i, (producerInfo G to_ from_ i).is_complete = true → i.is_complete = true := by
    intro i h
    unfold producerInfo at h
    simp only at h
    have h2 := mapThrough_complete _ _ _ h
    exact h2
  have e1 : (computeInfoCasP G from_ to_ from_info).info =
      (from_info.info.map (consumerInfo G from_ to_)).filter
        (fun r => !r.mapped_ids.isEmpty) := by
    unfold computeInfoCasP
    simp only
    rw [foldl_push, List.nil_append]
  have e2 : (computeInfoPasC G from_ to_ from_info).info =
      (from_info.info.map (producerInfo G to_ from_)).filter
        (fun r => !r.mapped_ids.isEmpty) := by
    unfold computeInfoPasC
    simp only
    rw [foldl_push, List.nil_append]
  obtain ⟨a1, a2, a3, k1, a4, a5⟩ := kept_records _ hc from_info.info
  obtain ⟨b1, b2, b3, k2, b4, b5⟩ := kept_records _ hp from_info.info
  rw [← e1] at a1 a2 a3 a5
  rw [← e2] at b1 b2 b3 b5
  refine ⟨⟨?_, a1, a2, a3, k1, a4, a5, hc⟩, ⟨?_, b1, b2, b3, k2, b4, b5, hp⟩⟩
  · rw [RootDomainInfo.lt_false_iff]
    omega
  · rw [RootDomainInfo.lt_false_iff]
    omega

end MaxInfo

namespace LowerLoops

/-! ### Maps as lists of entries -/

theorem lookup_nil {β : Type} (k : Nat) : lookup ([] : List (Nat × β)) k = none := rfl

theorem lookup_cons {β : Type} (p : Nat × β) (m : List (Nat × β)) (k : Nat) :
    lookup (p :: m) k = if p.1 = k then some p.2 else lookup m k := by
  unfold lookup
  by_cases h : p.1 = k
  · simp [List.find?_cons, h]
  · simp [List.find?_cons, h]

theorem lookup_none_iff {β : Type} (m : List (Nat × β)) (k : Nat) :
    lookup m k = none ↔ k ∉ keys m := by
  induction m with
  | nil => simp [lookup_nil, keys]
  | cons p m ih =>
    rw [lookup_cons]
    by_cases h : p.1 = k
    · simp [h, keys]
    · simp only [h, if_false, ih, keys, List.map_cons, List.mem_cons, not_or]
      constructor
      · intro h1; exact ⟨fun h2 => h h2.symm, h1⟩
      · intro h1; exact h1.2

theorem lookup_some_mem {β : Type} (m : List (Nat × β)) (k : Nat) (v : β)
    (h : lookup m k = some v) : (k, v) ∈ m := by
  induction m with
  | nil => simp [lookup_nil] at h
  | cons p m ih =>
    rw [lookup_cons] at h
    by_cases hk : p.1 = k
    · simp only [hk, if_true, Option.some.injEq] at h
      have : p = (k, v) := Prod.ext hk h
      rw [this]; exact List.mem_cons_self _ _
    · simp only [hk, if_false] at h
      exact List.mem_cons_of_mem _ (ih h)

theorem lookup_of_mem {β : Type} (m : List (Nat × β)) (hnd : (keys m).Nodup) (p : Nat × β)
    (hp : p ∈ m) : lookup m p.1 = some p.2 := by
  induction m with
  | nil => simp at hp
  | cons q m ih =>
    simp only [keys, List.map_cons, List.nodup_cons] at hnd
    rw [lookup_cons]
    rcases List.mem_cons.1 hp with h | h
    · subst h; simp
    · have hne : q.1 ≠ p.1 := by
        intro he
        exact hnd.1 (by rw [he]; exact List.mem_map_of_mem _ h)
      simp only [hne, if_false]
      exact ih hnd.2 h

theorem keys_setKey {β : Type} (m : List (Nat × β)) (k : Nat) (v : β) :
    keys (setKey m k v) = keys m := by
  induction m with
  | nil => rfl
  | cons p m ih =>
    simp only [keys, setKey, List.map_cons] at ih ⊢
    rw [ih]
    by_cases h : p.1 = k <;> simp [h]

theorem keys_eraseKey {β : Type} (m : List (Nat × β)) (k : Nat) :
    keys (eraseKey m k) = (keys m).filter (fun x => !(x == k)) := by
  induction m with
  | nil => rfl
  | cons p m ih =>
    simp only [keys, eraseKey] at ih ⊢
    by_cases h : p.1 = k
    · simp [List.filter_cons, h, ih]
    · simp [List.filter_cons, h, ih]

theorem lookup_setKey {β : Type} (m : List (Nat × β)) (k : Nat) (v : β) (k2 : Nat) :
    lookup (setKey m k v) k2 =
      if k2 = k then (lookup m k).map (fun _ => v) else lookup m k2 := by
  induction m with
  | nil => simp [setKey, lookup_nil]
  | cons p m ih =>
    have hs : setKey (p :: m) k v = (if p.1 = k then (p.1, v) else p) :: setKey m k v := by
      simp [setKey]
    rw [hs, lookup_cons, ih, lookup_cons, lookup_cons]
    by_cases h1 : p.1 = k
    · by_cases h2 : k2 = k
      · simp [h1, h2]
      · have h3 : ¬ k = k2 := fun h => h2 h.symm
        simp [h1, h2, h3]
    · by_cases h2 : k2 = k
      · subst h2; simp [h1]
      · simp [h1, h2]

theorem lookup_eraseKey {β : Type} (m : List (Nat × β)) (k k2 : Nat) :
    lookup (eraseKey m k) k2 = if k2 = k then none else lookup m k2 := by
  induction m with
  | nil => simp [eraseKey, lookup_nil]
  | cons p m ih =>
    by_cases h1 : p.1 = k
    · have hs : eraseKey (p :: m) k = eraseKey m k := by simp [eraseKey, h1]
      rw [hs, ih, lookup_cons]
      by_cases h2 : k2 = k
      · simp [h2]
      · have h3 : ¬ p.1 = k2 := by rw [h1]; exact fun h => h2 h.symm
        simp [h2, h3]
    · have hs : eraseKey (p :: m) k = p :: eraseKey m k := by simp [eraseKey, h1]
      rw [hs, lookup_cons, ih, lookup_cons]
      by_cases h2 : k2 = k
      · subst h2; simp [h1]
      · simp [h2]

theorem setKey_cons {β : Type} (p : Nat × β) (m : List (Nat × β)) (k : Nat) (v : β) :
    setKey (p :: m) k v = (if p.1 = k then (p.1, v) else p) :: setKey m k v := by
  simp [setKey]

theorem eraseKey_cons {β : Type} (p : Nat × β) (m : List (Nat × β)) (k : Nat) :
    eraseKey (p :: m) k = if p.1 = k then eraseKey m k else p :: eraseKey m k := by
  by_cases h : p.1 = k
  · simp [eraseKey, h]
  · simp [eraseKey, h]

theorem eraseKey_setKey {β : Type} (m : List (Nat × β)) (k : Nat) (v : β) :
    eraseKey (setKey m k v) k = eraseKey m k := by
  induction m with
  | nil => rfl
  | cons p m ih =>
    rw [setKey_cons, eraseKey_cons, eraseKey_cons, ih]
    by_cases h : p.1 = k
    · simp [h]
    · simp [h]

theorem nodup_keys_setKey {β : Type} (m : List (Nat × β)) (k : Nat) (v : β)
    (h : (keys m).Nodup) : (keys (setKey m k v)).Nodup := by
  rw [keys_setKey]; exact h

theorem nodup_keys_eraseKey {β : Type} (m : List (Nat × β)) (k : Nat)
    (h : (keys m).Nodup) : (keys (eraseKey m k)).Nodup := by
  rw [keys_eraseKey]; exact h.filter _

theorem keys_emplaceKey {β : Type} (m : List (Nat × β)) (k : Nat) (v : β) :
    keys (emplaceKey m k v) = if k ∈ keys m then keys m else keys m ++ [k] := by
  unfold emplaceKey
  by_cases h : k ∈ keys m
  · have : lookup m k ≠ none := fun hn => (lookup_none_iff m k).1 hn h
    cases hl : lookup m k with
    | none => exact absurd hl this
    | some x => simp [h]
  · have : lookup m k = none := (lookup_none_iff m k).2 h
    rw [if_neg h]
    simp [this, keys]

theorem nodup_keys_emplaceKey {β : Type} (m : List (Nat × β)) (k : Nat) (v : β)
    (h : (keys m).Nodup) : (keys (emplaceKey m k v)).Nodup := by
  rw [keys_emplaceKey]
  by_cases hk : k ∈ keys m
  · simp [hk, h]
  · simp only [hk, if_false]
    exact List.Nodup.append h (List.nodup_singleton _)
      (by
        intro a ha hb
        rw [List.mem_singleton] at hb
        subst hb
        exact hk ha)

theorem lookup_emplaceKey {β : Type} (m : List (Nat × β)) (k : Nat) (v : β) (k2 : Nat) :
    lookup (emplaceKey m k v) k2 =
      if k2 = k then (match lookup m k with | some x => some x | none => some v)
      else lookup m k2 := by
  unfold emplaceKey
  cases hl : lookup m k with
  | some x =>
    by_cases h : k2 = k
    · subst h; simp [hl]
    · simp [h]
  | none =>
    simp only [Option.isSome_none, Bool.false_eq_true, if_false]
    induction m with
    | nil =>
      by_cases h : k2 = k
      · subst h; simp [lookup_cons]
      · have h3 : ¬ k = k2 := fun h4 => h h4.symm
        simp [lookup_cons, lookup_nil, h, h3]
    | cons p m ih =>
      rw [lookup_cons] at hl
      by_cases hp : p.1 = k
      · simp [hp] at hl
      · simp only [hp, if_false] at hl
        rw [List.cons_append, lookup_cons, ih hl, lookup_cons]
        by_cases h : k2 = k
        · subst h; simp [hp]
        · simp [h]

/-! ### The expressions held by the groups -/

theorem flat_append (a b : TargetGroupMapT) : flat (a ++ b) = flat a ++ flat b := by
  induction a with
  | nil => rfl
  | cons p a ih => simp [flat, ih]

theorem flat_perm (a b : TargetGroupMapT) (h : a.Perm b) : (flat a).Perm (flat b) := by
  induction h with
  | nil => exact List.Perm.refl _
  | cons x _ ih => exact List.Perm.append_left _ ih
  | swap x y l =>
    simp only [flat]
    rw [← List.append_assoc, ← List.append_assoc]
    exact List.Perm.append_right _ List.perm_append_comm
  | trans _ _ ih1 ih2 => exact ih1.trans ih2

theorem mem_flat (m : TargetGroupMapT) (e : Expr) : e ∈ flat m ↔ ∃ p ∈ m, e ∈ p.2 := by
  induction m with
  | nil => simp [flat]
  | cons p m ih => simp [flat, ih]

/-- The expressions of a map are those of one entry and those of the map without it. -/
theorem flat_eraseKey (m : TargetGroupMapT) (k : TensorView) (g : ExprListT)
    (hnd : (keys m).Nodup) (h : lookup m k = some g) :
    (flat m).Perm (g ++ flat (eraseKey m k)) := by
  induction m with
  | nil => simp [lookup_nil] at h
  | cons p m ih =>
    simp only [keys, List.map_cons, List.nodup_cons] at hnd
    rw [lookup_cons] at h
    by_cases hk : p.1 = k
    · simp only [hk, if_true, Option.some.injEq] at h
      have hnot : k ∉ keys m := by rw [← hk]; exact hnd.1
      have he : eraseKey (p :: m) k = m := by
        simp only [eraseKey, List.filter_cons, hk, beq_self_eq_true, Bool.not_true]
        simp only [Bool.false_eq_true, if_false]
        rw [List.filter_eq_self]
        intro q hq
        have : q.1 ≠ k := fun hqk => hnot (by rw [← hqk]; exact List.mem_map_of_mem _ hq)
        simp [this]
      rw [he]
      simp [flat, h]
    · simp only [hk, if_false] at h
      have he : eraseKey (p :: m) k = p :: eraseKey m k := by simp [eraseKey, hk]
      rw [he]
      simp only [flat]
      have h1 := ih hnd.2 h
      have h2 : (p.2 ++ flat m).Perm (p.2 ++ (g ++ flat (eraseKey m k))) :=
        List.Perm.append_left _ h1
      refine h2.trans ?_
      rw [← List.append_assoc, ← List.append_assoc]
      exact List.Perm.append_right _ List.perm_append_comm

theorem flat_setKey (m : TargetGroupMapT) (k : TensorView) (g g2 : ExprListT)
    (hnd : (keys m).Nodup) (h : lookup m k = some g) :
    (flat (setKey m k g2)).Perm (g2 ++ flat (eraseKey m k)) := by
  have h1 : lookup (setKey m k g2) k = some g2 := by
    rw [lookup_setKey]; simp [h]
  have h2 := flat_eraseKey (setKey m k g2) k g2 (nodup_keys_setKey m k g2 hnd) h1
  rw [eraseKey_setKey] at h2
  exact h2

theorem mem_setKey {β : Type} (m : List (Nat × β)) (k : Nat) (v : β) (p : Nat × β)
    (h : p ∈ setKey m k v) : (p.1 = k ∧ p.2 = v) ∨ (p ∈ m ∧ p.1 ≠ k) := by
  unfold setKey at h
  rcases List.mem_map.1 h with ⟨q, hq, hqp⟩
  by_cases hk : q.1 = k
  · simp only [hk, beq_self_eq_true, if_true] at hqp
    left; rw [← hqp]; exact ⟨rfl, rfl⟩
  · have : (q.1 == k) = false := by simp [hk]
    simp only [this, Bool.false_eq_true, if_false] at hqp
    right; rw [← hqp]; exact ⟨hq, hk⟩

theorem mem_emplaceKey {β : Type} (m : List (Nat × β)) (k : Nat) (v : β) (p : Nat × β)
    (h : p ∈ emplaceKey m k v) : p ∈ m ∨ p = (k, v) := by
  unfold emplaceKey at h
  split at h
  · exact Or.inl h
  · rcases List.mem_append.1 h with h | h
    · exact Or.inl h
    · exact Or.inr (List.mem_singleton.1 h)

theorem flat_emplaceKey_nil (m : TargetGroupMapT) (k : TensorView) :
    flat (emplaceKey m k []) = flat m := by
  unfold emplaceKey
  split
  · rfl
  · rw [flat_append]; simp [flat]

theorem lookup_emplaceKey_of_some {β : Type} (m : List (Nat × β)) (k : Nat) (v : β)
    (e : Nat) (t : β) (h : lookup m e = some t) : lookup (emplaceKey m k v) e = some t := by
  rw [lookup_emplaceKey]
  by_cases he : e = k
  · subst he; simp [h]
  · simp [he, h]

theorem lookup_emplaceKey_cases {β : Type} (m : List (Nat × β)) (k : Nat) (v : β)
    (e : Nat) (t : β) (h : lookup (emplaceKey m k v) e = some t) :
    lookup m e = some t ∨ (e = k ∧ t = v) := by
  rw [lookup_emplaceKey] at h
  by_cases he : e = k
  · subst he
    simp only [if_true] at h
    cases hl : lookup m e with
    | none => rw [hl] at h; simp only [Option.some.injEq] at h; exact Or.inr ⟨rfl, h.symm⟩
    | some x => rw [hl] at h; exact Or.inl h
  · simp only [he, if_false] at h
    exact Or.inl h

theorem lookup_emplaceKey_self {β : Type} (m : List (Nat × β)) (k : Nat) (v : β) :
    (lookup (emplaceKey m k v) k).isSome = true := by
  rw [lookup_emplaceKey]
  cases lookup m k <;> simp

/-! ### Step 1: grouping -/

theorem groupInv_empty (F : Fusion) (fuel : Nat) : GroupInv F fuel emptyState := by
  refine ⟨by simp [emptyState, keys], ?_, ?_, ?_, ?_⟩
  · intro e s h; simp [emptyState, lookup_nil] at h
  · intro e h; simp [emptyState, flat] at h
  · intro p hp; simp [emptyState] at hp
  · intro e he; simp [emptyState] at he

theorem groupExpressions_inv (F : Fusion) (fuel : Nat) (expr : Expr) (st st1 : ReorderState)
    (h : groupExpressions F fuel expr st = some st1) (hinv : GroupInv F fuel st)
    (hts : TargetSound F fuel st) :
    GroupInv F fuel st1 ∧ TargetSound F fuel st1 ∧
      (st1.reordered_exprs ++ flat st1.computed_at_exprs).Perm
        (st.reordered_exprs ++ flat st.computed_at_exprs ++ [expr]) ∧
      (∃ l, st1.reordered_exprs = st.reordered_exprs ++ l ∧ l.Sublist [expr]) := by
  unfold groupExpressions at h
  cases hft : findTargetTensor F fuel expr with
  | none => rw [hft] at h; cases h
  | some r =>
    obtain ⟨target_tensor, score⟩ := r
    rw [hft] at h
    have hscore_sound : ∀ e s, lookup (emplaceKey st.scores expr score) e = some s →
        ∃ t, findTargetTensor F fuel e = some (t, s) := by
      intro e s hl
      rcases lookup_emplaceKey_cases _ _ _ _ _ hl with h1 | ⟨h1, h2⟩
      · exact hinv.score_sound e s h1
      · subst h1; subst h2; exact ⟨target_tensor, hft⟩
    have hscored_old : ∀ e, (lookup st.scores e).isSome = true →
        (lookup (emplaceKey st.scores expr score) e).isSome = true := by
      intro e he
      cases hl : lookup st.scores e with
      | none => rw [hl] at he; cases he
      | some x => rw [lookup_emplaceKey_of_some _ _ _ _ x hl]; rfl
    cases target_tensor with
    | none =>
      simp only [Option.some.injEq] at h
      subst h
      refine ⟨⟨hinv.keys_nodup, hscore_sound, ?_, hinv.member, ?_⟩, hts, ?_, ⟨[expr], rfl,
        List.Sublist.refl _⟩⟩
      · intro e he
        simp only [List.mem_append, List.mem_singleton] at he
        rcases he with (he | he) | he
        · exact hscored_old e (hinv.scored e (Or.inl he))
        · subst he; exact lookup_emplaceKey_self _ _ _
        · exact hscored_old e (hinv.scored e (Or.inr he))
      · intro e he
        simp only [List.mem_append, List.mem_singleton] at he
        rcases he with he | he
        · exact hinv.plain e he
        · subst he; exact ⟨score, hft⟩
      · simp only [List.append_assoc]
        exact List.Perm.append_left _ List.perm_append_comm
    | some target =>
      simp only [Option.some.injEq] at h
      subst h
      simp only []
      have hnd1 := nodup_keys_emplaceKey st.computed_at_exprs target ([] : ExprListT)
        hinv.keys_nodup
      have hsome := lookup_emplaceKey_self st.computed_at_exprs target ([] : ExprListT)
      cases hg0 : lookup (emplaceKey st.computed_at_exprs target ([] : ExprListT)) target with
      | none => rw [hg0] at hsome; cases hsome
      | some g0 =>
        simp only [Option.getD_some]
        have hg0mem : ∀ e ∈ g0, lookup st.target_map e = some target := by
          intro e he
          rcases lookup_emplaceKey_cases _ _ _ _ _ hg0 with h1 | ⟨_, h2⟩
          · exact hinv.member (target, g0) (lookup_some_mem _ _ _ h1) e he
          · subst h2; simp at he
        have hflat1 := flat_eraseKey _ target g0 hnd1 hg0
        have hflat2 := flat_setKey _ target g0 (g0 ++ [expr]) hnd1 hg0
        rw [flat_emplaceKey_nil] at hflat1
        have hflat : (flat (setKey (emplaceKey st.computed_at_exprs target [])
            target (g0 ++ [expr]))).Perm (flat st.computed_at_exprs ++ [expr]) := by
          refine hflat2.trans ?_
          have h3 : (g0 ++ [expr] ++ flat (eraseKey (emplaceKey st.computed_at_exprs target
              []) target)).Perm ([expr] ++ (g0 ++ flat (eraseKey
                (emplaceKey st.computed_at_exprs target []) target))) := by
            rw [List.append_assoc]
            rw [← List.append_assoc]
            exact List.Perm.append_right _ List.perm_append_comm
          refine h3.trans ?_
          refine (List.Perm.append_left _ hflat1.symm).trans ?_
          exact List.perm_append_comm
        have htm_old : ∀ e t, lookup st.target_map e = some t →
            lookup (emplaceKey st.target_map expr target) e = some t :=
          fun e t h1 => lookup_emplaceKey_of_some _ _ _ _ _ h1
        have htm_expr : lookup (emplaceKey st.target_map expr target) expr = some target := by
          rw [lookup_emplaceKey]
          simp only [if_true]
          cases hl : lookup st.target_map expr with
          | none => rfl
          | some x =>
            rcases hts expr x hl with ⟨s2, hs2⟩
            rw [hft] at hs2
            simp only [Option.some.injEq, Prod.mk.injEq] at hs2
            rw [hs2.1]
        refine ⟨⟨?_, hscore_sound, ?_, ?_, hinv.plain⟩, ?_, ?_, ⟨[], by simp, by simp⟩⟩
        · exact nodup_keys_setKey _ _ _ hnd1
        · intro e he
          rcases he with he | he
          · exact hscored_old e (hinv.scored e (Or.inl he))
          · have := hflat.mem_iff.1 he
            rcases List.mem_append.1 this with h1 | h1
            · exact hscored_old e (hinv.scored e (Or.inr h1))
            · rw [List.mem_singleton] at h1
              subst h1; exact lookup_emplaceKey_self _ _ _
        · intro p hp e he
          rcases mem_setKey _ _ _ _ hp with ⟨h1, h2⟩ | ⟨h1, h2⟩
          · rw [h2] at he
            rw [h1]
            rcases List.mem_append.1 he with he | he
            · exact htm_old e target (hg0mem e he)
            · rw [List.mem_singleton] at he
              subst he; exact htm_expr
          · rcases mem_emplaceKey _ _ _ _ h1 with h3 | h3
            · exact htm_old e p.1 (hinv.member p h3 e he)
            · rw [h3] at h2; exact absurd rfl h2
        · intro e t hl
          rcases lookup_emplaceKey_cases _ _ _ _ _ hl with h1 | ⟨h1, h2⟩
          · exact hts e t h1
          · subst h1; subst h2; exact ⟨score, hft⟩
        · have h4 : (st.reordered_exprs ++ flat (setKey (emplaceKey st.computed_at_exprs
              target []) target (g0 ++ [expr]))).Perm
              (st.reordered_exprs ++ (flat st.computed_at_exprs ++ [expr])) :=
            List.Perm.append_left _ hflat
          rw [← List.append_assoc] at h4
          exact h4

theorem groupAll_inv (F : Fusion) (fuel : Nat) (exprs : List Expr) (st st1 : ReorderState)
    (h : groupAll F fuel exprs st = some st1) (hinv : GroupInv F fuel st)
    (hts : TargetSound F fuel st) :
    GroupInv F fuel st1 ∧ TargetSound F fuel st1 ∧
      (st1.reordered_exprs ++ flat st1.computed_at_exprs).Perm
        (st.reordered_exprs ++ flat st.computed_at_exprs ++ exprs) ∧
      (∃ l, st1.reordered_exprs = st.reordered_exprs ++ l ∧ l.Sublist exprs) := by
  induction exprs generalizing st with
  | nil =>
    simp only [groupAll, Option.some.injEq] at h
    subst h
    exact ⟨hinv, hts, by simp, ⟨[], by simp, List.Sublist.refl _⟩⟩
  | cons expr rest ih =>
    simp only [groupAll] at h
    cases hg : groupExpressions F fuel expr st with
    | none => rw [hg] at h; cases h
    | some st2 =>
      rw [hg] at h
      rcases groupExpressions_inv F fuel expr st st2 hg hinv hts with ⟨h1, h2, h3, l1, h4, h5⟩
      rcases ih st2 h h1 h2 with ⟨k1, k2, k3, l2, k4, k5⟩
      refine ⟨k1, k2, ?_, ⟨l1 ++ l2, ?_, ?_⟩⟩
      · refine k3.trans ?_
        have := List.Perm.append_right rest h3
        refine this.trans ?_
        simp
      · rw [k4, h4, List.append_assoc]
      · have : (l1 ++ l2).Sublist ([expr] ++ rest) := List.Sublist.append h5 k5
        simpa using this

/-! ### Step 2: sorting and breadth-first reordering of a group -/

theorem segmentPass_perm (isReady : Expr → Bool) (l ready waiting : List Expr) :
    ((segmentPass isReady l ready waiting).1 ++ (segmentPass isReady l ready waiting).2).Perm
      (ready ++ waiting ++ l) := by
  induction l generalizing ready waiting with
  | nil => simp [segmentPass]
  | cons expr rest ih =>
    simp only [segmentPass]
    by_cases hr : isReady expr = true
    · simp only [hr, if_true]
      refine (ih _ _).trans ?_
      rw [List.perm_iff_count]
      intro a
      cases waiting with
      | nil => simp only [List.count_append, List.count_cons, List.count_nil]; omega
      | cons w ws => simp only [List.count_append, List.count_cons, List.count_nil]; omega
    · simp only [hr, if_false]
      refine (ih _ _).trans ?_
      rw [List.perm_iff_count]
      intro a
      simp only [List.count_append, List.count_cons, List.count_nil]; omega

theorem segmentLoop_perm (F : Fusion) (inputsOf : Expr → List TensorView) (status : List Expr)
    (fuel : Nat) (placed remaining visited r : List Expr)
    (h : segmentLoop F inputsOf status fuel placed remaining visited = some r) :
    r.Perm (placed ++ remaining) := by
  induction fuel generalizing placed remaining visited with
  | zero =>
    simp only [segmentLoop] at h
    cases remaining with
    | nil => simp at h; subst h; simp
    | cons x xs => simp at h
  | succ k ih =>
    simp only [segmentLoop] at h
    cases remaining with
    | nil => simp at h; subst h; simp
    | cons x xs =>
      simp only [List.isEmpty_cons, Bool.false_eq_true, if_false] at h
      refine (ih _ _ _ h).trans ?_
      rw [List.append_assoc]
      refine List.Perm.append_left _ ?_
      have := segmentPass_perm (fun e => readyToVisit F status visited (inputsOf e))
        (x :: xs) [] []
      simpa using this

theorem reorderSegmentBreadthFirst_perm (F : Fusion) (fuel : Nat) (seg r : List Expr)
    (h : reorderSegmentBreadthFirst F fuel seg = some r) : r.Perm seg := by
  unfold reorderSegmentBreadthFirst at h
  split at h
  · cases h
  · have := segmentLoop_perm F _ seg fuel [] seg [] r h
    simpa using this

theorem groupLoop_spec (F : Fusion) (fuel : Nat) (scores : ExprScoreMapT)
    (rest done seg : List Expr) (seg_score : Nat) (r : List Expr)
    (h : groupLoop F fuel scores done seg seg_score rest = some r)
    (hdone : ScoreSorted scores done)
    (hlt : ∀ e ∈ done, scoreOf scores e < seg_score)
    (hseg : ∀ e ∈ seg, scoreOf scores e = seg_score) :
    r.Perm (done ++ seg ++ rest) ∧ ScoreSorted scores r := by
  have hclose : ∀ (d sg sr : List Expr) (sc : Nat), ScoreSorted scores d →
      (∀ e ∈ d, scoreOf scores e < sc) → (∀ e ∈ sg, scoreOf scores e = sc) → sr.Perm sg →
      ScoreSorted scores (d ++ sr) ∧ ∀ e ∈ d ++ sr, scoreOf scores e ≤ sc := by
    intro d sg sr sc hd hl hs hp
    constructor
    · unfold ScoreSorted
      rw [List.pairwise_append]
      refine ⟨hd, ?_, ?_⟩
      · rw [List.pairwise_iff_forall_sublist]
        intro a b hab
        have ha : a ∈ sr := hab.subset (by simp)
        have hb : b ∈ sr := hab.subset (by simp)
        rw [hs a (hp.mem_iff.1 ha), hs b (hp.mem_iff.1 hb)]
      · intro a ha b hb
        rw [hs b (hp.mem_iff.1 hb)]
        exact Nat.le_of_lt (hl a ha)
    · intro e he
      rcases List.mem_append.1 he with he | he
      · exact Nat.le_of_lt (hl e he)
      · exact Nat.le_of_eq (hs e (hp.mem_iff.1 he))
  induction rest generalizing done seg seg_score with
  | nil =>
    simp only [groupLoop] at h
    cases hs : reorderSegmentBreadthFirst F fuel seg with
    | none => rw [hs] at h; cases h
    | some sr =>
      rw [hs] at h
      simp only [Option.some.injEq] at h
      subst h
      have hp := reorderSegmentBreadthFirst_perm F fuel seg sr hs
      refine ⟨?_, (hclose done seg sr seg_score hdone hlt hseg hp).1⟩
      simp only [List.append_nil]
      exact List.Perm.append_left _ hp
  | cons expr rest ih =>
    simp only [groupLoop] at h
    by_cases h1 : seg_score = scoreOf scores expr
    · simp only [h1, if_true] at h
      have := ih done (seg ++ [expr]) (scoreOf scores expr) h hdone
        (by intro e he; rw [← h1]; exact hlt e he)
        (by
          intro e he
          rcases List.mem_append.1 he with he | he
          · rw [← h1]; exact hseg e he
          · rw [List.mem_singleton] at he; rw [he])
      refine ⟨this.1.trans ?_, this.2⟩
      simp
    · simp only [h1, if_false] at h
      by_cases h2 : seg_score < scoreOf scores expr
      · simp only [h2, if_true] at h
        cases hs : reorderSegmentBreadthFirst F fuel seg with
        | none => rw [hs] at h; cases h
        | some sr =>
          rw [hs] at h
          have hp := reorderSegmentBreadthFirst_perm F fuel seg sr hs
          have hc := hclose done seg sr seg_score hdone hlt hseg hp
          have := ih (done ++ sr) [expr] (scoreOf scores expr) h hc.1
            (by intro e he; exact Nat.lt_of_le_of_lt (hc.2 e he) h2)
            (by intro e he; rw [List.mem_singleton] at he; rw [he])
          refine ⟨this.1.trans ?_, this.2⟩
          have h3 : (done ++ sr).Perm (done ++ seg) := List.Perm.append_left _ hp
          have h4 := List.Perm.append_right ([expr] ++ rest) h3
          simpa using h4
      · simp only [h2, if_false] at h
        cases h

theorem reorderGroupBreadthFirst_spec (F : Fusion) (fuel : Nat) (exprs : ExprListT)
    (scores : ExprScoreMapT) (r : ExprListT)
    (h : reorderGroupBreadthFirst F fuel exprs scores = some r) :
    r.Perm exprs ∧ ScoreSorted scores r := by
  unfold reorderGroupBreadthFirst at h
  cases exprs with
  | nil => cases h
  | cons first rest =>
    simp only [] at h
    have := groupLoop_spec F fuel scores (first :: rest) [] [] (scoreOf scores first) r h
      (by simp [ScoreSorted]) (by simp) (by simp)
    simpa using this

theorem sortGroup_perm (exprs : ExprListT) (scores : ExprScoreMapT) :
    (sortGroup exprs scores).Perm exprs :=
  List.perm_insertionSort _ _

/-- Step 2 keeps the keys and their order and returns, for every group, a permutation of it
that is in ascending order of score. -/
theorem sortAll_spec (F : Fusion) (fuel : Nat) (scores : ExprScoreMapT)
    (m m1 : TargetGroupMapT) (h : sortAll F fuel scores m = some m1) :
    List.Forall₂ (fun p q => q.1 = p.1 ∧ q.2.Perm p.2 ∧ ScoreSorted scores q.2) m m1 := by
  induction m generalizing m1 with
  | nil =>
    simp only [sortAll, Option.some.injEq] at h
    subst h
    exact List.Forall₂.nil
  | cons p rest ih =>
    obtain ⟨target, group⟩ := p
    simp only [sortAll] at h
    cases hg : reorderGroupBreadthFirst F fuel (sortGroup group scores) scores with
    | none => rw [hg] at h; cases h
    | some g =>
      rw [hg] at h
      cases hr : sortAll F fuel scores rest with
      | none => rw [hr] at h; cases h
      | some rest1 =>
        rw [hr] at h
        simp only [Option.some.injEq] at h
        subst h
        have hs := reorderGroupBreadthFirst_spec F fuel _ scores g hg
        exact List.Forall₂.cons ⟨rfl, hs.1.trans (sortGroup_perm group scores), hs.2⟩
          (ih rest1 hr)

theorem forall2_keys (scores : ExprScoreMapT) (m m1 : TargetGroupMapT)
    (h : List.Forall₂ (fun p q => q.1 = p.1 ∧ q.2.Perm p.2 ∧ ScoreSorted scores q.2) m m1) :
    keys m1 = keys m := by
  induction h with
  | nil => rfl
  | cons hpq _ ih => simp only [keys, List.map_cons] at ih ⊢; rw [ih, hpq.1]

theorem forall2_flat (scores : ExprScoreMapT) (m m1 : TargetGroupMapT)
    (h : List.Forall₂ (fun p q => q.1 = p.1 ∧ q.2.Perm p.2 ∧ ScoreSorted scores q.2) m m1) :
    (flat m1).Perm (flat m) := by
  induction h with
  | nil => exact List.Perm.refl _
  | cons hpq _ ih => exact List.Perm.append hpq.2.1 ih

theorem forall2_mem (scores : ExprScoreMapT) (m m1 : TargetGroupMapT)
    (h : List.Forall₂ (fun p q => q.1 = p.1 ∧ q.2.Perm p.2 ∧ ScoreSorted scores q.2) m m1)
    (q : TensorView × ExprListT) (hq : q ∈ m1) :
    ∃ p ∈ m, q.1 = p.1 ∧ q.2.Perm p.2 ∧ ScoreSorted scores q.2 := by
  induction h with
  | nil => simp at hq
  | cons hpq _ ih =>
    rcases List.mem_cons.1 hq with h1 | h1
    · subst h1; exact ⟨_, List.mem_cons_self _ _, hpq⟩
    · rcases ih h1 with ⟨p, hp, hrel⟩
      exact ⟨p, List.mem_cons_of_mem _ hp, hrel⟩

theorem forall2_mem_left (scores : ExprScoreMapT) (m m1 : TargetGroupMapT)
    (h : List.Forall₂ (fun p q => q.1 = p.1 ∧ q.2.Perm p.2 ∧ ScoreSorted scores q.2) m m1)
    (p : TensorView × ExprListT) (hp : p ∈ m) :
    ∃ q ∈ m1, q.1 = p.1 ∧ q.2.Perm p.2 ∧ ScoreSorted scores q.2 := by
  induction h with
  | nil => simp at hp
  | cons hpq _ ih =>
    rcases List.mem_cons.1 hp with h1 | h1
    · subst h1; exact ⟨_, List.mem_cons_self _ _, hpq⟩
    · rcases ih h1 with ⟨q, hq, hrel⟩
      exact ⟨q, List.mem_cons_of_mem _ hq, hrel⟩

theorem iterationOrder_perm (F : Fusion) (m : TargetGroupMapT) :
    (iterationOrder F m).Perm m :=
  List.perm_insertionSort _ _

/-! ### Step 3: merging the groups whose target has a compute-at -/

theorem mem_eraseKey {β : Type} (m : List (Nat × β)) (k : Nat) (p : Nat × β) :
    p ∈ eraseKey m k ↔ p ∈ m ∧ p.1 ≠ k := by
  unfold eraseKey
  rw [List.mem_filter]
  simp

theorem mem_setKey_of_ne {β : Type} (m : List (Nat × β)) (k : Nat) (v : β) (p : Nat × β)
    (hp : p ∈ m) (hne : p.1 ≠ k) : p ∈ setKey m k v := by
  unfold setKey
  refine List.mem_map.2 ⟨p, hp, ?_⟩
  have : (p.1 == k) = false := by simp [hne]
  simp [this]

theorem mem_setKey_self {β : Type} (m : List (Nat × β)) (k : Nat) (v w : β)
    (h : lookup m k = some w) : (k, v) ∈ setKey m k v := by
  have hm := lookup_some_mem m k w h
  unfold setKey
  exact List.mem_map.2 ⟨(k, w), hm, by simp⟩

theorem retarget_spec (target target_of_target : TensorView) (group : List Expr)
    (tm tm1 : ExprTargetMapT) (h : retarget target target_of_target group tm = some tm1) :
    (∀ e ∈ group, lookup tm1 e = some target_of_target) ∧
      (∀ e, e ∉ group → lookup tm1 e = lookup tm e) ∧
      (∀ e ∈ group, ∃ t, lookup tm e = some t) := by
  induction group generalizing tm with
  | nil =>
    simp only [retarget, Option.some.injEq] at h
    subst h
    exact ⟨by simp, fun _ _ => rfl, by simp⟩
  | cons e rest ih =>
    simp only [retarget] at h
    by_cases hl : lookup tm e = some target
    · simp only [hl, if_true] at h
      rcases ih _ h with ⟨h1, h2, h3⟩
      refine ⟨?_, ?_, ?_⟩
      · intro x hx
        rcases List.mem_cons.1 hx with hx | hx
        · subst hx
          by_cases hin : x ∈ rest
          · exact h1 x hin
          · rw [h2 x hin, lookup_setKey]
            simp [hl]
        · exact h1 x hx
      · intro x hx
        rw [List.mem_cons, not_or] at hx
        rw [h2 x hx.2, lookup_setKey]
        simp [hx.1]
      · intro x hx
        rcases List.mem_cons.1 hx with hx | hx
        · subst hx; exact ⟨target, hl⟩
        · rcases h3 x hx with ⟨t, ht⟩
          rw [lookup_setKey] at ht
          by_cases hxe : x = e
          · subst hxe; exact ⟨target, hl⟩
          · simp only [hxe, if_false] at ht
            exact ⟨t, ht⟩
    · simp only [hl, if_false] at h
      cases h

theorem findPos_spec (v : List Expr) (x : Expr) (pos : Nat) (h : findPos v x = some pos) :
    x ∈ v ∧ ∃ tail, v.drop pos = x :: tail := by
  unfold findPos at h
  by_cases hx : x ∈ v
  · simp only [hx, if_true, Option.some.injEq] at h
    subst h
    have hlt : v.indexOf x < v.length := List.indexOf_lt_length.2 hx
    refine ⟨hx, v.drop (v.indexOf x + 1), ?_⟩
    rw [List.drop_eq_getElem_cons hlt, List.getElem_indexOf hlt]
  · simp [hx] at h

theorem sublist_insertRange (v : List Expr) (pos : Nat) (range : List Expr) :
    v.Sublist (insertRange v pos range) := by
  unfold insertRange
  have h1 : (v.take pos ++ [] ++ v.drop pos).Sublist (v.take pos ++ range ++ v.drop pos) :=
    List.Sublist.append (List.Sublist.append (List.Sublist.refl _) (List.nil_sublist _))
      (List.Sublist.refl _)
  rw [List.append_nil, List.take_append_drop] at h1
  exact h1

theorem insertRange_perm (v : List Expr) (pos : Nat) (range : List Expr) :
    (insertRange v pos range).Perm (range ++ v) := by
  unfold insertRange
  rw [List.perm_iff_count]
  intro a
  have := congrArg (List.count a) (List.take_append_drop pos v)
  simp only [List.count_append] at this ⊢
  omega

theorem range_before (v : List Expr) (pos : Nat) (range : List Expr) (x : Expr)
    (tail : List Expr) (h : v.drop pos = x :: tail) :
    (range ++ [x]).Sublist (insertRange v pos range) := by
  unfold insertRange
  rw [h]
  have h1 : ([] ++ range ++ [x]).Sublist (v.take pos ++ range ++ x :: tail) :=
    List.Sublist.append (List.Sublist.append (List.nil_sublist _) (List.Sublist.refl _))
      (by simp)
  rw [List.nil_append] at h1
  exact h1

/-- The outcome of the body of the merging loop that changes the map. -/
theorem mergeOne_cases (F : Fusion) (target : TensorView)
    (st st1 : TargetGroupMapT × ExprTargetMapT) (h : mergeOne F target st = some st1) :
    (F.hasComputeAt target = false ∧ st1 = st ∧ ∃ group, lookup st.1 target = some group) ∨
    (F.hasComputeAt target = true ∧
      ∃ group target_expr target_of_target target_group pos target_map,
        lookup st.1 target = some group ∧ F.definition target = some target_expr ∧
        lookup st.2 target_expr = some target_of_target ∧
        lookup st.1 target_of_target = some target_group ∧
        findPos target_group target_expr = some pos ∧ target_of_target ≠ target ∧
        retarget target target_of_target group st.2 = some target_map ∧
        st1 = (eraseKey (setKey st.1 target_of_target
          (insertRange target_group pos group)) target, target_map)) := by
  unfold mergeOne at h
  cases hg : lookup st.1 target with
  | none => rw [hg] at h; cases h
  | some group =>
    rw [hg] at h
    simp only [] at h
    cases hca : F.hasComputeAt target with
    | false =>
      rw [hca] at h
      simp only [Bool.false_eq_true, if_false, Option.some.injEq] at h
      exact Or.inl ⟨rfl, h.symm, group, rfl⟩
    | true =>
      rw [hca] at h
      simp only [if_true] at h
      right
      refine ⟨rfl, ?_⟩
      cases hd : F.definition target with
      | none => rw [hd] at h; cases h
      | some target_expr =>
        rw [hd] at h
        simp only [] at h
        cases ht : lookup st.2 target_expr with
        | none => rw [ht] at h; cases h
        | some target_of_target =>
          rw [ht] at h
          simp only [] at h
          cases htg : lookup st.1 target_of_target with
          | none => rw [htg] at h; cases h
          | some target_group =>
            rw [htg] at h
            simp only [] at h
            cases hp : findPos target_group target_expr with
            | none => rw [hp] at h; cases h
            | some pos =>
              rw [hp] at h
              simp only [] at h
              by_cases hne : target_of_target = target
              · simp [hne] at h
              · simp only [hne, if_false] at h
                cases hr : retarget target target_of_target group st.2 with
                | none => rw [hr] at h; cases h
                | some target_map =>
                  rw [hr] at h
                  simp only [Option.some.injEq] at h
                  exact ⟨group, target_expr, target_of_target, target_group, pos, target_map,
                    rfl, rfl, ht, htg, hp, hne, hr, h.symm⟩

theorem mergeOne_spec (F : Fusion) (target : TensorView)
    (st st1 : TargetGroupMapT × ExprTargetMapT) (h : mergeOne F target st = some st1)
    (hinv : MergeInv st) :
    MergeInv st1 ∧ (flat st1.1).Perm (flat st.1) ∧
      (∀ p ∈ st.1, ∃ q ∈ st1.1, p.2.Sublist q.2) ∧
      (∀ t g, t ≠ target → lookup st.1 t = some g →
        ∃ g1, lookup st1.1 t = some g1 ∧ g.Sublist g1) ∧
      (F.hasComputeAt target = true → ∀ d g, F.definition target = some d →
        lookup st.1 target = some g → ∃ q ∈ st1.1, (g ++ [d]).Sublist q.2) ∧
      (∀ q ∈ st1.1, q.1 ∈ keys st.1) ∧
      (∀ q ∈ st1.1, F.hasComputeAt q.1 = true → q.1 ≠ target) := by
  rcases mergeOne_cases F target st st1 h with ⟨hca, he, _⟩ |
    ⟨hca, group, d, tot, tg, pos, tm, hg, hd, ht, htg, hp, hne, hr, he⟩
  · subst he
    refine ⟨hinv, List.Perm.refl _, fun p hp => ⟨p, hp, List.Sublist.refl _⟩,
      fun t g _ hg => ⟨g, hg, List.Sublist.refl _⟩, ?_, ?_, ?_⟩
    · intro h1; rw [hca] at h1; cases h1
    · intro q hq; exact List.mem_map_of_mem _ hq
    · intro q _ hq1 hq2; rw [hq2, hca] at hq1; cases hq1
  · subst he
    rcases retarget_spec target tot group st.2 tm hr with ⟨hr1, hr2, hr3⟩
    rcases findPos_spec tg d pos hp with ⟨hdin, tail, htail⟩
    have hnd1 := nodup_keys_setKey st.1 tot (insertRange tg pos group) hinv.keys_nodup
    have hl1 : lookup (setKey st.1 tot (insertRange tg pos group)) target = some group := by
      rw [lookup_setKey]
      have : ¬ target = tot := fun h1 => hne h1.symm
      simp [this, hg]
    have hdisj : ∀ e ∈ group, e ∉ tg := by
      intro e he1 he2
      have h1 := hinv.member (target, group) (lookup_some_mem _ _ _ hg) e he1
      have h2 := hinv.member (tot, tg) (lookup_some_mem _ _ _ htg) e he2
      rw [h1] at h2
      simp only [Option.some.injEq] at h2
      exact hne h2.symm
    have hentry : (tot, insertRange tg pos group) ∈
        eraseKey (setKey st.1 tot (insertRange tg pos group)) target := by
      rw [mem_eraseKey]
      exact ⟨mem_setKey_self _ _ _ _ htg, hne⟩
    refine ⟨⟨?_, ?_⟩, ?_, ?_, ?_, ?_, ?_, ?_⟩
    · exact nodup_keys_eraseKey _ _ hnd1
    · intro p hp1 e he
      rw [mem_eraseKey] at hp1
      rcases mem_setKey _ _ _ _ hp1.1 with ⟨h1, h2⟩ | ⟨h1, h2⟩
      · rw [h2] at he
        rw [h1]
        have hmem := (insertRange_perm tg pos group).mem_iff.1 he
        rcases List.mem_append.1 hmem with h3 | h3
        · exact hr1 e h3
        · have hnot : e ∉ group := fun h4 => hdisj e h4 h3
          rw [hr2 e hnot]
          exact hinv.member (tot, tg) (lookup_some_mem _ _ _ htg) e h3
      · have hnot : e ∉ group := by
          intro h4
          have h5 := hinv.member (target, group) (lookup_some_mem _ _ _ hg) e h4
          rw [hinv.member p h1 e he] at h5
          simp only [Option.some.injEq] at h5
          exact hp1.2 h5
        rw [hr2 e hnot]
        exact hinv.member p h1 e he
    · have h1 := flat_eraseKey _ target group hnd1 hl1
      have h2 := flat_setKey st.1 tot tg (insertRange tg pos group) hinv.keys_nodup htg
      have h3 := flat_eraseKey st.1 tot tg hinv.keys_nodup htg
      have h4 : (group ++ flat (eraseKey (setKey st.1 tot (insertRange tg pos group))
          target)).Perm (group ++ flat st.1) := by
        refine h1.symm.trans (h2.trans ?_)
        have h5 := List.Perm.append_right (flat (eraseKey st.1 tot))
          (insertRange_perm tg pos group)
        refine h5.trans ?_
        rw [List.append_assoc]
        exact List.Perm.append_left _ h3.symm
      exact (List.perm_append_left_iff group).1 h4
    · intro p hp1
      by_cases h1 : p.1 = target
      · have hp2 : p.2 = group := by
          have := lookup_of_mem st.1 hinv.keys_nodup p hp1
          rw [h1, hg] at this
          simp only [Option.some.injEq] at this
          exact this.symm
        refine ⟨_, hentry, ?_⟩
        rw [hp2]
        unfold insertRange
        have h6 : ([] ++ group ++ []).Sublist (tg.take pos ++ group ++ tg.drop pos) :=
          List.Sublist.append (List.Sublist.append (List.nil_sublist _) (List.Sublist.refl _))
            (List.nil_sublist _)
        rw [List.nil_append, List.append_nil] at h6
        exact h6
      · by_cases h2 : p.1 = tot
        · have hp2 : p.2 = tg := by
            have := lookup_of_mem st.1 hinv.keys_nodup p hp1
            rw [h2, htg] at this
            simp only [Option.some.injEq] at this
            exact this.symm
          refine ⟨_, hentry, ?_⟩
          rw [hp2]
          exact sublist_insertRange tg pos group
        · refine ⟨p, ?_, List.Sublist.refl _⟩
          rw [mem_eraseKey]
          exact ⟨mem_setKey_of_ne _ _ _ _ hp1 h2, h1⟩
    · intro t g htne hgt
      rw [lookup_eraseKey, lookup_setKey]
      simp only [htne, if_false]
      by_cases h2 : t = tot
      · subst h2
        rw [htg] at hgt
        simp only [Option.some.injEq] at hgt
        subst hgt
        exact ⟨_, by simp [htg], sublist_insertRange _ pos group⟩
      · simp only [h2, if_false]
        exact ⟨g, hgt, List.Sublist.refl _⟩
    · intro _ d2 g hd2 hg2
      rw [hd] at hd2
      simp only [Option.some.injEq] at hd2
      subst hd2
      rw [hg] at hg2
      simp only [Option.some.injEq] at hg2
      subst hg2
      exact ⟨_, hentry, range_before tg pos _ _ tail htail⟩
    · intro q hq
      rw [mem_eraseKey] at hq
      have := List.mem_map_of_mem (fun p => p.1) hq.1
      have hk := keys_setKey st.1 tot (insertRange tg pos group)
      unfold keys at hk
      rw [hk] at this
      exact this
    · intro q hq _
      rw [mem_eraseKey] at hq
      exact hq.2

theorem mergeNonRoot_spec (F : Fusion) (ks : List TensorView)
    (st st1 : TargetGroupMapT × ExprTargetMapT)
    (h : mergeNonRootGroupsIntoRootGroups F ks st = some st1) (hinv : MergeInv st) :
    MergeInv st1 ∧ (flat st1.1).Perm (flat st.1) ∧
      (∀ p ∈ st.1, ∃ q ∈ st1.1, p.2.Sublist q.2) ∧
      (∀ q ∈ st1.1, q.1 ∈ keys st.1) := by
  induction ks generalizing st with
  | nil =>
    simp only [mergeNonRootGroupsIntoRootGroups, Option.some.injEq] at h
    subst h
    exact ⟨hinv, List.Perm.refl _, fun p hp => ⟨p, hp, List.Sublist.refl _⟩,
      fun q hq => List.mem_map_of_mem _ hq⟩
  | cons target rest ih =>
    simp only [mergeNonRootGroupsIntoRootGroups] at h
    cases hm : mergeOne F target st with
    | none => rw [hm] at h; cases h
    | some st2 =>
      rw [hm] at h
      rcases mergeOne_spec F target st st2 hm hinv with ⟨h1, h2, h3, _, _, h6, _⟩
      rcases ih st2 h h1 with ⟨k1, k2, k3, k4⟩
      refine ⟨k1, k2.trans h2, ?_, ?_⟩
      · intro p hp
        rcases h3 p hp with ⟨q, hq, hpq⟩
        rcases k3 q hq with ⟨q2, hq2, hqq⟩
        exact ⟨q2, hq2, hpq.trans hqq⟩
      · intro q hq
        rcases List.mem_map.1 (k4 q hq) with ⟨q1, hq1, hq1e⟩
        rw [← hq1e]
        exact h6 q1 hq1

/-- An expression of the group of `t`, a target with a compute-at, ends before the definition
of `t` in one group, and two expressions that are in this order in one group stay so. -/
theorem mergeNonRoot_before (F : Fusion) (e d : Expr) (t : TensorView)
    (ks : List TensorView) (st st1 : TargetGroupMapT × ExprTargetMapT)
    (h : mergeNonRootGroupsIntoRootGroups F ks st = some st1) (hinv : MergeInv st)
    (hpre : (∃ q ∈ st.1, [e, d].Sublist q.2) ∨
      (t ∈ ks ∧ F.hasComputeAt t = true ∧ F.definition t = some d ∧
        ∃ g, lookup st.1 t = some g ∧ e ∈ g)) :
    ∃ q ∈ st1.1, [e, d].Sublist q.2 := by
  induction ks generalizing st with
  | nil =>
    simp only [mergeNonRootGroupsIntoRootGroups, Option.some.injEq] at h
    subst h
    rcases hpre with hq | ⟨ht, _⟩
    · exact hq
    · simp at ht
  | cons target rest ih =>
    simp only [mergeNonRootGroupsIntoRootGroups] at h
    cases hm : mergeOne F target st with
    | none => rw [hm] at h; cases h
    | some st2 =>
      rw [hm] at h
      rcases mergeOne_spec F target st st2 hm hinv with ⟨h1, _, h3, h4, h5, _, _⟩
      apply ih st2 h h1
      rcases hpre with ⟨q, hq, hsub⟩ | ⟨ht, hca, hd, g, hg, heg⟩
      · rcases h3 q hq with ⟨q2, hq2, hqq⟩
        exact Or.inl ⟨q2, hq2, hsub.trans hqq⟩
      · by_cases hte : t = target
        · subst hte
          rcases h5 hca d g hd hg with ⟨q, hq, hsub⟩
          refine Or.inl ⟨q, hq, List.Sublist.trans ?_ hsub⟩
          have : ([e] ++ [d]).Sublist (g ++ [d]) :=
            List.Sublist.append (List.singleton_sublist.2 heg) (List.Sublist.refl _)
          simpa using this
        · rcases h4 t g hte hg with ⟨g1, hg1, hsub⟩
          refine Or.inr ⟨?_, hca, hd, g1, hg1, hsub.subset heg⟩
          rcases List.mem_cons.1 ht with h6 | h6
          · exact absurd h6 hte
          · exact h6

/-! ### Step 4: the root groups are appended to the list -/

theorem pickTarget_mem (F : Fusion) (ks : List TensorView) (cur : TensorView) :
    pickTarget F ks cur = cur ∨ pickTarget F ks cur ∈ ks := by
  induction ks generalizing cur with
  | nil => left; rfl
  | cons k rest ih =>
    simp only [pickTarget]
    by_cases h1 : cur = k
    · simp only [h1, if_true]
      rcases ih k with h | h
      · right; rw [h]; exact List.mem_cons_self _ _
      · right; exact List.mem_cons_of_mem _ h
    · simp only [h1, if_false]
      by_cases h2 : F.isDependencyOf k cur = true
      · simp only [h2, if_true]
        rcases ih k with h | h
        · right; rw [h]; exact List.mem_cons_self _ _
        · right; exact List.mem_cons_of_mem _ h
      · simp only [h2, if_false]
        rcases ih cur with h | h
        · left; exact h
        · right; exact List.mem_cons_of_mem _ h

theorem perm_eraseKey (m : TargetGroupMapT) (k : TensorView) (g : ExprListT)
    (hnd : (keys m).Nodup) (h : lookup m k = some g) :
    m.Perm ((k, g) :: eraseKey m k) := by
  induction m with
  | nil => simp [lookup_nil] at h
  | cons p m ih =>
    simp only [keys, List.map_cons, List.nodup_cons] at hnd
    rw [lookup_cons] at h
    rw [eraseKey_cons]
    by_cases hk : p.1 = k
    · simp only [hk, if_true, Option.some.injEq] at h ⊢
      have hnot : k ∉ keys m := by rw [← hk]; exact hnd.1
      have he : eraseKey m k = m := by
        unfold eraseKey
        rw [List.filter_eq_self]
        intro q hq
        have : q.1 ≠ k := fun hqk => hnot (by rw [← hqk]; exact List.mem_map_of_mem _ hq)
        simp [this]
      rw [he]
      have : p = (k, g) := Prod.ext hk h
      rw [this]
    · simp only [hk, if_false] at h ⊢
      exact (List.Perm.cons p (ih hnd.2 h)).trans (List.Perm.swap _ _ _)

theorem mergeGroupsIntoSortedList_spec (F : Fusion) (fuel : Nat) (m : TargetGroupMapT)
    (r : ExprListT) (hnd : (keys m).Nodup) (hlen : m.length ≤ fuel) :
    ∃ gs : TargetGroupMapT, gs.Perm m ∧ mergeGroupsIntoSortedList F fuel m r = r ++ flat gs := by
  induction fuel generalizing m r with
  | zero =>
    have : m = [] := List.length_eq_zero.1 (Nat.le_zero.1 hlen)
    subst this
    exact ⟨[], List.Perm.refl _, by simp [mergeGroupsIntoSortedList, flat]⟩
  | succ k ih =>
    cases m with
    | nil => exact ⟨[], List.Perm.refl _, by simp [mergeGroupsIntoSortedList, flat]⟩
    | cons p tl =>
      simp only [mergeGroupsIntoSortedList]
      have hcur : pickTarget F (List.map (fun p => p.1) (p :: tl)) p.1 ∈ keys (p :: tl) := by
        rcases pickTarget_mem F (List.map (fun p => p.1) (p :: tl)) p.1 with h | h
        · rw [h]; simp [keys]
        · exact h
      cases hl : lookup (p :: tl) (pickTarget F (List.map (fun p => p.1) (p :: tl)) p.1) with
      | none => exact absurd hcur ((lookup_none_iff _ _).1 hl)
      | some g =>
        have hperm := perm_eraseKey (p :: tl) _ g hnd hl
        have hlen2 : (eraseKey (p :: tl)
            (pickTarget F (List.map (fun p => p.1) (p :: tl)) p.1)).length ≤ k := by
          have := hperm.length_eq
          simp only [List.length_cons] at this hlen
          omega
        rcases ih (eraseKey (p :: tl) (pickTarget F (List.map (fun p => p.1) (p :: tl)) p.1))
          (r ++ g) (nodup_keys_eraseKey _ _ hnd) hlen2 with ⟨gs, hgs, he⟩
        refine ⟨(pickTarget F (List.map (fun p => p.1) (p :: tl)) p.1, g) :: gs, ?_, ?_⟩
        · exact (List.Perm.cons _ hgs).trans hperm.symm
        · simp only [Option.getD_some]
          rw [he]
          simp [flat]

/-! ### The whole of `reorderExprsForComputeAt` -/

theorem rootGroups_cases (F : Fusion) (fuel : Nat) (exprs : List Expr) (st1 : ReorderState)
    (h : rootGroups F fuel exprs = some st1) :
    ∃ st sorted groups tm,
      groupAll F fuel exprs emptyState = some st ∧ sanityCheck exprs st = true ∧
      sortAll F fuel st.scores (iterationOrder F st.computed_at_exprs) = some sorted ∧
      mergeNonRootGroupsIntoRootGroups F (sorted.map (fun p => p.1)) (sorted, st.target_map) =
        some (groups, tm) ∧
      groups.any (fun p => F.hasComputeAt p.1) = false ∧
      st1 = { st with computed_at_exprs := groups, target_map := tm } ∧
      sanityCheck exprs st1 = true := by
  unfold rootGroups at h
  cases hga : groupAll F fuel exprs emptyState with
  | none => rw [hga] at h; cases h
  | some st =>
    rw [hga] at h
    simp only [] at h
    cases hsc : sanityCheck exprs st with
    | false => rw [hsc] at h; simp at h
    | true =>
      rw [hsc] at h
      simp only [Bool.not_true, Bool.false_eq_true, if_false] at h
      unfold mergeSteps at h
      cases hso : sortAll F fuel st.scores (iterationOrder F st.computed_at_exprs) with
      | none => rw [hso] at h; cases h
      | some sorted =>
        rw [hso] at h
        simp only [] at h
        cases hme : mergeNonRootGroupsIntoRootGroups F (sorted.map (fun p => p.1))
            (sorted, st.target_map) with
        | none => rw [hme] at h; cases h
        | some res =>
          obtain ⟨groups, tm⟩ := res
          rw [hme] at h
          simp only [] at h
          cases hany : groups.any (fun p => F.hasComputeAt p.1) with
          | true => rw [hany] at h; simp at h
          | false =>
            rw [hany] at h
            simp only [Bool.false_eq_true, if_false] at h
            cases hsc2 : sanityCheck exprs
                { st with computed_at_exprs := groups, target_map := tm } with
            | false => rw [hsc2] at h; simp at h
            | true =>
              rw [hsc2] at h
              simp only [Bool.not_true, Bool.false_eq_true, if_false, Option.some.injEq] at h
              exact ⟨st, sorted, groups, tm, rfl, hsc, hso, hme, hany, h.symm,
                by rw [← h]; exact hsc2⟩

theorem sublist_flat (m : TargetGroupMapT) (p : TensorView × ExprListT) (hp : p ∈ m) :
    p.2.Sublist (flat m) := by
  induction m with
  | nil => simp at hp
  | cons q m ih =>
    simp only [flat]
    rcases List.mem_cons.1 hp with h | h
    · subst h; exact List.sublist_append_left _ _
    · exact (ih h).trans (List.sublist_append_right _ _)

/-- The invariant of the merging phase holds of the sorted groups. -/
theorem mergeInv_sorted (F : Fusion) (fuel : Nat) (st : ReorderState)
    (sorted : TargetGroupMapT) (hinv : GroupInv F fuel st)
    (hso : sortAll F fuel st.scores (iterationOrder F st.computed_at_exprs) = some sorted) :
    MergeInv (sorted, st.target_map) ∧ (flat sorted).Perm (flat st.computed_at_exprs) := by
  have hf := sortAll_spec F fuel st.scores _ sorted hso
  have hperm := iterationOrder_perm F st.computed_at_exprs
  refine ⟨⟨?_, ?_⟩, ?_⟩
  · show (keys sorted).Nodup
    rw [forall2_keys st.scores _ sorted hf]
    have hk : (keys (iterationOrder F st.computed_at_exprs)).Perm (keys st.computed_at_exprs) :=
      hperm.map _
    exact hk.nodup_iff.2 hinv.keys_nodup
  · intro q hq e he
    rcases forall2_mem st.scores _ sorted hf q hq with ⟨p, hp, h1, h2, _⟩
    rw [h1]
    exact hinv.member p (hperm.mem_iff.1 hp) e (h2.mem_iff.1 he)
  · exact (forall2_flat st.scores _ sorted hf).trans (flat_perm _ _ hperm)

/-- The state before the root groups are appended: the list and the groups hold the input
expressions, the keys of the groups are distinct targets without compute-at, and every
expression of a group maps to the key of its group. -/
theorem rootGroups_spec (F : Fusion) (fuel : Nat) (exprs : List Expr) (st1 : ReorderState)
    (h : rootGroups F fuel exprs = some st1) :
    (st1.reordered_exprs ++ flat st1.computed_at_exprs).Perm exprs ∧
      MergeInv (st1.computed_at_exprs, st1.target_map) ∧
      (∀ p ∈ st1.computed_at_exprs, F.hasComputeAt p.1 = false) ∧
      st1.reordered_exprs.Sublist exprs := by
  rcases rootGroups_cases F fuel exprs st1 h with
    ⟨st, sorted, groups, tm, hga, _, hso, hme, hany, he, _⟩
  rcases groupAll_inv F fuel exprs emptyState st hga (groupInv_empty F fuel)
    (by intro e t hl; simp [emptyState, lookup_nil] at hl) with ⟨hinv, _, hperm, l, hl1, hl2⟩
  rcases mergeInv_sorted F fuel st sorted hinv hso with ⟨hmi, hfs⟩
  rcases mergeNonRoot_spec F _ _ _ hme hmi with ⟨k1, k2, _, _⟩
  subst he
  refine ⟨?_, k1, ?_, ?_⟩
  · simp only []
    refine (List.Perm.append_left _ (k2.trans hfs)).trans ?_
    simpa [emptyState, flat] using hperm
  · intro p hp
    simp only [] at hp
    have := List.any_eq_false.1 hany p hp
    simpa using this
  · simp only []
    rw [hl1]
    simpa [emptyState] using hl2

theorem reorder_cases (F : Fusion) (fuel : Nat) (exprs r : List Expr)
    (h : reorderExprsForComputeAt F fuel exprs = some r) :
    ∃ st1, rootGroups F fuel exprs = some st1 ∧
      ∃ gs : TargetGroupMapT, gs.Perm st1.computed_at_exprs ∧
        r = st1.reordered_exprs ++ flat gs := by
  unfold reorderExprsForComputeAt at h
  cases hga : groupAll F fuel exprs emptyState with
  | none => rw [hga] at h; cases h
  | some st =>
    rw [hga] at h
    simp only [] at h
    cases hsc : sanityCheck exprs st with
    | false => rw [hsc] at h; simp at h
    | true =>
      rw [hsc] at h
      simp only [Bool.not_true, Bool.false_eq_true, if_false] at h
      by_cases hz : st.computed_at_exprs.length = 0
      · simp only [hz, if_true, Option.some.injEq] at h
        have hnil : st.computed_at_exprs = [] := List.length_eq_zero.1 hz
        have hst : ({ st with computed_at_exprs := [], target_map := st.target_map } :
            ReorderState) = st := by
          cases st
          simp only [] at hnil
          subst hnil
          rfl
        have hrg : rootGroups F fuel exprs = some st := by
          unfold rootGroups
          rw [hga]
          simp only [hsc, hnil, mergeSteps, iterationOrder, List.insertionSort, sortAll,
            List.map_nil, mergeNonRootGroupsIntoRootGroups, List.any_nil, Bool.not_true,
            Bool.false_eq_true, if_false, hst]
        refine ⟨st, hrg, [], by rw [hnil], ?_⟩
        rcases groupAll_inv F fuel exprs emptyState st hga (groupInv_empty F fuel)
          (by intro e t hl; simp [emptyState, lookup_nil] at hl) with ⟨_, _, _, l, hl1, hl2⟩
        simp only [emptyState, List.nil_append] at hl1
        have hlen : st.reordered_exprs.length = exprs.length := by
          unfold sanityCheck at hsc
          simp only [Bool.and_eq_true, decide_eq_true_eq] at hsc
          rw [hnil] at hsc
          simp only [List.map_nil, List.sum_nil] at hsc
          omega
        rw [← h]
        simp only [flat, List.append_nil]
        rw [hl1] at hlen ⊢
        exact (hl2.eq_of_length hlen).symm
      · simp only [hz, if_false] at h
        cases hms : mergeSteps F fuel exprs st with
        | none => rw [hms] at h; cases h
        | some st1 =>
          rw [hms] at h
          simp only [] at h
          have hrg : rootGroups F fuel exprs = some st1 := by
            unfold rootGroups
            rw [hga]
            simp only [hsc, Bool.not_true, Bool.false_eq_true, if_false]
            exact hms
          split at h
          · simp only [Option.some.injEq] at h
            rcases rootGroups_spec F fuel exprs st1 hrg with ⟨_, hmi, _, _⟩
            rcases mergeGroupsIntoSortedList_spec F st1.computed_at_exprs.length
              st1.computed_at_exprs st1.reordered_exprs hmi.keys_nodup (Nat.le_refl _) with
              ⟨gs, hgs, he⟩
            exact ⟨st1, hrg, gs, hgs, by rw [← h, he]⟩
          · cases h

theorem findTargetTensor_root (F : Fusion) (fuel : Nat) (d : Expr) (t : TensorView)
    (hout : findOutputTensor F d = some (some t)) (hca : F.hasComputeAt t = false) :
    findTargetTensor F fuel d = some (some t, UINT_MAX) := by
  have hlen : (F.outputs d).length ≤ 1 := by
    by_contra hc
    simp [findOutputTensor, hc] at hout
  simp [findTargetTensor, hlen, hout, hca]

theorem scoreSorted_pair (scores : ExprScoreMapT) (l : List Expr) (a b : Expr)
    (hs : ScoreSorted scores l) (ha : a ∈ l) (hb : b ∈ l)
    (hlt : scoreOf scores a < scoreOf scores b) : [a, b].Sublist l := by
  induction l with
  | nil => simp at ha
  | cons x xs ih =>
    unfold ScoreSorted at hs
    rw [List.pairwise_cons] at hs
    rcases List.mem_cons.1 ha with h1 | h1
    · rcases List.mem_cons.1 hb with h2 | h2
      · rw [h1, h2] at hlt; exact absurd hlt (Nat.lt_irrefl _)
      · rw [h1]; exact List.Sublist.cons₂ x (List.singleton_sublist.2 h2)
    · rcases List.mem_cons.1 hb with h2 | h2
      · have := hs.1 a h1
        rw [h2] at hlt
        exact absurd hlt (Nat.not_lt.2 this)
      · exact (ih hs.2 h1 h2).cons x

/-- Where an expression with a target stands after grouping: in the group of its target, with
its score recorded. -/
theorem grouped_at_target (F : Fusion) (fuel : Nat) (exprs : List Expr) (st : ReorderState)
    (hga : groupAll F fuel exprs emptyState = some st) (e : Expr) (t : TensorView) (s : Nat)
    (he : e ∈ exprs) (ht : findTargetTensor F fuel e = some (some t, s)) :
    scoreOf st.scores e = s ∧ ∃ g, (t, g) ∈ st.computed_at_exprs ∧ e ∈ g := by
  rcases groupAll_inv F fuel exprs emptyState st hga (groupInv_empty F fuel)
    (by intro e t hl; simp [emptyState, lookup_nil] at hl) with ⟨hinv, hts, hperm, _⟩
  have hmem : e ∈ st.reordered_exprs ++ flat st.computed_at_exprs := by
    rw [hperm.mem_iff]
    simp [he]
  have hin : e ∈ flat st.computed_at_exprs := by
    rcases List.mem_append.1 hmem with h1 | h1
    · rcases hinv.plain e h1 with ⟨s2, hs2⟩
      rw [ht] at hs2
      simp at hs2
    · exact h1
  constructor
  · have h1 := hinv.scored e (Or.inr hin)
    cases hl : lookup st.scores e with
    | none => rw [hl] at h1; cases h1
    | some x =>
      rcases hinv.score_sound e x hl with ⟨t2, ht2⟩
      rw [ht] at ht2
      simp only [Option.some.injEq, Prod.mk.injEq] at ht2
      simp [scoreOf, hl, ht2.2]
  · rcases (mem_flat _ e).1 hin with ⟨p, hp, hep⟩
    rcases hts e p.1 (hinv.member p hp e hep) with ⟨s2, hs2⟩
    rw [ht] at hs2
    simp only [Option.some.injEq, Prod.mk.injEq] at hs2
    refine ⟨p.2, ?_, hep⟩
    rw [hs2.1]
    exact hp

/-- An expression with a target and a score below `UINT_MAX` stands before the definition of
its target in one root group. -/
theorem rootGroups_before (F : Fusion) (fuel : Nat) (exprs : List Expr) (st1 : ReorderState)
    (h : rootGroups F fuel exprs = some st1) (e d : Expr) (t : TensorView) (s : Nat)
    (he : e ∈ exprs) (hd : d ∈ exprs)
    (ht : findTargetTensor F fuel e = some (some t, s)) (hs : s < UINT_MAX)
    (hdef : F.definition t = some d) (hout : findOutputTensor F d = some (some t)) :
    ∃ q ∈ st1.computed_at_exprs, [e, d].Sublist q.2 := by
  rcases rootGroups_cases F fuel exprs st1 h with
    ⟨st, sorted, groups, tm, hga, _, hso, hme, _, hst1, _⟩
  rcases groupAll_inv F fuel exprs emptyState st hga (groupInv_empty F fuel)
    (by intro e t hl; simp [emptyState, lookup_nil] at hl) with ⟨hinv, _, _, _⟩
  rcases mergeInv_sorted F fuel st sorted hinv hso with ⟨hmi, _⟩
  have hf := sortAll_spec F fuel st.scores _ sorted hso
  have hperm := iterationOrder_perm F st.computed_at_exprs
  rcases grouped_at_target F fuel exprs st hga e t s he ht with ⟨hse, g, hg, heg⟩
  rcases forall2_mem_left st.scores _ sorted hf (t, g) (hperm.mem_iff.2 hg) with
    ⟨q, hq, hq1, hq2, hq3⟩
  have heq : e ∈ q.2 := hq2.mem_iff.2 heg
  have hres : ∃ q ∈ groups, [e, d].Sublist q.2 := by
    apply mergeNonRoot_before F e d t _ _ _ hme hmi
    cases hca : F.hasComputeAt t with
    | true =>
      right
      refine ⟨?_, rfl, hdef, q.2, ?_, heq⟩
      · exact List.mem_map.2 ⟨q, hq, hq1⟩
      · have := lookup_of_mem sorted hmi.keys_nodup q hq
        rw [hq1] at this
        exact this
    | false =>
      left
      have htd := findTargetTensor_root F fuel d t hout hca
      rcases grouped_at_target F fuel exprs st hga d t UINT_MAX hd htd with ⟨hsd, g2, hg2, hdg⟩
      have hgg : g2 = g := by
        have h1 := lookup_of_mem _ hinv.keys_nodup (t, g2) hg2
        have h2 := lookup_of_mem _ hinv.keys_nodup (t, g) hg
        simp only [] at h1 h2
        rw [h1] at h2
        simpa using h2
      rw [hgg] at hdg
      refine ⟨q, hq, scoreSorted_pair st.scores q.2 e d hq3 heq (hq2.mem_iff.2 hdg) ?_⟩
      rw [hse, hsd]
      exact hs
  rw [hst1]
  exact hres

theorem mergeOne_none (F : Fusion) (target : TensorView)
    (st st1 : TargetGroupMapT × ExprTargetMapT) (h : mergeOne F target st = some st1)
    (e : Expr) (hn : lookup st.2 e = none) : lookup st1.2 e = none := by
  rcases mergeOne_cases F target st st1 h with ⟨_, he, _⟩ |
    ⟨_, group, d, tot, tg, pos, tm, _, _, _, _, _, _, hr, he⟩
  · rw [he]; exact hn
  · rw [he]
    rcases retarget_spec target tot group st.2 tm hr with ⟨_, hr2, hr3⟩
    have hnot : e ∉ group := by
      intro hin
      rcases hr3 e hin with ⟨x, hx⟩
      rw [hn] at hx
      cases hx
    show lookup tm e = none
    rw [hr2 e hnot]
    exact hn

theorem mergeNonRoot_none (F : Fusion) (ks : List TensorView)
    (st st1 : TargetGroupMapT × ExprTargetMapT)
    (h : mergeNonRootGroupsIntoRootGroups F ks st = some st1)
    (e : Expr) (hn : lookup st.2 e = none) : lookup st1.2 e = none := by
  induction ks generalizing st with
  | nil =>
    simp only [mergeNonRootGroupsIntoRootGroups, Option.some.injEq] at h
    subst h
    exact hn
  | cons target rest ih =>
    simp only [mergeNonRootGroupsIntoRootGroups] at h
    cases hm : mergeOne F target st with
    | none => rw [hm] at h; cases h
    | some st2 =>
      rw [hm] at h
      exact ih st2 h (mergeOne_none F target st st2 hm e hn)

/-- The expressions left outside the groups have no entry in the final `target_map`. -/
theorem rootGroups_plain (F : Fusion) (fuel : Nat) (exprs : List Expr) (st1 : ReorderState)
    (h : rootGroups F fuel exprs = some st1) :
    ∀ e ∈ st1.reordered_exprs, lookup st1.target_map e = none := by
  rcases rootGroups_cases F fuel exprs st1 h with
    ⟨st, sorted, groups, tm, hga, _, _, hme, _, hst1, _⟩
  rcases groupAll_inv F fuel exprs emptyState st hga (groupInv_empty F fuel)
    (by intro e t hl; simp [emptyState, lookup_nil] at hl) with ⟨hinv, hts, _, _⟩
  intro e he
  rw [hst1] at he ⊢
  simp only [] at he ⊢
  apply mergeNonRoot_none F _ _ _ hme e
  show lookup st.target_map e = none
  cases hl : lookup st.target_map e with
  | none => rfl
  | some x =>
    rcases hts e x hl with ⟨s2, hs2⟩
    rcases hinv.plain e he with ⟨s3, hs3⟩
    rw [hs2] at hs3
    simp at hs3

/-! ### The claims on `reorderExprsForComputeAt` -/

/-- C1: for every list of pairwise distinct operations on which `reorderExprsForComputeAt`
completes, the returned list is a permutation of the input: it has the same length and holds
each operation of the input exactly once. -/
theorem reorder_permutation (F : Fusion) (fuel : Nat) (exprs r : List Expr)
    (hnd : exprs.Nodup) (h : reorderExprsForComputeAt F fuel exprs = some r) :
    r.Perm exprs ∧ r.length = exprs.length ∧ ∀ e ∈ exprs, r.count e = 1 := by
  rcases reorder_cases F fuel exprs r h with ⟨st1, hrg, gs, hgs, hr⟩
  rcases rootGroups_spec F fuel exprs st1 hrg with ⟨hperm, _, _, _⟩
  have hp : r.Perm exprs := by
    rw [hr]
    exact (List.Perm.append_left _ (flat_perm _ _ hgs)).trans hperm
  refine ⟨hp, hp.length_eq, ?_⟩
  intro e he
  rw [hp.count_eq]
  exact List.count_eq_one_of_mem hnd he

/-- C1, witness on scenario C. -/
theorem reorder_permutation_witness :
    [0, 1, 2].Nodup ∧ reorderExprsForComputeAt scenarioC 5 [0, 1, 2] = some [2, 1, 0] ∧
      [2, 1, 0].Perm [0, 1, 2] :=
  ⟨by decide, by decide,
    (reorder_permutation scenarioC 5 [0, 1, 2] [2, 1, 0] (by decide) (by decide)).1⟩

/-- C8: in the list returned by `reorderExprsForComputeAt`, an operation `e` whose output is
computed at another tensor, with target `t` as found by `findTargetTensor` and an axis
position as score (a value below `UINT_MAX`), stands before the operation `d` that defines
`t`; and scenario C, the list `[A, B, C]` (expressions 0, 1, 2), is returned as `[C, B, A]`. -/
theorem computed_at_before_target :
    (∀ (F : Fusion) (fuel : Nat) (exprs r : List Expr) (e d : Expr) (t : TensorView)
      (s : Nat),
      reorderExprsForComputeAt F fuel exprs = some r → e ∈ exprs → d ∈ exprs →
      findTargetTensor F fuel e = some (some t, s) → s < UINT_MAX →
      F.definition t = some d → findOutputTensor F d = some (some t) →
      [e, d].Sublist r) ∧
    reorderExprsForComputeAt scenarioC 5 [0, 1, 2] = some [2, 1, 0] := by
  refine ⟨?_, by decide⟩
  intro F fuel exprs r e d t s h he hd ht hs hdef hout
  rcases reorder_cases F fuel exprs r h with ⟨st1, hrg, gs, hgs, hr⟩
  rcases rootGroups_before F fuel exprs st1 hrg e d t s he hd ht hs hdef hout with
    ⟨q, hq, hsub⟩
  rw [hr]
  exact (hsub.trans (sublist_flat gs q (hgs.mem_iff.2 hq))).trans
    (List.sublist_append_right _ _)

/-- C8, witness: in scenario C, `C` (expression 2, target tensor
11, score 1) stands before `B` (expression 1), the definition of tensor 11. -/
theorem computed_at_before_target_witness : [2, 1].Sublist [2, 1, 0] :=
  computed_at_before_target.1 scenarioC 5 [0, 1, 2] [2, 1, 0] 2 1 11 1 (by decide) (by decide)
    (by decide) (by decide) (by decide) (by decide) (by decide)

/-- C9: the list returned by `reorderExprsForComputeAt` is the list of the operations without
target followed by the root groups, one whole group after the other: every root group is one
contiguous block of the result, and a root group holds just the operations of the result
that `target_map` sends to its target once the non-root groups are merged. -/
theorem root_groups_contiguous (F : Fusion) (fuel : Nat) (exprs r : List Expr)
    (h : reorderExprsForComputeAt F fuel exprs = some r) :
    ∃ st, rootGroups F fuel exprs = some st ∧
      (keys st.computed_at_exprs).Nodup ∧
      (∀ p ∈ st.computed_at_exprs, F.hasComputeAt p.1 = false) ∧
      (∀ p ∈ st.computed_at_exprs, ∀ e,
        e ∈ p.2 ↔ (e ∈ r ∧ lookup st.target_map e = some p.1)) ∧
      (∃ gs : TargetGroupMapT, gs.Perm st.computed_at_exprs ∧
        r = st.reordered_exprs ++ flat gs) ∧
      (∀ p ∈ st.computed_at_exprs, ∃ pre post, r = pre ++ p.2 ++ post) := by
  rcases reorder_cases F fuel exprs r h with ⟨st1, hrg, gs, hgs, hr⟩
  rcases rootGroups_spec F fuel exprs st1 hrg with ⟨_, hmi, hroot, _⟩
  have hplain := rootGroups_plain F fuel exprs st1 hrg
  refine ⟨st1, hrg, hmi.keys_nodup, hroot, ?_, ⟨gs, hgs, hr⟩, ?_⟩
  · intro p hp e
    constructor
    · intro he
      refine ⟨?_, hmi.member p hp e he⟩
      rw [hr]
      exact List.mem_append_right _
        ((sublist_flat gs p (hgs.mem_iff.2 hp)).subset he)
    · rintro ⟨her, hl⟩
      rw [hr] at her
      rcases List.mem_append.1 her with h1 | h1
      · rw [hplain e h1] at hl
        cases hl
      · rcases (mem_flat gs e).1 h1 with ⟨q, hq, heq⟩
        have hq2 := hgs.mem_iff.1 hq
        have := hmi.member q hq2 e heq
        rw [hl] at this
        simp only [Option.some.injEq] at this
        have h3 := lookup_of_mem _ hmi.keys_nodup q hq2
        have h4 := lookup_of_mem _ hmi.keys_nodup p hp
        simp only [] at h3 h4
        rw [← this, h4] at h3
        simp only [Option.some.injEq] at h3
        rw [h3]
        exact heq
  · intro p hp
    rcases List.append_of_mem (hgs.mem_iff.2 hp) with ⟨a, b, hab⟩
    refine ⟨st1.reordered_exprs ++ flat a, flat b, ?_⟩
    rw [hr, hab, flat_append]
    simp [flat]

/-- C9, witness on scenario C: the single root group, of tensor 10, is
the whole result. -/
theorem root_groups_contiguous_witness :
    ∃ st, rootGroups scenarioC 5 [0, 1, 2] = some st ∧
      (keys st.computed_at_exprs).Nodup ∧
      (∀ p ∈ st.computed_at_exprs, scenarioC.hasComputeAt p.1 = false) ∧
      (∀ p ∈ st.computed_at_exprs, ∀ e,
        e ∈ p.2 ↔ (e ∈ [2, 1, 0] ∧ lookup st.target_map e = some p.1)) ∧
      (∃ gs : TargetGroupMapT, gs.Perm st.computed_at_exprs ∧
        [2, 1, 0] = st.reordered_exprs ++ flat gs) ∧
      (∀ p ∈ st.computed_at_exprs, ∃ pre post, [2, 1, 0] = pre ++ p.2 ++ post) :=
  root_groups_contiguous scenarioC 5 [0, 1, 2] [2, 1, 0] (by decide)


/-! ### Barriers for shared memory -/

theorem sinceBarrier_cons (s : Stmt) (rest : List Stmt) :
    sinceBarrier (s :: rest) =
      if Stmt.Sync ∈ rest then sinceBarrier rest
      else if s = Stmt.Sync then rest else s :: rest := rfl

theorem sinceBarrier_of_not_mem (l : List Stmt) (h : Stmt.Sync ∉ l) : sinceBarrier l = l := by
  cases l with
  | nil => rfl
  | cons s rest =>
    rw [List.mem_cons, not_or] at h
    have h1 : ¬ s = Stmt.Sync := fun hs => h.1 hs.symm
    rw [sinceBarrier_cons, if_neg h.2, if_neg h1]

theorem sinceBarrier_append (l l2 : List Stmt) (h : Stmt.Sync ∉ l2) :
    sinceBarrier (l ++ l2) = sinceBarrier l ++ l2 := by
  induction l with
  | nil =>
    rw [List.nil_append, sinceBarrier_of_not_mem l2 h]
    rfl
  | cons s rest ih =>
    by_cases h1 : Stmt.Sync ∈ rest
    · have h2 : Stmt.Sync ∈ rest ++ l2 := List.mem_append_left _ h1
      rw [List.cons_append, sinceBarrier_cons, if_pos h2, ih, sinceBarrier_cons, if_pos h1]
    · have h2 : Stmt.Sync ∉ rest ++ l2 := by
        intro hm
        rcases List.mem_append.1 hm with hm | hm
        · exact h1 hm
        · exact h hm
      rw [List.cons_append, sinceBarrier_cons, if_neg h2, sinceBarrier_cons, if_neg h1]
      by_cases h3 : s = Stmt.Sync
      · rw [if_pos h3, if_pos h3]
      · rw [if_neg h3, if_neg h3]
        rfl

theorem sinceBarrier_append_sync (l : List Stmt) : sinceBarrier (l ++ [Stmt.Sync]) = [] := by
  induction l with
  | nil => rfl
  | cons s rest ih =>
    have h2 : Stmt.Sync ∈ rest ++ [Stmt.Sync] := by simp
    rw [List.cons_append, sinceBarrier_cons, if_pos h2, ih]

theorem writePending_append_sync (F : Fusion) (p : List Stmt) (t : Val) :
    writePending F (p ++ [Stmt.Sync]) t = false := by
  simp [writePending, sinceBarrier_append_sync]

theorem writePending_append_compute (F : Fusion) (p : List Stmt) (expr : Expr) (t : Val) :
    writePending F (p ++ [Stmt.Compute expr]) t =
      (writePending F p t || (isSharedTensor F t && writes F t (Stmt.Compute expr))) := by
  unfold writePending
  rw [sinceBarrier_append p [Stmt.Compute expr] (by simp)]
  rw [List.any_append]
  cases isSharedTensor F t <;> simp

theorem writePending_append_other (F : Fusion) (p l2 : List Stmt) (t : Val)
    (h1 : Stmt.Sync ∉ l2) (h2 : ∀ s ∈ l2, writes F t s = false) :
    writePending F (p ++ l2) t = writePending F p t := by
  unfold writePending
  rw [sinceBarrier_append p l2 h1, List.any_append]
  have : l2.any (writes F t) = false := by
    rw [List.any_eq_false]
    intro s hs
    rw [h2 s hs]
    simp
  rw [this, Bool.or_false]

theorem lookup_cleanSharedMemory (m : List (Val × Bool)) (t : Val) :
    lookup (cleanSharedMemory m) t = (lookup m t).map (fun _ => false) := by
  induction m with
  | nil => rfl
  | cons p m ih =>
    have hc : cleanSharedMemory (p :: m) = (p.1, false) :: cleanSharedMemory m := rfl
    rw [hc, lookup_cons, lookup_cons, ih]
    by_cases h : p.1 = t
    · simp [h]
    · simp [h]

theorem isModified_clean (m : List (Val × Bool)) (t : Val) :
    isModifiedSharedMemory (cleanSharedMemory m) t = false := by
  unfold isModifiedSharedMemory
  rw [lookup_cleanSharedMemory]
  cases lookup m t <;> rfl

theorem lookup_modifySharedMemory (m : List (Val × Bool)) (k t : Val) :
    lookup (modifySharedMemory m k) t =
      if t = k then (lookup m k).map (fun _ => true) else lookup m t := by
  unfold modifySharedMemory
  cases hl : lookup m k with
  | none =>
    by_cases h : t = k
    · subst h; simp [hl]
    · simp [h]
  | some x =>
    simp only []
    rw [lookup_setKey, hl]

theorem isModified_modify (m : List (Val × Bool)) (k t : Val) :
    isModifiedSharedMemory (modifySharedMemory m k) t =
      ((decide (t = k) && (lookup m k).isSome) || isModifiedSharedMemory m t) := by
  unfold isModifiedSharedMemory
  rw [lookup_modifySharedMemory]
  by_cases h : t = k
  · subst h
    cases lookup m t <;> simp
  · simp [h]

theorem keys_modify (m : List (Val × Bool)) (k t : Val) :
    (lookup (modifySharedMemory m k) t).isSome = (lookup m t).isSome := by
  rw [lookup_modifySharedMemory]
  by_cases h : t = k
  · subst h
    cases lookup m t <;> simp
  · simp [h]

theorem keys_clean (m : List (Val × Bool)) (t : Val) :
    (lookup (cleanSharedMemory m) t).isSome = (lookup m t).isSome := by
  rw [lookup_cleanSharedMemory]
  cases lookup m t <;> rfl

theorem initSmem_spec (F : Fusion) (vs : List Val) (m : List (Val × Bool)) (t : Val) :
    (lookup (initSmem F vs m) t).isSome =
      ((lookup m t).isSome || (decide (t ∈ vs) && decide (F.getValType t = ValType.TensorView)
        && decide (F.getMemoryType t = MemoryType.Shared))) ∧
    isModifiedSharedMemory (initSmem F vs m) t = isModifiedSharedMemory m t := by
  induction vs generalizing m with
  | nil => simp [initSmem]
  | cons v rest ih =>
    simp only [initSmem]
    by_cases hv : F.getValType v = ValType.TensorView ∧ F.getMemoryType v = MemoryType.Shared
    · simp only [hv, and_self, if_true]
      rcases ih (emplaceKey m v false) with ⟨h1, h2⟩
      constructor
      · rw [h1, lookup_emplaceKey]
        by_cases htv : t = v
        · subst htv
          cases lookup m t <;> simp [hv.1, hv.2]
        · simp [htv]
      · rw [h2]
        unfold isModifiedSharedMemory
        rw [lookup_emplaceKey]
        by_cases htv : t = v
        · subst htv
          cases lookup m t <;> simp
        · simp [htv]
    · simp only [hv, if_false]
      rcases ih m with ⟨h1, h2⟩
      refine ⟨?_, h2⟩
      rw [h1]
      by_cases htv : t = v
      · subst htv
        have : (decide (F.getValType t = ValType.TensorView) &&
            decide (F.getMemoryType t = MemoryType.Shared)) = false := by
          rw [not_and_or] at hv
          rcases hv with hv | hv <;> simp [hv]
        cases hl : (lookup m t).isSome <;> cases hr : decide (t ∈ rest) <;>
          simp [Bool.and_assoc, this]
      · simp [htv]

theorem smemInv_initial (F : Fusion) : SmemInv F (initialGen F) := by
  constructor
  · intro t
    have := (initSmem_spec F F.vals [] t).1
    simpa [initialGen, isSharedTensor, lookup_nil] using this
  · intro t
    have := (initSmem_spec F F.vals [] t).2
    simp only [initialGen]
    rw [this]
    simp [isModifiedSharedMemory, lookup_nil, writePending, sinceBarrier]

theorem needsBarrier_eq (F : Fusion) (st : GenState) (hinv : SmemInv F st) (expr : Expr) :
    (F.inputs expr).any (fun i => isModifiedSharedMemory st.smem_ i) =
      needsBarrier F st.pushed expr := by
  unfold needsBarrier
  congr 1
  funext i
  exact hinv.flag_pending i

/-- What `handle` does for a tensor operation. -/
theorem handle_tv_spec (F : Fusion) (expr : Expr) (st st1 : GenState)
    (htv : F.isTVOp expr = true) (h : handle F expr st = some st1) (hinv : SmemInv F st) :
    SmemInv F st1 ∧
      st1.pushed = st.pushed ++
        (if needsBarrier F st.pushed expr then [Stmt.Sync, Stmt.Compute expr]
         else [Stmt.Compute expr]) ∧
      (needsBarrier F st.pushed expr = true →
        ∀ t, isModifiedSharedMemory st1.smem_ t = true → (F.outputs expr).head? = some t) := by
  unfold handle at h
  simp only [htv, Bool.not_true, Bool.false_eq_true, if_false] at h
  rw [needsBarrier_eq F st hinv expr] at h
  cases hout : (F.outputs expr).head? with
  | none => rw [hout] at h; cases h
  | some out =>
    rw [hout] at h
    simp only [Option.some.injEq] at h
    have hw : ∀ t, writes F t (Stmt.Compute expr) = decide (t = out) := by
      intro t
      simp only [writes, htv, Bool.true_and, hout, Option.some.injEq]
      by_cases hto : t = out
      · simp [hto]
      · have : ¬ out = t := fun h1 => hto h1.symm
        simp [hto, this]
    cases hb : needsBarrier F st.pushed expr with
    | true =>
      rw [hb] at h
      simp only [if_true] at h
      subst h
      refine ⟨⟨?_, ?_⟩, by simp, ?_⟩
      · intro t
        simp only []
        rw [keys_modify, keys_clean]
        exact hinv.keys_shared t
      · intro t
        simp only []
        rw [isModified_modify, isModified_clean, writePending_append_compute,
          writePending_append_sync, hw, keys_clean, hinv.keys_shared]
        by_cases hto : t = out
        · subst hto; simp
        · simp [hto]
      · intro _ t ht
        simp only [] at ht
        rw [isModified_modify, isModified_clean] at ht
        simp only [Bool.or_false, Bool.and_eq_true, decide_eq_true_eq] at ht
        rw [ht.1]
    | false =>
      rw [hb] at h
      simp only [Bool.false_eq_true, if_false] at h
      subst h
      refine ⟨⟨?_, ?_⟩, by simp, ?_⟩
      · intro t
        simp only []
        rw [keys_modify]
        exact hinv.keys_shared t
      · intro t
        simp only []
        rw [isModified_modify, writePending_append_compute, hw, hinv.flag_pending,
          hinv.keys_shared]
        by_cases hto : t = out
        · subst hto
          cases writePending F st.pushed t <;> cases isSharedTensor F t <;> simp
        · simp [hto]
      · intro h1; cases h1

/-- The invariant of `smem_` is kept by `handle`. -/
theorem handle_inv (F : Fusion) (expr : Expr) (st st1 : GenState)
    (h : handle F expr st = some st1) (hinv : SmemInv F st) : SmemInv F st1 := by
  cases htv : F.isTVOp expr with
  | true => exact (handle_tv_spec F expr st st1 htv h hinv).1
  | false =>
    unfold handle at h
    simp only [htv, Bool.not_false, if_true] at h
    split at h
    · simp only [Option.some.injEq] at h
      subst h
      refine ⟨hinv.keys_shared, ?_⟩
      intro t
      simp only []
      rw [List.append_assoc, writePending_append_other]
      · exact hinv.flag_pending t
      · simp
      · intro s hs
        rcases List.mem_append.1 hs with hs | hs
        · rcases List.mem_map.1 hs with ⟨o, _, ho⟩
          rw [← ho]; rfl
        · rw [List.mem_singleton] at hs
          rw [hs]
          simp [writes, htv]
    · cases h

theorem handleAll_inv (F : Fusion) (ops : List Expr) (st st1 : GenState)
    (h : handleAll F ops st = some st1) (hinv : SmemInv F st) : SmemInv F st1 := by
  induction ops generalizing st with
  | nil =>
    simp only [handleAll, Option.some.injEq] at h
    subst h
    exact hinv
  | cons expr rest ih =>
    simp only [handleAll] at h
    cases hh : handle F expr st with
    | none => rw [hh] at h; cases h
    | some st2 =>
      rw [hh] at h
      exact ih st2 h (handle_inv F expr st st2 hh hinv)

theorem handleAll_three (F : Fusion) (op1 op2 op3 : Expr) (st st3 : GenState)
    (h : handleAll F [op1, op2, op3] st = some st3) :
    ∃ st1 st2, handle F op1 st = some st1 ∧ handle F op2 st1 = some st2 ∧
      handle F op3 st2 = some st3 := by
  simp only [handleAll] at h
  cases h1 : handle F op1 st with
  | none => rw [h1] at h; cases h
  | some st1 =>
    rw [h1] at h
    simp only [] at h
    cases h2 : handle F op2 st1 with
    | none => rw [h2] at h; cases h
    | some st2 =>
      rw [h2] at h
      simp only [] at h
      cases h3 : handle F op3 st2 with
      | none => rw [h3] at h; cases h
      | some st4 =>
        rw [h3] at h
        simp only [Option.some.injEq] at h
        subst h
        exact ⟨st1, st2, rfl, h2, h3⟩

/-- C10: while the loop nest is generated, `handle` pushes a barrier for a tensor operation
exactly when one of its inputs is a shared-memory tensor that an operation handled after the
most recent barrier wrote, and after a barrier no flag is set but the one of the output of
the operation; hence when `op1` writes the shared tensor `T` with nothing pending, and `op2`
and then `op3` read `T` while `op3` reads no shared output of `op2`, the statements pushed are
the one of `op1`, one barrier, the one of `op2` and the one of `op3`, in this order. -/
theorem barrier_when_write_pending (F : Fusion) (ops : List Expr) (st : GenState)
    (hreach : handleAll F ops (initialGen F) = some st) :
    (∀ expr st1, F.isTVOp expr = true → handle F expr st = some st1 →
      st1.pushed = st.pushed ++
        (if needsBarrier F st.pushed expr then [Stmt.Sync, Stmt.Compute expr]
         else [Stmt.Compute expr]) ∧
      (needsBarrier F st.pushed expr = true →
        ∀ t, isModifiedSharedMemory st1.smem_ t = true →
          (F.outputs expr).head? = some t)) ∧
    (∀ op1 op2 op3 T st3, F.isTVOp op1 = true → F.isTVOp op2 = true → F.isTVOp op3 = true →
      needsBarrier F st.pushed op1 = false →
      (F.outputs op1).head? = some T → isSharedTensor F T = true →
      T ∈ F.inputs op2 → T ∈ F.inputs op3 →
      (∀ o, (F.outputs op2).head? = some o → o ∉ F.inputs op3 ∨ isSharedTensor F o = false) →
      handleAll F [op1, op2, op3] st = some st3 →
      st3.pushed = st.pushed ++
        [Stmt.Compute op1, Stmt.Sync, Stmt.Compute op2, Stmt.Compute op3]) := by
  have hinv := handleAll_inv F ops _ st hreach (smemInv_initial F)
  constructor
  · intro expr st1 htv h
    exact (handle_tv_spec F expr st st1 htv h hinv).2
  · intro op1 op2 op3 T st3 ht1 ht2 ht3 hnb hout hsh hin2 hin3 hno h
    rcases handleAll_three F op1 op2 op3 st st3 h with ⟨st1, st2, h1, h2, h3⟩
    rcases handle_tv_spec F op1 st st1 ht1 h1 hinv with ⟨hinv1, hp1, _⟩
    rcases handle_tv_spec F op2 st1 st2 ht2 h2 hinv1 with ⟨hinv2, hp2, _⟩
    rcases handle_tv_spec F op3 st2 st3 ht3 h3 hinv2 with ⟨_, hp3, _⟩
    rw [hnb] at hp1
    simp only [Bool.false_eq_true, if_false] at hp1
    have hnb2 : needsBarrier F st1.pushed op2 = true := by
      unfold needsBarrier
      rw [List.any_eq_true]
      refine ⟨T, hin2, ?_⟩
      rw [hp1, writePending_append_compute, hsh]
      simp [writes, ht1, hout]
    rw [hnb2] at hp2
    simp only [if_true] at hp2
    have hnb3 : needsBarrier F st2.pushed op3 = false := by
      unfold needsBarrier
      rw [List.any_eq_false]
      intro i hi
      have hsplit : st2.pushed = (st1.pushed ++ [Stmt.Sync]) ++ [Stmt.Compute op2] := by
        rw [hp2]; simp
      rw [hsplit, writePending_append_compute, writePending_append_sync]
      simp only [Bool.false_or, Bool.and_eq_true, not_and, Bool.not_eq_true]
      intro hshi
      cases hw : writes F i (Stmt.Compute op2) with
      | false => rfl
      | true =>
        simp only [writes, ht2, Bool.true_and, decide_eq_true_eq] at hw
        rcases hno i hw with h4 | h4
        · exact absurd hi h4
        · rw [h4] at hshi; cases hshi
    rw [hnb3] at hp3
    simp only [Bool.false_eq_true, if_false] at hp3
    rw [hp3, hp2, hp1]
    simp

/-- C10, witness on scenario D, from the state in which nothing
has been handled. -/
theorem barrier_when_write_pending_witness :
    generate scenarioD 5 [0, 1, 2] = some scenarioDFinal ∧
      scenarioDFinal.pushed = (initialGen scenarioD).pushed ++
        [Stmt.Compute 0, Stmt.Sync, Stmt.Compute 1, Stmt.Compute 2] :=
  ⟨by decide,
    (barrier_when_write_pending scenarioD [] (initialGen scenarioD) rfl).2 0 1 2 10
      scenarioDFinal (by decide) (by decide) (by decide) (by decide) (by decide) (by decide)
      (by decide) (by decide) (by decide) (by decide)⟩

/-! ### Operations with several outputs, lists without compute-at -/

theorem groupAll_fails (F : Fusion) (fuel : Nat) (exprs : List Expr) (e : Expr)
    (he : e ∈ exprs) (hf : ∀ st, groupExpressions F fuel e st = none) (st : ReorderState) :
    groupAll F fuel exprs st = none := by
  induction exprs generalizing st with
  | nil => simp at he
  | cons x rest ih =>
    unfold groupAll
    rcases List.mem_cons.1 he with hx | hx
    · rw [← hx, hf st]
    · cases groupExpressions F fuel x st with
      | none => rfl
      | some st1 => exact ih hx st1

/-- C21, counterexample on scenario M: expression 0 has two outputs; `findTargetTensor` fails
for it, and `reorderExprsForComputeAt` fails on the list of expressions 0 and 1. -/
theorem multi_output_not_classified :
    (scenarioM.outputs 0).length = 2 ∧
    findTargetTensor scenarioM 5 0 = none ∧
    reorderExprsForComputeAt scenarioM 5 [0, 1] = none := by
  decide

/-- C21, amended: for an operation with more than one output the assertion on the number of
outputs fails in `findTargetTensor`, so `groupExpressions` fails for it and
`reorderExprsForComputeAt` fails on every list that holds it. An operation without output, or
whose sole output is not a tensor, gets no target and score 0 and is appended to the list of
the expressions without group; an operation whose sole output is a tensor without compute-at
has this tensor for target and the greatest score. -/
theorem multi_output_fails (F : Fusion) (fuel : Nat) (exprs : List Expr) (e : Expr)
    (he : e ∈ exprs) :
    (1 < (F.outputs e).length →
      findTargetTensor F fuel e = none ∧ (∀ st, groupExpressions F fuel e st = none) ∧
        reorderExprsForComputeAt F fuel exprs = none) ∧
    ((F.outputs e = [] ∨ ∃ out, F.outputs e = [out] ∧ F.getValType out ≠ ValType.TensorView) →
      findTargetTensor F fuel e = some (none, 0) ∧
        ∀ st, (groupExpressions F fuel e st).map (fun s => s.reordered_exprs) =
          some (st.reordered_exprs ++ [e])) ∧
    (∀ out, F.outputs e = [out] → F.getValType out = ValType.TensorView →
      F.hasComputeAt out = false → findTargetTensor F fuel e = some (some out, UINT_MAX)) := by
  refine ⟨?_, ?_, ?_⟩
  · intro hm
    have h1 : findTargetTensor F fuel e = none := by
      unfold findTargetTensor
      rw [if_neg (by omega)]
    have h2 : ∀ st, groupExpressions F fuel e st = none := by
      intro st
      unfold groupExpressions
      rw [h1]
    refine ⟨h1, h2, ?_⟩
    unfold reorderExprsForComputeAt
    rw [groupAll_fails F fuel exprs e he h2]
  · intro h0
    have h1 : findTargetTensor F fuel e = some (none, 0) := by
      unfold findTargetTensor findOutputTensor
      rcases h0 with h0 | ⟨out, h0, hv⟩
      · rw [h0]
        simp
      · rw [h0]
        simp [hv]
    refine ⟨h1, ?_⟩
    intro st
    unfold groupExpressions
    rw [h1]
    rfl
  · intro out ho hv hca
    apply findTargetTensor_root
    · unfold findOutputTensor
      rw [ho]
      simp [hv]
    · exact hca

/-- C21, witness on scenario M: the list of expressions 0 and 1, of which expression 0 has
two outputs. -/
theorem multi_output_fails_witness :
    (0 : Expr) ∈ [0, 1] ∧ 1 < (scenarioM.outputs 0).length ∧
    findTargetTensor scenarioM 5 0 = none ∧
    reorderExprsForComputeAt scenarioM 5 [0, 1] = none := by
  have h := (multi_output_fails scenarioM 5 [0, 1] 0 (by decide)).1 (by decide)
  exact ⟨by decide, by decide, h.1, h.2.2⟩

/-- C28: in scenario P no tensor has a compute-at; expression 0 is a tensor operation without
compute-at, so it is grouped under its own output and `computed_at_exprs` is not empty; the
scalar operation 1 is copied to the output first, and `reorderExprsForComputeAt` returns the
list of expressions 0, 1 as 1, 0. -/
theorem no_compute_at_reordered :
    (∀ e ∈ [0, 1], ∀ out ∈ scenarioP.outputs e, scenarioP.hasComputeAt out = false) ∧
    (groupAll scenarioP 5 [0, 1] emptyState).map (fun st => st.computed_at_exprs) =
      some [(10, [0])] ∧
    reorderExprsForComputeAt scenarioP 5 [0, 1] = some [1, 0] := by
  decide

/-! ### The number of grouped operations -/

theorem length_flat (m : TargetGroupMapT) :
    (flat m).length = (m.map (fun p => p.2.length)).sum := by
  induction m with
  | nil => rfl
  | cons p rest ih => simp only [flat, List.length_append, List.map_cons, List.sum_cons, ih]

theorem retarget_length (target target_of_target : TensorView) (group : List Expr)
    (tm tm1 : ExprTargetMapT) (h : retarget target target_of_target group tm = some tm1) :
    tm1.length = tm.length := by
  induction group generalizing tm with
  | nil =>
    simp only [retarget, Option.some.injEq] at h
    rw [← h]
  | cons e rest ih =>
    simp only [retarget] at h
    by_cases hl : lookup tm e = some target
    · simp only [hl, if_true] at h
      rw [ih _ h]
      simp [setKey]
    · simp only [hl, if_false] at h
      cases h

theorem mergeOne_length (F : Fusion) (target : TensorView)
    (st st1 : TargetGroupMapT × ExprTargetMapT) (h : mergeOne F target st = some st1) :
    st1.2.length = st.2.length := by
  rcases mergeOne_cases F target st st1 h with ⟨_, he, _⟩ |
    ⟨_, group, target_expr, target_of_target, target_group, pos, target_map, _, _, _, _, _, _,
      hr, he⟩
  · rw [he]
  · rw [he]
    exact retarget_length _ _ _ _ _ hr

theorem mergeNonRoot_length (F : Fusion) (ks : List TensorView)
    (st st1 : TargetGroupMapT × ExprTargetMapT)
    (h : mergeNonRootGroupsIntoRootGroups F ks st = some st1) :
    st1.2.length = st.2.length := by
  induction ks generalizing st with
  | nil =>
    simp only [mergeNonRootGroupsIntoRootGroups, Option.some.injEq] at h
    rw [← h]
  | cons target rest ih =>
    simp only [mergeNonRootGroupsIntoRootGroups] at h
    cases hm : mergeOne F target st with
    | none => rw [hm] at h; cases h
    | some st2 =>
      rw [hm] at h
      rw [ih st2 h, mergeOne_length F target st st2 hm]

/-- A group that is left after the loop over the keys `ks` and whose target has a compute-at
has a key that the loop did not reach. -/
theorem mergeNonRoot_roots (F : Fusion) (ks : List TensorView)
    (st st1 : TargetGroupMapT × ExprTargetMapT)
    (h : mergeNonRootGroupsIntoRootGroups F ks st = some st1) (hinv : MergeInv st) :
    ∀ q ∈ st1.1, F.hasComputeAt q.1 = true → q.1 ∉ ks := by
  induction ks generalizing st with
  | nil => intro q _ _; simp
  | cons target rest ih =>
    simp only [mergeNonRootGroupsIntoRootGroups] at h
    cases hm : mergeOne F target st with
    | none => rw [hm] at h; cases h
    | some st2 =>
      rw [hm] at h
      rcases mergeOne_spec F target st st2 hm hinv with ⟨h1, _, _, _, _, _, h7⟩
      intro q hq hca
      rw [List.mem_cons, not_or]
      refine ⟨?_, ih st2 h h1 q hq hca⟩
      rcases mergeNonRoot_spec F rest st2 st1 h h1 with ⟨_, _, _, k4⟩
      rcases List.mem_map.1 (k4 q hq) with ⟨q2, hq2, hq2e⟩
      rw [← hq2e]
      exact h7 q2 hq2 (by rw [hq2e]; exact hca)

/-- C22: in `reorderExprsForComputeAt`, when the expressions are grouped, the first
`sanityCheck` holds, the groups are sorted and `mergeNonRootGroupsIntoRootGroups` returns:
the sum of the sizes of the groups is what it was; the expressions of the groups are the
same, each as often as before, so an expression of a list without repetition is in exactly
one group, once; the keys of the groups are distinct and `target_map` sends every expression
of a group to the key of the group; `target_map` has the size it had; no key of a remaining
group has a compute-at; hence the assertion on the remaining groups and the second
`sanityCheck` hold, and the steps return the merged containers. -/
theorem merge_preserves_groups (F : Fusion) (fuel : Nat) (exprs : List Expr)
    (st : ReorderState) (sorted groups : TargetGroupMapT) (tm : ExprTargetMapT)
    (hg : groupAll F fuel exprs emptyState = some st)
    (hc : sanityCheck exprs st = true)
    (hso : sortAll F fuel st.scores (iterationOrder F st.computed_at_exprs) = some sorted)
    (hm : mergeNonRootGroupsIntoRootGroups F (sorted.map (fun p => p.1))
      (sorted, st.target_map) = some (groups, tm)) :
    (groups.map (fun p => p.2.length)).sum = (sorted.map (fun p => p.2.length)).sum ∧
    (groups.map (fun p => p.2.length)).sum =
      (st.computed_at_exprs.map (fun p => p.2.length)).sum ∧
    (flat groups).Perm (flat sorted) ∧
    (exprs.Nodup → (flat groups).Nodup) ∧
    (keys groups).Nodup ∧
    (∀ p ∈ groups, ∀ e ∈ p.2, lookup tm e = some p.1) ∧
    tm.length = st.target_map.length ∧
    (∀ p ∈ groups, F.hasComputeAt p.1 = false) ∧
    groups.any (fun p => F.hasComputeAt p.1) = false ∧
    sanityCheck exprs { st with computed_at_exprs := groups, target_map := tm } = true ∧
    mergeSteps F fuel exprs st =
      some { st with computed_at_exprs := groups, target_map := tm } := by
  rcases groupAll_inv F fuel exprs emptyState st hg (groupInv_empty F fuel)
    (by intro e t hl; simp [emptyState, lookup_nil] at hl) with ⟨hinv, _, hperm, _⟩
  rcases mergeInv_sorted F fuel st sorted hinv hso with ⟨hmi, hfs⟩
  rcases mergeNonRoot_spec F _ _ _ hm hmi with ⟨k1, k2, _, k4⟩
  have hlen := mergeNonRoot_length F _ _ _ hm
  have hroots := mergeNonRoot_roots F _ _ _ hm hmi
  simp only [] at k2 k4 hlen hroots
  have hroot : ∀ p ∈ groups, F.hasComputeAt p.1 = false := by
    intro p hp
    cases hca : F.hasComputeAt p.1 with
    | false => rfl
    | true => exact absurd (k4 p hp) (hroots p hp hca)
  have hany : groups.any (fun p => F.hasComputeAt p.1) = false := by
    rw [List.any_eq_false]
    intro p hp
    rw [hroot p hp]
    simp
  have hsum1 : (groups.map (fun p => p.2.length)).sum =
      (sorted.map (fun p => p.2.length)).sum := by
    rw [← length_flat, ← length_flat]
    exact k2.length_eq
  have hsum2 : (sorted.map (fun p => p.2.length)).sum =
      (st.computed_at_exprs.map (fun p => p.2.length)).sum := by
    rw [← length_flat, ← length_flat]
    exact hfs.length_eq
  have hsc : sanityCheck exprs { st with computed_at_exprs := groups, target_map := tm } =
      true := by
    unfold sanityCheck at hc ⊢
    simp only [Bool.and_eq_true, decide_eq_true_eq] at hc ⊢
    refine ⟨⟨hc.1.1, ?_⟩, ?_⟩
    · rw [hlen]; exact hc.1.2
    · rw [hlen, hsum1, hsum2]; exact hc.2
  refine ⟨hsum1, hsum1.trans hsum2, k2, ?_, k1.keys_nodup, k1.member, hlen, hroot, hany, hsc,
    ?_⟩
  · intro hnd
    have hp2 : (st.reordered_exprs ++ flat st.computed_at_exprs).Perm exprs := by
      simpa [emptyState, flat] using hperm
    have hnd2 := (hp2.nodup_iff.2 hnd)
    rw [List.nodup_append] at hnd2
    exact ((k2.trans hfs).nodup_iff).2 hnd2.2.1
  · unfold mergeSteps
    rw [hso]
    simp only []
    rw [hm]
    simp only [hany, hsc, Bool.false_eq_true, if_false, Bool.not_true]

/-- C22, witness: scenario C, where the group of tensor 11 is merged into the group of
tensor 10. -/
theorem merge_preserves_groups_witness :
    groupAll scenarioC 5 [0, 1, 2] emptyState =
      some { reordered_exprs := [], target_map := [(0, 10), (1, 10), (2, 11)],
             computed_at_exprs := [(10, [0, 1]), (11, [2])],
             scores := [(0, 4294967295), (1, 2), (2, 1)] } ∧
    mergeSteps scenarioC 5 [0, 1, 2]
        { reordered_exprs := [], target_map := [(0, 10), (1, 10), (2, 11)],
          computed_at_exprs := [(10, [0, 1]), (11, [2])],
          scores := [(0, 4294967295), (1, 2), (2, 1)] } =
      some { reordered_exprs := [], target_map := [(0, 10), (1, 10), (2, 10)],
             computed_at_exprs := [(10, [2, 1, 0])],
             scores := [(0, 4294967295), (1, 2), (2, 1)] } :=
  ⟨rfl,
    (merge_preserves_groups scenarioC 5 [0, 1, 2]
      { reordered_exprs := [], target_map := [(0, 10), (1, 10), (2, 11)],
        computed_at_exprs := [(10, [0, 1]), (11, [2])],
        scores := [(0, 4294967295), (1, 2), (2, 1)] }
      [(10, [1, 0]), (11, [2])] [(10, [2, 1, 0])] [(0, 10), (1, 10), (2, 10)]
      rfl (by decide) (by decide) (by decide)).2.2.2.2.2.2.2.2.2.2⟩

/-! ### The order of the root groups -/

/-- The loop that chooses `cur_target` keeps this: `cur_target` depends on no other target
seen so far. -/
theorem pickTarget_independent (F : Fusion)
    (htrans : ∀ a b c, F.isDependencyOf a b = true → F.isDependencyOf b c = true →
      F.isDependencyOf a c = true)
    (hirr : ∀ a, F.isDependencyOf a a = false)
    (ks : List TensorView) (cur : TensorView) (seen : List TensorView) (hcur : cur ∈ seen)
    (hseen : ∀ t ∈ seen, t ≠ cur → F.isDependencyOf t cur = false) :
    ∀ t, t ∈ seen ∨ t ∈ ks → t ≠ pickTarget F ks cur →
      F.isDependencyOf t (pickTarget F ks cur) = false := by
  induction ks generalizing cur seen with
  | nil =>
    intro t ht hne
    rcases ht with ht | ht
    · exact hseen t ht hne
    · cases ht
  | cons k rest ih =>
    simp only [pickTarget]
    by_cases h1 : cur = k
    · simp only [h1, if_true]
      subst h1
      intro t ht hne
      apply ih cur seen hcur hseen t _ hne
      rcases ht with ht | ht
      · exact Or.inl ht
      · rcases List.mem_cons.1 ht with ht | ht
        · exact Or.inl (ht ▸ hcur)
        · exact Or.inr ht
    · simp only [h1, if_false]
      by_cases h2 : F.isDependencyOf k cur = true
      · simp only [h2, if_true]
        intro t ht hne
        apply ih k (k :: seen) (List.mem_cons_self _ _) _ t _ hne
        · intro u hu huk
          rcases List.mem_cons.1 hu with hu | hu
          · exact absurd hu huk
          · cases hd : F.isDependencyOf u k with
            | false => rfl
            | true =>
              have huc := htrans u k cur hd h2
              by_cases hucur : u = cur
              · rw [hucur, hirr] at huc
                cases huc
              · rw [hseen u hu hucur] at huc
                cases huc
        · rcases ht with ht | ht
          · exact Or.inl (List.mem_cons_of_mem _ ht)
          · rcases List.mem_cons.1 ht with ht | ht
            · exact Or.inl (ht ▸ List.mem_cons_self _ _)
            · exact Or.inr ht
      · simp only [h2, if_false]
        intro t ht hne
        apply ih cur (k :: seen) (List.mem_cons_of_mem _ hcur) _ t _ hne
        · intro u hu huc
          rcases List.mem_cons.1 hu with hu | hu
          · rw [hu]
            simpa using h2
          · exact hseen u hu huc
        · rcases ht with ht | ht
          · exact Or.inl (List.mem_cons_of_mem _ ht)
          · rcases List.mem_cons.1 ht with ht | ht
            · exact Or.inl (ht ▸ List.mem_cons_self _ _)
            · exact Or.inr ht

theorem mergeGroups_order (F : Fusion)
    (htrans : ∀ a b c, F.isDependencyOf a b = true → F.isDependencyOf b c = true →
      F.isDependencyOf a c = true)
    (hirr : ∀ a, F.isDependencyOf a a = false)
    (fuel : Nat) (m : TargetGroupMapT)
    (r : ExprListT) (hnd : (keys m).Nodup) (hlen : m.length ≤ fuel) :
    ∃ gs : TargetGroupMapT, gs.Perm m ∧
      mergeGroupsIntoSortedList F fuel m r = r ++ flat gs ∧
      gs.Pairwise (fun p q => F.isDependencyOf q.1 p.1 = false) := by
  induction fuel generalizing m r with
  | zero =>
    have : m = [] := List.length_eq_zero.1 (Nat.le_zero.1 hlen)
    subst this
    exact ⟨[], List.Perm.refl _, by simp [mergeGroupsIntoSortedList, flat], List.Pairwise.nil⟩
  | succ k ih =>
    cases m with
    | nil =>
      exact ⟨[], List.Perm.refl _, by simp [mergeGroupsIntoSortedList, flat],
        List.Pairwise.nil⟩
    | cons p tl =>
      simp only [mergeGroupsIntoSortedList]
      have hcur : pickTarget F (List.map (fun p => p.1) (p :: tl)) p.1 ∈ keys (p :: tl) := by
        rcases pickTarget_mem F (List.map (fun p => p.1) (p :: tl)) p.1 with h | h
        · rw [h]; simp [keys]
        · exact h
      cases hl : lookup (p :: tl) (pickTarget F (List.map (fun p => p.1) (p :: tl)) p.1) with
      | none => exact absurd hcur ((lookup_none_iff _ _).1 hl)
      | some g =>
        have hperm := perm_eraseKey (p :: tl) _ g hnd hl
        have hlen2 : (eraseKey (p :: tl)
            (pickTarget F (List.map (fun p => p.1) (p :: tl)) p.1)).length ≤ k := by
          have := hperm.length_eq
          simp only [List.length_cons] at this hlen
          omega
        rcases ih (eraseKey (p :: tl) (pickTarget F (List.map (fun p => p.1) (p :: tl)) p.1))
          (r ++ g) (nodup_keys_eraseKey _ _ hnd) hlen2 with ⟨gs, hgs, he, hpw⟩
        refine ⟨(pickTarget F (List.map (fun p => p.1) (p :: tl)) p.1, g) :: gs, ?_, ?_, ?_⟩
        · exact (List.Perm.cons _ hgs).trans hperm.symm
        · simp only [Option.getD_some]
          rw [he]
          simp [flat]
        · rw [List.pairwise_cons]
          refine ⟨?_, hpw⟩
          intro q hq
          have hq2 := (mem_eraseKey _ _ q).1 (hgs.mem_iff.1 hq)
          apply pickTarget_independent F htrans hirr _ p.1 [p.1] (List.mem_singleton.2 rfl)
            (by intro t ht hne; exact absurd (List.mem_singleton.1 ht) hne) q.1
          · exact Or.inr (List.mem_map_of_mem (fun p => p.1) hq2.1)
          · exact hq2.2
/-- C23: with a dependency relation that is transitive and has no cycle, the loop that
chooses `cur_target` ends on a target that depends on no other target of the groups still in
the map; `mergeGroupsIntoSortedList` appends the groups one after the other, every group
before the groups that were still in the map when it was chosen, so no group depends on a
group that comes after it, and a group comes before every group whose target depends on its
target. -/
theorem root_groups_dependency_order (F : Fusion)
    (htrans : ∀ a b c, F.isDependencyOf a b = true → F.isDependencyOf b c = true →
      F.isDependencyOf a c = true)
    (hirr : ∀ a, F.isDependencyOf a a = false) :
    (∀ ks cur t, t = cur ∨ t ∈ ks → t ≠ pickTarget F ks cur →
      F.isDependencyOf t (pickTarget F ks cur) = false) ∧
    ∀ (m : TargetGroupMapT) (r : ExprListT), (keys m).Nodup →
      ∃ gs : TargetGroupMapT, gs.Perm m ∧
        mergeGroupsIntoSortedList F m.length m r = r ++ flat gs ∧
        gs.Pairwise (fun p q => F.isDependencyOf q.1 p.1 = false) ∧
        ∀ p q, p ∈ m → q ∈ m → F.isDependencyOf p.1 q.1 = true →
          ∃ l1 l2 l3, gs = l1 ++ p :: (l2 ++ q :: l3) := by
  constructor
  · intro ks cur t ht hne
    apply pickTarget_independent F htrans hirr ks cur [cur] (List.mem_singleton.2 rfl)
      (by intro u hu hne2; exact absurd (List.mem_singleton.1 hu) hne2) t _ hne
    rcases ht with ht | ht
    · exact Or.inl (List.mem_singleton.2 ht)
    · exact Or.inr ht
  · intro m r hnd
    rcases mergeGroups_order F htrans hirr m.length m r hnd (Nat.le_refl _) with
      ⟨gs, hperm, he, hpw⟩
    refine ⟨gs, hperm, he, hpw, ?_⟩
    intro p q hp hq hdep
    rcases List.append_of_mem (hperm.mem_iff.2 hp) with ⟨l1, rest, hsplit⟩
    have hq2 : q ∈ gs := hperm.mem_iff.2 hq
    rw [hsplit] at hpw hq2
    rw [List.pairwise_append] at hpw
    rcases List.mem_append.1 hq2 with hq3 | hq3
    · have := hpw.2.2 q hq3 p (List.mem_cons_self _ _)
      rw [hdep] at this
      cases this
    · rcases List.mem_cons.1 hq3 with hq4 | hq4
      · rw [hq4, hirr] at hdep
        cases hdep
      · rcases List.append_of_mem hq4 with ⟨l2, l3, hsplit2⟩
        exact ⟨l1, l2, l3, by rw [hsplit, hsplit2]⟩

/-- C23, witness: the three root groups of scenario D, where the targets 11 and 12 depend on
the target 10, taken in the order 11, 12, 10. -/
theorem root_groups_dependency_order_witness :
    pickTarget scenarioD [11, 12, 10] 11 = 10 ∧
      (∀ t, t = 11 ∨ t ∈ [11, 12, 10] → t ≠ pickTarget scenarioD [11, 12, 10] 11 →
        scenarioD.isDependencyOf t (pickTarget scenarioD [11, 12, 10] 11) = false) ∧
      mergeGroupsIntoSortedList scenarioD 3 [(11, [1]), (12, [2]), (10, [0])] [] =
        [0, 1, 2] := by
  have ht : ∀ a b c, scenarioD.isDependencyOf a b = true →
      scenarioD.isDependencyOf b c = true → scenarioD.isDependencyOf a c = true := by
    intro a b c h1 h2
    have h3 : a = 10 ∧ (b = 11 ∨ b = 12) := of_decide_eq_true h1
    have h4 : b = 10 ∧ (c = 11 ∨ c = 12) := of_decide_eq_true h2
    rcases h3 with ⟨-, h3 | h3⟩ <;> rw [h3] at h4 <;> exact absurd h4.1 (by decide)
  have hi : ∀ a, scenarioD.isDependencyOf a a = false := by
    intro a
    apply decide_eq_false
    rintro ⟨h1, h2 | h2⟩ <;> rw [h1] at h2 <;> exact absurd h2 (by decide)
  exact ⟨by decide,
    fun t => (root_groups_dependency_order scenarioD ht hi).1 [11, 12, 10] 11 t, by decide⟩

/-! ### The breadth-first order of a segment -/

/-- Every ancestor `mapMissingInputsToAncestors` collects is defined in the segment. -/
theorem mapMissing_defined (F : Fusion) (status : List Expr) (fuel : Nat) (tv : TensorView)
    (anc : List TensorView) (h : mapMissingInputsToAncestors F status fuel tv = some anc) :
    ∀ x ∈ anc, ∃ d, F.definition x = some d ∧ d ∈ status := by
  induction fuel generalizing tv anc with
  | zero => simp [mapMissingInputsToAncestors] at h
  | succ k ih =>
    simp only [mapMissingInputsToAncestors] at h
    cases hd : F.definition tv with
    | none => rw [hd] at h; cases h
    | some expr =>
      rw [hd] at h
      simp only [] at h
      have key : ∀ (l : List TensorView) (acc : Option (List TensorView))
          (res : List TensorView),
          (∀ a, acc = some a → ∀ x ∈ a, ∃ d, F.definition x = some d ∧ d ∈ status) →
          l.foldl
            (fun acc input =>
              match acc with
              | none => none
              | some ancestors =>
                  match F.definition input with
                  | none => some ancestors
                  | some input_definition =>
                      if input_definition ∈ status then some (ancestors ++ [input])
                      else
                        match mapMissingInputsToAncestors F status k input with
                        | none => none
                        | some more => some (ancestors ++ more)) acc = some res →
          ∀ x ∈ res, ∃ d, F.definition x = some d ∧ d ∈ status := by
        intro l
        induction l with
        | nil =>
          intro acc res hacc hres
          exact hacc res hres
        | cons input rest ihl =>
          intro acc res hacc hres
          rw [List.foldl_cons] at hres
          refine ihl _ res ?_ hres
          intro a ha
          cases acc with
          | none => simp at ha
          | some ancestors =>
            simp only [] at ha
            cases hdi : F.definition input with
            | none =>
              rw [hdi] at ha
              simp only [Option.some.injEq] at ha
              rw [← ha]
              exact hacc ancestors rfl
            | some input_definition =>
              rw [hdi] at ha
              simp only [] at ha
              by_cases hin : input_definition ∈ status
              · simp only [hin, if_true, Option.some.injEq] at ha
                rw [← ha]
                intro x hx
                rcases List.mem_append.1 hx with hx | hx
                · exact hacc ancestors rfl x hx
                · rw [List.mem_singleton.1 hx]
                  exact ⟨input_definition, hdi, hin⟩
              · simp only [hin, if_false] at ha
                cases hm : mapMissingInputsToAncestors F status k input with
                | none => rw [hm] at ha; cases ha
                | some more =>
                  rw [hm] at ha
                  simp only [Option.some.injEq] at ha
                  rw [← ha]
                  intro x hx
                  rcases List.mem_append.1 hx with hx | hx
                  · exact hacc ancestors rfl x hx
                  · exact ih input more hm x hx
      exact key _ _ anc (by intro a ha; cases ha; simp) h

/-- An input `findExprTvInputs` lists for an expression has no definition or is defined in
the segment. -/
theorem exprTvInputs_defined (F : Fusion) (fuel : Nat) (status : List Expr) (expr : Expr)
    (i : List TensorView) (h : exprTvInputs F fuel status expr = some i) :
    ∀ x ∈ i, ∀ d, F.definition x = some d → d ∈ status := by
  unfold exprTvInputs at h
  have key : ∀ (l : List TensorView) (acc : Option (List TensorView))
      (res : List TensorView),
      (∀ a, acc = some a → ∀ x ∈ a, ∀ d, F.definition x = some d → d ∈ status) →
      l.foldl
        (fun acc input =>
          match acc with
          | none => none
          | some tv_inputs =>
              match F.definition input with
              | none => some (tv_inputs ++ [input])
              | some input_definition =>
                  if input_definition ∈ status then some (tv_inputs ++ [input])
                  else
                    match mapMissingInputsToAncestors F status fuel input with
                    | none => none
                    | some ancestors => some (ancestors ++ tv_inputs)) acc = some res →
      ∀ x ∈ res, ∀ d, F.definition x = some d → d ∈ status := by
    intro l
    induction l with
    | nil =>
      intro acc res hacc hres
      exact hacc res hres
    | cons input rest ihl =>
      intro acc res hacc hres
      rw [List.foldl_cons] at hres
      refine ihl _ res ?_ hres
      intro a ha
      cases acc with
      | none => simp at ha
      | some tv_inputs =>
        simp only [] at ha
        cases hdi : F.definition input with
        | none =>
          rw [hdi] at ha
          simp only [Option.some.injEq] at ha
          rw [← ha]
          intro x hx d hd
          rcases List.mem_append.1 hx with hx | hx
          · exact hacc tv_inputs rfl x hx d hd
          · rw [List.mem_singleton.1 hx, hdi] at hd
            cases hd
        | some input_definition =>
          rw [hdi] at ha
          simp only [] at ha
          by_cases hin : input_definition ∈ status
          · simp only [hin, if_true, Option.some.injEq] at ha
            rw [← ha]
            intro x hx d hd
            rcases List.mem_append.1 hx with hx | hx
            · exact hacc tv_inputs rfl x hx d hd
            · rw [List.mem_singleton.1 hx, hdi] at hd
              cases hd
              exact hin
          · simp only [hin, if_false] at ha
            cases hm : mapMissingInputsToAncestors F status fuel input with
            | none => rw [hm] at ha; cases ha
            | some ancestors =>
              rw [hm] at ha
              simp only [Option.some.injEq] at ha
              rw [← ha]
              intro x hx d hd
              rcases List.mem_append.1 hx with hx | hx
              · rcases mapMissing_defined F status fuel input ancestors hm x hx with
                  ⟨d2, hd2, hd2s⟩
                rw [hd2] at hd
                cases hd
                exact hd2s
              · exact hacc tv_inputs rfl x hx d hd
  exact key _ _ i (by intro a ha; cases ha; simp) h

/-- The map `findExprTvInputs` returns holds, for every expression of the segment, the inputs
computed for it. -/
theorem lookup_mapM (h : Expr → Option (List TensorView)) (seg : List Expr)
    (m : List (Expr × List TensorView))
    (hm : seg.mapM (fun e => (h e).map (fun i => (e, i))) = some m) :
    ∀ e ∈ seg, ∃ i, h e = some i ∧ lookup m e = some i := by
  induction seg generalizing m with
  | nil => intro e he; cases he
  | cons a rest ih =>
    rw [List.mapM_cons] at hm
    cases ha : h a with
    | none => simp [ha] at hm
    | some ia =>
      cases hr : rest.mapM (fun e => (h e).map (fun i => (e, i))) with
      | none =>
        rw [hr] at hm
        simp [ha] at hm
      | some mr =>
        rw [hr] at hm
        simp only [ha, Option.map_some', Option.pure_def, Option.bind_eq_bind,
          Option.some_bind, Option.some.injEq] at hm
        subst hm
        intro e he
        by_cases hea : a = e
        · subst hea
          exact ⟨ia, ha, by rw [lookup_cons]; simp⟩
        · rcases List.mem_cons.1 he with he | he
          · exact absurd he.symm hea
          · rcases ih mr hr e he with ⟨i, hi1, hi2⟩
            exact ⟨i, hi1, by rw [lookup_cons]; simp [hea, hi2]⟩

theorem readyToVisit_iff (F : Fusion) (status visited : List Expr) (i : List TensorView) :
    readyToVisit F status visited i = true ↔
      ∀ x ∈ i, ∀ d, F.definition x = some d → d ∈ status ∧ d ∈ visited := by
  unfold readyToVisit
  rw [List.all_eq_true]
  constructor
  · intro h x hx d hd
    have := h x hx
    rw [hd] at this
    simpa using this
  · intro h x hx
    cases hd : F.definition x with
    | none => rfl
    | some d =>
      have := h x hx d hd
      simp [this.1, this.2]

theorem segmentPass_ready (isReady : Expr → Bool) (l ready waiting : List Expr) :
    (segmentPass isReady l ready waiting).1 = ready ++ l.filter isReady := by
  induction l generalizing ready waiting with
  | nil => simp [segmentPass]
  | cons expr rest ih =>
    simp only [segmentPass]
    by_cases hr : isReady expr = true
    · simp only [hr, if_true]
      rw [ih, List.filter_cons_of_pos hr]
      simp
    · rw [if_neg hr, ih, List.filter_cons_of_neg hr]

theorem segmentPass_waiting (isReady : Expr → Bool) (l ready waiting : List Expr) :
    ∀ x, x ∈ (segmentPass isReady l ready waiting).2 ↔
      x ∈ waiting ∨ (x ∈ l ∧ isReady x = false) := by
  induction l generalizing ready waiting with
  | nil => simp [segmentPass]
  | cons expr rest ih =>
    intro x
    simp only [segmentPass]
    by_cases hr : isReady expr = true
    · simp only [hr, if_true]
      rw [ih]
      have hw : x ∈ (match waiting with
          | [] => []
          | w :: ws => ws ++ [w]) ↔ x ∈ waiting := by
        cases waiting with
        | nil => simp
        | cons w ws => simp [or_comm]
      constructor
      · rintro (h | ⟨h1, h2⟩)
        · exact Or.inl (hw.1 h)
        · exact Or.inr ⟨List.mem_cons_of_mem _ h1, h2⟩
      · rintro (h | ⟨h1, h2⟩)
        · exact Or.inl (hw.2 h)
        · rcases List.mem_cons.1 h1 with h1 | h1
          · rw [h1, hr] at h2
            cases h2
          · exact Or.inr ⟨h1, h2⟩
    · rw [if_neg hr, ih]
      simp only [List.mem_append, List.mem_cons, List.not_mem_nil, or_false]
      constructor
      · rintro ((h | h) | ⟨h1, h2⟩)
        · exact Or.inl h
        · exact Or.inr ⟨Or.inl h, by rw [h]; simpa using hr⟩
        · exact Or.inr ⟨Or.inr h1, h2⟩
      · rintro (h | ⟨h1 | h1, h2⟩)
        · exact Or.inl (Or.inl h)
        · exact Or.inl (Or.inr h1)
        · exact Or.inr ⟨h1, h2⟩
theorem mapM_some (h : Expr → Option (List TensorView)) (seg : List Expr)
    (hin : ∀ e ∈ seg, (h e).isSome = true) :
    ∃ m, seg.mapM (fun e => (h e).map (fun i => (e, i))) = some m := by
  induction seg with
  | nil => exact ⟨[], rfl⟩
  | cons a rest ih =>
    rcases ih (fun e he => hin e (List.mem_cons_of_mem _ he)) with ⟨mr, hmr⟩
    rcases Option.isSome_iff_exists.1 (hin a (List.mem_cons_self _ _)) with ⟨ia, hia⟩
    refine ⟨(a, ia) :: mr, ?_⟩
    rw [List.mapM_cons, hmr]
    simp [hia]

theorem mem_segmentDefiners (F : Fusion) (fuel : Nat) (seg : List Expr) (e d : Expr) :
    d ∈ segmentDefiners F fuel seg e ↔
      ∃ x ∈ (exprTvInputs F fuel seg e).getD [], F.definition x = some d ∧ d ∈ seg := by
  unfold segmentDefiners
  rw [List.mem_filterMap]
  constructor
  · rintro ⟨x, hx, hd⟩
    refine ⟨x, hx, ?_⟩
    cases hdx : F.definition x with
    | none => rw [hdx] at hd; cases hd
    | some d2 =>
      rw [hdx] at hd
      simp only [] at hd
      by_cases hin : d2 ∈ seg
      · simp only [hin, if_true, Option.some.injEq] at hd
        subst hd
        exact ⟨rfl, hin⟩
      · simp only [hin, if_false] at hd
        cases hd
  · rintro ⟨x, hx, hd, hin⟩
    refine ⟨x, hx, ?_⟩
    rw [hd]
    simp [hin]

/-- In the pass numbered `k`, an operation that is not placed yet is ready exactly when its
level is `k`. -/
theorem ready_level (F : Fusion) (fuel : Nat) (seg : List Expr)
    (m : List (Expr × List TensorView))
    (hm : seg.mapM (fun e => (exprTvInputs F fuel seg e).map (fun i => (e, i))) = some m)
    (lvl : Expr → Nat) (hlvl : IsLevel F fuel seg lvl) (k : Nat) (visited : List Expr)
    (hvis : ∀ x, x ∈ visited ↔ x ∈ seg ∧ lvl x < k) (e : Expr) (he : e ∈ seg)
    (hk : k ≤ lvl e) :
    readyToVisit F seg visited ((lookup m e).getD []) = true ↔ lvl e = k := by
  rcases lookup_mapM _ seg m hm e he with ⟨i, hi1, hi2⟩
  rw [hi2, Option.getD_some, readyToVisit_iff]
  have hdef := exprTvInputs_defined F fuel seg e i hi1
  have hmem : ∀ d, d ∈ segmentDefiners F fuel seg e ↔ ∃ x ∈ i, F.definition x = some d := by
    intro d
    rw [mem_segmentDefiners, hi1, Option.getD_some]
    constructor
    · rintro ⟨x, hx, hd, _⟩
      exact ⟨x, hx, hd⟩
    · rintro ⟨x, hx, hd⟩
      exact ⟨x, hx, hd, hdef x hx d hd⟩
  rcases hlvl e he with ⟨h0, hlt, hsucc⟩
  constructor
  · intro hr
    by_cases hnil : segmentDefiners F fuel seg e = []
    · have := h0 hnil
      omega
    · rcases hsucc hnil with ⟨d, hd, hde⟩
      rcases (hmem d).1 hd with ⟨x, hx, hdx⟩
      have := ((hvis d).1 (hr x hx d hdx).2).2
      omega
  · intro hek x hx d hdx
    have hds := hdef x hx d hdx
    refine ⟨hds, (hvis d).2 ⟨hds, ?_⟩⟩
    have := hlt d ((hmem d).2 ⟨x, hx, hdx⟩)
    omega

theorem segmentLoop_levels (F : Fusion) (fuel : Nat) (seg : List Expr)
    (m : List (Expr × List TensorView))
    (hm : seg.mapM (fun e => (exprTvInputs F fuel seg e).map (fun i => (e, i))) = some m)
    (lvl : Expr → Nat) (hlvl : IsLevel F fuel seg lvl) (n k : Nat)
    (placed remaining : List Expr) (hperm : (placed ++ remaining).Perm seg)
    (hpl : ∀ e ∈ placed, lvl e < k) (hre : ∀ e ∈ remaining, k ≤ lvl e)
    (hbound : ∀ e ∈ remaining, lvl e < k + n)
    (hpw : placed.Pairwise (fun a b => lvl a ≤ lvl b)) :
    ∃ s, segmentLoop F (fun e => (lookup m e).getD []) seg n placed remaining placed =
        some s ∧ s.Perm seg ∧ s.Pairwise (fun a b => lvl a ≤ lvl b) := by
  induction n generalizing k placed remaining with
  | zero =>
    have hnil : remaining = [] := by
      cases remaining with
      | nil => rfl
      | cons x xs =>
        have h1 := hre x (List.mem_cons_self _ _)
        have h2 := hbound x (List.mem_cons_self _ _)
        omega
    subst hnil
    refine ⟨placed, by simp [segmentLoop], ?_, hpw⟩
    simpa using hperm
  | succ n ih =>
    cases remaining with
    | nil =>
      refine ⟨placed, by simp [segmentLoop], ?_, hpw⟩
      simpa using hperm
    | cons x xs =>
      simp only [segmentLoop, List.isEmpty_cons, Bool.false_eq_true, if_false]
      have hvis : ∀ y, y ∈ placed ↔ y ∈ seg ∧ lvl y < k := by
        intro y
        constructor
        · intro hy
          exact ⟨hperm.mem_iff.1 (List.mem_append.2 (Or.inl hy)), hpl y hy⟩
        · rintro ⟨hy, hyk⟩
          rcases List.mem_append.1 (hperm.mem_iff.2 hy) with h | h
          · exact h
          · have := hre y h
            omega
      have hseg : ∀ e ∈ x :: xs, e ∈ seg := fun e he =>
        hperm.mem_iff.1 (List.mem_append.2 (Or.inr he))
      have hr1 := segmentPass_ready
        (fun e => readyToVisit F seg placed ((lookup m e).getD [])) (x :: xs) [] []
      have hr2 := segmentPass_waiting
        (fun e => readyToVisit F seg placed ((lookup m e).getD [])) (x :: xs) [] []
      have hr3 := segmentPass_perm
        (fun e => readyToVisit F seg placed ((lookup m e).getD [])) (x :: xs) [] []
      rw [List.nil_append] at hr1
      have hready : ∀ e ∈ (segmentPass
          (fun e => readyToVisit F seg placed ((lookup m e).getD [])) (x :: xs) [] []).1,
          lvl e = k := by
        intro e he
        rw [hr1, List.mem_filter] at he
        exact (ready_level F fuel seg m hm lvl hlvl k placed hvis e (hseg e he.1)
          (hre e he.1)).1 he.2
      apply ih (k + 1)
      · rw [List.append_assoc]
        refine (List.Perm.append_left placed ?_).trans hperm
        simpa using hr3
      · intro e he
        rcases List.mem_append.1 he with he | he
        · have := hpl e he
          omega
        · have := hready e he
          omega
      · intro e he
        rcases (hr2 e).1 he with he | ⟨he1, he2⟩
        · cases he
        · have h1 := hre e he1
          have h2 : lvl e ≠ k := by
            intro h3
            have := (ready_level F fuel seg m hm lvl hlvl k placed hvis e (hseg e he1)
              h1).2 h3
            have he3 : readyToVisit F seg placed ((lookup m e).getD []) = false := he2
            rw [this] at he3
            cases he3
          omega
      · intro e he
        rcases (hr2 e).1 he with he | ⟨he1, _⟩
        · cases he
        · have := hbound e he1
          omega
      · rw [List.pairwise_append]
        refine ⟨hpw, ?_, ?_⟩
        · apply List.pairwise_of_forall_mem_list
          intro a ha b hb
          rw [hready a ha, hready b hb]
        · intro a ha b hb
          have := hpl a ha
          have := hready b hb
          omega

/-- C24: when `findExprTvInputs` returns the inputs of every operation of the segment, `lvl`
is a breadth-first level on the segment (level 0 without a definer in the segment, otherwise
one more than the greatest level of the definers) and the levels are below the bound on the
number of passes, `reorderSegmentBreadthFirst` returns a permutation of the segment in
non-decreasing order of level, in which every operation stands after each operation of the
segment that defines one of its inputs. -/
theorem segment_breadth_first (F : Fusion) (fuel : Nat) (seg : List Expr) (lvl : Expr → Nat)
    (hin : ∀ e ∈ seg, (exprTvInputs F fuel seg e).isSome = true)
    (hlvl : IsLevel F fuel seg lvl) (hfuel : ∀ e ∈ seg, lvl e < fuel) :
    ∃ s, reorderSegmentBreadthFirst F fuel seg = some s ∧ s.Perm seg ∧
      s.Pairwise (fun a b => lvl a ≤ lvl b) ∧
      ∀ e ∈ seg, ∀ d ∈ segmentDefiners F fuel seg e,
        ∃ l1 l2 l3, s = l1 ++ d :: (l2 ++ e :: l3) := by
  rcases mapM_some (exprTvInputs F fuel seg) seg hin with ⟨m, hm⟩
  rcases segmentLoop_levels F fuel seg m hm lvl hlvl fuel 0 [] seg (by simp)
    (by intro e he; cases he) (by intro e _; omega)
    (by intro e he; have := hfuel e he; omega) List.Pairwise.nil with ⟨s, hs, hperm, hpw⟩
  refine ⟨s, ?_, hperm, hpw, ?_⟩
  · unfold reorderSegmentBreadthFirst
    rw [hm]
    exact hs
  · intro e he d hd
    have hds : d ∈ seg := by
      rcases (mem_segmentDefiners F fuel seg e d).1 hd with ⟨_, _, _, h⟩
      exact h
    have hlt := (hlvl e he).2.1 d hd
    rcases List.append_of_mem (hperm.mem_iff.2 hds) with ⟨l1, rest, hsplit⟩
    have he2 : e ∈ s := hperm.mem_iff.2 he
    rw [hsplit] at hpw he2
    rw [List.pairwise_append] at hpw
    rcases List.mem_append.1 he2 with he3 | he3
    · have := hpw.2.2 e he3 d (List.mem_cons_self _ _)
      omega
    · rcases List.mem_cons.1 he3 with he4 | he4
      · rw [he4] at hlt
        omega
      · rcases List.append_of_mem he4 with ⟨l2, l3, hsplit2⟩
        exact ⟨l1, l2, l3, by rw [hsplit, hsplit2]⟩

/-- C24, witness: the segment `[1, 2, 0]` of scenario D, where operations 1 and 2 read the
tensor operation 0 defines; it becomes `[0, 2, 1]`. -/
theorem segment_breadth_first_witness :
    reorderSegmentBreadthFirst scenarioD 5 [1, 2, 0] = some [0, 2, 1] ∧
      ∃ s, reorderSegmentBreadthFirst scenarioD 5 [1, 2, 0] = some s ∧ s.Perm [1, 2, 0] ∧
        s.Pairwise (fun a b => (if a = 0 then 0 else 1) ≤ (if b = 0 then 0 else 1)) ∧
        ∀ e ∈ [1, 2, 0], ∀ d ∈ segmentDefiners scenarioD 5 [1, 2, 0] e,
          ∃ l1 l2 l3, s = l1 ++ d :: (l2 ++ e :: l3) :=
  ⟨by decide,
    segment_breadth_first scenarioD 5 [1, 2, 0] (fun e => if e = 0 then 0 else 1)
      (by decide) (by unfold IsLevel; decide) (by decide)⟩

/-! ### The assertion of `reorderGroupBreadthFirst` -/

theorem groupLoop_checked (F : Fusion) (fuel : Nat) (scores : ExprScoreMapT)
    (rest done seg : List Expr) (seg_score : Nat) :
    groupLoop F fuel scores done seg seg_score rest =
      (groupLoopChecked F fuel scores done seg seg_score rest).toOption := by
  induction rest generalizing done seg seg_score with
  | nil =>
    simp only [groupLoop, groupLoopChecked]
    cases reorderSegmentBreadthFirst F fuel seg <;> rfl
  | cons expr rest ih =>
    simp only [groupLoop, groupLoopChecked]
    by_cases h1 : seg_score = scoreOf scores expr
    · rw [if_pos h1, if_pos h1]
      exact ih _ _ _
    · rw [if_neg h1, if_neg h1]
      by_cases h2 : seg_score < scoreOf scores expr
      · rw [if_pos h2, if_pos h2]
        cases reorderSegmentBreadthFirst F fuel seg with
        | none => rfl
        | some s => exact ih _ _ _
      · rw [if_neg h2, if_neg h2]
        rfl

theorem reorderGroupBreadthFirst_checked (F : Fusion) (fuel : Nat) (exprs : ExprListT)
    (scores : ExprScoreMapT) :
    reorderGroupBreadthFirst F fuel exprs scores =
      (reorderGroupBreadthFirstChecked F fuel exprs scores).toOption := by
  cases exprs with
  | nil => rfl
  | cons first rest => exact groupLoop_checked F fuel scores _ _ _ _

/-- On a list in ascending order of score that starts at or above the score of the segment,
the loop does not reach the assertion. -/
theorem groupLoopChecked_sorted (F : Fusion) (fuel : Nat) (scores : ExprScoreMapT)
    (rest done seg : List Expr) (seg_score : Nat)
    (hge : ∀ e ∈ rest, seg_score ≤ scoreOf scores e) (hs : ScoreSorted scores rest) :
    groupLoopChecked F fuel scores done seg seg_score rest ≠
      Except.error GroupFailure.unexpectedExpression := by
  induction rest generalizing done seg seg_score with
  | nil =>
    simp only [groupLoopChecked]
    cases reorderSegmentBreadthFirst F fuel seg <;> simp
  | cons expr rest ih =>
    simp only [groupLoopChecked]
    unfold ScoreSorted at hs
    rw [List.pairwise_cons] at hs
    by_cases h1 : seg_score = scoreOf scores expr
    · rw [if_pos h1]
      exact ih _ _ _ (fun e he => hge e (List.mem_cons_of_mem _ he)) hs.2
    · rw [if_neg h1]
      have h2 : seg_score < scoreOf scores expr := by
        have := hge expr (List.mem_cons_self _ _)
        omega
      rw [if_pos h2]
      cases reorderSegmentBreadthFirst F fuel seg with
      | none => simp
      | some s => exact ih _ _ _ (fun e he => hs.1 e he) hs.2

theorem scoreSorted_sortGroup (exprs : ExprListT) (scores : ExprScoreMapT) :
    ScoreSorted scores (sortGroup exprs scores) := by
  haveI : IsTotal Expr (fun expr1 expr2 => ¬ (scoreOf scores expr2 < scoreOf scores expr1)) :=
    ⟨fun a b => by
      by_cases h : scoreOf scores b < scoreOf scores a
      · right; omega
      · left; exact h⟩
  haveI : IsTrans Expr (fun expr1 expr2 => ¬ (scoreOf scores expr2 < scoreOf scores expr1)) :=
    ⟨fun a b c h1 h2 => by
      simp only [not_lt] at h1 h2 ⊢
      omega⟩
  have h := List.sorted_insertionSort
    (fun expr1 expr2 => ¬ (scoreOf scores expr2 < scoreOf scores expr1)) exprs
  unfold ScoreSorted sortGroup
  exact List.Pairwise.imp (fun {a b} hab => Nat.le_of_not_lt hab) h

/-- The sort of `sortGroup` is stable: the expressions of one score keep their order. -/
theorem sortGroup_stable (exprs : ExprListT) (scores : ExprScoreMapT) (s : Nat) :
    (sortGroup exprs scores).filter (fun e => decide (scoreOf scores e = s)) =
      exprs.filter (fun e => decide (scoreOf scores e = s)) := by
  have hins : ∀ (a : Expr) (l : List Expr),
      (List.orderedInsert
        (fun expr1 expr2 => ¬ (scoreOf scores expr2 < scoreOf scores expr1)) a l).filter
          (fun e => decide (scoreOf scores e = s)) =
        (a :: l).filter (fun e => decide (scoreOf scores e = s)) := by
    intro a l
    induction l with
    | nil => rfl
    | cons b l ih =>
      rw [List.orderedInsert]
      by_cases hab : ¬ (scoreOf scores b < scoreOf scores a)
      · rw [if_pos hab]
      · rw [if_neg hab]
        have hlt : scoreOf scores b < scoreOf scores a := not_not.1 hab
        by_cases ha : scoreOf scores a = s
        · have hb : scoreOf scores b ≠ s := by omega
          simp only [List.filter_cons, ha, hb, decide_True, decide_False, if_true,
            Bool.false_eq_true, if_false] at ih ⊢
          exact ih
        · simp only [List.filter_cons, ha, decide_False, Bool.false_eq_true, if_false] at ih ⊢
          rw [ih]
  unfold sortGroup
  induction exprs with
  | nil => rfl
  | cons a l ih =>
    rw [List.insertionSort, hins, List.filter_cons, List.filter_cons, ih]

/-- Every group `groupExpressions` builds holds an expression. -/
theorem groupAll_nonempty (F : Fusion) (fuel : Nat) (exprs : List Expr)
    (st st1 : ReorderState) (h : groupAll F fuel exprs st = some st1)
    (hne : ∀ p ∈ st.computed_at_exprs, p.2 ≠ []) :
    ∀ p ∈ st1.computed_at_exprs, p.2 ≠ [] := by
  induction exprs generalizing st with
  | nil =>
    simp only [groupAll, Option.some.injEq] at h
    subst h
    exact hne
  | cons expr rest ih =>
    simp only [groupAll] at h
    cases hg : groupExpressions F fuel expr st with
    | none => rw [hg] at h; cases h
    | some st2 =>
      rw [hg] at h
      apply ih st2 h
      unfold groupExpressions at hg
      cases hft : findTargetTensor F fuel expr with
      | none => rw [hft] at hg; cases hg
      | some res =>
        obtain ⟨target_tensor, score⟩ := res
        rw [hft] at hg
        simp only [] at hg
        cases target_tensor with
        | none =>
          simp only [Option.some.injEq] at hg
          subst hg
          exact hne
        | some target =>
          simp only [Option.some.injEq] at hg
          subst hg
          intro p hp
          simp only [] at hp
          rcases mem_setKey _ _ _ p hp with ⟨_, h2⟩ | ⟨h1, h2⟩
          · rw [h2]
            simp
          · rcases mem_emplaceKey _ _ _ p h1 with h3 | h3
            · exact hne p h3
            · rw [h3] at h2
              exact absurd rfl h2
theorem checked_sorted (F : Fusion) (fuel : Nat) (scores : ExprScoreMapT) (g : ExprListT)
    (hne : g ≠ []) (hs : ScoreSorted scores g) :
    reorderGroupBreadthFirstChecked F fuel g scores ≠
        Except.error GroupFailure.unexpectedExpression ∧
      reorderGroupBreadthFirstChecked F fuel g scores ≠
        Except.error GroupFailure.emptyGroup := by
  cases g with
  | nil => exact absurd rfl hne
  | cons first rest =>
    have hge : ∀ e ∈ first :: rest, scoreOf scores first ≤ scoreOf scores e := by
      intro e he
      unfold ScoreSorted at hs
      rcases List.mem_cons.1 he with he | he
      · rw [he]
      · exact (List.pairwise_cons.1 hs).1 e he
    constructor
    · exact groupLoopChecked_sorted F fuel scores _ [] [] _ hge hs
    · show groupLoopChecked F fuel scores [] [] (scoreOf scores first) (first :: rest) ≠ _
      intro hc
      have hgen : ∀ (rest done seg : List Expr) (sc : Nat),
          groupLoopChecked F fuel scores done seg sc rest ≠
            Except.error GroupFailure.emptyGroup := by
        intro rest
        induction rest with
        | nil =>
          intro done seg sc
          simp only [groupLoopChecked]
          cases reorderSegmentBreadthFirst F fuel seg <;> simp
        | cons e rest ih =>
          intro done seg sc
          simp only [groupLoopChecked]
          by_cases h1 : sc = scoreOf scores e
          · rw [if_pos h1]
            exact ih _ _ _
          · rw [if_neg h1]
            by_cases h2 : sc < scoreOf scores e
            · rw [if_pos h2]
              cases reorderSegmentBreadthFirst F fuel seg with
              | none => simp
              | some s => exact ih _ _ _
            · rw [if_neg h2]
              simp
      exact hgen _ _ _ _ hc

/-- Step 2 fails only where a call of `reorderSegmentBreadthFirst` does not return, when
every group holds an expression. -/
theorem sortAll_none (F : Fusion) (fuel : Nat) (scores : ExprScoreMapT)
    (m : TargetGroupMapT) (hne : ∀ p ∈ m, p.2 ≠ []) (h : sortAll F fuel scores m = none) :
    ∃ p ∈ m, reorderGroupBreadthFirstChecked F fuel (sortGroup p.2 scores) scores =
      Except.error GroupFailure.segment := by
  induction m with
  | nil => simp [sortAll] at h
  | cons p rest ih =>
    obtain ⟨target, group⟩ := p
    simp only [sortAll] at h
    cases hg : reorderGroupBreadthFirst F fuel (sortGroup group scores) scores with
    | none =>
      refine ⟨(target, group), List.mem_cons_self _ _, ?_⟩
      have hgne : sortGroup group scores ≠ [] := by
        intro hnil
        have hp := sortGroup_perm group scores
        rw [hnil] at hp
        exact hne (target, group) (List.mem_cons_self _ _) hp.symm.eq_nil
      have hc := checked_sorted F fuel scores _ hgne (scoreSorted_sortGroup group scores)
      rw [reorderGroupBreadthFirst_checked] at hg
      cases hr : reorderGroupBreadthFirstChecked F fuel (sortGroup group scores) scores with
      | ok r => rw [hr] at hg; cases hg
      | error f =>
        cases f with
        | emptyGroup => exact absurd hr hc.2
        | segment => rfl
        | unexpectedExpression => exact absurd hr hc.1
    | some g =>
      rw [hg] at h
      simp only [] at h
      cases hr : sortAll F fuel scores rest with
      | none =>
        obtain ⟨q, hq, hqe⟩ := ih (fun q hq => hne q (List.mem_cons_of_mem _ hq)) hr
        exact ⟨q, List.mem_cons_of_mem _ hq, hqe⟩
      | some rest1 => rw [hr] at h; cases h

/-- C32: in `reorderExprsForComputeAt`, every group that step 2 hands to
`reorderGroupBreadthFirst` holds an expression; `sortGroup` has put it in ascending order of
score, keeping the expressions of one score in their order; on it
`reorderGroupBreadthFirst` reaches neither the assertion "Unexpected expression" nor the
read of the score of a missing first expression; and step 2 fails only where a call of
`reorderSegmentBreadthFirst` does not return. -/
theorem unexpected_expression_unreachable (F : Fusion) (fuel : Nat) (exprs : List Expr)
    (st : ReorderState) (h : groupAll F fuel exprs emptyState = some st) :
    (∀ p ∈ iterationOrder F st.computed_at_exprs,
      p.2 ≠ [] ∧ sortGroup p.2 st.scores ≠ [] ∧
      (sortGroup p.2 st.scores).Perm p.2 ∧
      ScoreSorted st.scores (sortGroup p.2 st.scores) ∧
      (∀ s, (sortGroup p.2 st.scores).filter (fun e => decide (scoreOf st.scores e = s)) =
        p.2.filter (fun e => decide (scoreOf st.scores e = s))) ∧
      reorderGroupBreadthFirstChecked F fuel (sortGroup p.2 st.scores) st.scores ≠
        Except.error GroupFailure.unexpectedExpression ∧
      reorderGroupBreadthFirstChecked F fuel (sortGroup p.2 st.scores) st.scores ≠
        Except.error GroupFailure.emptyGroup ∧
      reorderGroupBreadthFirst F fuel (sortGroup p.2 st.scores) st.scores =
        (reorderGroupBreadthFirstChecked F fuel (sortGroup p.2 st.scores)
          st.scores).toOption) ∧
    (sortAll F fuel st.scores (iterationOrder F st.computed_at_exprs) = none →
      ∃ p ∈ iterationOrder F st.computed_at_exprs,
        reorderGroupBreadthFirstChecked F fuel (sortGroup p.2 st.scores) st.scores =
          Except.error GroupFailure.segment) := by
  have hne : ∀ p ∈ iterationOrder F st.computed_at_exprs, p.2 ≠ [] := by
    intro p hp
    exact groupAll_nonempty F fuel exprs emptyState st h
      (by intro q hq; simp [emptyState] at hq) p ((iterationOrder_perm F _).mem_iff.1 hp)
  refine ⟨?_, sortAll_none F fuel st.scores _ hne⟩
  intro p hp
  have hgne : sortGroup p.2 st.scores ≠ [] := by
    intro hnil
    have hpm := sortGroup_perm p.2 st.scores
    rw [hnil] at hpm
    exact hne p hp hpm.symm.eq_nil
  have hc := checked_sorted F fuel st.scores _ hgne (scoreSorted_sortGroup p.2 st.scores)
  exact ⟨hne p hp, hgne, sortGroup_perm _ _, scoreSorted_sortGroup _ _,
    sortGroup_stable _ _, hc.1, hc.2, reorderGroupBreadthFirst_checked _ _ _ _⟩

/-- C32, witness: the groups of scenario C; the group of tensor 10 is sorted from `[0, 1]`
into `[1, 0]`. -/
theorem unexpected_expression_unreachable_witness :
    groupAll scenarioC 5 [0, 1, 2] emptyState =
      some { reordered_exprs := [], target_map := [(0, 10), (1, 10), (2, 11)],
             computed_at_exprs := [(10, [0, 1]), (11, [2])],
             scores := [(0, 4294967295), (1, 2), (2, 1)] } ∧
    sortGroup [0, 1] [(0, 4294967295), (1, 2), (2, 1)] = [1, 0] ∧
    reorderGroupBreadthFirstChecked scenarioC 5 [1, 0] [(0, 4294967295), (1, 2), (2, 1)] =
      Except.ok [1, 0] ∧
    ∀ p ∈ iterationOrder scenarioC [(10, [0, 1]), (11, [2])],
      reorderGroupBreadthFirstChecked scenarioC 5
          (sortGroup p.2 [(0, 4294967295), (1, 2), (2, 1)])
          [(0, 4294967295), (1, 2), (2, 1)] ≠
        Except.error GroupFailure.unexpectedExpression :=
  ⟨rfl, by decide, rfl, fun p hp =>
    ((unexpected_expression_unreachable scenarioC 5 [0, 1, 2]
      { reordered_exprs := [], target_map := [(0, 10), (1, 10), (2, 11)],
        computed_at_exprs := [(10, [0, 1]), (11, [2])],
        scores := [(0, 4294967295), (1, 2), (2, 1)] } rfl).1 p hp).2.2.2.2.2.1⟩

/-! ### Termination of `reorderSegmentBreadthFirst` -/

theorem exists_min_rank (rank : Expr → Nat) (l : List Expr) (h : l ≠ []) :
    ∃ e ∈ l, ∀ d ∈ l, rank e ≤ rank d := by
  induction l with
  | nil => exact absurd rfl h
  | cons a rest ih =>
    by_cases hr : rest = []
    · subst hr
      exact ⟨a, List.mem_cons_self _ _, by intro d hd; simp at hd; rw [hd]⟩
    · obtain ⟨e, he, hmin⟩ := ih hr
      by_cases hae : rank a ≤ rank e
      · refine ⟨a, List.mem_cons_self _ _, ?_⟩
        intro d hd
        rcases List.mem_cons.1 hd with hd | hd
        · rw [hd]
        · exact Nat.le_trans hae (hmin d hd)
      · refine ⟨e, List.mem_cons_of_mem _ he, ?_⟩
        intro d hd
        rcases List.mem_cons.1 hd with hd | hd
        · rw [hd]
          omega
        · exact hmin d hd

/-- With input dependencies without a cycle, a pass over operations that remain places one of
them: an operation of least rank among them is ready. -/
theorem segmentPass_progress (F : Fusion) (fuel : Nat) (seg : List Expr)
    (m : List (Expr × List TensorView))
    (hm : seg.mapM (fun e => (exprTvInputs F fuel seg e).map (fun i => (e, i))) = some m)
    (rank : Expr → Nat)
    (hrank : ∀ e ∈ seg, ∀ d ∈ segmentDefiners F fuel seg e, rank d < rank e)
    (visited remaining : List Expr) (hne : remaining ≠ [])
    (hcover : ∀ x ∈ seg, x ∈ visited ∨ x ∈ remaining)
    (hsub : ∀ x ∈ remaining, x ∈ seg) :
    (segmentPass (fun e => readyToVisit F seg visited ((lookup m e).getD [])) remaining
      [] []).1 ≠ [] := by
  rw [segmentPass_ready, List.nil_append]
  obtain ⟨e, he, hmin⟩ := exists_min_rank rank remaining hne
  intro hnil
  have hnot : e ∉ remaining.filter
      (fun e => readyToVisit F seg visited ((lookup m e).getD [])) := by
    rw [hnil]
    simp
  apply hnot
  rw [List.mem_filter]
  refine ⟨he, ?_⟩
  obtain ⟨i, hi1, hi2⟩ := lookup_mapM _ seg m hm e (hsub e he)
  simp only [hi2, Option.getD_some]
  rw [readyToVisit_iff]
  intro x hx d hd
  have hds := exprTvInputs_defined F fuel seg e i hi1 x hx d hd
  refine ⟨hds, ?_⟩
  have hdef : d ∈ segmentDefiners F fuel seg e := by
    rw [mem_segmentDefiners, hi1, Option.getD_some]
    exact ⟨x, hx, hd, hds⟩
  have hlt := hrank e (hsub e he) d hdef
  rcases hcover d hds with h | h
  · exact h
  · have := hmin d h
    omega

/-- The loop over the passes ends within as many passes as operations remain. -/
theorem segmentLoop_total (F : Fusion) (fuel : Nat) (seg : List Expr)
    (m : List (Expr × List TensorView))
    (hm : seg.mapM (fun e => (exprTvInputs F fuel seg e).map (fun i => (e, i))) = some m)
    (rank : Expr → Nat)
    (hrank : ∀ e ∈ seg, ∀ d ∈ segmentDefiners F fuel seg e, rank d < rank e)
    (n : Nat) (placed remaining : List Expr) (hperm : (placed ++ remaining).Perm seg)
    (hn : remaining.length ≤ n) :
    ∃ s, segmentLoop F (fun e => (lookup m e).getD []) seg n placed remaining placed =
      some s := by
  induction n generalizing placed remaining with
  | zero =>
    have hnil : remaining = [] := List.length_eq_zero.1 (Nat.le_zero.1 hn)
    subst hnil
    exact ⟨placed, by simp [segmentLoop]⟩
  | succ n ih =>
    cases remaining with
    | nil => exact ⟨placed, by simp [segmentLoop]⟩
    | cons x xs =>
      simp only [segmentLoop, List.isEmpty_cons, Bool.false_eq_true, if_false]
      have hprog := segmentPass_progress F fuel seg m hm rank hrank placed (x :: xs)
        (by simp)
        (fun y hy => List.mem_append.1 (hperm.mem_iff.2 hy))
        (fun y hy => hperm.mem_iff.1 (List.mem_append.2 (Or.inr hy)))
      have hp := segmentPass_perm
        (fun e => readyToVisit F seg placed ((lookup m e).getD [])) (x :: xs) [] []
      apply ih
      · rw [List.append_assoc]
        refine (List.Perm.append_left placed ?_).trans hperm
        simpa using hp
      · have hlen := hp.length_eq
        simp only [List.length_append, List.length_cons, List.length_nil,
          List.nil_append] at hlen hn
        have hpos : 0 < (segmentPass
            (fun e => readyToVisit F seg placed ((lookup m e).getD [])) (x :: xs)
            [] []).1.length := List.length_pos.2 hprog
        omega

/-- More passes than needed change nothing. -/
theorem segmentLoop_mono (F : Fusion) (inputsOf : Expr → List TensorView)
    (status : List Expr) (n k : Nat) (placed remaining visited s : List Expr)
    (h : segmentLoop F inputsOf status n placed remaining visited = some s) :
    segmentLoop F inputsOf status (n + k) placed remaining visited = some s := by
  induction n generalizing placed remaining visited with
  | zero =>
    simp only [segmentLoop] at h
    by_cases he : remaining.isEmpty = true
    · rw [if_pos he] at h
      cases k with
      | zero => simp [segmentLoop, he, h]
      | succ j =>
        rw [Nat.zero_add]
        simp only [segmentLoop, he, if_true]
        exact h
    · rw [if_neg he] at h
      cases h
  | succ n ih =>
    rw [Nat.add_right_comm]
    simp only [segmentLoop] at h ⊢
    by_cases he : remaining.isEmpty = true
    · rw [if_pos he] at h ⊢
      exact h
    · rw [if_neg he] at h ⊢
      exact ih _ _ _ h

/-- With the inputs of every operation of the segment at hand and a rank that grows from
every definer to its user, every pass places an operation and the loop over the passes ends
within as many passes as the segment has operations. -/
theorem segment_returns (F : Fusion) (fuel : Nat) (seg : List Expr) (rank : Expr → Nat)
    (hin : ∀ e ∈ seg, (exprTvInputs F fuel seg e).isSome = true)
    (hrank : ∀ e ∈ seg, ∀ d ∈ segmentDefiners F fuel seg e, rank d < rank e) :
    ∃ m, seg.mapM (fun e => (exprTvInputs F fuel seg e).map (fun i => (e, i))) = some m ∧
      (∀ visited remaining, remaining ≠ [] → (∀ x ∈ seg, x ∈ visited ∨ x ∈ remaining) →
        (∀ x ∈ remaining, x ∈ seg) →
        (segmentPass (fun e => readyToVisit F seg visited ((lookup m e).getD [])) remaining
          [] []).1 ≠ []) ∧
      (∃ s, segmentLoop F (fun e => (lookup m e).getD []) seg seg.length [] seg [] = some s ∧
        (seg.length ≤ fuel → reorderSegmentBreadthFirst F fuel seg = some s)) := by
  obtain ⟨m, hm⟩ := mapM_some (exprTvInputs F fuel seg) seg hin
  refine ⟨m, hm, ?_, ?_⟩
  · intro visited remaining hne hcover hsub
    exact segmentPass_progress F fuel seg m hm rank hrank visited remaining hne hcover hsub
  · obtain ⟨s, hs⟩ := segmentLoop_total F fuel seg m hm rank hrank seg.length [] seg
      (by simp) (Nat.le_refl _)
    refine ⟨s, hs, ?_⟩
    intro hle
    unfold reorderSegmentBreadthFirst
    rw [hm]
    simp only
    obtain ⟨k, hk⟩ := Nat.exists_eq_add_of_le hle
    rw [hk]
    exact segmentLoop_mono F _ seg seg.length k [] seg [] s hs

/-- With definitions without a cycle (the inputs of the definition of a tensor have a
smaller rank than the tensor), the search for the ancestors of a tensor returns when the
bound on the depth is above the rank of the tensor, and the ancestors have a smaller rank. -/
theorem mapMissing_total (F : Fusion) (status : List Expr) (trank : TensorView → Nat)
    (hacyc : ∀ tv e, F.definition tv = some e → ∀ input ∈ tvInputs F e, trank input < trank tv)
    (fuel : Nat) (tv : TensorView) (hfuel : trank tv < fuel)
    (hdef : (F.definition tv).isSome = true) :
    ∃ anc, mapMissingInputsToAncestors F status fuel tv = some anc ∧
      ∀ x ∈ anc, trank x < trank tv := by
  induction fuel generalizing tv with
  | zero => omega
  | succ k ih =>
    obtain ⟨expr, hexpr⟩ := Option.isSome_iff_exists.1 hdef
    simp only [mapMissingInputsToAncestors, hexpr]
    have hin := hacyc tv expr hexpr
    have key : ∀ (l : List TensorView) (acc : List TensorView),
        (∀ input ∈ l, trank input < trank tv) → (∀ x ∈ acc, trank x < trank tv) →
        ∃ anc, l.foldl
          (fun acc input =>
            match acc with
            | none => none
            | some ancestors =>
                match F.definition input with
                | none => some ancestors
                | some input_definition =>
                    if input_definition ∈ status then some (ancestors ++ [input])
                    else
                      match mapMissingInputsToAncestors F status k input with
                      | none => none
                      | some more => some (ancestors ++ more)) (some acc) = some anc ∧
          ∀ x ∈ anc, trank x < trank tv := by
      intro l
      induction l with
      | nil =>
        intro acc _ hacc
        exact ⟨acc, rfl, hacc⟩
      | cons input rest ihl =>
        intro acc hl hacc
        rw [List.foldl_cons]
        have hlt := hl input (List.mem_cons_self _ _)
        have hrest := fun i hi => hl i (List.mem_cons_of_mem _ hi)
        cases hdi : F.definition input with
        | none => exact ihl acc hrest hacc
        | some input_definition =>
          simp only []
          by_cases hst : input_definition ∈ status
          · rw [if_pos hst]
            apply ihl _ hrest
            intro x hx
            rcases List.mem_append.1 hx with hx | hx
            · exact hacc x hx
            · rw [List.mem_singleton.1 hx]
              exact hlt
          · rw [if_neg hst]
            obtain ⟨more, hmore, hmr⟩ := ih input (by omega) (by rw [hdi]; rfl)
            rw [hmore]
            apply ihl _ hrest
            intro x hx
            rcases List.mem_append.1 hx with hx | hx
            · exact hacc x hx
            · have := hmr x hx
              omega
    exact key _ [] hin (by simp)

/-- With definitions without a cycle, `findExprTvInputs` computes the inputs of an operation
whose tensor inputs have a rank below the bound; an input it lists is an input of the
operation or an ancestor of one, of smaller rank. -/
theorem exprTvInputs_total (F : Fusion) (status : List Expr) (trank : TensorView → Nat)
    (hacyc : ∀ tv e, F.definition tv = some e → ∀ input ∈ tvInputs F e, trank input < trank tv)
    (fuel : Nat) (expr : Expr) (hfuel : ∀ input ∈ tvInputs F expr, trank input < fuel) :
    ∃ i, exprTvInputs F fuel status expr = some i ∧
      ∀ x ∈ i, ∃ y ∈ tvInputs F expr, trank x ≤ trank y := by
  unfold exprTvInputs
  have key : ∀ (l : List TensorView) (acc : List TensorView),
      (∀ input ∈ l, input ∈ tvInputs F expr) →
      (∀ x ∈ acc, ∃ y ∈ tvInputs F expr, trank x ≤ trank y) →
      ∃ i, l.foldl
        (fun acc input =>
          match acc with
          | none => none
          | some tv_inputs =>
              match F.definition input with
              | none => some (tv_inputs ++ [input])
              | some input_definition =>
                  if input_definition ∈ status then some (tv_inputs ++ [input])
                  else
                    match mapMissingInputsToAncestors F status fuel input with
                    | none => none
                    | some ancestors => some (ancestors ++ tv_inputs)) (some acc) = some i ∧
        ∀ x ∈ i, ∃ y ∈ tvInputs F expr, trank x ≤ trank y := by
    intro l
    induction l with
    | nil =>
      intro acc _ hacc
      exact ⟨acc, rfl, hacc⟩
    | cons input rest ihl =>
      intro acc hl hacc
      rw [List.foldl_cons]
      have hmem := hl input (List.mem_cons_self _ _)
      have hrest := fun i hi => hl i (List.mem_cons_of_mem _ hi)
      have hself : ∀ x ∈ acc ++ [input], ∃ y ∈ tvInputs F expr, trank x ≤ trank y := by
        intro x hx
        rcases List.mem_append.1 hx with hx | hx
        · exact hacc x hx
        · rw [List.mem_singleton.1 hx]
          exact ⟨input, hmem, Nat.le_refl _⟩
      cases hdi : F.definition input with
      | none => exact ihl _ hrest hself
      | some input_definition =>
        simp only []
        by_cases hst : input_definition ∈ status
        · rw [if_pos hst]
          exact ihl _ hrest hself
        · rw [if_neg hst]
          obtain ⟨anc, hanc, hlt⟩ := mapMissing_total F status trank hacyc fuel input
            (hfuel input hmem) (by rw [hdi]; rfl)
          rw [hanc]
          apply ihl _ hrest
          intro x hx
          rcases List.mem_append.1 hx with hx | hx
          · exact ⟨input, hmem, Nat.le_of_lt (hlt x hx)⟩
          · exact hacc x hx
  exact key _ [] (fun _ h => h) (by simp)

theorem le_foldr_max (l : List Nat) (a : Nat) (h : a ∈ l) : a ≤ l.foldr max 0 := by
  induction l with
  | nil => cases h
  | cons b rest ih =>
    rw [List.foldr_cons]
    rcases List.mem_cons.1 h with h | h
    · rw [h]
      exact Nat.le_max_left _ _
    · exact Nat.le_trans (ih h) (Nat.le_max_right _ _)

theorem foldr_max_le (l : List Nat) (b : Nat) (h : ∀ a ∈ l, a ≤ b) : l.foldr max 0 ≤ b := by
  induction l with
  | nil => exact Nat.zero_le _
  | cons a rest ih =>
    rw [List.foldr_cons]
    have h1 := h a (List.mem_cons_self _ _)
    have h2 := ih (fun x hx => h x (List.mem_cons_of_mem _ hx))
    exact Nat.max_le.2 ⟨h1, h2⟩

/-- C39: when the definitions have no cycle (a rank on the tensors grows from the inputs of
the definition of a tensor to the tensor) and the bound on the depth of the search for
ancestors is above the ranks of the inputs, `findExprTvInputs` returns the inputs of every
operation of the segment, every pass over operations that remain places at least one of
them, the loop over the passes ends within as many passes as the segment has operations, and
`reorderSegmentBreadthFirst` returns when the bound allows that many passes. -/
theorem segment_terminates (F : Fusion) (fuel : Nat) (seg : List Expr)
    (trank : TensorView → Nat)
    (hacyc : ∀ tv e, F.definition tv = some e → ∀ input ∈ tvInputs F e, trank input < trank tv)
    (hfuel : ∀ e ∈ seg, ∀ input ∈ tvInputs F e, trank input < fuel) :
    ∃ m, seg.mapM (fun e => (exprTvInputs F fuel seg e).map (fun i => (e, i))) = some m ∧
      (∀ visited remaining, remaining ≠ [] → (∀ x ∈ seg, x ∈ visited ∨ x ∈ remaining) →
        (∀ x ∈ remaining, x ∈ seg) →
        (segmentPass (fun e => readyToVisit F seg visited ((lookup m e).getD [])) remaining
          [] []).1 ≠ []) ∧
      (∃ s, segmentLoop F (fun e => (lookup m e).getD []) seg seg.length [] seg [] = some s ∧
        (seg.length ≤ fuel → reorderSegmentBreadthFirst F fuel seg = some s)) := by
  apply segment_returns F fuel seg
    (fun e => ((tvInputs F e).map (fun t => trank t + 1)).foldr max 0)
  · intro e he
    obtain ⟨i, hi, -⟩ := exprTvInputs_total F seg trank hacyc fuel e (hfuel e he)
    rw [hi]
    rfl
  · intro e he d hd
    obtain ⟨i, hi, hle⟩ := exprTvInputs_total F seg trank hacyc fuel e (hfuel e he)
    rw [mem_segmentDefiners, hi, Option.getD_some] at hd
    obtain ⟨x, hx, hdx, -⟩ := hd
    obtain ⟨y, hy, hxy⟩ := hle x hx
    have h1 : ((tvInputs F d).map (fun t => trank t + 1)).foldr max 0 ≤ trank x := by
      apply foldr_max_le
      intro a ha
      obtain ⟨input, hinput, rfl⟩ := List.mem_map.1 ha
      have := hacyc x d hdx input hinput
      omega
    have h2 : trank y + 1 ≤ ((tvInputs F e).map (fun t => trank t + 1)).foldr max 0 :=
      le_foldr_max _ _ (List.mem_map_of_mem (fun t => trank t + 1) hy)
    show ((tvInputs F d).map (fun t => trank t + 1)).foldr max 0 <
      ((tvInputs F e).map (fun t => trank t + 1)).foldr max 0
    omega

/-- C39, witness: the segment `[1, 2, 0]` of scenario D with the rank of a tensor its
number: every input of a definition has a smaller number than the tensor defined. -/
theorem segment_terminates_witness :
    ∃ m, [1, 2, 0].mapM
        (fun e => (exprTvInputs scenarioD 12 [1, 2, 0] e).map (fun i => (e, i))) = some m ∧
      ∃ s, segmentLoop scenarioD (fun e => (lookup m e).getD []) [1, 2, 0] 3 [] [1, 2, 0]
          [] = some s ∧
        reorderSegmentBreadthFirst scenarioD 12 [1, 2, 0] = some s := by
  have hacyc : ∀ tv e, scenarioD.definition tv = some e →
      ∀ input ∈ tvInputs scenarioD e, (fun t : TensorView => t) input <
        (fun t : TensorView => t) tv := by
    intro tv e hdef input hinput
    have hsub : input ∈ scenarioD.inputs e := List.mem_of_mem_filter hinput
    have hdef2 : (if tv = 10 then some 0 else if tv = 11 then some 1 else
        if tv = 12 then some 2 else none) = some e := hdef
    have hin2 : input ∈ (if e = 0 then [9] else [10]) := hsub
    show (input : Nat) < (tv : Nat)
    by_cases h10 : tv = 10
    · rw [if_pos h10] at hdef2
      have he : e = 0 := (Option.some.inj hdef2).symm
      rw [if_pos he] at hin2
      rw [List.mem_singleton.1 hin2, h10]
      decide
    · rw [if_neg h10] at hdef2
      by_cases h11 : tv = 11
      · rw [if_pos h11] at hdef2
        have he : e = 1 := (Option.some.inj hdef2).symm
        rw [he, if_neg (by decide)] at hin2
        rw [List.mem_singleton.1 hin2, h11]
        decide
      · rw [if_neg h11] at hdef2
        by_cases h12 : tv = 12
        · rw [if_pos h12] at hdef2
          have he : e = 2 := (Option.some.inj hdef2).symm
          rw [he, if_neg (by decide)] at hin2
          rw [List.mem_singleton.1 hin2, h12]
          decide
        · rw [if_neg h12] at hdef2
          cases hdef2
  obtain ⟨m, h1, -, s, h3, h4⟩ := segment_terminates scenarioD 12 [1, 2, 0]
    (fun t => t) hacyc (by decide)
  exact ⟨m, h1, s, h3, h4 (by decide)⟩

/-! ### Definers and users in the list returned -/

/-- A tensor input whose definition is in the segment is among the inputs
`findExprTvInputs` computes. -/
theorem exprTvInputs_keeps (F : Fusion) (fuel : Nat) (status : List Expr) (e : Expr)
    (i : List TensorView) (x : TensorView) (d : Expr)
    (h : exprTvInputs F fuel status e = some i) (hx : x ∈ tvInputs F e)
    (hd : F.definition x = some d) (hs : d ∈ status) : x ∈ i := by
  unfold exprTvInputs at h
  have key : ∀ (l : List TensorView) (acc : Option (List TensorView)),
      l.foldl
        (fun acc input =>
          match acc with
          | none => none
          | some tv_inputs =>
              match F.definition input with
              | none => some (tv_inputs ++ [input])
              | some input_definition =>
                  if input_definition ∈ status then some (tv_inputs ++ [input])
                  else
                    match mapMissingInputsToAncestors F status fuel input with
                    | none => none
                    | some ancestors => some (ancestors ++ tv_inputs)) acc = some i →
      (x ∈ l ∨ ∃ a, acc = some a ∧ x ∈ a) → x ∈ i := by
    intro l
    induction l with
    | nil =>
      intro acc hf hor
      rw [List.foldl_nil] at hf
      rcases hor with h1 | ⟨a, ha, hxa⟩
      · cases h1
      · rw [ha] at hf
        rw [← Option.some.inj hf]
        exact hxa
    | cons input rest ih =>
      intro acc hf hor
      rw [List.foldl_cons] at hf
      apply ih _ hf
      cases acc with
      | none =>
        rcases hor with h1 | ⟨a, ha, _⟩
        · exfalso
          have hnone : ∀ (l2 : List TensorView), l2.foldl
              (fun acc input =>
                match acc with
                | none => none
                | some tv_inputs =>
                    match F.definition input with
                    | none => some (tv_inputs ++ [input])
                    | some input_definition =>
                        if input_definition ∈ status then some (tv_inputs ++ [input])
                        else
                          match mapMissingInputsToAncestors F status fuel input with
                          | none => none
                          | some ancestors => some (ancestors ++ tv_inputs))
              (none : Option (List TensorView)) = none := by
            intro l2
            induction l2 with
            | nil => rfl
            | cons b r2 ih2 => rw [List.foldl_cons]; exact ih2
          simp only at hf
          rw [hnone rest] at hf
          cases hf
        · cases ha
      | some a =>
        simp only
        have hxa : (x = input ∨ x ∈ a) ∨ x ∈ rest := by
          rcases hor with h1 | ⟨a2, ha2, hx2⟩
          · rcases List.mem_cons.1 h1 with h2 | h2
            · exact Or.inl (Or.inl h2)
            · exact Or.inr h2
          · rw [← Option.some.inj ha2] at hx2
            exact Or.inl (Or.inr hx2)
        rcases hxa with hxa | hxa
        · right
          cases hdi : F.definition input with
          | none =>
            refine ⟨a ++ [input], rfl, ?_⟩
            rcases hxa with h2 | h2
            · rw [h2]; simp
            · exact List.mem_append_left _ h2
          | some input_definition =>
            simp only
            by_cases hst : input_definition ∈ status
            · rw [if_pos hst]
              refine ⟨a ++ [input], rfl, ?_⟩
              rcases hxa with h2 | h2
              · rw [h2]; simp
              · exact List.mem_append_left _ h2
            · rw [if_neg hst]
              rcases hxa with h2 | h2
              · exfalso
                rw [h2, hdi] at hd
                rw [Option.some.inj hd] at hst
                exact hst hs
              · cases hmm : mapMissingInputsToAncestors F status fuel input with
                | none =>
                  exfalso
                  rw [hdi] at hf
                  simp only [if_neg hst, hmm] at hf
                  have hnone : ∀ (l2 : List TensorView), l2.foldl
                      (fun acc input =>
                        match acc with
                        | none => none
                        | some tv_inputs =>
                            match F.definition input with
                            | none => some (tv_inputs ++ [input])
                            | some input_definition =>
                                if input_definition ∈ status then some (tv_inputs ++ [input])
                                else
                                  match mapMissingInputsToAncestors F status fuel input with
                                  | none => none
                                  | some ancestors => some (ancestors ++ tv_inputs))
                      (none : Option (List TensorView)) = none := by
                    intro l2
                    induction l2 with
                    | nil => rfl
                    | cons b r2 ih2 => rw [List.foldl_cons]; exact ih2
                  rw [hnone rest] at hf
                  cases hf
                | some ancestors =>
                  exact ⟨ancestors ++ a, rfl, List.mem_append_right _ h2⟩
        · exact Or.inl hxa
  exact key _ _ h (Or.inl hx)

/-- The loop of `reorderSegmentBreadthFirst` places an expression after the expressions that
define its inputs. -/
theorem segmentLoop_definers (F : Fusion) (inputsOf : Expr → List TensorView)
    (status : List Expr) (fuel : Nat) (placed remaining visited r : List Expr)
    (h : segmentLoop F inputsOf status fuel placed remaining visited = some r)
    (hv : ∀ x ∈ visited, x ∈ placed)
    (hinv : ∀ d e x, e ∈ placed → x ∈ inputsOf e → F.definition x = some d →
      [d, e].Sublist placed) :
    ∀ d e x, e ∈ r → x ∈ inputsOf e → F.definition x = some d → [d, e].Sublist r := by
  induction fuel generalizing placed remaining visited with
  | zero =>
    unfold segmentLoop at h
    by_cases hr : remaining.isEmpty = true
    · rw [if_pos hr] at h
      rw [← Option.some.inj h]
      exact hinv
    · rw [if_neg hr] at h
      cases h
  | succ k ih =>
    unfold segmentLoop at h
    by_cases hr : remaining.isEmpty = true
    · rw [if_pos hr] at h
      rw [← Option.some.inj h]
      exact hinv
    · rw [if_neg hr] at h
      simp only at h
      apply ih _ _ _ h
      · intro x hx
        rcases List.mem_append.1 hx with h1 | h1
        · exact List.mem_append_left _ (hv x h1)
        · exact List.mem_append_right _ h1
      · intro d e x he hx hd
        rcases List.mem_append.1 he with h1 | h1
        · exact (hinv d e x h1 hx hd).trans (List.sublist_append_left _ _)
        · have h2 := h1
          rw [segmentPass_ready, List.nil_append] at h2
          have h3 := (List.mem_filter.1 h2).2
          have h4 := (readyToVisit_iff F status visited (inputsOf e)).1 h3 x hx d hd
          have h5 : [d].Sublist placed := List.singleton_sublist.2 (hv d h4.2)
          have h6 : [e].Sublist
              (segmentPass (fun e => readyToVisit F status visited (inputsOf e)) remaining
                [] []).1 := List.singleton_sublist.2 h1
          exact h5.append h6

/-- In the segment `reorderSegmentBreadthFirst` returns, an expression of the segment that
defines a tensor input of another stands before it. -/
theorem reorderSegment_definers (F : Fusion) (fuel : Nat) (seg s : List Expr)
    (h : reorderSegmentBreadthFirst F fuel seg = some s) :
    ∀ d e x, d ∈ s → e ∈ s → x ∈ tvInputs F e → F.definition x = some d →
      [d, e].Sublist s := by
  unfold reorderSegmentBreadthFirst at h
  cases hm : seg.mapM (fun e => (exprTvInputs F fuel seg e).map (fun i => (e, i))) with
  | none => rw [hm] at h; cases h
  | some m =>
    rw [hm] at h
    simp only at h
    have hperm := segmentLoop_perm F _ seg fuel [] seg [] s h
    rw [List.nil_append] at hperm
    intro d e x hd he hx hdef
    have hes : e ∈ seg := hperm.mem_iff.1 he
    have hds : d ∈ seg := hperm.mem_iff.1 hd
    obtain ⟨i, hi, hl⟩ := lookup_mapM (exprTvInputs F fuel seg) seg m hm e hes
    have hxi : x ∈ i := exprTvInputs_keeps F fuel seg e i x d hi hx hdef hds
    apply segmentLoop_definers F _ seg fuel [] seg [] s h (by simp) (by simp) d e x he _ hdef
    show x ∈ (lookup m e).getD []
    rw [hl]
    exact hxi

/-- The loop of `reorderGroupBreadthFirst` keeps definers before users of the same score. -/
theorem groupLoop_definers (F : Fusion) (fuel : Nat) (scores : ExprScoreMapT)
    (rest done seg : List Expr) (seg_score : Nat) (r : List Expr)
    (h : groupLoop F fuel scores done seg seg_score rest = some r)
    (hdone : DefinersFirst F scores done)
    (hlt : ∀ e ∈ done, scoreOf scores e < seg_score)
    (hseg : ∀ e ∈ seg, scoreOf scores e = seg_score) :
    DefinersFirst F scores r := by
  have hjoin : ∀ s : List Expr, (∀ e ∈ s, scoreOf scores e = seg_score) →
      (∀ d e x, d ∈ s → e ∈ s → x ∈ tvInputs F e → F.definition x = some d →
        [d, e].Sublist s) → DefinersFirst F scores (done ++ s) := by
    intro s hs hsd d e x hd he hsc hx hdef
    rcases List.mem_append.1 hd with h1 | h1
    · rcases List.mem_append.1 he with h2 | h2
      · exact (hdone d e x h1 h2 hsc hx hdef).trans (List.sublist_append_left _ _)
      · exact (List.singleton_sublist.2 h1).append (List.singleton_sublist.2 h2)
    · rcases List.mem_append.1 he with h2 | h2
      · have := hlt e h2
        rw [← hsc, hs d h1] at this
        exact absurd this (Nat.lt_irrefl _)
      · exact (hsd d e x h1 h2 hx hdef).trans (List.sublist_append_right _ _)
  induction rest generalizing done seg seg_score with
  | nil =>
    unfold groupLoop at h
    cases hb : reorderSegmentBreadthFirst F fuel seg with
    | none => rw [hb] at h; cases h
    | some s =>
      rw [hb] at h
      rw [← Option.some.inj h]
      have hp := reorderSegmentBreadthFirst_perm F fuel seg s hb
      exact hjoin s (fun e he => hseg e (hp.mem_iff.1 he))
        (reorderSegment_definers F fuel seg s hb)
  | cons expr rest ih =>
    unfold groupLoop at h
    simp only at h
    by_cases he : seg_score = scoreOf scores expr
    · rw [if_pos he] at h
      apply ih done (seg ++ [expr]) seg_score h hdone hlt
      · intro e hin
        rcases List.mem_append.1 hin with h1 | h1
        · exact hseg e h1
        · rw [List.mem_singleton.1 h1]
          exact he.symm
      · exact hjoin
    · rw [if_neg he] at h
      by_cases hl : seg_score < scoreOf scores expr
      · rw [if_pos hl] at h
        cases hb : reorderSegmentBreadthFirst F fuel seg with
        | none => rw [hb] at h; cases h
        | some s =>
          rw [hb] at h
          simp only at h
          have hp := reorderSegmentBreadthFirst_perm F fuel seg s hb
          have hss : ∀ e ∈ s, scoreOf scores e = seg_score :=
            fun e he => hseg e (hp.mem_iff.1 he)
          have hd2 := hjoin s hss (reorderSegment_definers F fuel seg s hb)
          apply ih (done ++ s) [expr] (scoreOf scores expr) h hd2
          · intro e hin
            rcases List.mem_append.1 hin with h1 | h1
            · exact Nat.lt_trans (hlt e h1) hl
            · rw [hss e h1]
              exact hl
          · intro e hin
            rw [List.mem_singleton.1 hin]
          · intro s2 hs2 hsd2 d e x hd he2 hsc hx hdef
            rcases List.mem_append.1 hd with h1 | h1
            · rcases List.mem_append.1 he2 with h2 | h2
              · exact (hd2 d e x h1 h2 hsc hx hdef).trans (List.sublist_append_left _ _)
              · exact (List.singleton_sublist.2 h1).append (List.singleton_sublist.2 h2)
            · rcases List.mem_append.1 he2 with h2 | h2
              · exfalso
                have hlt2 : scoreOf scores e < scoreOf scores expr := by
                  rcases List.mem_append.1 h2 with h3 | h3
                  · exact Nat.lt_trans (hlt e h3) hl
                  · rw [hss e h3]
                    exact hl
                rw [← hsc, hs2 d h1] at hlt2
                exact Nat.lt_irrefl _ hlt2
              · exact (hsd2 d e x h1 h2 hx hdef).trans (List.sublist_append_right _ _)
      · rw [if_neg hl] at h
        cases h

/-- The group `reorderGroupBreadthFirst` returns keeps definers before users of the same
score. -/
theorem reorderGroupBreadthFirst_definers (F : Fusion) (fuel : Nat) (exprs : ExprListT)
    (scores : ExprScoreMapT) (r : ExprListT)
    (h : reorderGroupBreadthFirst F fuel exprs scores = some r) :
    DefinersFirst F scores r := by
  unfold reorderGroupBreadthFirst at h
  cases exprs with
  | nil => cases h
  | cons first rest =>
    simp only at h
    apply groupLoop_definers F fuel scores _ [] [] _ r h
    · intro d e x hd
      cases hd
    · intro e he
      cases he
    · intro e he
      cases he

/-- After step 2 every group keeps definers before users of the same score. -/
theorem sortAll_definers (F : Fusion) (fuel : Nat) (scores : ExprScoreMapT)
    (m m1 : TargetGroupMapT) (h : sortAll F fuel scores m = some m1) :
    ∀ q ∈ m1, DefinersFirst F scores q.2 := by
  induction m generalizing m1 with
  | nil =>
    simp only [sortAll, Option.some.injEq] at h
    rw [← h]
    intro q hq
    cases hq
  | cons p rest ih =>
    obtain ⟨target, group⟩ := p
    simp only [sortAll] at h
    cases hb : reorderGroupBreadthFirst F fuel (sortGroup group scores) scores with
    | none => rw [hb] at h; cases h
    | some g =>
      rw [hb] at h
      simp only at h
      cases hr : sortAll F fuel scores rest with
      | none => rw [hr] at h; cases h
      | some rest1 =>
        rw [hr] at h
        simp only [Option.some.injEq] at h
        rw [← h]
        intro q hq
        rcases List.mem_cons.1 hq with h1 | h1
        · rw [h1]
          exact reorderGroupBreadthFirst_definers F fuel _ scores g hb
        · exact ih rest1 hr q h1

/-- When groups remain after step 3, the list returned is the list
`mergeGroupsIntoSortedList` builds from the root groups. -/
theorem reorder_eq_merge (F : Fusion) (fuel : Nat) (exprs r : List Expr) (st1 : ReorderState)
    (h : reorderExprsForComputeAt F fuel exprs = some r)
    (hrg : rootGroups F fuel exprs = some st1) (hne : st1.computed_at_exprs ≠ []) :
    r = mergeGroupsIntoSortedList F st1.computed_at_exprs.length st1.computed_at_exprs
      st1.reordered_exprs := by
  unfold reorderExprsForComputeAt at h
  unfold rootGroups at hrg
  cases hga : groupAll F fuel exprs emptyState with
  | none => rw [hga] at h; cases h
  | some st =>
    rw [hga] at h hrg
    simp only [] at h hrg
    cases hsc : sanityCheck exprs st with
    | false => rw [hsc] at h; simp at h
    | true =>
      rw [hsc] at h hrg
      simp only [Bool.not_true, Bool.false_eq_true, if_false] at h hrg
      by_cases hz : st.computed_at_exprs.length = 0
      · exfalso
        have hnil : st.computed_at_exprs = [] := List.length_eq_zero.1 hz
        simp only [hnil, mergeSteps, iterationOrder, List.insertionSort, sortAll,
          List.map_nil, mergeNonRootGroupsIntoRootGroups, List.any_nil, Bool.false_eq_true,
          if_false] at hrg
        by_cases hs2 : (!sanityCheck exprs
            { st with computed_at_exprs := [], target_map := st.target_map }) = true
        · rw [if_pos hs2] at hrg
          cases hrg
        · rw [if_neg hs2] at hrg
          rw [← Option.some.inj hrg] at hne
          exact hne rfl
      · rw [if_neg hz, hrg] at h
        simp only at h
        by_cases hl : exprs.length = (mergeGroupsIntoSortedList F
            st1.computed_at_exprs.length st1.computed_at_exprs st1.reordered_exprs).length
        · rw [if_pos hl] at h
          exact (Option.some.inj h).symm
        · rw [if_neg hl] at h
          cases h

/-- In a list of groups in which no group depends on a later one, an expression of a group
stands before the expressions of a group that depends on it. -/
theorem flat_pair (F : Fusion) (hirr : ∀ a, F.isDependencyOf a a = false)
    (gs : TargetGroupMapT)
    (hpw : gs.Pairwise (fun a b => F.isDependencyOf b.1 a.1 = false))
    (p q : TensorView × ExprListT) (hp : p ∈ gs) (hq : q ∈ gs)
    (hdep : F.isDependencyOf p.1 q.1 = true) (d e : Expr) (hd : d ∈ p.2) (he : e ∈ q.2) :
    [d, e].Sublist (flat gs) := by
  induction gs with
  | nil => cases hp
  | cons a rest ih =>
    rw [List.pairwise_cons] at hpw
    have hflat : flat (a :: rest) = a.2 ++ flat rest := by
      cases a
      rfl
    rw [hflat]
    rcases List.mem_cons.1 hp with h1 | h1
    · rcases List.mem_cons.1 hq with h2 | h2
      · exfalso
        rw [h1, h2, hirr] at hdep
        cases hdep
      · rw [h1] at hd
        exact (List.singleton_sublist.2 hd).append
          (List.singleton_sublist.2 ((mem_flat rest e).2 ⟨q, h2, he⟩))
    · rcases List.mem_cons.1 hq with h2 | h2
      · exfalso
        have := hpw.1 p h1
        rw [h2] at hdep
        rw [hdep] at this
        cases this
      · exact (ih hpw.2 h1 h2).trans (List.sublist_append_right _ _)

/-- Where the grouping keeps an expression `d` that defines a tensor input of an expression
`e` before `e`. On a list of distinct expressions on which `reorderExprsForComputeAt`
returns, the list returned is a permutation of the input, and `d` stands before `e` in these
cases: `d` and `e` have the same target and the score of `d` is not greater than the score
of `e`; `e` defines the target `d` is computed at; `d` and `e` are in two root groups and,
the dependency check being transitive and irreflexive, the target of the group of `d` is a
dependency of the target of the group of `e`. -/
theorem definer_before_user (F : Fusion) (fuel : Nat) (exprs r : List Expr) (d e : Expr)
    (x : TensorView) (hnd : exprs.Nodup)
    (h : reorderExprsForComputeAt F fuel exprs = some r)
    (hd : d ∈ exprs) (he : e ∈ exprs) (hx : x ∈ tvInputs F e)
    (hdef : F.definition x = some d) :
    (r.Perm exprs ∧ r.Nodup) ∧
    (∀ t sd se, findTargetTensor F fuel d = some (some t, sd) →
      findTargetTensor F fuel e = some (some t, se) → sd ≤ se → [d, e].Sublist r) ∧
    (∀ t s, findTargetTensor F fuel d = some (some t, s) → s < UINT_MAX →
      F.definition t = some e → findOutputTensor F e = some (some t) → [d, e].Sublist r) ∧
    ((∀ a b c, F.isDependencyOf a b = true → F.isDependencyOf b c = true →
        F.isDependencyOf a c = true) →
      (∀ a, F.isDependencyOf a a = false) →
      ∀ st1 p q, rootGroups F fuel exprs = some st1 →
        p ∈ st1.computed_at_exprs → q ∈ st1.computed_at_exprs → d ∈ p.2 → e ∈ q.2 →
        F.isDependencyOf p.1 q.1 = true → [d, e].Sublist r) := by
  rcases reorder_cases F fuel exprs r h with ⟨st1, hrg, gs, hgs, hr⟩
  have hfinal : ∀ q ∈ st1.computed_at_exprs, [d, e].Sublist q.2 → [d, e].Sublist r := by
    intro q hq hsub
    rw [hr]
    exact (hsub.trans (sublist_flat gs q (hgs.mem_iff.2 hq))).trans
      (List.sublist_append_right _ _)
  refine ⟨?_, ?_, ?_, ?_⟩
  · rcases rootGroups_spec F fuel exprs st1 hrg with ⟨hperm, _, _, _⟩
    have hp : r.Perm exprs := by
      rw [hr]
      exact (List.Perm.append_left _ (flat_perm _ _ hgs)).trans hperm
    exact ⟨hp, hp.nodup_iff.2 hnd⟩
  · intro t sd se htd hte hle
    rcases rootGroups_cases F fuel exprs st1 hrg with
      ⟨st, sorted, groups, tm, hga, _, hso, hme, _, hst1, _⟩
    rcases groupAll_inv F fuel exprs emptyState st hga (groupInv_empty F fuel)
      (by intro e t hl; simp [emptyState, lookup_nil] at hl) with ⟨hinv, _, _, _⟩
    rcases mergeInv_sorted F fuel st sorted hinv hso with ⟨hmi, _⟩
    have hf := sortAll_spec F fuel st.scores _ sorted hso
    have hperm := iterationOrder_perm F st.computed_at_exprs
    rcases grouped_at_target F fuel exprs st hga d t sd hd htd with ⟨hsd, g, hg, hdg⟩
    rcases grouped_at_target F fuel exprs st hga e t se he hte with ⟨hse, g2, hg2, heg⟩
    have hgg : g2 = g := by
      have h1 := lookup_of_mem _ hinv.keys_nodup (t, g2) hg2
      have h2 := lookup_of_mem _ hinv.keys_nodup (t, g) hg
      simp only [] at h1 h2
      rw [h1] at h2
      simpa using h2
    rw [hgg] at heg
    rcases forall2_mem_left st.scores _ sorted hf (t, g) (hperm.mem_iff.2 hg) with
      ⟨q, hq, hq1, hq2, hq3⟩
    have hdq : d ∈ q.2 := hq2.mem_iff.2 hdg
    have heq : e ∈ q.2 := hq2.mem_iff.2 heg
    have hsub : [d, e].Sublist q.2 := by
      rcases Nat.lt_or_ge sd se with hlt | hge
      · apply scoreSorted_pair st.scores q.2 d e hq3 hdq heq
        rw [hsd, hse]
        exact hlt
      · apply sortAll_definers F fuel st.scores _ sorted hso q hq d e x hdq heq _ hx hdef
        rw [hsd, hse]
        exact Nat.le_antisymm hle hge
    have hres : ∃ q ∈ groups, [d, e].Sublist q.2 :=
      mergeNonRoot_before F d e t _ _ _ hme hmi (Or.inl ⟨q, hq, hsub⟩)
    rcases hres with ⟨q2, hq2m, hsub2⟩
    apply hfinal q2 _ hsub2
    rw [hst1]
    exact hq2m
  · intro t s htd hs hdt hout
    rcases rootGroups_before F fuel exprs st1 hrg d e t s hd he htd hs hdt hout with
      ⟨q, hq, hsub⟩
    exact hfinal q hq hsub
  · intro htrans hirr st2 p q hrg2 hp hq hdp heq hdep
    rw [hrg] at hrg2
    have hst : st1 = st2 := Option.some.inj hrg2
    rw [← hst] at hp hq
    have hne : st1.computed_at_exprs ≠ [] := by
      intro hnil
      rw [hnil] at hp
      cases hp
    have hm := reorder_eq_merge F fuel exprs r st1 h hrg hne
    rcases rootGroups_spec F fuel exprs st1 hrg with ⟨_, hmi, _, _⟩
    rcases mergeGroups_order F htrans hirr st1.computed_at_exprs.length
      st1.computed_at_exprs st1.reordered_exprs hmi.keys_nodup (Nat.le_refl _) with
      ⟨gs2, hgs2, hmerge, hpw⟩
    rw [hm, hmerge]
    exact (flat_pair F hirr gs2 hpw p q (hgs2.mem_iff.2 hp) (hgs2.mem_iff.2 hq) hdep d e
      hdp heq).trans (List.sublist_append_right _ _)

/-! ### The last operation of the list returned -/

theorem getLast_insertRange (v : List Expr) (pos : Nat) (range : List Expr) (x : Expr)
    (tail : List Expr) (h : v.drop pos = x :: tail) :
    (insertRange v pos range).getLast? = v.getLast? := by
  have hv : v = v.take pos ++ (x :: tail) := by
    rw [← h]
    exact (List.take_append_drop pos v).symm
  unfold insertRange
  rw [h]
  conv_rhs => rw [hv]
  rw [List.append_assoc, List.getLast?_append, List.getLast?_append, List.getLast?_append]
  have hs : (x :: tail).getLast? = some ((x :: tail).getLast (by simp)) :=
    List.getLast?_eq_getLast _ _
  rw [hs]
  rfl

/-- One step of `mergeNonRootGroupsIntoRootGroups` keeps the last expression of every group
other than the one it merges. -/
theorem mergeOne_last (F : Fusion) (target : TensorView)
    (st st1 : TargetGroupMapT × ExprTargetMapT) (h : mergeOne F target st = some st1)
    (t : TensorView) (g : ExprListT) (ht : F.hasComputeAt t = false)
    (hl : lookup st.1 t = some g) :
    ∃ g1, lookup st1.1 t = some g1 ∧ g1.getLast? = g.getLast? := by
  rcases mergeOne_cases F target st st1 h with ⟨_, he, _⟩ |
    ⟨hca, group, target_expr, tot, tg, pos, tm, _, _, _, htg, hpos, _, _, he⟩
  · rw [he]
    exact ⟨g, hl, rfl⟩
  · have hne : t ≠ target := by
      intro hc
      rw [hc, hca] at ht
      cases ht
    rw [he]
    simp only
    rw [lookup_eraseKey, if_neg hne, lookup_setKey]
    by_cases htt : t = tot
    · rw [if_pos htt, htg]
      rw [htt, htg] at hl
      have hg : tg = g := Option.some.inj hl
      obtain ⟨_, tail, htail⟩ := findPos_spec tg target_expr pos hpos
      refine ⟨insertRange tg pos group, rfl, ?_⟩
      rw [getLast_insertRange tg pos group target_expr tail htail, hg]
    · rw [if_neg htt]
      exact ⟨g, hl, rfl⟩

/-- `mergeNonRootGroupsIntoRootGroups` keeps the last expression of every root group. -/
theorem mergeNonRoot_last (F : Fusion) (ks : List TensorView)
    (st st1 : TargetGroupMapT × ExprTargetMapT)
    (h : mergeNonRootGroupsIntoRootGroups F ks st = some st1)
    (t : TensorView) (g : ExprListT) (ht : F.hasComputeAt t = false)
    (hl : lookup st.1 t = some g) :
    ∃ g1, lookup st1.1 t = some g1 ∧ g1.getLast? = g.getLast? := by
  induction ks generalizing st g with
  | nil =>
    simp only [mergeNonRootGroupsIntoRootGroups, Option.some.injEq] at h
    rw [← h]
    exact ⟨g, hl, rfl⟩
  | cons target rest ih =>
    simp only [mergeNonRootGroupsIntoRootGroups] at h
    cases hm : mergeOne F target st with
    | none => rw [hm] at h; cases h
    | some st2 =>
      rw [hm] at h
      obtain ⟨g1, hg1, hlast⟩ := mergeOne_last F target st st2 hm t g ht hl
      obtain ⟨g2, hg2, hlast2⟩ := ih st2 h g1 hg1
      exact ⟨g2, hg2, hlast2.trans hlast⟩

theorem mem_of_getLast_some (l : List Expr) (e : Expr) (h : l.getLast? = some e) : e ∈ l := by
  rcases List.eq_nil_or_concat l with hnil | ⟨front, b, hb⟩
  · rw [hnil] at h
    cases h
  · rw [List.concat_eq_append] at hb
    rw [hb, List.getLast?_append] at h
    simp only [List.getLast?_singleton] at h
    have hbe : b = e := Option.some.inj h
    rw [hb, hbe]
    simp

theorem scoreSorted_last (scores : ExprScoreMapT) (l : List Expr) (e : Expr)
    (hs : ScoreSorted scores l) (hl : l.getLast? = some e) :
    ∀ x ∈ l, scoreOf scores x ≤ scoreOf scores e := by
  rcases List.eq_nil_or_concat l with hnil | ⟨front, b, hb⟩
  · rw [hnil] at hl
    cases hl
  · rw [List.concat_eq_append] at hb
    rw [hb, List.getLast?_append] at hl
    simp only [List.getLast?_singleton] at hl
    have hbe : b = e := Option.some.inj hl
    rw [hb, hbe] at hs ⊢
    unfold ScoreSorted at hs
    rw [List.pairwise_append] at hs
    intro x hx
    rcases List.mem_append.1 hx with h1 | h1
    · exact hs.2.2 x h1 e (List.mem_singleton_self e)
    · rw [List.mem_singleton.1 h1]

theorem flat_getLast (gs : TargetGroupMapT) (hne : ∀ q ∈ gs, q.2 ≠ []) (hgs : gs ≠ []) :
    ∃ q ∈ gs, (flat gs).getLast? = q.2.getLast? := by
  rcases List.eq_nil_or_concat gs with hnil | ⟨front, q, hq⟩
  · exact absurd hnil hgs
  · rw [List.concat_eq_append] at hq
    have hqm : q ∈ gs := by rw [hq]; simp
    refine ⟨q, hqm, ?_⟩
    have hflat : flat [q] = q.2 := by
      cases q
      simp [flat]
    rw [hq, flat_append, hflat, List.getLast?_append]
    have hq2 := hne q hqm
    cases hlast : q.2.getLast? with
    | none =>
      exfalso
      exact hq2 (List.getLast?_eq_none_iff.1 hlast)
    | some e => rfl

/-- The last operation of the list `reorderExprsForComputeAt` returns: either no operation of
the list has a target, or the last operation has a target without compute-at and its score
is the greatest among the operations of the input with that target. -/
theorem reorder_last (F : Fusion) (fuel : Nat) (exprs r : List Expr)
    (h : reorderExprsForComputeAt F fuel exprs = some r) :
    (∀ x ∈ r, ∃ s, findTargetTensor F fuel x = some (none, s)) ∨
    (∃ e t s, r.getLast? = some e ∧ e ∈ exprs ∧
      findTargetTensor F fuel e = some (some t, s) ∧ F.hasComputeAt t = false ∧
      ∀ d s2, d ∈ exprs → findTargetTensor F fuel d = some (some t, s2) → s2 ≤ s) := by
  rcases reorder_cases F fuel exprs r h with ⟨st1, hrg, gs, hgs, hr⟩
  rcases rootGroups_cases F fuel exprs st1 hrg with
    ⟨st, sorted, groups, tm, hga, _, hso, hme, hany, hst1, _⟩
  rcases groupAll_inv F fuel exprs emptyState st hga (groupInv_empty F fuel)
    (by intro e t hl; simp [emptyState, lookup_nil] at hl) with ⟨hinv, hts, hperm, _⟩
  rcases mergeInv_sorted F fuel st sorted hinv hso with ⟨hmi, _⟩
  rcases mergeNonRoot_spec F _ _ _ hme hmi with ⟨k1, _, _, k4⟩
  have hf := sortAll_spec F fuel st.scores _ sorted hso
  have hpi := iterationOrder_perm F st.computed_at_exprs
  have hnonempty := groupAll_nonempty F fuel exprs emptyState st hga
    (by intro p hp; simp [emptyState] at hp)
  have hgroups : st1.computed_at_exprs = groups := by rw [hst1]
  have hreord : st1.reordered_exprs = st.reordered_exprs := by rw [hst1]
  by_cases hnil : gs = []
  · left
    intro x hx
    rw [hr, hnil, hreord] at hx
    simp only [flat, List.append_nil] at hx
    exact hinv.plain x hx
  · right
    have hq : ∀ q ∈ gs, ∃ p ∈ st.computed_at_exprs, ∃ p0 : TensorView × ExprListT,
        p.1 = q.1 ∧ p0.2.Perm p.2 ∧ ScoreSorted st.scores p0.2 ∧
          q.2.getLast? = p0.2.getLast? ∧ F.hasComputeAt q.1 = false := by
      intro q hqm
      have hqg : q ∈ groups := by
        rw [← hgroups]
        exact hgs.mem_iff.1 hqm
      have hca : F.hasComputeAt q.1 = false := by
        have := List.any_eq_false.1 hany q hqg
        simpa using this
      have hk := k4 q hqg
      obtain ⟨p0, hp0, hp0k⟩ := List.mem_map.1 hk
      have hl0 : lookup sorted q.1 = some p0.2 := by
        have := lookup_of_mem sorted hmi.keys_nodup p0 hp0
        rw [hp0k] at this
        exact this
      obtain ⟨g1, hg1, hlast⟩ := mergeNonRoot_last F _ _ _ hme q.1 p0.2 hca hl0
      have hl1 := lookup_of_mem groups k1.keys_nodup q hqg
      have hg : g1 = q.2 := by
        have hl1b : lookup groups q.1 = some q.2 := hl1
        have hg1b : lookup groups q.1 = some g1 := hg1
        rw [hl1b] at hg1b
        exact (Option.some.inj hg1b).symm
      obtain ⟨p, hp, hpk, hpp, hps⟩ := forall2_mem st.scores _ sorted hf p0 hp0
      refine ⟨p, hpi.mem_iff.1 hp, p0, ?_, hpp, hps, ?_, hca⟩
      · rw [← hpk]
        exact hp0k
      · rw [← hg]
        exact hlast
    have hne : ∀ q ∈ gs, q.2 ≠ [] := by
      intro q hqm hq2
      obtain ⟨p, hp, p0, _, hpp, _, hlast, _⟩ := hq q hqm
      have hpne := hnonempty p hp
      rw [hq2] at hlast
      have h0 : p0.2 = [] := List.getLast?_eq_none_iff.1 hlast.symm
      rw [h0] at hpp
      exact hpne (List.nil_perm.1 hpp)
    obtain ⟨q, hqm, hflat⟩ := flat_getLast gs hne hnil
    obtain ⟨p, hp, p0, hpk, hpp, hps, hlast, hca⟩ := hq q hqm
    cases hle : q.2.getLast? with
    | none => exact absurd (List.getLast?_eq_none_iff.1 hle) (hne q hqm)
    | some e =>
      have hrl : r.getLast? = some e := by
        rw [hr, List.getLast?_append, hflat, hle]
        rfl
      have he0 : e ∈ p0.2 := by
        rw [hle] at hlast
        exact mem_of_getLast_some p0.2 e hlast.symm
      have hep : e ∈ p.2 := hpp.mem_iff.1 he0
      have hmem : e ∈ exprs := by
        have h1 : e ∈ st.reordered_exprs ++ flat st.computed_at_exprs :=
          List.mem_append_right _ ((mem_flat _ e).2 ⟨p, hp, hep⟩)
        have h2 := hperm.mem_iff.1 h1
        simpa [emptyState, flat] using h2
      obtain ⟨s, hs⟩ := hts e p.1 (hinv.member p hp e hep)
      rw [hpk] at hs
      obtain ⟨hse, _⟩ := grouped_at_target F fuel exprs st hga e q.1 s hmem hs
      refine ⟨e, q.1, s, hrl, hmem, hs, hca, ?_⟩
      intro d s2 hd hds
      obtain ⟨hsd, g, hg, hdg⟩ := grouped_at_target F fuel exprs st hga d q.1 s2 hd hds
      have hgp : g = p.2 := by
        have h1 := lookup_of_mem _ hinv.keys_nodup (q.1, g) hg
        have h2 := lookup_of_mem _ hinv.keys_nodup p hp
        rw [hpk] at h2
        simp only [] at h1
        rw [h1] at h2
        exact Option.some.inj h2
      rw [hgp] at hdg
      have hd0 : d ∈ p0.2 := hpp.mem_iff.2 hdg
      have := scoreSorted_last st.scores p0.2 e hps (by rw [← hlast, hle]) d hd0
      rw [hsd, hse] at this
      exact this

/-- The list returned holds the operations of the input. -/
theorem reorder_mem (F : Fusion) (fuel : Nat) (exprs r : List Expr)
    (h : reorderExprsForComputeAt F fuel exprs = some r) : ∀ x, x ∈ r ↔ x ∈ exprs := by
  rcases reorder_cases F fuel exprs r h with ⟨st1, hrg, gs, hgs, hr⟩
  rcases rootGroups_spec F fuel exprs st1 hrg with ⟨hperm, _, _, _⟩
  have hp : r.Perm exprs := by
    rw [hr]
    exact (List.Perm.append_left _ (flat_perm _ _ hgs)).trans hperm
  intro x
  exact hp.mem_iff

/-- What `findTargetTensor` returns tells of the outputs of the operation: an operation with
a target has one output, a tensor, which is the target, with the score `UINT_MAX`, when it
has no compute-at; an operation without target has no tensor for sole output. -/
theorem findTargetTensor_cases (F : Fusion) (fuel : Nat) (e : Expr) (t : Option TensorView)
    (s : Nat) (h : findTargetTensor F fuel e = some (t, s)) :
    (t = none ∧ findOutputTensor F e = some none) ∨
    (∃ out, F.outputs e = [out] ∧ findOutputTensor F e = some (some out) ∧
      (F.hasComputeAt out = false → t = some out ∧ s = UINT_MAX) ∧ t.isSome = true) := by
  unfold findTargetTensor at h
  by_cases hlen : (F.outputs e).length ≤ 1
  · rw [if_pos hlen] at h
    cases ho : findOutputTensor F e with
    | none => rw [ho] at h; cases h
    | some o =>
      rw [ho] at h
      cases o with
      | none =>
        simp only [Option.some.injEq, Prod.mk.injEq] at h
        exact Or.inl ⟨h.1.symm, rfl⟩
      | some out =>
        right
        simp only at h
        have hout : F.outputs e = [out] := by
          unfold findOutputTensor at ho
          rw [if_pos hlen] at ho
          cases hl : F.outputs e with
          | nil => rw [hl] at ho; cases ho
          | cons a rest =>
            cases rest with
            | nil =>
              rw [hl] at ho
              simp only at ho
              by_cases hv : F.getValType a ≠ ValType.TensorView
              · rw [if_pos hv] at ho
                cases ho
              · rw [if_neg hv] at ho
                simp only [Option.some.injEq] at ho
                rw [ho]
            | cons b rest2 =>
              rw [hl] at hlen
              simp at hlen
        refine ⟨out, hout, rfl, ?_, ?_⟩
        · intro hca
          rw [hca] at h
          simp only [Bool.not_false, if_true, Option.some.injEq, Prod.mk.injEq] at h
          exact ⟨h.1.symm, h.2.symm⟩
        · cases hca : F.hasComputeAt out with
          | false =>
            rw [hca] at h
            simp only [Bool.not_false, if_true, Option.some.injEq, Prod.mk.injEq] at h
            rw [← h.1]
            rfl
          | true =>
            rw [hca] at h
            simp only [Bool.not_true, Bool.false_eq_true, if_false] at h
            cases hf : findTargetLoop F fuel (F.getComputeAtView out)
                (toInt32 (F.getRelativeComputeAtAxis out)) with
            | none => rw [hf] at h; cases h
            | some p =>
              rw [hf] at h
              simp only [Option.some.injEq, Prod.mk.injEq] at h
              rw [← h.1]
              rfl
  · rw [if_neg hlen] at h
    cases h

end LowerLoops

namespace LoopNest

open LowerLoops

/-! ### Maps and scopes -/

theorem lookup_append_left {β : Type} (m1 m2 : List (Nat × β)) (k : Nat) (v : β)
    (h : lookup m1 k = some v) : lookup (m1 ++ m2) k = some v := by
  induction m1 with
  | nil => simp [lookup_nil] at h
  | cons p m ih =>
    rw [List.cons_append, lookup_cons]
    rw [lookup_cons] at h
    by_cases hk : p.1 = k
    · rw [if_pos hk] at h ⊢
      exact h
    · rw [if_neg hk] at h ⊢
      exact ih h

theorem lookup_append_right {β : Type} (m1 m2 : List (Nat × β)) (k : Nat)
    (h : k ∉ keys m1) : lookup (m1 ++ m2) k = lookup m2 k := by
  induction m1 with
  | nil => rfl
  | cons p m ih =>
    rw [List.cons_append, lookup_cons]
    have hk : ¬ p.1 = k := fun e => h (by simp [keys, e])
    rw [if_neg hk]
    exact ih (fun hm => h (by
      simp only [keys, List.map_cons, List.mem_cons] at hm ⊢
      exact Or.inr hm))

theorem setKey_append {β : Type} (m1 m2 : List (Nat × β)) (k : Nat) (v : β) :
    setKey (m1 ++ m2) k v = setKey m1 k v ++ setKey m2 k v := by
  simp [setKey]

theorem setKey_of_not_mem {β : Type} (m : List (Nat × β)) (k : Nat) (v : β)
    (h : k ∉ keys m) : setKey m k v = m := by
  induction m with
  | nil => rfl
  | cons p m ih =>
    rw [setKey_cons]
    have hk : ¬ p.1 = k := fun e => h (by simp [keys, e])
    rw [if_neg hk, ih (fun hm => h (by
      simp only [keys, List.map_cons, List.mem_cons] at hm ⊢
      exact Or.inr hm))]

theorem lookup_setKey_self {β : Type} (m : List (Nat × β)) (k : Nat) (v w : β)
    (h : lookup m k = some w) : lookup (setKey m k v) k = some v := by
  rw [lookup_setKey, if_pos rfl, h]
  rfl

theorem mem_insertAt (v : List KirExpr) (pos : Nat) (e x : KirExpr) :
    x ∈ insertAt v pos e ↔ x = e ∨ x ∈ v := by
  unfold insertAt
  constructor
  · intro h
    rcases List.mem_append.1 h with h | h
    · exact Or.inr (List.mem_of_mem_take h)
    · rcases List.mem_cons.1 h with h | h
      · exact Or.inl h
      · exact Or.inr (List.mem_of_mem_drop h)
  · intro h
    rcases h with h | h
    · exact List.mem_append.2 (Or.inr (List.mem_cons.2 (Or.inl h)))
    · have hx : x ∈ v.take pos ++ v.drop pos := by rw [List.take_append_drop]; exact h
      rcases List.mem_append.1 hx with hx | hx
      · exact List.mem_append.2 (Or.inl hx)
      · exact List.mem_append.2 (Or.inr (List.mem_cons.2 (Or.inr hx)))

theorem insertAt_zero (v : List KirExpr) (e : KirExpr) : insertAt v 0 e = e :: v := by
  simp [insertAt]

/-! ### The size of an allocation -/

theorem factors_foldl (rest : List Val) (size : KirVal) :
    factors (rest.foldl (fun size d => KirVal.Mul size (KirVal.Lowered d)) size) =
      factors size ++ rest := by
  induction rest generalizing size with
  | nil => simp
  | cons d rest ih =>
    rw [List.foldl_cons, ih]
    simp [factors]

theorem factors_allocSize (alloc_dims : List Val) : factors (allocSize alloc_dims) = alloc_dims := by
  cases alloc_dims with
  | nil => rfl
  | cons first rest =>
    unfold allocSize
    rw [factors_foldl]
    simp [factors]

theorem mem_allocAxes (F : Fusion) (D : Domains) (tv : TensorView) (alloc_pos i : Nat) :
    i ∈ allocAxes F D tv alloc_pos ↔ i < D.nDims tv ∧ keepsAxis F D tv alloc_pos i = true := by
  unfold allocAxes
  simp [List.mem_filter]

theorem keepsAxis_excludes (F : Fusion) (D : Domains) (tv : TensorView) (alloc_pos i : Nat)
    (h : keepsAxis F D tv alloc_pos i = true) :
    D.isReduction (D.axis tv i) = false ∧ D.isBroadcast (D.axis tv i) = false ∧
      (F.getMemoryType tv = MemoryType.Local →
        (D.getParallelType (D.getComputeAtAxis tv i).1).isThread = false) ∧
      (F.getMemoryType tv = MemoryType.Shared →
        (D.getParallelType (D.getComputeAtAxis tv i).1).isBlockDim = false) := by
  unfold keepsAxis at h
  simp only at h
  cases hr : D.isReduction (D.axis tv i) with
  | true => simp [hr] at h
  | false =>
    cases hb : D.isBroadcast (D.axis tv i) with
    | true => simp [hr, hb] at h
    | false =>
      simp only [hr, hb, Bool.or_self, Bool.false_eq_true, if_false] at h
      refine ⟨rfl, rfl, ?_, ?_⟩
      · intro hm
        rw [hm] at h
        by_cases hp : i < alloc_pos
        · simp [hp] at h
        · simp [hp] at h
          exact h
      · intro hm
        rw [hm] at h
        by_cases hp : i < alloc_pos
        · simp [hp] at h
          revert h
          unfold ParallelType.isThreadDim ParallelType.isBlockDim
          cases D.getParallelType (D.getComputeAtAxis tv i).1 <;> simp
        · simp [hp] at h
          exact h

theorem keepsAxis_global (F : Fusion) (D : Domains) (tv : TensorView) (alloc_pos i : Nat)
    (hg : F.getMemoryType tv = MemoryType.Global)
    (hr : D.isReduction (D.axis tv i) = false) (hb : D.isBroadcast (D.axis tv i) = false) :
    keepsAxis F D tv alloc_pos i = true ↔
      (alloc_pos ≤ i ∨ (D.getParallelType (D.getComputeAtAxis tv i).1).isThread = true) := by
  unfold keepsAxis
  simp only [hr, hb, hg]
  by_cases hp : i < alloc_pos
  · simp [hp]
  · simp [hp]
    exact Or.inl (by omega)

/-! ### `pushAlloc` -/

/-- What `pushAlloc` returns and where the allocation goes, by the two cases of
lower_loops.cpp:100-105. -/
theorem pushAlloc_cases (F : Fusion) (D : Domains) (st : Gen) (tv : TensorView)
    (r : Option KirExpr) (st' : Gen) (h : pushAlloc F D st tv = some (r, st')) :
    let alloc_loop := (D.getAllocPoint tv (openLoops st)).1
    let size := allocSize (allocDims F D tv (D.getAllocPoint tv (openLoops st)).2)
    let alloc := KirExpr.Allocate st.created tv (F.getMemoryType tv) size
    ((F.getMemoryType tv = MemoryType.Shared ∧ D.isConst size = false) ∧
        r = none ∧ st'.dynamic_smem_ = alloc :: st.dynamic_smem_ ∧
        st'.lowered_exprs_ = st.lowered_exprs_ ∧ st'.loops = st.loops) ∨
      (¬ (F.getMemoryType tv = MemoryType.Shared ∧ D.isConst size = false) ∧
        r = some alloc ∧ st'.dynamic_smem_ = st.dynamic_smem_ ∧
        alloc ∈ scopeOf st' alloc_loop) := by
  intro alloc_loop size alloc
  unfold pushAlloc at h
  by_cases hio : (D.hasInput tv || D.hasOutput tv) = true
  · rw [if_pos hio] at h
    exact absurd h (by simp)
  · rw [if_neg hio] at h
    simp only at h
    by_cases hd : F.getMemoryType tv = MemoryType.Shared ∧ D.isConst size = false
    · rw [if_pos hd] at h
      simp only [Option.some.injEq, Prod.mk.injEq] at h
      obtain ⟨h1, h2⟩ := h
      subst h1 h2
      exact Or.inl ⟨hd, rfl, rfl, rfl, rfl⟩
    · rw [if_neg hd] at h
      refine Or.inr ⟨hd, ?_⟩
      cases hl : (D.getAllocPoint tv (openLoops st)).1 with
      | none =>
        rw [hl] at h
        simp only [Option.some.injEq, Prod.mk.injEq] at h
        obtain ⟨h1, h2⟩ := h
        subst h1 h2
        refine ⟨rfl, rfl, ?_⟩
        show alloc ∈ scopeOf _ alloc_loop
        have : alloc_loop = none := hl
        rw [this]
        unfold scopeOf
        exact (mem_insertAt _ _ _ _).2 (Or.inl rfl)
      | some l =>
        rw [hl] at h
        simp only at h
        unfold bodyInsert at h
        simp only at h
        cases hfl : lookup st.loops l with
        | none =>
          rw [hfl] at h
          exact absurd h (by simp)
        | some fl =>
          rw [hfl] at h
          simp only [Option.some.injEq, Prod.mk.injEq] at h
          obtain ⟨h1, h2⟩ := h
          subst h1 h2
          refine ⟨rfl, rfl, ?_⟩
          show alloc ∈ scopeOf _ alloc_loop
          have : alloc_loop = some l := hl
          rw [this]
          unfold scopeOf incrAllocations
          simp only
          rw [lookup_setKey_self _ _ _ _ hfl]
          exact (mem_insertAt _ _ _ _).2 (Or.inl rfl)

/-! ### The claims on `pushAlloc` -/

/-- C11: the size of the allocation `pushAlloc` creates for `tv` (returned, or queued at the
front of `dynamic_smem_`) is the product of the extents of the axes the loop over the axes
keeps, in order. A kept axis is neither a Reduction nor a Broadcast; for a Local tensor its
compute-at axis is bound neither to a thread nor to a block dimension, for a Shared tensor it
is not bound to a block dimension. -/
theorem pushAlloc_size_excludes (F : Fusion) (D : Domains) (st : Gen) (tv : TensorView)
    (r : Option KirExpr) (st' : Gen) (h : pushAlloc F D st tv = some (r, st')) :
    ∃ size,
      (r = some (KirExpr.Allocate st.created tv (F.getMemoryType tv) size) ∨
        (r = none ∧ st'.dynamic_smem_.head? =
          some (KirExpr.Allocate st.created tv (F.getMemoryType tv) size))) ∧
      factors size = (allocAxes F D tv (D.getAllocPoint tv (openLoops st)).2).map
        (fun i => D.rawExtent (D.getComputeAtAxis tv i).1) ∧
      ∀ i ∈ allocAxes F D tv (D.getAllocPoint tv (openLoops st)).2,
        i < D.nDims tv ∧
        D.isReduction (D.axis tv i) = false ∧ D.isBroadcast (D.axis tv i) = false ∧
        (F.getMemoryType tv = MemoryType.Local →
          (D.getParallelType (D.getComputeAtAxis tv i).1).isThread = false) ∧
        (F.getMemoryType tv = MemoryType.Shared →
          (D.getParallelType (D.getComputeAtAxis tv i).1).isBlockDim = false) := by
  refine ⟨allocSize (allocDims F D tv (D.getAllocPoint tv (openLoops st)).2), ?_, ?_, ?_⟩
  · rcases pushAlloc_cases F D st tv r st' h with ⟨_, hr, hq, _⟩ | ⟨_, hr, _⟩
    · exact Or.inr ⟨hr, by rw [hq]; rfl⟩
    · exact Or.inl hr
  · rw [factors_allocSize]
    rfl
  · intro i hi
    rw [mem_allocAxes] at hi
    exact ⟨hi.1, keepsAxis_excludes F D tv _ i hi.2⟩

/-- C11, witness on scenario E: the allocation of the Local tensor 21, whose axis 211 is
bound to a thread dimension and whose axis 212 is a reduction, has the extent of axis 210 for
size. -/
theorem pushAlloc_size_excludes_witness :
    pushAlloc scenarioE domainsE (initialGen scenarioE) 21 =
      some (some (KirExpr.Allocate 0 21 MemoryType.Local (KirVal.Lowered 1210)),
        { initialGen scenarioE with
          lowered_exprs_ := [KirExpr.Allocate 0 21 MemoryType.Local (KirVal.Lowered 1210)]
          lowered_exprs_allocations_ := 1
          created := 1 }) ∧
    allocAxes scenarioE domainsE 21 0 = [0] ∧
    ∀ i ∈ allocAxes scenarioE domainsE 21 0,
      i < 3 ∧
      domainsE.isReduction (domainsE.axis 21 i) = false ∧
      domainsE.isBroadcast (domainsE.axis 21 i) = false ∧
      (scenarioE.getMemoryType 21 = MemoryType.Local →
        (domainsE.getParallelType (domainsE.getComputeAtAxis 21 i).1).isThread = false) ∧
      (scenarioE.getMemoryType 21 = MemoryType.Shared →
        (domainsE.getParallelType (domainsE.getComputeAtAxis 21 i).1).isBlockDim = false) := by
  have h : pushAlloc scenarioE domainsE (initialGen scenarioE) 21 =
      some (some (KirExpr.Allocate 0 21 MemoryType.Local (KirVal.Lowered 1210)),
        { initialGen scenarioE with
          lowered_exprs_ := [KirExpr.Allocate 0 21 MemoryType.Local (KirVal.Lowered 1210)]
          lowered_exprs_allocations_ := 1
          created := 1 }) := by decide
  obtain ⟨_, _, _, hall⟩ := pushAlloc_size_excludes scenarioE domainsE _ 21 _ _ h
  exact ⟨h, by decide, hall⟩

/-- C12, counterexample on scenario E: when `handle` has opened the loops for the Global
tensor 20, which is computed at position 1 of tensor 24, `pushAlloc` gives its allocation the
extent of axis 1 alone for size. Axis 0 is neither a Reduction nor a Broadcast, and its
extent is no factor: it lies before the allocation position and is not bound to a thread or
block dimension. -/
theorem global_serial_axis_excluded :
    ((openStep scenarioE domainsE 20 (initialGen scenarioE)).bind
        (fun st => pushAlloc scenarioE domainsE st 20)).map (fun p => p.1) =
      some (some (KirExpr.Allocate 2 20 MemoryType.Global (KirVal.Lowered 1201))) ∧
    scenarioE.getMemoryType 20 = MemoryType.Global ∧
    domainsE.isReduction (domainsE.axis 20 0) = false ∧
    domainsE.isBroadcast (domainsE.axis 20 0) = false ∧
    domainsE.rawExtent (domainsE.getComputeAtAxis 20 0).1 ∉
      factors (KirVal.Lowered 1201) := by
  decide

/-- C12, amended: for a Global tensor `pushAlloc` places the allocation (it is never queued),
and its size is the product of the extents of the kept axes; an axis that is neither a
Reduction nor a Broadcast is kept exactly when it lies at or beyond the allocation position,
or lies before it and its compute-at axis is bound to a thread or block dimension. -/
theorem pushAlloc_global_axes (F : Fusion) (D : Domains) (st : Gen) (tv : TensorView)
    (r : Option KirExpr) (st' : Gen) (h : pushAlloc F D st tv = some (r, st'))
    (hg : F.getMemoryType tv = MemoryType.Global) :
    ∃ size,
      r = some (KirExpr.Allocate st.created tv MemoryType.Global size) ∧
      factors size = (allocAxes F D tv (D.getAllocPoint tv (openLoops st)).2).map
        (fun i => D.rawExtent (D.getComputeAtAxis tv i).1) ∧
      ∀ i, i < D.nDims tv → D.isReduction (D.axis tv i) = false →
        D.isBroadcast (D.axis tv i) = false →
        (i ∈ allocAxes F D tv (D.getAllocPoint tv (openLoops st)).2 ↔
          ((D.getAllocPoint tv (openLoops st)).2 ≤ i ∨
            (D.getParallelType (D.getComputeAtAxis tv i).1).isThread = true)) := by
  refine ⟨allocSize (allocDims F D tv (D.getAllocPoint tv (openLoops st)).2), ?_, ?_, ?_⟩
  · rcases pushAlloc_cases F D st tv r st' h with ⟨hs, _⟩ | ⟨_, hr, _⟩
    · rw [hg] at hs
      exact absurd hs.1 (by decide)
    · rw [hr, hg]
  · rw [factors_allocSize]
    rfl
  · intro i hi hr hb
    rw [mem_allocAxes, keepsAxis_global F D tv _ i hg hr hb]
    exact ⟨fun hx => hx.2, fun hx => ⟨hi, hx⟩⟩

/-- C12, witness on scenario E: the allocation of the Global tensor 20 inside loop 0. -/
theorem pushAlloc_global_axes_witness :
    pushAlloc scenarioE domainsE scenarioEOpen20 20 =
      some (some (KirExpr.Allocate 2 20 MemoryType.Global (KirVal.Lowered 1201)),
        { scenarioEOpen20 with
          for_loop_allocations_ := [(1, 0), (0, 1)]
          loops :=
            [(0, { index := KirVal.Int none, iter_domain := 240, parent_scope := none,
                   body := [KirExpr.Allocate 2 20 MemoryType.Global (KirVal.Lowered 1201),
                            KirExpr.ForLoop 1] }),
             (1, { index := KirVal.Int none, iter_domain := 201, parent_scope := some 0,
                   body := [] })]
          created := 3 }) ∧
    scenarioE.getMemoryType 20 = MemoryType.Global ∧
    ∀ i, i < 2 → domainsE.isReduction (domainsE.axis 20 i) = false →
      domainsE.isBroadcast (domainsE.axis 20 i) = false →
      (i ∈ allocAxes scenarioE domainsE 20 1 ↔
        (1 ≤ i ∨ (domainsE.getParallelType (domainsE.getComputeAtAxis 20 i).1).isThread = true))
      := by
  have h : pushAlloc scenarioE domainsE scenarioEOpen20 20 =
      some (some (KirExpr.Allocate 2 20 MemoryType.Global (KirVal.Lowered 1201)),
        { scenarioEOpen20 with
          for_loop_allocations_ := [(1, 0), (0, 1)]
          loops :=
            [(0, { index := KirVal.Int none, iter_domain := 240, parent_scope := none,
                   body := [KirExpr.Allocate 2 20 MemoryType.Global (KirVal.Lowered 1201),
                            KirExpr.ForLoop 1] }),
             (1, { index := KirVal.Int none, iter_domain := 201, parent_scope := some 0,
                   body := [] })]
          created := 3 }) := by decide
  obtain ⟨_, _, _, hall⟩ := pushAlloc_global_axes scenarioE domainsE _ 20 _ _ h (by decide)
  exact ⟨h, by decide, hall⟩

/-- C13, counterexample on scenario E: `handle` opens the loops for the Local tensor 21 and
calls `pushAlloc`; the size of the allocation is the extent of axis 210, which is no
compile-time literal, and `pushAlloc` places the allocation in `lowered_exprs_` and returns
it; nothing is queued. -/
theorem local_dynamic_size_in_place :
    (openStep scenarioE domainsE 21 (initialGen scenarioE)).bind
        (fun st => pushAlloc scenarioE domainsE st 21) =
      some (some (KirExpr.Allocate 3 21 MemoryType.Local (KirVal.Lowered 1210)),
        scenarioEAlloc21) ∧
    scenarioE.getMemoryType 21 = MemoryType.Local ∧
    domainsE.isConst (KirVal.Lowered 1210) = false ∧
    KirExpr.Allocate 3 21 MemoryType.Local (KirVal.Lowered 1210) ∈
      scenarioEAlloc21.lowered_exprs_ ∧
    scenarioEAlloc21.dynamic_smem_ = [] := by
  decide

/-- C13, amended: `pushAlloc` queues the allocation at the front of `dynamic_smem_`, places
nothing and returns `nullptr` exactly when the tensor is in Shared memory and its size is
not constant; in every other case, whatever the size, the allocation is placed in the scope
of the allocation point, nothing is queued, and the allocation is returned. -/
theorem pushAlloc_hoists_dynamic_shared (F : Fusion) (D : Domains) (st : Gen) (tv : TensorView)
    (r : Option KirExpr) (st' : Gen) (h : pushAlloc F D st tv = some (r, st')) :
    ((F.getMemoryType tv = MemoryType.Shared ∧
        D.isConst (allocSize (allocDims F D tv (D.getAllocPoint tv (openLoops st)).2)) = false) →
      r = none ∧
      st'.dynamic_smem_ =
        KirExpr.Allocate st.created tv (F.getMemoryType tv)
          (allocSize (allocDims F D tv (D.getAllocPoint tv (openLoops st)).2)) ::
            st.dynamic_smem_ ∧
      st'.lowered_exprs_ = st.lowered_exprs_ ∧ st'.loops = st.loops) ∧
    (¬ (F.getMemoryType tv = MemoryType.Shared ∧
        D.isConst (allocSize (allocDims F D tv (D.getAllocPoint tv (openLoops st)).2)) = false) →
      r = some (KirExpr.Allocate st.created tv (F.getMemoryType tv)
          (allocSize (allocDims F D tv (D.getAllocPoint tv (openLoops st)).2))) ∧
      st'.dynamic_smem_ = st.dynamic_smem_ ∧
      KirExpr.Allocate st.created tv (F.getMemoryType tv)
          (allocSize (allocDims F D tv (D.getAllocPoint tv (openLoops st)).2)) ∈
        scopeOf st' (D.getAllocPoint tv (openLoops st)).1) := by
  rcases pushAlloc_cases F D st tv r st' h with ⟨hs, h1⟩ | ⟨hs, h1⟩
  · exact ⟨fun _ => h1, fun hn => absurd hs hn⟩
  · exact ⟨fun hp => absurd hp hs, fun _ => h1⟩

/-- C13, witness on scenario E: the allocation of the Shared tensor 22, whose size is the
extent of axis 220, is queued. -/
theorem pushAlloc_hoists_dynamic_shared_witness :
    pushAlloc scenarioE domainsE (initialGen scenarioE) 22 =
      some (none,
        { initialGen scenarioE with
          dynamic_smem_ := [KirExpr.Allocate 0 22 MemoryType.Shared (KirVal.Lowered 1220)]
          created := 1 }) ∧
    scenarioE.getMemoryType 22 = MemoryType.Shared ∧
    domainsE.isConst (allocSize (allocDims scenarioE domainsE 22 0)) = false ∧
    (none : Option KirExpr) = none ∧
    [KirExpr.Allocate 0 22 MemoryType.Shared (KirVal.Lowered 1220)] =
      KirExpr.Allocate 0 22 MemoryType.Shared (allocSize (allocDims scenarioE domainsE 22 0)) ::
        [] := by
  have h : pushAlloc scenarioE domainsE (initialGen scenarioE) 22 =
      some (none,
        { initialGen scenarioE with
          dynamic_smem_ := [KirExpr.Allocate 0 22 MemoryType.Shared (KirVal.Lowered 1220)]
          created := 1 }) := by decide
  have hs : scenarioE.getMemoryType 22 = MemoryType.Shared ∧
      domainsE.isConst (allocSize (allocDims scenarioE domainsE 22 0)) = false := by decide
  have hc := (pushAlloc_hoists_dynamic_shared scenarioE domainsE _ 22 _ _ h).1 hs
  exact ⟨h, hs.1, hs.2, hc.1, hc.2.1⟩

/-! ### The initialization nest of `initReduction` -/

theorem keys_chain (D : Domains) (tail : List KirExpr) (ids : List IterDomain) (k : Nat)
    (fl : ForLoop) : keys (chain D tail k fl ids) = (List.range (ids.length + 1)).map (· + k) := by
  induction ids generalizing k fl with
  | nil => simp [chain, keys, List.range_succ]
  | cons id rest ih =>
    have hk := ih (k + 1) (newLoop D id (some k))
    simp only [keys] at hk ⊢
    simp only [chain, List.map_cons, hk, List.length_cons]
    rw [List.range_succ_eq_map (rest.length + 1)]
    simp only [List.map_cons, List.map_map, Nat.zero_add, List.cons.injEq, true_and]
    apply List.map_congr_left
    intro a _
    simp only [Function.comp]
    omega

theorem chain_keys_ge (D : Domains) (tail : List KirExpr) (ids : List IterDomain) (k : Nat)
    (fl : ForLoop) : ∀ j ∈ keys (chain D tail k fl ids), k ≤ j := by
  intro j hj
  rw [keys_chain] at hj
  simp only [List.mem_map, List.mem_range] at hj
  obtain ⟨a, _, rfl⟩ := hj
  omega

theorem not_mem_keys_of_lt {β : Type} (m : List (Nat × β)) (c k : Nat)
    (h : ∀ p ∈ m, p.1 < c) (hk : c ≤ k) : k ∉ keys m := by
  intro hm
  simp only [keys, List.mem_map] at hm
  obtain ⟨p, hp, rfl⟩ := hm
  exact absurd (h p hp) (by omega)

/-- The loop of `initReduction` once the first loop exists. -/
theorem initLoop_some (D : Domains) (ids : List IterDomain) (nest : KirExpr) (base : List (Nat × ForLoop))
    (k : Nat) (fl : ForLoop) (st : Gen) (hl : st.loops = base ++ [(k, fl)])
    (hc : st.created = k + 1) (hb : ∀ p ∈ base, p.1 < k) :
    ∃ st1, initLoop D ids (some nest) (some k) st = some (some nest, some (k + ids.length), st1) ∧
      st1.loops = base ++ chain D [] k fl ids ∧ st1.created = k + 1 + ids.length ∧
      st1.lowered_exprs_ = st.lowered_exprs_ ∧ st1.dynamic_smem_ = st.dynamic_smem_ ∧
      st1.for_loops_ = st.for_loops_ ∧ st1.smem_ = st.smem_ ∧
      st1.lowered_exprs_allocations_ = st.lowered_exprs_allocations_ := by
  induction ids generalizing base k fl st with
  | nil =>
    refine ⟨st, rfl, ?_, by simpa using hc, rfl, rfl, rfl, rfl, rfl⟩
    rw [hl]
    simp [chain]
  | cons id rest ih =>
    have hkb : k ∉ keys base := not_mem_keys_of_lt base k k hb (Nat.le_refl k)
    have hlook : lookup (st.loops ++ [(st.created, newLoop D id (some k))]) k = some fl := by
      rw [hl, List.append_assoc, lookup_append_right _ _ _ hkb, List.singleton_append,
        lookup_cons, if_pos rfl]
    have hset : setKey (st.loops ++ [(st.created, newLoop D id (some k))]) k
          { fl with body := fl.body ++ [KirExpr.ForLoop st.created] } =
        (base ++ [(k, { fl with body := fl.body ++ [KirExpr.ForLoop (k + 1)] })]) ++
          [(k + 1, newLoop D id (some k))] := by
      rw [hl, hc, setKey_append, setKey_append, setKey_of_not_mem base k _ hkb]
      have h1 : setKey [(k, fl)] k { fl with body := fl.body ++ [KirExpr.ForLoop (k + 1)] } =
          [(k, { fl with body := fl.body ++ [KirExpr.ForLoop (k + 1)] })] := by
        simp [setKey]
      have h2 : setKey [(k + 1, newLoop D id (some k))] k
          { fl with body := fl.body ++ [KirExpr.ForLoop (k + 1)] } =
          [(k + 1, newLoop D id (some k))] := by
        simp [setKey]
      rw [h1, h2]
    obtain ⟨st1, h1, h2, h3, h4, h5, h6, h7, h8⟩ :=
      ih (base ++ [(k, { fl with body := fl.body ++ [KirExpr.ForLoop (k + 1)] })]) (k + 1)
        (newLoop D id (some k))
        { st with
          loops := (base ++ [(k, { fl with body := fl.body ++ [KirExpr.ForLoop (k + 1)] })]) ++
            [(k + 1, newLoop D id (some k))]
          created := st.created + 1
          for_loop_allocations_ := emplaceKey st.for_loop_allocations_ st.created 0 }
        rfl (by simp [hc])
        (by
          intro p hp
          rcases List.mem_append.1 hp with hp | hp
          · exact Nat.lt_succ_of_lt (hb p hp)
          · simp only [List.mem_singleton] at hp
            rw [hp]
            exact Nat.lt_succ_self k)
    refine ⟨st1, ?_, ?_, ?_, h4, h5, h6, h7, h8⟩
    · unfold initLoop
      simp only
      unfold bodyPushBack
      simp only
      rw [hlook]
      simp only
      rw [hset]
      have e : k + (id :: rest).length = k + 1 + rest.length := by
        simp only [List.length_cons]; omega
      rw [e]
      rw [hc] at h1 ⊢
      exact h1
    · rw [h2]
      simp [chain]
    · rw [h3]
      simp only [List.length_cons]
      omega

/-- The loop of `initReduction` from its start, over at least one axis. -/
theorem initLoop_none (D : Domains) (id : IterDomain) (rest : List IterDomain)
    (inner_fl : Option Nat) (st : Gen) (hfresh : ∀ p ∈ st.loops, p.1 < st.created) :
    ∃ st1, initLoop D (id :: rest) none inner_fl st =
        some (some (KirExpr.ForLoop st.created), some (st.created + rest.length), st1) ∧
      st1.loops = st.loops ++ chain D [] st.created (newLoop D id inner_fl) rest ∧
      st1.created = st.created + 1 + rest.length ∧
      st1.lowered_exprs_ = st.lowered_exprs_ ∧ st1.dynamic_smem_ = st.dynamic_smem_ ∧
      st1.for_loops_ = st.for_loops_ ∧ st1.smem_ = st.smem_ ∧
      st1.lowered_exprs_allocations_ = st.lowered_exprs_allocations_ := by
  obtain ⟨st1, h1, h2, h3, h4, h5, h6, h7, h8⟩ :=
    initLoop_some D rest (KirExpr.ForLoop st.created) st.loops st.created
      (newLoop D id inner_fl)
      { st with
        loops := st.loops ++ [(st.created, newLoop D id inner_fl)]
        created := st.created + 1
        for_loop_allocations_ := emplaceKey st.for_loop_allocations_ st.created 0 }
      rfl rfl hfresh
  exact ⟨st1, by unfold initLoop; exact h1, h2, h3, h4, h5, h6, h7, h8⟩

theorem chain_append_tail (D : Domains) (e : KirExpr) (ids : List IterDomain) (k : Nat)
    (fl : ForLoop) (base : List (Nat × ForLoop)) (hb : ∀ p ∈ base, p.1 < k) :
    lookup (base ++ chain D [] k fl ids) (k + ids.length) ≠ none ∧
    ∀ fl1, lookup (base ++ chain D [] k fl ids) (k + ids.length) = some fl1 →
      setKey (base ++ chain D [] k fl ids) (k + ids.length) { fl1 with body := fl1.body ++ [e] } =
        base ++ chain D [e] k fl ids := by
  induction ids generalizing k fl base with
  | nil =>
    have hkb : k ∉ keys base := not_mem_keys_of_lt base k k hb (Nat.le_refl k)
    have hl : lookup (base ++ chain D [] k fl []) k = some { fl with body := fl.body ++ [] } := by
      rw [lookup_append_right _ _ _ hkb]
      simp [chain, lookup_cons]
    rw [List.length_nil, Nat.add_zero]
    refine ⟨by rw [hl]; simp, ?_⟩
    intro fl1 h1
    rw [hl] at h1
    simp only [Option.some.injEq] at h1
    subst h1
    rw [setKey_append, setKey_of_not_mem base k _ hkb]
    simp [chain, setKey]
  | cons id rest ih =>
    have hb1 : ∀ p ∈ base ++ [(k, { fl with body := fl.body ++ [KirExpr.ForLoop (k + 1)] })],
        p.1 < k + 1 := by
      intro p hp
      rcases List.mem_append.1 hp with hp | hp
      · exact Nat.lt_succ_of_lt (hb p hp)
      · simp only [List.mem_singleton] at hp
        rw [hp]
        exact Nat.lt_succ_self k
    have e1 : base ++ chain D [] k fl (id :: rest) =
        (base ++ [(k, { fl with body := fl.body ++ [KirExpr.ForLoop (k + 1)] })]) ++
          chain D [] (k + 1) (newLoop D id (some k)) rest := by
      simp [chain]
    have e2 : base ++ chain D [e] k fl (id :: rest) =
        (base ++ [(k, { fl with body := fl.body ++ [KirExpr.ForLoop (k + 1)] })]) ++
          chain D [e] (k + 1) (newLoop D id (some k)) rest := by
      simp [chain]
    have e3 : k + (id :: rest).length = k + 1 + rest.length := by
      simp only [List.length_cons]; omega
    rw [e1, e2, e3]
    exact ih (k + 1) (newLoop D id (some k)) _ hb1

theorem lookup_chain (D : Domains) (tail : List KirExpr) (ids : List IterDomain) (k : Nat)
    (fl : ForLoop) (base : List (Nat × ForLoop)) (hb : ∀ p ∈ base, p.1 < k) :
    ∀ p ∈ chain D tail k fl ids, lookup (base ++ chain D tail k fl ids) p.1 = some p.2 := by
  intro p hp
  have hge : k ≤ p.1 := chain_keys_ge D tail ids k fl p.1 (by
    simp only [keys, List.mem_map]
    exact ⟨p, hp, rfl⟩)
  rw [lookup_append_right _ _ _ (not_mem_keys_of_lt base k p.1 hb hge)]
  apply lookup_of_mem _ _ p hp
  rw [keys_chain]
  apply List.Nodup.map
  · intro a b hab
    simp only at hab
    omega
  · exact List.nodup_range _

theorem isNest_chain (D : Domains) (init_stmt : KirExpr) (L : List (Nat × ForLoop))
    (ids : List IterDomain) (k : Nat) (fl : ForLoop) (hbody : fl.body = [])
    (hL : ∀ p ∈ chain D [init_stmt] k fl ids, lookup L p.1 = some p.2) :
    isNest L (fl.iter_domain :: ids) (KirExpr.ForLoop k) init_stmt = true := by
  induction ids generalizing k fl with
  | nil =>
    have h := hL (k, { fl with body := fl.body ++ [init_stmt] }) (by simp [chain])
    simp only at h
    unfold isNest
    rw [h]
    simp [hbody, isNest]
  | cons id rest ih =>
    have h := hL (k, { fl with body := fl.body ++ [KirExpr.ForLoop (k + 1)] }) (by simp [chain])
    simp only at h
    have hrec := ih (k + 1) (newLoop D id (some k)) rfl (by
      intro p hp
      exact hL p (by simp [chain, hp]))
    unfold isNest
    rw [h]
    simp only [hbody, List.nil_append, beq_self_eq_true, Bool.true_and]
    exact hrec

theorem lookup_append_chain_lt (D : Domains) (tail : List KirExpr) (ids : List IterDomain)
    (k : Nat) (fl : ForLoop) (base : List (Nat × ForLoop)) (l : Nat) (hl : l < k) :
    lookup (base ++ chain D tail k fl ids) l = lookup base l := by
  cases h : lookup base l with
  | some v => exact lookup_append_left _ _ _ _ h
  | none =>
    rw [lookup_append_right _ _ _ ((lookup_none_iff _ _).1 h), lookup_none_iff]
    intro hm
    exact absurd (chain_keys_ge D tail ids k fl l hm) (by omega)

/-- What the part of `initReduction` that builds the initialization returns. -/
theorem initNest_spec (D : Domains) (st : Gen) (tv : TensorView) (init_val : Val)
    (alloc_pos : Nat) (nest : KirExpr) (st3 : Gen)
    (hfresh : ∀ p ∈ st.loops, p.1 < st.created)
    (h : initNest D st tv init_val alloc_pos = some (nest, st3)) :
    (∀ L : List (Nat × ForLoop), (∀ j, st.created ≤ j → lookup L j = lookup st3.loops j) →
      isNest L (initIds D tv alloc_pos) nest
        (KirExpr.UnaryOpSet (st.created + (initIds D tv alloc_pos).length) tv init_val) = true) ∧
      (∀ l, l < st.created → lookup st3.loops l = lookup st.loops l) ∧
      (∀ p ∈ st3.loops, p.1 < st3.created) ∧
      st.created < st3.created ∧
      (∀ l, nest = KirExpr.ForLoop l → st.created ≤ l) ∧
      st3.lowered_exprs_ = st.lowered_exprs_ ∧ st3.dynamic_smem_ = st.dynamic_smem_ ∧
      st3.for_loops_ = st.for_loops_ ∧ st3.smem_ = st.smem_ ∧
      st3.lowered_exprs_allocations_ = st.lowered_exprs_allocations_ := by
  unfold initNest at h
  simp only at h
  cases hin : (if 1 ≤ alloc_pos then (st.for_loops_.get? (alloc_pos - 1)).map some
      else some none) with
  | none =>
    rw [hin] at h
    exact absurd h (by simp)
  | some inner_fl0 =>
    rw [hin] at h
    simp only at h
    cases hids : initIds D tv alloc_pos with
    | nil =>
      rw [hids] at h
      simp only [initLoop, Option.some.injEq, Prod.mk.injEq] at h
      obtain ⟨h1, h2⟩ := h
      subst h1 h2
      refine ⟨fun _ _ => by simp [isNest], fun _ _ => rfl, ?_, Nat.lt_succ_self _, ?_, rfl, rfl,
        rfl, rfl, rfl⟩
      · intro p hp
        exact Nat.lt_succ_of_lt (hfresh p hp)
      · intro l hl
        exact absurd hl (by simp)
    | cons id rest =>
      rw [hids] at h
      obtain ⟨st1, h1, h2, h3, h4, h5, h6, h7, h8⟩ := initLoop_none D id rest inner_fl0 st hfresh
      rw [h1] at h
      simp only at h
      unfold bodyPushBack at h
      simp only at h
      obtain ⟨hne, hset⟩ := chain_append_tail D (KirExpr.UnaryOpSet st1.created tv init_val) rest
        st.created (newLoop D id inner_fl0) st.loops hfresh
      rw [h2] at h
      cases hlk : lookup (st.loops ++ chain D [] st.created (newLoop D id inner_fl0) rest)
          (st.created + rest.length) with
      | none => exact absurd hlk hne
      | some fl1 =>
        rw [hlk] at h
        simp only [Option.some.injEq, Prod.mk.injEq] at h
        obtain ⟨hn, hst⟩ := h
        subst hn hst
        simp only
        rw [hset fl1 hlk]
        have e : st.created + (id :: rest).length = st1.created := by
          rw [h3]; simp only [List.length_cons]; omega
        rw [e]
        refine ⟨?_, ?_, ?_, by omega, ?_, h4, h5, h6, h7, h8⟩
        · intro L hL
          apply isNest_chain D _ L rest st.created (newLoop D id inner_fl0) rfl
          intro p hp
          have hge : st.created ≤ p.1 := chain_keys_ge D _ rest st.created _ p.1 (by
            simp only [keys, List.mem_map]
            exact ⟨p, hp, rfl⟩)
          rw [hL p.1 hge]
          exact lookup_chain D _ rest st.created (newLoop D id inner_fl0) st.loops hfresh p hp
        · intro l hl
          exact lookup_append_chain_lt D _ rest st.created _ st.loops l hl
        · intro p hp
          rcases List.mem_append.1 hp with hp | hp
          · exact Nat.lt_succ_of_lt (Nat.lt_of_lt_of_le (hfresh p hp) (by omega))
          · have hk : p.1 ∈ keys (chain D [KirExpr.UnaryOpSet st1.created tv init_val] st.created
                (newLoop D id inner_fl0) rest) := by
              simp only [keys, List.mem_map]
              exact ⟨p, hp, rfl⟩
            rw [keys_chain] at hk
            simp only [List.mem_map, List.mem_range] at hk
            obtain ⟨a, ha, hpa⟩ := hk
            omega
        · intro l hl
          simp only [KirExpr.ForLoop.injEq] at hl
          omega

theorem insertAt_succ_cons (x : KirExpr) (v : List KirExpr) (pos : Nat) (e : KirExpr) :
    insertAt (x :: v) (pos + 1) e = x :: insertAt v pos e := by
  simp [insertAt]

/-- Insertion after the first occurrence of `a`. -/
theorem insertAt_after (v : List KirExpr) (a e : KirExpr) (h : a ∈ v) :
    ∃ pre post, v = pre ++ a :: post ∧ a ∉ pre ∧
      insertAt v (v.indexOf a + 1) e = pre ++ a :: e :: post := by
  induction v with
  | nil => simp at h
  | cons x xs ih =>
    by_cases hx : x = a
    · subst hx
      refine ⟨[], xs, rfl, by simp, ?_⟩
      rw [List.indexOf_cons_self]
      simp [insertAt]
    · have hm : a ∈ xs := by
        rcases List.mem_cons.1 h with h | h
        · exact absurd h.symm hx
        · exact h
      obtain ⟨pre, post, h1, h2, h3⟩ := ih hm
      refine ⟨x :: pre, post, by rw [h1]; rfl, ?_, ?_⟩
      · intro hc
        rcases List.mem_cons.1 hc with hc | hc
        · exact hx hc.symm
        · exact h2 hc
      · rw [List.indexOf_cons_ne _ hx, insertAt_succ_cons, h3]
        rfl

/-- What the part of `initReduction` that places the initialization does. -/
theorem placeInit_spec (st : Gen) (alloc_loop : Option Nat) (alloc_expr : Option KirExpr)
    (nest : KirExpr) (st' : Gen) (h : placeInit st alloc_loop alloc_expr nest = some st') :
    (∀ j, alloc_loop ≠ some j → lookup st'.loops j = lookup st.loops j) ∧
      (∀ a, alloc_expr = some a → ∃ pre post, scopeOf st alloc_loop = pre ++ a :: post ∧
        a ∉ pre ∧ scopeOf st' alloc_loop = pre ++ a :: nest :: post) ∧
      (alloc_expr = none → scopeOf st' alloc_loop = nest :: scopeOf st alloc_loop) ∧
      st'.dynamic_smem_ = st.dynamic_smem_ ∧ st'.created = st.created ∧
      st'.for_loops_ = st.for_loops_ ∧ st'.smem_ = st.smem_ ∧
      keys st'.loops = keys st.loops := by
  unfold placeInit at h
  cases alloc_loop with
  | none =>
    simp only at h
    cases alloc_expr with
    | some a =>
      simp only at h
      by_cases hm : a ∈ st.lowered_exprs_
      · rw [if_pos hm] at h
        simp only [Option.some.injEq] at h
        subst h
        refine ⟨fun _ _ => rfl, ?_, fun hc => absurd hc (by simp), rfl, rfl, rfl, rfl, rfl⟩
        intro a' ha'
        simp only [Option.some.injEq] at ha'
        subst ha'
        exact insertAt_after st.lowered_exprs_ a nest hm
      · rw [if_neg hm] at h
        exact absurd h (by simp)
    | none =>
      simp only [Option.some.injEq] at h
      subst h
      refine ⟨fun _ _ => rfl, fun a ha => absurd ha (by simp), fun _ => ?_, rfl, rfl, rfl, rfl,
        rfl⟩
      simp [scopeOf, insertAt_zero]
  | some l =>
    simp only at h
    cases alloc_expr with
    | some a =>
      simp only at h
      unfold bodyInsertAfter at h
      cases hfl : lookup st.loops l with
      | none =>
        rw [hfl] at h
        exact absurd h (by simp)
      | some fl =>
        rw [hfl] at h
        simp only at h
        by_cases hm : a ∈ fl.body
        · rw [if_pos hm] at h
          simp only [Option.some.injEq] at h
          subst h
          refine ⟨?_, ?_, fun hc => absurd hc (by simp), rfl, rfl, rfl, rfl, ?_⟩
          · intro j hj
            simp only [incrAllocations]
            rw [lookup_setKey, if_neg (fun e => hj (by rw [e]))]
          · intro a' ha'
            simp only [Option.some.injEq] at ha'
            subst ha'
            obtain ⟨pre, post, h1, h2, h3⟩ := insertAt_after fl.body a nest hm
            refine ⟨pre, post, ?_, h2, ?_⟩
            · simp only [scopeOf, hfl]
              exact h1
            · simp only [scopeOf, incrAllocations]
              rw [lookup_setKey_self _ _ _ _ hfl]
              exact h3
          · simp only [incrAllocations]
            exact keys_setKey _ _ _
        · rw [if_neg hm] at h
          exact absurd h (by simp)
    | none =>
      simp only at h
      unfold bodyInsert at h
      cases hfl : lookup st.loops l with
      | none =>
        rw [hfl] at h
        exact absurd h (by simp)
      | some fl =>
        rw [hfl] at h
        simp only [Option.some.injEq] at h
        subst h
        refine ⟨?_, fun a ha => absurd ha (by simp), fun _ => ?_, rfl, rfl, rfl, rfl, ?_⟩
        · intro j hj
          simp only
          rw [lookup_setKey, if_neg (fun e => hj (by rw [e]))]
        · simp only [scopeOf]
          rw [lookup_setKey_self _ _ _ _ hfl, hfl]
          simp [insertAt_zero]
        · exact keys_setKey _ _ _

/-- What `initReduction` does for a tensor with a reduction axis: the initialization it
builds and the scope it places it in. -/
theorem initReduction_spec (D : Domains) (st : Gen) (tv : TensorView) (init_val : Val)
    (alloc_expr : Option KirExpr) (st' : Gen) (hred : D.hasReduction tv = true)
    (hfresh : ∀ p ∈ st.loops, p.1 < st.created)
    (hloop : ∀ l, (D.getAllocPoint tv (openLoops st)).1 = some l → l < st.created)
    (h : initReduction D st tv init_val alloc_expr = some st') :
    ∃ nest st1, initNest D st tv init_val (D.getAllocPoint tv (openLoops st)).2 = some (nest, st1) ∧
      isNest st'.loops (initIds D tv (D.getAllocPoint tv (openLoops st)).2) nest
        (KirExpr.UnaryOpSet
          (st.created + (initIds D tv (D.getAllocPoint tv (openLoops st)).2).length) tv
          init_val) = true ∧
      (∀ a, alloc_expr = some a → ∃ pre post,
        scopeOf st (D.getAllocPoint tv (openLoops st)).1 = pre ++ a :: post ∧ a ∉ pre ∧
        scopeOf st' (D.getAllocPoint tv (openLoops st)).1 = pre ++ a :: nest :: post) ∧
      (alloc_expr = none →
        scopeOf st' (D.getAllocPoint tv (openLoops st)).1 =
          nest :: scopeOf st (D.getAllocPoint tv (openLoops st)).1) := by
  unfold initReduction at h
  rw [hred] at h
  simp only [Bool.not_true, Bool.false_eq_true, if_false] at h
  cases hn : initNest D st tv init_val (D.getAllocPoint tv (openLoops st)).2 with
  | none =>
    rw [hn] at h
    exact absurd h (by simp)
  | some r =>
    obtain ⟨nest, st1⟩ := r
    rw [hn] at h
    simp only at h
    obtain ⟨hnest, hlow, _, _, _, hle, _, _, _, _⟩ :=
      initNest_spec D st tv init_val _ nest st1 hfresh hn
    obtain ⟨hframe, hsome, hnone, _⟩ := placeInit_spec st1 _ alloc_expr nest st' h
    have hscope : scopeOf st1 (D.getAllocPoint tv (openLoops st)).1 =
        scopeOf st (D.getAllocPoint tv (openLoops st)).1 := by
      cases hl : (D.getAllocPoint tv (openLoops st)).1 with
      | none => simp only [scopeOf]; exact hle
      | some l => simp only [scopeOf]; rw [hlow l (hloop l hl)]
    refine ⟨nest, st1, rfl, ?_, ?_, ?_⟩
    · apply hnest
      intro j hj
      apply hframe
      intro hc
      exact absurd (hloop j hc) (by omega)
    · intro a ha
      rw [← hscope]
      exact hsome a ha
    · intro ha
      rw [← hscope]
      exact hnone ha

/-! ### The claims on `initReduction` -/

/-- C15: for a tensor with a reduction axis, in a state in which every loop was created
before and the allocation loop is one of them, `initReduction` builds a statement that is a
nest of loops over exactly the compute-at axes of the axes of the tensor at or beyond the
allocation position that are not reductions, in the order of the axes from the outermost to
the innermost, each loop holding the next and nothing else and the innermost holding the
initialization and nothing else; without such an axis the statement is the initialization
itself. The statement is what is placed in the scope that owns the allocation. -/
theorem initReduction_builds_nest (D : Domains) (st : Gen) (tv : TensorView) (init_val : Val)
    (alloc_expr : Option KirExpr) (st' : Gen) (hred : D.hasReduction tv = true)
    (hfresh : ∀ p ∈ st.loops, p.1 < st.created)
    (hloop : ∀ l, (D.getAllocPoint tv (openLoops st)).1 = some l → l < st.created)
    (h : initReduction D st tv init_val alloc_expr = some st') :
    ∃ nest,
      (initNest D st tv init_val (D.getAllocPoint tv (openLoops st)).2).map (fun p => p.1) =
        some nest ∧
      nest ∈ scopeOf st' (D.getAllocPoint tv (openLoops st)).1 ∧
      isNest st'.loops
        ((((List.range (D.nDims tv)).drop (D.getAllocPoint tv (openLoops st)).2).filter
          (fun i => !D.isReduction (D.axis tv i))).map (fun i => (D.getComputeAtAxis tv i).1))
        nest
        (KirExpr.UnaryOpSet
          (st.created + (initIds D tv (D.getAllocPoint tv (openLoops st)).2).length) tv
          init_val) = true ∧
      ((((List.range (D.nDims tv)).drop (D.getAllocPoint tv (openLoops st)).2).filter
          (fun i => !D.isReduction (D.axis tv i))) = [] →
        nest = KirExpr.UnaryOpSet st.created tv init_val) := by
  obtain ⟨nest, st1, h1, h2, h3, h4⟩ :=
    initReduction_spec D st tv init_val alloc_expr st' hred hfresh hloop h
  refine ⟨nest, by rw [h1]; rfl, ?_, h2, ?_⟩
  · cases ha : alloc_expr with
    | some a =>
      obtain ⟨pre, post, _, _, hs⟩ := h3 a ha
      rw [hs]
      simp
    | none =>
      rw [h4 ha]
      simp
  · intro hnil
    have hids : initIds D tv (D.getAllocPoint tv (openLoops st)).2 = [] := by
      unfold initIds
      rw [hnil]
      rfl
    rw [hids] at h2
    simp only [isNest, List.length_nil, Nat.add_zero, beq_iff_eq] at h2
    exact h2

/-- C15, witness on scenario E: the initialization of tensor 21 (axes 210, 211 bound to a
thread dimension, 212 a reduction), allocated outside of the loops: loop 4 over axis 210
holds loop 5 over axis 211, which holds the initialization. -/
theorem initReduction_builds_nest_witness :
    initReduction domainsE scenarioEAlloc21 21 99
        (some (KirExpr.Allocate 3 21 MemoryType.Local (KirVal.Lowered 1210))) =
      some scenarioEInit21 ∧
    isNest scenarioEInit21.loops [210, 211] (KirExpr.ForLoop 4)
      (KirExpr.UnaryOpSet 6 21 99) = true ∧
    KirExpr.ForLoop 4 ∈ scenarioEInit21.lowered_exprs_ := by
  have h : initReduction domainsE scenarioEAlloc21 21 99
        (some (KirExpr.Allocate 3 21 MemoryType.Local (KirVal.Lowered 1210))) =
      some scenarioEInit21 := by decide
  obtain ⟨nest, h1, h2, h3, _⟩ := initReduction_builds_nest domainsE scenarioEAlloc21 21 99 _ _
    (by decide) (by decide) (by decide) h
  have hn : nest = KirExpr.ForLoop 4 := by
    have h0 : (initNest domainsE scenarioEAlloc21 21 99
        (domainsE.getAllocPoint 21 (openLoops scenarioEAlloc21)).2).map (fun p => p.1) =
          some (KirExpr.ForLoop 4) := by decide
    rw [h0] at h1
    exact (Option.some.inj h1).symm
  subst hn
  exact ⟨h, h3, h2⟩

/-- C16: for a tensor with a reduction axis, in a state in which every loop was created
before and the allocation loop is one of them, `initReduction` places the initialization it
built in the scope that owns the allocation, `lowered_exprs_` or the body of the allocation
loop: right after the first occurrence of the allocation statement when it was given one,
leaving the rest of the scope as it was, and at index 0 of the scope when it was given
none. -/
theorem initReduction_places_nest (D : Domains) (st : Gen) (tv : TensorView) (init_val : Val)
    (alloc_expr : Option KirExpr) (st' : Gen) (hred : D.hasReduction tv = true)
    (hfresh : ∀ p ∈ st.loops, p.1 < st.created)
    (hloop : ∀ l, (D.getAllocPoint tv (openLoops st)).1 = some l → l < st.created)
    (h : initReduction D st tv init_val alloc_expr = some st') :
    ∃ nest,
      (initNest D st tv init_val (D.getAllocPoint tv (openLoops st)).2).map (fun p => p.1) =
        some nest ∧
      (∀ a, alloc_expr = some a → ∃ pre post,
        scopeOf st (D.getAllocPoint tv (openLoops st)).1 = pre ++ a :: post ∧ a ∉ pre ∧
        scopeOf st' (D.getAllocPoint tv (openLoops st)).1 = pre ++ a :: nest :: post) ∧
      (alloc_expr = none →
        scopeOf st' (D.getAllocPoint tv (openLoops st)).1 =
          nest :: scopeOf st (D.getAllocPoint tv (openLoops st)).1) := by
  obtain ⟨nest, st1, h1, _, h3, h4⟩ :=
    initReduction_spec D st tv init_val alloc_expr st' hred hfresh hloop h
  exact ⟨nest, by rw [h1]; rfl, h3, h4⟩

/-- C16, witness on scenario E: the initialization of tensor 21 is placed in `lowered_exprs_`
right after the allocation of the tensor, before the loop that was there. -/
theorem initReduction_places_nest_witness :
    initReduction domainsE scenarioEAlloc21 21 99
        (some (KirExpr.Allocate 3 21 MemoryType.Local (KirVal.Lowered 1210))) =
      some scenarioEInit21 ∧
    ∃ nest pre post,
      scenarioEAlloc21.lowered_exprs_ =
        pre ++ KirExpr.Allocate 3 21 MemoryType.Local (KirVal.Lowered 1210) :: post ∧
      KirExpr.Allocate 3 21 MemoryType.Local (KirVal.Lowered 1210) ∉ pre ∧
      scenarioEInit21.lowered_exprs_ =
        pre ++ KirExpr.Allocate 3 21 MemoryType.Local (KirVal.Lowered 1210) :: nest :: post := by
  have h : initReduction domainsE scenarioEAlloc21 21 99
        (some (KirExpr.Allocate 3 21 MemoryType.Local (KirVal.Lowered 1210))) =
      some scenarioEInit21 := by decide
  obtain ⟨nest, _, h3, _⟩ := initReduction_places_nest domainsE scenarioEAlloc21 21 99 _ _
    (by decide) (by decide) (by decide) h
  obtain ⟨pre, post, ha, hb, hc⟩ := h3 _ rfl
  exact ⟨h, nest, pre, post, ha, hb, hc⟩

/-! ### Opening and closing loops -/

theorem openDomains_eq (st : Gen) :
    openDomains st =
      st.for_loops_.filterMap (fun l => (lookup st.loops l).map (fun fl => fl.iter_domain)) := by
  unfold openDomains openLoops
  rw [List.map_filterMap]
  apply List.filterMap_congr
  intro l _
  cases lookup st.loops l <;> rfl

theorem mem_keys_of_lookup {β : Type} (m : List (Nat × β)) (k : Nat) (v : β)
    (h : lookup m k = some v) : k ∈ keys m := by
  by_contra hc
  rw [(lookup_none_iff m k).2 hc] at h
  exact absurd h (by simp)

theorem lookup_of_mem_keys {β : Type} (m : List (Nat × β)) (k : Nat) (h : k ∈ keys m) :
    ∃ v, lookup m k = some v := by
  cases hl : lookup m k with
  | none => exact absurd h ((lookup_none_iff m k).1 hl)
  | some v => exact ⟨v, rfl⟩

/-- What `openFor` does in a well-formed state. -/
theorem openFor_spec (D : Domains) (st : Gen) (id : IterDomain) (st' : Gen) (hwf : WF st)
    (h : openFor D st id = some st') :
    st'.for_loops_ = st.for_loops_ ++ [st.created] ∧
      (∀ l, l < st.created →
        (lookup st'.loops l).map (fun fl => fl.iter_domain) =
          (lookup st.loops l).map (fun fl => fl.iter_domain)) ∧
      (lookup st'.loops st.created).map (fun fl => fl.iter_domain) = some id ∧
      keys st'.loops = keys st.loops ++ [st.created] ∧
      st'.created = st.created + 1 ∧ st'.dynamic_smem_ = st.dynamic_smem_ ∧
      st'.smem_ = st.smem_ := by
  have hck : st.created ∉ keys st.loops :=
    not_mem_keys_of_lt st.loops st.created st.created hwf.fresh (Nat.le_refl _)
  unfold openFor at h
  cases hb : st.for_loops_.getLast? with
  | none =>
    rw [hb] at h
    simp only [openForHelper, Option.some.injEq] at h
    subst h
    refine ⟨rfl, ?_, ?_, ?_, rfl, rfl, rfl⟩
    · intro l hl
      simp only
      cases hlk : lookup st.loops l with
      | some v => rw [lookup_append_left _ _ _ _ hlk]
      | none =>
        rw [lookup_append_right _ _ _ ((lookup_none_iff _ _).1 hlk)]
        simp only [lookup_cons, lookup_nil]
        rw [if_neg (by omega)]
    · simp only
      rw [lookup_append_right _ _ _ hck]
      simp [lookup_cons]
    · simp [keys]
  | some back =>
    rw [hb] at h
    simp only [openForHelper, bodyPushBack] at h
    have hbm : back ∈ st.for_loops_ := List.mem_of_getLast?_eq_some hb
    obtain ⟨fl, hfl⟩ := lookup_of_mem_keys st.loops back (hwf.open_exist back hbm)
    have hlt : back < st.created := hwf.fresh (back, fl) (lookup_some_mem _ _ _ hfl)
    rw [lookup_append_left _ _ _ _ hfl] at h
    simp only [Option.some.injEq] at h
    subst h
    refine ⟨rfl, ?_, ?_, ?_, rfl, rfl, rfl⟩
    · intro l hl
      simp only
      rw [lookup_setKey]
      by_cases hlb : l = back
      · rw [if_pos hlb, lookup_append_left _ _ _ _ hfl, hlb, hfl]
        rfl
      · rw [if_neg hlb]
        cases hlk : lookup st.loops l with
        | some v => rw [lookup_append_left _ _ _ _ hlk]
        | none =>
          rw [lookup_append_right _ _ _ ((lookup_none_iff _ _).1 hlk)]
          simp only [lookup_cons, lookup_nil]
          rw [if_neg (by omega)]
    · simp only
      rw [lookup_setKey, if_neg (by omega), lookup_append_right _ _ _ hck]
      simp [lookup_cons]
    · simp only
      rw [keys_setKey]
      simp [keys]

theorem openFor_wf (D : Domains) (st : Gen) (id : IterDomain) (st' : Gen) (hwf : WF st)
    (h : openFor D st id = some st') : WF st' := by
  obtain ⟨h1, _, _, h4, h5, _, _⟩ := openFor_spec D st id st' hwf h
  constructor
  · intro p hp
    have hk : p.1 ∈ keys st'.loops := by
      simp only [keys, List.mem_map]
      exact ⟨p, hp, rfl⟩
    rw [h4, List.mem_append] at hk
    rw [h5]
    rcases hk with hk | hk
    · simp only [keys, List.mem_map] at hk
      obtain ⟨q, hq, hqe⟩ := hk
      rw [← hqe]
      exact Nat.lt_succ_of_lt (hwf.fresh q hq)
    · simp only [List.mem_singleton] at hk
      omega
  · intro l hl
    rw [h1, List.mem_append] at hl
    rw [h4, List.mem_append]
    rcases hl with hl | hl
    · exact Or.inl (hwf.open_exist l hl)
    · exact Or.inr hl

theorem openDomains_openFor (D : Domains) (st : Gen) (id : IterDomain) (st' : Gen)
    (hwf : WF st) (h : openFor D st id = some st') :
    openDomains st' = openDomains st ++ [id] := by
  obtain ⟨h1, h2, h3, _⟩ := openFor_spec D st id st' hwf h
  rw [openDomains_eq, openDomains_eq, h1, List.filterMap_append]
  congr 1
  · apply List.filterMap_congr
    intro l hl
    obtain ⟨fl, hfl⟩ := lookup_of_mem_keys st.loops l (hwf.open_exist l hl)
    exact h2 l (hwf.fresh (l, fl) (lookup_some_mem _ _ _ hfl))
  · simp only [List.filterMap_cons, List.filterMap_nil]
    rw [h3]

theorem openAll_spec (D : Domains) (ids : List IterDomain) (st st' : Gen) (hwf : WF st)
    (h : openAll D ids st = some st') :
    openDomains st' = openDomains st ++ ids ∧ WF st' ∧
      st'.dynamic_smem_ = st.dynamic_smem_ ∧ st.created ≤ st'.created ∧
      st'.smem_ = st.smem_ := by
  induction ids generalizing st with
  | nil =>
    simp only [openAll, Option.some.injEq] at h
    subst h
    exact ⟨by simp, hwf, rfl, Nat.le_refl _, rfl⟩
  | cons id rest ih =>
    unfold openAll at h
    cases h1 : openFor D st id with
    | none =>
      rw [h1] at h
      exact absurd h (by simp)
    | some st1 =>
      rw [h1] at h
      simp only at h
      obtain ⟨h2, h3, h4, h5, h6⟩ := ih st1 (openFor_wf D st id st1 hwf h1) h
      obtain ⟨_, _, _, _, hc, hd, hs⟩ := openFor_spec D st id st1 hwf h1
      refine ⟨?_, h3, by rw [h4, hd], by omega, by rw [h6, hs]⟩
      rw [h2, openDomains_openFor D st id st1 hwf h1]
      simp

theorem popOpened_append (existing more : List IterDomain) :
    popOpened existing (existing ++ more) = more := by
  induction existing with
  | nil => rfl
  | cons e rest ih =>
    simp only [List.cons_append, popOpened, if_true]
    exact ih

theorem closeLoop_spec (stop : Gen → Bool) (n : Nat) (st st' : Gen)
    (h : closeLoop stop n st = some st') :
    (st'.for_loops_ = [] ∨ stop st' = true) ∧
      (∃ k, st'.for_loops_ = st.for_loops_.take k) ∧
      st'.loops = st.loops ∧ st'.created = st.created ∧
      st'.dynamic_smem_ = st.dynamic_smem_ ∧ st'.lowered_exprs_ = st.lowered_exprs_ ∧
      st'.smem_ = st.smem_ := by
  induction n generalizing st with
  | zero =>
    unfold closeLoop at h
    by_cases hc : (st.for_loops_.isEmpty || stop st) = true
    · rw [if_pos hc] at h
      simp only [Option.some.injEq] at h
      subst h
      refine ⟨?_, ⟨st.for_loops_.length, by simp⟩, rfl, rfl, rfl, rfl, rfl⟩
      simp only [Bool.or_eq_true, List.isEmpty_iff] at hc
      exact hc
    · rw [if_neg hc] at h
      exact absurd h (by simp)
  | succ n ih =>
    unfold closeLoop at h
    by_cases hc : (st.for_loops_.isEmpty || stop st) = true
    · rw [if_pos hc] at h
      simp only [Option.some.injEq] at h
      subst h
      refine ⟨?_, ⟨st.for_loops_.length, by simp⟩, rfl, rfl, rfl, rfl, rfl⟩
      simp only [Bool.or_eq_true, List.isEmpty_iff] at hc
      exact hc
    · rw [if_neg hc] at h
      unfold closeFor at h
      by_cases he : st.for_loops_.isEmpty = true
      · rw [if_pos he] at h
        exact absurd h (by simp)
      · rw [if_neg he] at h
        simp only at h
        obtain ⟨h1, ⟨k, h2⟩, h3, h4, h5, h6, h7⟩ := ih _ h
        refine ⟨h1, ?_, h3, h4, h5, h6, h7⟩
        refine ⟨min k (st.for_loops_.length - 1), ?_⟩
        rw [h2]
        simp only
        rw [List.dropLast_eq_take, List.take_take]

theorem closeLoop_total (stop : Gen → Bool) (n : Nat) (st : Gen)
    (hn : st.for_loops_.length ≤ n) : ∃ st', closeLoop stop n st = some st' := by
  induction n generalizing st with
  | zero =>
    unfold closeLoop
    have he : st.for_loops_ = [] := List.length_eq_zero.1 (Nat.le_zero.1 hn)
    rw [he]
    exact ⟨st, by simp⟩
  | succ n ih =>
    unfold closeLoop
    by_cases hc : (st.for_loops_.isEmpty || stop st) = true
    · rw [if_pos hc]
      exact ⟨st, rfl⟩
    · rw [if_neg hc]
      unfold closeFor
      have he : ¬ st.for_loops_.isEmpty = true := by
        intro he
        exact hc (by rw [he]; rfl)
      rw [if_neg he]
      simp only
      apply ih
      simp only [List.length_dropLast]
      omega

/-- What the closing step of `handle` leaves open. -/
theorem closeStep_spec (F : Fusion) (D : Domains) (out : TensorView) (st st' : Gen)
    (h : closeStep F D out st = some st') :
    (F.getThisComputeAtAxis out = 0 → st'.for_loops_ = []) ∧
      (st'.for_loops_ = [] ∨
        backDomain st' =
          some (D.getComputeAtAxis out (F.getThisComputeAtAxis out - 1)).1) ∧
      (∃ k, st'.for_loops_ = st.for_loops_.take k) ∧
      st'.loops = st.loops ∧ st'.created = st.created ∧
      st'.dynamic_smem_ = st.dynamic_smem_ ∧ st'.lowered_exprs_ = st.lowered_exprs_ ∧
      st'.smem_ = st.smem_ := by
  unfold closeStep at h
  by_cases hz : F.getThisComputeAtAxis out = 0
  · rw [if_pos hz] at h
    obtain ⟨h1, h2⟩ := closeLoop_spec _ _ _ _ h
    have he : st'.for_loops_ = [] := by
      rcases h1 with h1 | h1
      · exact h1
      · exact absurd h1 (by simp)
    exact ⟨fun _ => he, Or.inl he, h2⟩
  · rw [if_neg hz] at h
    simp only at h
    obtain ⟨h1, h2⟩ := closeLoop_spec _ _ _ _ h
    refine ⟨fun hc => absurd hc hz, ?_, h2⟩
    rcases h1 with h1 | h1
    · exact Or.inl h1
    · exact Or.inr (by simpa using h1)

/-! ### Well-formed states -/

theorem wf_of_keys (st st' : Gen) (hwf : WF st) (hk : keys st'.loops = keys st.loops)
    (hc : st.created ≤ st'.created) (hf : ∀ l ∈ st'.for_loops_, l ∈ st.for_loops_) : WF st' := by
  constructor
  · intro p hp
    have hm : p.1 ∈ keys st.loops := by
      rw [← hk]
      simp only [keys, List.mem_map]
      exact ⟨p, hp, rfl⟩
    simp only [keys, List.mem_map] at hm
    obtain ⟨q, hq, hqe⟩ := hm
    rw [← hqe]
    exact Nat.lt_of_lt_of_le (hwf.fresh q hq) hc
  · intro l hl
    rw [hk]
    exact hwf.open_exist l (hf l hl)

theorem hoistInv_of_frame (st st' : Gen) (hi : HoistInv st)
    (hd : st'.dynamic_smem_ = st.dynamic_smem_) (hc : st.created ≤ st'.created) :
    HoistInv st' := by
  constructor
  · rw [hd]
    exact hi.ordered
  · intro a ha
    rw [hd] at ha
    exact Nat.lt_of_lt_of_le (hi.created_before a ha) hc

theorem bodyPushBack_frame (st : Gen) (l : Nat) (e : KirExpr) (st' : Gen)
    (h : bodyPushBack st l e = some st') :
    keys st'.loops = keys st.loops ∧ st'.created = st.created ∧
      st'.dynamic_smem_ = st.dynamic_smem_ ∧ st'.for_loops_ = st.for_loops_ ∧
      st'.smem_ = st.smem_ := by
  unfold bodyPushBack at h
  cases hfl : lookup st.loops l with
  | none =>
    rw [hfl] at h
    exact absurd h (by simp)
  | some fl =>
    rw [hfl] at h
    simp only [Option.some.injEq] at h
    subst h
    exact ⟨keys_setKey _ _ _, rfl, rfl, rfl, rfl⟩

theorem pushBack_frame (st : Gen) (e : KirExpr) (st' : Gen) (h : pushBack st e = some st') :
    keys st'.loops = keys st.loops ∧ st'.created = st.created ∧
      st'.dynamic_smem_ = st.dynamic_smem_ ∧ st'.for_loops_ = st.for_loops_ ∧
      st'.smem_ = st.smem_ := by
  unfold pushBack at h
  cases hb : st.for_loops_.getLast? with
  | none =>
    rw [hb] at h
    simp only [Option.some.injEq] at h
    subst h
    exact ⟨rfl, rfl, rfl, rfl, rfl⟩
  | some back =>
    rw [hb] at h
    exact bodyPushBack_frame st back e st' h

/-- Creating a node and pushing it to the back of the innermost scope. -/
theorem pushNew_frame (st : Gen) (e : KirExpr) (st' : Gen)
    (h : pushBack { st with created := st.created + 1 } e = some st') :
    keys st'.loops = keys st.loops ∧ st'.created = st.created + 1 ∧
      st'.dynamic_smem_ = st.dynamic_smem_ ∧ st'.for_loops_ = st.for_loops_ ∧
      st'.smem_ = st.smem_ :=
  pushBack_frame _ e st' h

theorem scalarAllocs_frame (F : Fusion) (outs : List Val) (st st' : Gen)
    (h : scalarAllocs F outs st = some st') :
    keys st'.loops = keys st.loops ∧ st.created ≤ st'.created ∧
      st'.dynamic_smem_ = st.dynamic_smem_ ∧ st'.for_loops_ = st.for_loops_ ∧
      st'.smem_ = st.smem_ := by
  induction outs generalizing st with
  | nil =>
    simp only [scalarAllocs, Option.some.injEq] at h
    subst h
    exact ⟨rfl, Nat.le_refl _, rfl, rfl, rfl⟩
  | cons out rest ih =>
    unfold scalarAllocs at h
    by_cases hs : F.getValType out = ValType.Scalar
    · rw [if_pos hs] at h
      cases hp : pushBack { st with created := st.created + 1 }
          (KirExpr.Allocate st.created out MemoryType.Local (KirVal.Int (some 1))) with
      | none =>
        rw [hp] at h
        exact absurd h (by simp)
      | some st1 =>
        rw [hp] at h
        simp only at h
        obtain ⟨a1, a2, a3, a4, a5⟩ := pushNew_frame st _ st1 hp
        obtain ⟨b1, b2, b3, b4, b5⟩ := ih st1 h
        exact ⟨by rw [b1, a1], by omega, by rw [b3, a3], by rw [b4, a4], by rw [b5, a5]⟩
    · rw [if_neg hs] at h
      exact absurd h (by simp)

theorem syncStep_frame (F : Fusion) (expr : Expr) (st st' : Gen)
    (h : syncStep F expr st = some st') :
    keys st'.loops = keys st.loops ∧ st.created ≤ st'.created ∧
      st'.dynamic_smem_ = st.dynamic_smem_ ∧ st'.for_loops_ = st.for_loops_ := by
  unfold syncStep at h
  simp only at h
  by_cases hs : (F.inputs expr).any (fun i => isModifiedSharedMemory st.smem_ i) = true
  · rw [if_pos hs] at h
    cases hp : pushBack { st with created := st.created + 1 } (KirExpr.Sync st.created) with
    | none =>
      rw [hp] at h
      exact absurd h (by simp)
    | some st1 =>
      rw [hp] at h
      simp only [Option.some.injEq] at h
      subst h
      obtain ⟨a1, a2, a3, a4, _⟩ := pushNew_frame st _ st1 hp
      exact ⟨a1, by simp only; omega, a3, a4⟩
  · rw [if_neg hs] at h
    simp only [Option.some.injEq] at h
    subst h
    exact ⟨rfl, Nat.le_refl _, rfl, rfl⟩

/-- What `pushAlloc` does to the queue of hoisted allocations and to the table of loops. -/
theorem pushAlloc_frame (F : Fusion) (D : Domains) (st : Gen) (tv : TensorView)
    (r : Option KirExpr) (st' : Gen) (h : pushAlloc F D st tv = some (r, st')) :
    keys st'.loops = keys st.loops ∧ st'.created = st.created + 1 ∧
      st'.for_loops_ = st.for_loops_ ∧ st'.smem_ = st.smem_ ∧
      (st'.dynamic_smem_ = st.dynamic_smem_ ∨
        ∃ a, a.id = st.created ∧ st'.dynamic_smem_ = a :: st.dynamic_smem_) := by
  unfold pushAlloc at h
  by_cases hio : (D.hasInput tv || D.hasOutput tv) = true
  · rw [if_pos hio] at h
    exact absurd h (by simp)
  · rw [if_neg hio] at h
    simp only at h
    by_cases hd : F.getMemoryType tv = MemoryType.Shared ∧
        D.isConst (allocSize (allocDims F D tv (D.getAllocPoint tv (openLoops st)).2)) = false
    · rw [if_pos hd] at h
      simp only [Option.some.injEq, Prod.mk.injEq] at h
      obtain ⟨_, h2⟩ := h
      subst h2
      exact ⟨rfl, rfl, rfl, rfl,
        Or.inr ⟨KirExpr.Allocate st.created tv (F.getMemoryType tv)
          (allocSize (allocDims F D tv (D.getAllocPoint tv (openLoops st)).2)), rfl, rfl⟩⟩
    · rw [if_neg hd] at h
      cases hl : (D.getAllocPoint tv (openLoops st)).1 with
      | none =>
        rw [hl] at h
        simp only [Option.some.injEq, Prod.mk.injEq] at h
        obtain ⟨_, h2⟩ := h
        subst h2
        exact ⟨rfl, rfl, rfl, rfl, Or.inl rfl⟩
      | some l =>
        rw [hl] at h
        simp only at h
        unfold bodyInsert at h
        simp only at h
        cases hfl : lookup st.loops l with
        | none =>
          rw [hfl] at h
          exact absurd h (by simp)
        | some fl =>
          rw [hfl] at h
          simp only [Option.some.injEq, Prod.mk.injEq] at h
          obtain ⟨_, h2⟩ := h
          subst h2
          exact ⟨keys_setKey _ _ _, rfl, rfl, rfl, Or.inl rfl⟩

theorem initReduction_frame (D : Domains) (st : Gen) (tv : TensorView) (init_val : Val)
    (alloc_expr : Option KirExpr) (st' : Gen) (hwf : WF st)
    (h : initReduction D st tv init_val alloc_expr = some st') :
    WF st' ∧ st.created ≤ st'.created ∧ st'.dynamic_smem_ = st.dynamic_smem_ ∧
      st'.for_loops_ = st.for_loops_ ∧ st'.smem_ = st.smem_ := by
  unfold initReduction at h
  by_cases hred : D.hasReduction tv = true
  · rw [hred] at h
    simp only [Bool.not_true, Bool.false_eq_true, if_false] at h
    cases hn : initNest D st tv init_val (D.getAllocPoint tv (openLoops st)).2 with
    | none =>
      rw [hn] at h
      exact absurd h (by simp)
    | some r =>
      obtain ⟨nest, st1⟩ := r
      rw [hn] at h
      simp only at h
      obtain ⟨_, hlow, hfr, hlt, _, _, hds, hfl, hsm, _⟩ :=
        initNest_spec D st tv init_val _ nest st1 hwf.fresh hn
      obtain ⟨_, _, _, pd, pc, pf, ps, pk⟩ := placeInit_spec st1 _ alloc_expr nest st' h
      have hwf1 : WF st1 := by
        constructor
        · exact hfr
        · intro l hl
          rw [hfl] at hl
          obtain ⟨fl, hfl1⟩ := lookup_of_mem_keys st.loops l (hwf.open_exist l hl)
          have hl1 : l < st.created := hwf.fresh (l, fl) (lookup_some_mem _ _ _ hfl1)
          exact mem_keys_of_lookup st1.loops l fl (by rw [hlow l hl1]; exact hfl1)
      refine ⟨wf_of_keys st1 st' hwf1 pk (by omega) (by rw [pf]; exact fun _ hl => hl),
        by omega, by rw [pd, hds], by rw [pf, hfl], by rw [ps, hsm]⟩
  · have hred' : D.hasReduction tv = false := by
      cases hv : D.hasReduction tv with
      | true => exact absurd hv hred
      | false => rfl
    rw [hred'] at h
    simp only [Bool.not_false, if_true] at h
    obtain ⟨a1, a2, a3, a4, a5⟩ := pushNew_frame st _ st' h
    exact ⟨wf_of_keys st st' hwf a1 (by omega) (by rw [a4]; exact fun _ hl => hl), by omega, a3,
      a4, a5⟩

/-! ### The states the generator goes through -/

theorem wf_initialGen (F : Fusion) : WF (initialGen F) :=
  ⟨fun _ hp => absurd hp (by simp [initialGen]), fun _ hl => absurd hl (by simp [initialGen])⟩

theorem hoistInv_initialGen (F : Fusion) : HoistInv (initialGen F) :=
  ⟨by simp [initialGen], fun _ ha => absurd ha (by simp [initialGen])⟩

theorem openStep_inv (F : Fusion) (D : Domains) (out : TensorView) (st st' : Gen)
    (hwf : WF st) (hi : HoistInv st) (h : openStep F D out st = some st') :
    WF st' ∧ HoistInv st' := by
  unfold openStep at h
  cases hls : loopStructure F D out with
  | none =>
    rw [hls] at h
    exact absurd h (by simp)
  | some loop_structure =>
    rw [hls] at h
    simp only at h
    obtain ⟨_, h2, h3, h4, _⟩ := openAll_spec D _ st st' hwf h
    exact ⟨h2, hoistInv_of_frame st st' hi h3 h4⟩

theorem placeStep_inv (F : Fusion) (D : Domains) (expr : Expr) (out : TensorView)
    (st st' : Gen) (hwf : WF st) (hi : HoistInv st)
    (h : placeStep F D expr out st = some st') :
    WF st' ∧ HoistInv st' ∧ st'.for_loops_ = st.for_loops_ := by
  unfold placeStep at h
  cases ha : (if (!D.hasInput out && !D.hasOutput out) = true then pushAlloc F D st out
      else some (none, st)) with
  | none =>
    rw [ha] at h
    exact absurd h (by simp)
  | some r =>
    obtain ⟨alloc_expr, st1⟩ := r
    rw [ha] at h
    simp only at h
    have h1 : WF st1 ∧ HoistInv st1 ∧ st1.for_loops_ = st.for_loops_ := by
      by_cases hio : (!D.hasInput out && !D.hasOutput out) = true
      · rw [if_pos hio] at ha
        obtain ⟨a1, a2, a3, _, a5⟩ := pushAlloc_frame F D st out alloc_expr st1 ha
        refine ⟨wf_of_keys st st1 hwf a1 (by omega) (by rw [a3]; exact fun _ hl => hl), ?_, a3⟩
        rcases a5 with a5 | ⟨a, hid, a5⟩
        · exact hoistInv_of_frame st st1 hi a5 (by omega)
        · constructor
          · rw [a5, List.map_cons, List.pairwise_cons]
            refine ⟨?_, hi.ordered⟩
            intro b hb
            simp only [List.mem_map] at hb
            obtain ⟨x, hx, hxb⟩ := hb
            rw [← hxb, hid]
            exact hi.created_before x hx
          · intro b hb
            rw [a5] at hb
            rw [a2]
            rcases List.mem_cons.1 hb with hb | hb
            · rw [hb, hid]
              exact Nat.lt_succ_self _
            · exact Nat.lt_succ_of_lt (hi.created_before b hb)
      · rw [if_neg hio] at ha
        simp only [Option.some.injEq, Prod.mk.injEq] at ha
        rw [← ha.2]
        exact ⟨hwf, hi, rfl⟩
    obtain ⟨hwf1, hi1, hf1⟩ := h1
    cases hb : (if D.hasReduction out = true then
        initReduction D st1 out (D.init expr) alloc_expr else some st1) with
    | none =>
      rw [hb] at h
      exact absurd h (by simp)
    | some st2 =>
      rw [hb] at h
      simp only at h
      have h2 : WF st2 ∧ HoistInv st2 ∧ st2.for_loops_ = st1.for_loops_ := by
        by_cases hred : D.hasReduction out = true
        · rw [if_pos hred] at hb
          obtain ⟨b1, b2, b3, b4, _⟩ := initReduction_frame D st1 out _ alloc_expr st2 hwf1 hb
          exact ⟨b1, hoistInv_of_frame st1 st2 hi1 b3 b2, b4⟩
        · rw [if_neg hred] at hb
          simp only [Option.some.injEq] at hb
          rw [← hb]
          exact ⟨hwf1, hi1, rfl⟩
      obtain ⟨hwf2, hi2, hf2⟩ := h2
      cases hc : pushBack { st2 with created := st2.created + 1 }
          (KirExpr.Lowered st2.created expr) with
      | none =>
        rw [hc] at h
        exact absurd h (by simp)
      | some st3 =>
        rw [hc] at h
        simp only [Option.some.injEq] at h
        subst h
        obtain ⟨c1, c2, c3, c4, _⟩ := pushNew_frame st2 _ st3 hc
        have hwf3 : WF st3 :=
          wf_of_keys st2 st3 hwf2 c1 (by omega) (by rw [c4]; exact fun _ hl => hl)
        have hi3 : HoistInv st3 := hoistInv_of_frame st2 st3 hi2 c3 (by omega)
        exact ⟨⟨hwf3.fresh, hwf3.open_exist⟩, ⟨hi3.ordered, hi3.created_before⟩,
          by simp only; rw [c4, hf2, hf1]⟩

theorem syncStep_inv (F : Fusion) (expr : Expr) (st st' : Gen) (hwf : WF st)
    (hi : HoistInv st) (h : syncStep F expr st = some st') :
    WF st' ∧ HoistInv st' ∧ st'.for_loops_ = st.for_loops_ := by
  obtain ⟨a1, a2, a3, a4⟩ := syncStep_frame F expr st st' h
  exact ⟨wf_of_keys st st' hwf a1 a2 (by rw [a4]; exact fun _ hl => hl),
    hoistInv_of_frame st st' hi a3 a2, a4⟩

theorem closeStep_inv (F : Fusion) (D : Domains) (out : TensorView) (st st' : Gen)
    (hwf : WF st) (hi : HoistInv st) (h : closeStep F D out st = some st') :
    WF st' ∧ HoistInv st' := by
  obtain ⟨_, _, ⟨k, hk⟩, hl, hc, hd, _⟩ := closeStep_spec F D out st st' h
  refine ⟨wf_of_keys st st' hwf (by rw [hl]) (by omega) ?_,
    hoistInv_of_frame st st' hi hd (by omega)⟩
  intro l hm
  rw [hk] at hm
  exact List.mem_of_mem_take hm

/-- The steps `handle` takes for a tensor operation. -/
theorem handle_tv_steps (F : Fusion) (D : Domains) (expr : Expr) (st st' : Gen)
    (htv : F.isTVOp expr = true) (h : handle F D expr st = some st') :
    ∃ out st1 st2 st3, (F.outputs expr).head? = some out ∧ syncStep F expr st = some st1 ∧
      openStep F D out st1 = some st2 ∧ placeStep F D expr out st2 = some st3 ∧
      closeStep F D out st3 = some st' := by
  unfold handle at h
  rw [htv] at h
  simp only [Bool.not_true, Bool.false_eq_true, if_false] at h
  cases h1 : syncStep F expr st with
  | none => rw [h1] at h; exact absurd h (by simp)
  | some st1 =>
    rw [h1] at h
    simp only at h
    cases ho : (F.outputs expr).head? with
    | none => rw [ho] at h; exact absurd h (by simp)
    | some out =>
      rw [ho] at h
      simp only at h
      cases h2 : openStep F D out st1 with
      | none => rw [h2] at h; exact absurd h (by simp)
      | some st2 =>
        rw [h2] at h
        simp only at h
        cases h3 : placeStep F D expr out st2 with
        | none => rw [h3] at h; exact absurd h (by simp)
        | some st3 =>
          rw [h3] at h
          simp only at h
          exact ⟨out, st1, st2, st3, rfl, rfl, h2, h3, h⟩

theorem handle_wf_hoist (F : Fusion) (D : Domains) (expr : Expr) (st st' : Gen) (hwf : WF st)
    (hi : HoistInv st) (h : handle F D expr st = some st') : WF st' ∧ HoistInv st' := by
  by_cases htv : F.isTVOp expr = true
  · obtain ⟨out, st1, st2, st3, _, h1, h2, h3, h4⟩ := handle_tv_steps F D expr st st' htv h
    obtain ⟨w1, i1, _⟩ := syncStep_inv F expr st st1 hwf hi h1
    obtain ⟨w2, i2⟩ := openStep_inv F D out st1 st2 w1 i1 h2
    obtain ⟨w3, i3, _⟩ := placeStep_inv F D expr out st2 st3 w2 i2 h3
    exact closeStep_inv F D out st3 st' w3 i3 h4
  · have htv' : F.isTVOp expr = false := by
      cases hv : F.isTVOp expr with
      | true => exact absurd hv htv
      | false => rfl
    unfold handle at h
    rw [htv'] at h
    simp only [Bool.not_false, if_true] at h
    cases h1 : scalarAllocs F (F.outputs expr) st with
    | none => rw [h1] at h; exact absurd h (by simp)
    | some st1 =>
      rw [h1] at h
      simp only at h
      obtain ⟨a1, a2, a3, a4, _⟩ := scalarAllocs_frame F _ st st1 h1
      obtain ⟨b1, b2, b3, b4, _⟩ := pushNew_frame st1 _ st' h
      exact ⟨wf_of_keys st st' hwf (by rw [b1, a1]) (by omega)
          (by rw [b4, a4]; exact fun _ hl => hl),
        hoistInv_of_frame st st' hi (by rw [b3, a3]) (by omega)⟩

theorem handleAll_wf_hoist (F : Fusion) (D : Domains) (ops : List Expr) (st st' : Gen)
    (hwf : WF st) (hi : HoistInv st) (h : handleAll F D ops st = some st') :
    WF st' ∧ HoistInv st' := by
  induction ops generalizing st with
  | nil =>
    simp only [handleAll, Option.some.injEq] at h
    subst h
    exact ⟨hwf, hi⟩
  | cons expr rest ih =>
    unfold handleAll at h
    cases h1 : handle F D expr st with
    | none => rw [h1] at h; exact absurd h (by simp)
    | some st1 =>
      rw [h1] at h
      simp only at h
      obtain ⟨w1, i1⟩ := handle_wf_hoist F D expr st st1 hwf hi h1
      exact ih st1 w1 i1 h

theorem handleAll_append (F : Fusion) (D : Domains) (l1 l2 : List Expr) (st : Gen) :
    handleAll F D (l1 ++ l2) st = (handleAll F D l1 st).bind (handleAll F D l2) := by
  induction l1 generalizing st with
  | nil => rfl
  | cons e rest ih =>
    simp only [List.cons_append, handleAll]
    cases handle F D e st with
    | none => rfl
    | some st1 => exact ih st1

theorem insertDynamicSmem_eq (q lowered : List KirExpr) :
    insertDynamicSmem q lowered = q.reverse ++ lowered := by
  induction q generalizing lowered with
  | nil => rfl
  | cons a rest ih =>
    simp only [insertDynamicSmem, insertAt_zero, ih, List.reverse_cons, List.append_assoc,
      List.singleton_append]

theorem openFor_total (D : Domains) (st : Gen) (id : IterDomain) (hwf : WF st) :
    ∃ st', openFor D st id = some st' := by
  unfold openFor
  cases hb : st.for_loops_.getLast? with
  | none => exact ⟨_, rfl⟩
  | some back =>
    simp only [openForHelper, bodyPushBack]
    have hbm : back ∈ st.for_loops_ := List.mem_of_getLast?_eq_some hb
    obtain ⟨fl, hfl⟩ := lookup_of_mem_keys st.loops back (hwf.open_exist back hbm)
    rw [lookup_append_left _ _ _ _ hfl]
    exact ⟨_, rfl⟩

theorem openAll_total (D : Domains) (ids : List IterDomain) (st : Gen) (hwf : WF st) :
    ∃ st', openAll D ids st = some st' := by
  induction ids generalizing st with
  | nil => exact ⟨st, rfl⟩
  | cons id rest ih =>
    obtain ⟨st1, h1⟩ := openFor_total D st id hwf
    unfold openAll
    rw [h1]
    exact ih st1 (openFor_wf D st id st1 hwf h1)

theorem handleAll_singleton (F : Fusion) (D : Domains) (e : Expr) (st : Gen) :
    handleAll F D [e] st = handle F D e st := by
  unfold handleAll
  cases handle F D e st <;> rfl

/-- An operation handled queues at most one allocation, in front of those queued before. -/
theorem handle_queue (F : Fusion) (D : Domains) (expr : Expr) (st st' : Gen) (hwf : WF st)
    (h : handle F D expr st = some st') :
    st'.dynamic_smem_ = st.dynamic_smem_ ∨
      ∃ a, st.created ≤ a.id ∧ st'.dynamic_smem_ = a :: st.dynamic_smem_ := by
  by_cases htv : F.isTVOp expr = true
  · obtain ⟨out, st1, st2, st3, _, h1, h2, h3, h4⟩ := handle_tv_steps F D expr st st' htv h
    obtain ⟨a1, a2, a3, a4⟩ := syncStep_frame F expr st st1 h1
    have w1 : WF st1 := wf_of_keys st st1 hwf a1 a2 (by rw [a4]; exact fun _ hl => hl)
    have hopen : WF st2 ∧ st2.dynamic_smem_ = st1.dynamic_smem_ ∧ st1.created ≤ st2.created := by
      unfold openStep at h2
      cases hls : loopStructure F D out with
      | none => rw [hls] at h2; exact absurd h2 (by simp)
      | some loop_structure =>
        rw [hls] at h2
        simp only at h2
        obtain ⟨_, b2, b3, b4, _⟩ := openAll_spec D _ st1 st2 w1 h2
        exact ⟨b2, b3, b4⟩
    obtain ⟨w2, b3, b4⟩ := hopen
    obtain ⟨_, _, _, _, _, c5, _, _⟩ := closeStep_spec F D out st3 st' h4
    have hplace : st3.dynamic_smem_ = st2.dynamic_smem_ ∨
        ∃ a, st2.created ≤ a.id ∧ st3.dynamic_smem_ = a :: st2.dynamic_smem_ := by
      unfold placeStep at h3
      cases ha : (if (!D.hasInput out && !D.hasOutput out) = true then pushAlloc F D st2 out
          else some (none, st2)) with
      | none => rw [ha] at h3; exact absurd h3 (by simp)
      | some r =>
        obtain ⟨alloc_expr, sa⟩ := r
        rw [ha] at h3
        simp only at h3
        have hsa : WF sa ∧ (sa.dynamic_smem_ = st2.dynamic_smem_ ∨
            ∃ a, st2.created ≤ a.id ∧ sa.dynamic_smem_ = a :: st2.dynamic_smem_) := by
          by_cases hio : (!D.hasInput out && !D.hasOutput out) = true
          · rw [if_pos hio] at ha
            obtain ⟨p1, p2, p3, _, p5⟩ := pushAlloc_frame F D st2 out alloc_expr sa ha
            refine ⟨wf_of_keys st2 sa w2 p1 (by omega) (by rw [p3]; exact fun _ hl => hl), ?_⟩
            rcases p5 with p5 | ⟨a, hid, p5⟩
            · exact Or.inl p5
            · exact Or.inr ⟨a, by omega, p5⟩
          · rw [if_neg hio] at ha
            simp only [Option.some.injEq, Prod.mk.injEq] at ha
            rw [← ha.2]
            exact ⟨w2, Or.inl rfl⟩
        obtain ⟨wa, hq⟩ := hsa
        cases hb : (if D.hasReduction out = true then
            initReduction D sa out (D.init expr) alloc_expr else some sa) with
        | none => rw [hb] at h3; exact absurd h3 (by simp)
        | some sb =>
          rw [hb] at h3
          simp only at h3
          have hsb : sb.dynamic_smem_ = sa.dynamic_smem_ := by
            by_cases hred : D.hasReduction out = true
            · rw [if_pos hred] at hb
              exact (initReduction_frame D sa out _ alloc_expr sb wa hb).2.2.1
            · rw [if_neg hred] at hb
              simp only [Option.some.injEq] at hb
              rw [← hb]
          cases hc : pushBack { sb with created := sb.created + 1 }
              (KirExpr.Lowered sb.created expr) with
          | none => rw [hc] at h3; exact absurd h3 (by simp)
          | some sc =>
            rw [hc] at h3
            simp only [Option.some.injEq] at h3
            subst h3
            obtain ⟨_, _, q3, _, _⟩ := pushNew_frame sb _ sc hc
            simp only
            rw [q3, hsb]
            exact hq
    rw [c5]
    rcases hplace with hp | ⟨a, ha, hp⟩
    · exact Or.inl (by rw [hp, b3, a3])
    · exact Or.inr ⟨a, by omega, by rw [hp, b3, a3]⟩
  · have htv' : F.isTVOp expr = false := by
      cases hv : F.isTVOp expr with
      | true => exact absurd hv htv
      | false => rfl
    unfold handle at h
    rw [htv'] at h
    simp only [Bool.not_false, if_true] at h
    cases h1 : scalarAllocs F (F.outputs expr) st with
    | none => rw [h1] at h; exact absurd h (by simp)
    | some st1 =>
      rw [h1] at h
      simp only at h
      obtain ⟨_, _, a3, _, _⟩ := scalarAllocs_frame F _ st st1 h1
      obtain ⟨_, _, b3, _, _⟩ := pushNew_frame st1 _ st' h
      exact Or.inl (by rw [b3, a3])

/-! ### The claims on `handle` and `generate` -/

/-- C14: when `generate` returns, the top-level list is the queued allocations followed by
the list as the handling of the operations left it, and the queued allocations stand there
from the one queued first to the one queued last. Every operation handled queues at most one
allocation, in front of those queued before (`push_front`), and the last loop of `generate`
inserts the queue from front to back, each at the begin of the list; the identity of a node
is the number of nodes created before it, and the identities of the hoisted allocations
increase along the top-level list. -/
theorem generate_hoists_in_order (F : Fusion) (D : Domains) (fuel : Nat) (exprs : List Expr)
    (st' : Gen) (h : generate F D fuel exprs = some st') :
    ∃ st, handled F D fuel exprs = some st ∧
      st'.lowered_exprs_ = st.dynamic_smem_.reverse ++ st.lowered_exprs_ ∧
      st'.dynamic_smem_ = st.dynamic_smem_ ∧
      (st.dynamic_smem_.reverse.map KirExpr.id).Pairwise (fun a b => a < b) ∧
      ∀ ops expr st1 st2, handleAll F D ops (initialGen F) = some st1 →
        handle F D expr st1 = some st2 →
        st2.dynamic_smem_ = st1.dynamic_smem_ ∨
          ∃ a, st1.created ≤ a.id ∧ st2.dynamic_smem_ = a :: st1.dynamic_smem_ := by
  unfold generate at h
  cases hh : handled F D fuel exprs with
  | none => rw [hh] at h; exact absurd h (by simp)
  | some st =>
    rw [hh] at h
    simp only [Option.some.injEq] at h
    subst h
    refine ⟨st, rfl, insertDynamicSmem_eq _ _, rfl, ?_, ?_⟩
    · unfold handled at hh
      cases hr : reorderExprsForComputeAt F fuel exprs with
      | none => rw [hr] at hh; exact absurd hh (by simp)
      | some reordered =>
        rw [hr] at hh
        simp only at hh
        obtain ⟨_, hi⟩ := handleAll_wf_hoist F D reordered _ st (wf_initialGen F)
          (hoistInv_initialGen F) hh
        rw [List.map_reverse, List.pairwise_reverse]
        exact hi.ordered
    · intro ops expr st1 st2 h1 h2
      obtain ⟨w1, _⟩ := handleAll_wf_hoist F D ops _ st1 (wf_initialGen F)
        (hoistInv_initialGen F) h1
      exact handle_queue F D expr st1 st2 w1 h2

/-- C14, witness on scenario E: handling the expressions 5, 6, 7 queues the allocation of
tensor 25 and then that of tensor 26; they are the first two statements of the top-level
list, in this order. -/
theorem generate_hoists_in_order_witness :
    generate scenarioE domainsE 10 [5, 6, 7] = some scenarioEGenerated567 ∧
    handled scenarioE domainsE 10 [5, 6, 7] = some scenarioEHandled567 ∧
    scenarioEGenerated567.lowered_exprs_ =
      [KirExpr.Allocate 1 25 MemoryType.Shared (KirVal.Lowered 1250),
       KirExpr.Allocate 5 26 MemoryType.Shared (KirVal.Lowered 1260)] ++
        scenarioEHandled567.lowered_exprs_ := by
  have h : generate scenarioE domainsE 10 [5, 6, 7] = some scenarioEGenerated567 := by decide
  have hh : handled scenarioE domainsE 10 [5, 6, 7] = some scenarioEHandled567 := by decide
  obtain ⟨st, h1, h2, _⟩ := generate_hoists_in_order scenarioE domainsE 10 [5, 6, 7] _ h
  rw [hh] at h1
  simp only [Option.some.injEq] at h1
  subst h1
  exact ⟨h, hh, h2⟩

/-- The loop-opening step closes no loop. In a state the generator reaches by handling
operations from the initial state, followed by the barrier step of `handle`, the step for
the output `out` returns whenever the loop structure is computed, and the open loops after
it are the loops open before it followed by loops over the axes that the pass over the open
loops left in `loops_to_open`, in order; they are over exactly the axes of the loop structure
when the loops open before the step are over its first axes. -/
theorem openStep_stack (F : Fusion) (D : Domains) (ops : List Expr) (expr : Expr)
    (out : TensorView) (st0 st : Gen) (loop_structure : List IterDomain)
    (hreach : handleAll F D ops (initialGen F) = some st0)
    (hsync : syncStep F expr st0 = some st)
    (hls : loopStructure F D out = some loop_structure) :
    ∃ st', openStep F D out st = some st' ∧
      openDomains st' = openDomains st ++ popOpened (openDomains st) loop_structure ∧
      (∀ more, loop_structure = openDomains st ++ more → openDomains st' = loop_structure) := by
  obtain ⟨w0, i0⟩ :=
    handleAll_wf_hoist F D ops _ st0 (wf_initialGen F) (hoistInv_initialGen F) hreach
  obtain ⟨w1, _, _⟩ := syncStep_inv F expr st0 st w0 i0 hsync
  obtain ⟨st', h⟩ := openAll_total D (popOpened (openDomains st) loop_structure) st w1
  have hopen : openStep F D out st = some st' := by
    unfold openStep
    rw [hls]
    exact h
  obtain ⟨h1, _⟩ := openAll_spec D _ st st' w1 h
  refine ⟨st', hopen, h1, ?_⟩
  intro more hm
  rw [h1, hm, popOpened_append]

/-- The open loops when `generate` returns are those the last operation handled left open:
`generate` closes no loop after the loop over the operations. None is open when no operation
was handled or when the last operation handled is a tensor operation whose output has
compute-at position 0; after a tensor operation whose output has another compute-at
position, either none is open or the innermost open loop is over the compute-at axis of the
output at that position less one. -/
theorem generate_closed_after_root (F : Fusion) (D : Domains) (fuel : Nat)
    (exprs : List Expr) (st' : Gen) (h : generate F D fuel exprs = some st') :
    ∃ reordered, reorderExprsForComputeAt F fuel exprs = some reordered ∧
      (reordered = [] → st'.for_loops_ = []) ∧
      (∀ e out, reordered.getLast? = some e → F.isTVOp e = true →
        (F.outputs e).head? = some out →
        (F.getThisComputeAtAxis out = 0 → st'.for_loops_ = []) ∧
        (st'.for_loops_ = [] ∨
          backDomain st' =
            some (D.getComputeAtAxis out (F.getThisComputeAtAxis out - 1)).1)) := by
  unfold generate at h
  cases hh : handled F D fuel exprs with
  | none => rw [hh] at h; exact absurd h (by simp)
  | some st =>
    rw [hh] at h
    simp only [Option.some.injEq] at h
    subst h
    unfold handled at hh
    cases hr : reorderExprsForComputeAt F fuel exprs with
    | none => rw [hr] at hh; exact absurd hh (by simp)
    | some reordered =>
      rw [hr] at hh
      simp only at hh
      refine ⟨reordered, rfl, ?_, ?_⟩
      · intro he
        rw [he] at hh
        simp only [handleAll, Option.some.injEq] at hh
        rw [← hh]
        rfl
      · intro e out hlast htv hout
        obtain ⟨front, hfront⟩ : ∃ front, reordered = front ++ [e] := by
          rcases List.eq_nil_or_concat reordered with hnil | ⟨front, b, hb⟩
          · rw [hnil] at hlast
            exact absurd hlast (by simp)
          · rw [hb, List.concat_eq_append, List.getLast?_append] at hlast
            simp only [List.getLast?_singleton] at hlast
            have hbe : some b = some e := hlast
            simp only [Option.some.injEq] at hbe
            exact ⟨front, by rw [hb, List.concat_eq_append, hbe]⟩
        rw [hfront, handleAll_append] at hh
        cases hm : handleAll F D front (initialGen F) with
        | none => rw [hm] at hh; exact absurd hh (by simp)
        | some stm =>
          rw [hm, Option.some_bind, handleAll_singleton] at hh
          cases hl : handle F D e stm with
          | none => rw [hl] at hh; exact absurd hh (by simp)
          | some stl =>
            rw [hl] at hh
            simp only [Option.some.injEq] at hh
            subst hh
            obtain ⟨out', _, _, st3, ho, _, _, _, hc⟩ := handle_tv_steps F D e stm stl htv hl
            rw [hout] at ho
            simp only [Option.some.injEq] at ho
            subst ho
            obtain ⟨c1, c2, _⟩ := closeStep_spec F D out st3 stl hc
            exact ⟨c1, c2⟩

/-! ### The size of an allocation, and operations that are not tensor operations -/

theorem allocAxes_sorted (F : Fusion) (D : Domains) (tv : TensorView) (alloc_pos : Nat) :
    (allocAxes F D tv alloc_pos).Pairwise (fun i j => i < j) := by
  unfold allocAxes
  exact List.Pairwise.filter _ (List.pairwise_lt_range _)

/-- C26: the allocation `pushAlloc` creates for `tv` (returned, or queued in front of
`dynamic_smem_`) has the literal 1 for size when the loop over the axes keeps no axis;
otherwise its size is the extent of the first kept axis multiplied, from left to right, by
the extents of the other kept axes, the kept axes being taken in ascending order of their
index. -/
theorem pushAlloc_size_product (F : Fusion) (D : Domains) (st : Gen) (tv : TensorView)
    (r : Option KirExpr) (st' : Gen) (h : pushAlloc F D st tv = some (r, st')) :
    ∃ size,
      (r = some (KirExpr.Allocate st.created tv (F.getMemoryType tv) size) ∨
        (r = none ∧ st'.dynamic_smem_.head? =
          some (KirExpr.Allocate st.created tv (F.getMemoryType tv) size))) ∧
      (allocAxes F D tv (D.getAllocPoint tv (openLoops st)).2 = [] →
        size = KirVal.Int (some 1)) ∧
      (∀ first rest, allocAxes F D tv (D.getAllocPoint tv (openLoops st)).2 = first :: rest →
        size = rest.foldl
          (fun product i =>
            KirVal.Mul product (KirVal.Lowered (D.rawExtent (D.getComputeAtAxis tv i).1)))
          (KirVal.Lowered (D.rawExtent (D.getComputeAtAxis tv first).1))) ∧
      (allocAxes F D tv (D.getAllocPoint tv (openLoops st)).2).Pairwise (fun i j => i < j) ∧
      factors size = (allocAxes F D tv (D.getAllocPoint tv (openLoops st)).2).map
        (fun i => D.rawExtent (D.getComputeAtAxis tv i).1) := by
  refine ⟨allocSize (allocDims F D tv (D.getAllocPoint tv (openLoops st)).2), ?_, ?_, ?_,
    allocAxes_sorted F D tv _, ?_⟩
  · rcases pushAlloc_cases F D st tv r st' h with ⟨_, hr, hq, _⟩ | ⟨_, hr, _⟩
    · exact Or.inr ⟨hr, by rw [hq]; rfl⟩
    · exact Or.inl hr
  · intro hnil
    unfold allocDims
    rw [hnil]
    rfl
  · intro first rest hc
    unfold allocDims
    rw [hc]
    simp only [List.map_cons, allocSize, List.foldl_map]
  · rw [factors_allocSize]
    rfl

/-- C26, witness on scenario A: the three axes of `p` lie before its allocation position 3,
none is kept, and the allocation placed in the innermost loop has size 1. -/
theorem pushAlloc_size_product_witness :
    openStep scenarioA domainsA 30 (initialGen scenarioA) = some scenarioAOpen ∧
    pushAlloc scenarioA domainsA scenarioAOpen 30 =
      some (some (KirExpr.Allocate 3 30 MemoryType.Local (KirVal.Int (some 1))),
        scenarioAAlloc) ∧
    allocAxes scenarioA domainsA 30 3 = [] ∧
    ∃ size,
      (some (KirExpr.Allocate 3 30 MemoryType.Local (KirVal.Int (some 1))) =
          some (KirExpr.Allocate 3 30 MemoryType.Local size) ∨
        ((some (KirExpr.Allocate 3 30 MemoryType.Local (KirVal.Int (some 1))) = none) ∧
          scenarioAAlloc.dynamic_smem_.head? =
            some (KirExpr.Allocate 3 30 MemoryType.Local size))) ∧
      size = KirVal.Int (some 1) := by
  have h : pushAlloc scenarioA domainsA scenarioAOpen 30 =
      some (some (KirExpr.Allocate 3 30 MemoryType.Local (KirVal.Int (some 1))),
        scenarioAAlloc) := by decide
  have hnil : allocAxes scenarioA domainsA 30 3 = [] := by decide
  obtain ⟨size, hr, h1, _⟩ := pushAlloc_size_product scenarioA domainsA _ 30 _ _ h
  exact ⟨by decide, h, hnil, size, hr, h1 hnil⟩

/-- What `pushBack` does to the scopes. -/
theorem pushBack_spec (st : Gen) (e : KirExpr) (st' : Gen) (h : pushBack st e = some st') :
    innermostScope st' = innermostScope st ++ [e] ∧
      (∀ j, st.for_loops_.getLast? ≠ some j → lookup st'.loops j = lookup st.loops j) ∧
      (st.for_loops_ ≠ [] → st'.lowered_exprs_ = st.lowered_exprs_) ∧
      st'.for_loops_ = st.for_loops_ ∧ st'.smem_ = st.smem_ ∧
      st'.dynamic_smem_ = st.dynamic_smem_ ∧ st'.created = st.created ∧
      st'.for_loop_allocations_ = st.for_loop_allocations_ ∧
      st'.lowered_exprs_allocations_ = st.lowered_exprs_allocations_ := by
  unfold pushBack at h
  unfold innermostScope
  cases hb : st.for_loops_.getLast? with
  | none =>
    rw [hb] at h
    simp only [Option.some.injEq] at h
    subst h
    refine ⟨?_, fun _ _ => rfl, fun hne => ?_, rfl, rfl, rfl, rfl, rfl, rfl⟩
    · simp only [hb, scopeOf]
    · exact absurd (List.getLast?_eq_none_iff.1 hb) hne
  | some back =>
    rw [hb] at h
    simp only at h
    unfold bodyPushBack at h
    cases hfl : lookup st.loops back with
    | none =>
      rw [hfl] at h
      exact absurd h (by simp)
    | some fl =>
      rw [hfl] at h
      simp only [Option.some.injEq] at h
      subst h
      refine ⟨?_, ?_, fun _ => rfl, rfl, rfl, rfl, rfl, rfl, rfl⟩
      · simp only [hb, scopeOf, hfl]
        rw [lookup_setKey_self _ _ _ _ hfl]
      · intro j hj
        simp only
        rw [lookup_setKey, if_neg (fun e => hj (by rw [e]))]

theorem pushBack_total (st : Gen) (e : KirExpr) (hwf : WF st) :
    ∃ st', pushBack st e = some st' := by
  unfold pushBack
  cases hb : st.for_loops_.getLast? with
  | none => exact ⟨_, rfl⟩
  | some back =>
    simp only
    unfold bodyPushBack
    obtain ⟨fl, hfl⟩ := lookup_of_mem_keys st.loops back
      (hwf.open_exist back (List.mem_of_getLast?_eq_some hb))
    rw [hfl]
    exact ⟨_, rfl⟩

theorem wf_bump (st : Gen) (hwf : WF st) : WF { st with created := st.created + 1 } :=
  ⟨fun p hp => Nat.lt_succ_of_lt (hwf.fresh p hp), hwf.open_exist⟩

theorem innermostScope_bump (st : Gen) :
    innermostScope { st with created := st.created + 1 } = innermostScope st := rfl

/-- What the loop over the outputs of an expression that is not a tensor operation does. -/
theorem scalarAllocs_spec (F : Fusion) (outs : List Val) (st st' : Gen)
    (h : scalarAllocs F outs st = some st') :
    (∀ out ∈ outs, F.getValType out = ValType.Scalar) ∧
      innermostScope st' = innermostScope st ++ scalarAllocations st.created outs ∧
      (∀ j, st.for_loops_.getLast? ≠ some j → lookup st'.loops j = lookup st.loops j) ∧
      (st.for_loops_ ≠ [] → st'.lowered_exprs_ = st.lowered_exprs_) ∧
      st'.for_loops_ = st.for_loops_ ∧ st'.smem_ = st.smem_ ∧
      st'.dynamic_smem_ = st.dynamic_smem_ ∧ st'.created = st.created + outs.length := by
  induction outs generalizing st with
  | nil =>
    simp only [scalarAllocs, Option.some.injEq] at h
    subst h
    exact ⟨fun _ ho => absurd ho (by simp), by simp [scalarAllocations], fun _ _ => rfl,
      fun _ => rfl, rfl, rfl, rfl, rfl⟩
  | cons out rest ih =>
    unfold scalarAllocs at h
    by_cases hs : F.getValType out = ValType.Scalar
    · rw [if_pos hs] at h
      cases hp : pushBack { st with created := st.created + 1 }
          (KirExpr.Allocate st.created out MemoryType.Local (KirVal.Int (some 1))) with
      | none =>
        rw [hp] at h
        exact absurd h (by simp)
      | some st1 =>
        rw [hp] at h
        simp only at h
        obtain ⟨a1, a2, a3, a4, a5, a6, a7, _, _⟩ := pushBack_spec _ _ st1 hp
        obtain ⟨b1, b2, b3, b4, b5, b6, b7, b8⟩ := ih st1 h
        rw [innermostScope_bump] at a1
        simp only at a2 a3 a4 a5 a6 a7
        refine ⟨?_, ?_, ?_, ?_, by rw [b5, a4], by rw [b6, a5], by rw [b7, a6], ?_⟩
        · intro o ho
          rcases List.mem_cons.1 ho with ho | ho
          · rw [ho]
            exact hs
          · exact b1 o ho
        · rw [b2, a1, a7]
          simp [scalarAllocations, List.enumFrom]
        · intro j hj
          rw [b3 j (by rw [a4]; exact hj), a2 j hj]
        · intro hne
          rw [b4 (by rw [a4]; exact hne), a3 hne]
        · rw [b8, a7]
          simp only [List.length_cons]
          omega
    · rw [if_neg hs] at h
      exact absurd h (by simp)

theorem scalarAllocs_total (F : Fusion) (outs : List Val) (st : Gen) (hwf : WF st)
    (hs : ∀ out ∈ outs, F.getValType out = ValType.Scalar) :
    ∃ st', scalarAllocs F outs st = some st' ∧ WF st' := by
  induction outs generalizing st with
  | nil => exact ⟨st, rfl, hwf⟩
  | cons out rest ih =>
    unfold scalarAllocs
    rw [if_pos (hs out (by simp))]
    obtain ⟨st1, h1⟩ := pushBack_total { st with created := st.created + 1 }
      (KirExpr.Allocate st.created out MemoryType.Local (KirVal.Int (some 1))) (wf_bump st hwf)
    rw [h1]
    simp only
    obtain ⟨a1, a2, _, a4, _⟩ := pushNew_frame st _ st1 h1
    exact ih st1 (wf_of_keys st st1 hwf a1 (by omega) (by rw [a4]; exact fun _ hl => hl))
      (fun o ho => hs o (by simp [ho]))

/-- C25: for an expression that is not a tensor operation, in a state in which every open
loop is in the table of loops, `handle` returns exactly when every output is a scalar (the
assertion of the loop over the outputs). When it returns, the innermost open scope (the body
of the last open loop, the top-level list when no loop is open) has received at its end one
allocation of size 1 in Local memory per output, in the order of the outputs, and then the
lowered expression; every other scope is as it was, and so are the stack of open loops, the
flags of `smem_` and the queue of hoisted allocations. -/
theorem handle_scalar_operation (F : Fusion) (D : Domains) (expr : Expr) (st : Gen)
    (hntv : F.isTVOp expr = false) (hwf : WF st) :
    ((∃ st', handle F D expr st = some st') ↔
      ∀ out ∈ F.outputs expr, F.getValType out = ValType.Scalar) ∧
    ∀ st', handle F D expr st = some st' →
      innermostScope st' =
        innermostScope st ++ scalarAllocations st.created (F.outputs expr) ++
          [KirExpr.Lowered (st.created + (F.outputs expr).length) expr] ∧
      (∀ j, st.for_loops_.getLast? ≠ some j → lookup st'.loops j = lookup st.loops j) ∧
      (st.for_loops_ ≠ [] → st'.lowered_exprs_ = st.lowered_exprs_) ∧
      st'.for_loops_ = st.for_loops_ ∧ st'.smem_ = st.smem_ ∧
      st'.dynamic_smem_ = st.dynamic_smem_ := by
  have hunf : handle F D expr st =
      match scalarAllocs F (F.outputs expr) st with
      | none => none
      | some st1 =>
          pushBack { st1 with created := st1.created + 1 } (KirExpr.Lowered st1.created expr) := by
    unfold handle
    rw [hntv]
    rfl
  constructor
  · constructor
    · rintro ⟨st', h⟩
      rw [hunf] at h
      cases h1 : scalarAllocs F (F.outputs expr) st with
      | none => rw [h1] at h; exact absurd h (by simp)
      | some st1 => exact (scalarAllocs_spec F _ st st1 h1).1
    · intro hs
      obtain ⟨st1, h1, w1⟩ := scalarAllocs_total F _ st hwf hs
      rw [hunf, h1]
      exact pushBack_total _ _ (wf_bump st1 w1)
  · intro st' h
    rw [hunf] at h
    cases h1 : scalarAllocs F (F.outputs expr) st with
    | none => rw [h1] at h; exact absurd h (by simp)
    | some st1 =>
      rw [h1] at h
      simp only at h
      obtain ⟨_, a2, a3, a4, a5, a6, a7, a8⟩ := scalarAllocs_spec F _ st st1 h1
      obtain ⟨b1, b2, b3, b4, b5, b6, _⟩ := pushBack_spec _ _ st' h
      rw [innermostScope_bump] at b1
      simp only at b2 b3 b4 b5 b6
      refine ⟨by rw [b1, a2, a8], ?_, ?_, by rw [b4, a5], by rw [b5, a6], by rw [b6, a7]⟩
      · intro j hj
        rw [b2 j (by rw [a5]; exact hj), a3 j hj]
      · intro hne
        rw [b3 (by rw [a5]; exact hne), a4 hne]

/-- C25, witness: in scenario E, with the loop over axis 240 open after expression 0, the
scalar operation 1 of scenario P is handled; the allocation of its output 50 and the
expression are appended to the body of the open loop. -/
theorem handle_scalar_operation_witness :
    scenarioP.isTVOp 1 = false ∧
    innermostScope scenarioEAfter0 =
      [KirExpr.Allocate 2 20 MemoryType.Global (KirVal.Lowered 1201), KirExpr.ForLoop 1] ∧
    ∃ st', handle scenarioP domainsE 1 scenarioEAfter0 = some st' ∧
      innermostScope st' =
        [KirExpr.Allocate 2 20 MemoryType.Global (KirVal.Lowered 1201), KirExpr.ForLoop 1,
         KirExpr.Allocate 4 50 MemoryType.Local (KirVal.Int (some 1)), KirExpr.Lowered 5 1] ∧
      st'.for_loops_ = [0] ∧ st'.smem_ = scenarioEAfter0.smem_ := by
  have hwf : WF scenarioEAfter0 := ⟨by decide, by decide⟩
  have hth := handle_scalar_operation scenarioP domainsE 1 scenarioEAfter0 (by decide) hwf
  obtain ⟨st', h⟩ := hth.1.2 (by decide)
  obtain ⟨h1, _, _, h4, h5, _⟩ := hth.2 st' h
  exact ⟨by decide, by decide, st', h, h1, h4, h5⟩

/-! ### The loops the closing step closes -/

/-- The loops a closing loop closes: each of them was the innermost one of a state in which
the loop did not stop. -/
theorem closeLoop_closed (stop : Gen → Bool) (n : Nat) (st st' : Gen)
    (h : closeLoop stop n st = some st') :
    ∃ closed, st.for_loops_ = st'.for_loops_ ++ closed ∧
      ∀ pre c post, closed = pre ++ c :: post →
        stop { st with for_loops_ := st'.for_loops_ ++ pre ++ [c] } = false := by
  induction n generalizing st with
  | zero =>
    unfold closeLoop at h
    by_cases hc : (st.for_loops_.isEmpty || stop st) = true
    · rw [if_pos hc] at h
      simp only [Option.some.injEq] at h
      subst h
      exact ⟨[], by simp, by intro pre c post hp; simp at hp⟩
    · rw [if_neg hc] at h
      exact absurd h (by simp)
  | succ n ih =>
    unfold closeLoop at h
    by_cases hc : (st.for_loops_.isEmpty || stop st) = true
    · rw [if_pos hc] at h
      simp only [Option.some.injEq] at h
      subst h
      exact ⟨[], by simp, by intro pre c post hp; simp at hp⟩
    · rw [if_neg hc] at h
      unfold closeFor at h
      by_cases he : st.for_loops_.isEmpty = true
      · rw [if_pos he] at h
        exact absurd h (by simp)
      · rw [if_neg he] at h
        simp only at h
        obtain ⟨closed, h1, h2⟩ := ih _ h
        simp only at h1 h2
        have hne : st.for_loops_ ≠ [] := by
          intro hnil
          exact he (by rw [hnil]; rfl)
        obtain ⟨b, hb⟩ : ∃ b, st.for_loops_.getLast? = some b := by
          cases hl : st.for_loops_.getLast? with
          | none => exact absurd (List.getLast?_eq_none_iff.1 hl) hne
          | some b => exact ⟨b, rfl⟩
        have hsplit : st.for_loops_ = st.for_loops_.dropLast ++ [b] :=
          (List.dropLast_append_getLast? b hb).symm
        refine ⟨closed ++ [b], ?_, ?_⟩
        · rw [← List.append_assoc, ← h1]
          exact hsplit
        · intro pre c post hp
          rcases List.eq_nil_or_concat post with rfl | ⟨post2, w, rfl⟩
          · have hp2 : closed ++ [b] = pre ++ [c] := hp
            have h3 := List.append_inj' hp2 rfl
            have hst : ({ st with for_loops_ := st'.for_loops_ ++ pre ++ [c] } : Gen) = st := by
              have : st'.for_loops_ ++ pre ++ [c] = st.for_loops_ := by
                rw [← h3.1, ← List.singleton_inj.1 h3.2, ← h1]
                exact hsplit.symm
              rw [this]
            rw [hst]
            cases hs : stop st with
            | false => rfl
            | true => exact absurd (by rw [hs]; simp) hc
          · have hp2 : closed ++ [b] = (pre ++ c :: post2) ++ [w] := by
              rw [hp]; simp
            have h3 := List.append_inj' hp2 rfl
            exact h2 pre c post2 h3.1
theorem backDomain_concat (st : Gen) (pre : List Nat) (c : Nat) :
    backDomain { st with for_loops_ := pre ++ [c] } = domainOf st c := by
  simp [backDomain, domainOf]

/-- C31: when `handle` has processed a tensor operation with output `out`, the loops open
after the statement was placed are the loops left open followed by the loops closed. With
commit position 0 no loop is left open. With a commit position above 0, no closed loop is
bound to the compute-at axis before the position, and the innermost loop left open is bound
to it, unless no loop is left open, which is the case exactly when no loop that was open is
bound to that axis. Closing changes no loop and no list of statements. -/
theorem handle_closes_to_commit (F : Fusion) (D : Domains) (expr : Expr) (st st' : Gen)
    (htv : F.isTVOp expr = true) (h : handle F D expr st = some st') :
    ∃ out st1 st2 st3 closed,
      (F.outputs expr).head? = some out ∧ syncStep F expr st = some st1 ∧
      openStep F D out st1 = some st2 ∧ placeStep F D expr out st2 = some st3 ∧
      st3.for_loops_ = st'.for_loops_ ++ closed ∧
      st'.loops = st3.loops ∧ st'.lowered_exprs_ = st3.lowered_exprs_ ∧
      (F.getThisComputeAtAxis out = 0 → st'.for_loops_ = []) ∧
      (0 < F.getThisComputeAtAxis out →
        (∀ c ∈ closed, domainOf st3 c ≠
          some (D.getComputeAtAxis out (F.getThisComputeAtAxis out - 1)).1) ∧
        (st'.for_loops_ = [] ∨
          backDomain st' = some (D.getComputeAtAxis out (F.getThisComputeAtAxis out - 1)).1) ∧
        (st'.for_loops_ = [] ↔ ∀ l ∈ st3.for_loops_, domainOf st3 l ≠
          some (D.getComputeAtAxis out (F.getThisComputeAtAxis out - 1)).1)) := by
  obtain ⟨out, st1, st2, st3, ho, h1, h2, h3, h4⟩ := handle_tv_steps F D expr st st' htv h
  obtain ⟨hzero, hback, -, hloops, -, -, hlow, -⟩ := closeStep_spec F D out st3 st' h4
  have hclosed : ∃ closed, st3.for_loops_ = st'.for_loops_ ++ closed ∧
      (0 < F.getThisComputeAtAxis out → ∀ c ∈ closed, domainOf st3 c ≠
        some (D.getComputeAtAxis out (F.getThisComputeAtAxis out - 1)).1) := by
    unfold closeStep at h4
    by_cases hz : F.getThisComputeAtAxis out = 0
    · rw [if_pos hz] at h4
      obtain ⟨closed, hc1, -⟩ := closeLoop_closed _ _ _ _ h4
      exact ⟨closed, hc1, fun hpos => absurd hz (by omega)⟩
    · rw [if_neg hz] at h4
      simp only at h4
      obtain ⟨closed, hc1, hc2⟩ := closeLoop_closed _ _ _ _ h4
      refine ⟨closed, hc1, fun _ c hc => ?_⟩
      obtain ⟨pre, post, hsplit⟩ := List.append_of_mem hc
      have := hc2 pre c post hsplit
      simp only [decide_eq_false_iff_not] at this
      rw [backDomain_concat st3 (st'.for_loops_ ++ pre) c] at this
      exact this
  obtain ⟨closed, hc1, hc2⟩ := hclosed
  refine ⟨out, st1, st2, st3, closed, ho, h1, h2, h3, hc1, hloops, hlow, hzero, ?_⟩
  intro hpos
  refine ⟨hc2 hpos, hback, ?_⟩
  constructor
  · intro he l hl
    rw [hc1, he, List.nil_append] at hl
    exact hc2 hpos l hl
  · intro hall
    rcases hback with hb | hb
    · exact hb
    · unfold backDomain at hb
      cases hl : st'.for_loops_.getLast? with
      | none => exact List.getLast?_eq_none_iff.1 hl
      | some b =>
        rw [hl] at hb
        simp only at hb
        have hsp := List.dropLast_append_getLast? b hl
        have hmem : b ∈ st3.for_loops_ := by
          rw [hc1, ← hsp]
          simp
        have := hall b hmem
        unfold domainOf at this
        rw [← hloops] at this
        exact absurd hb this

/-- C31, witness: expression 0 of scenario E, whose output, tensor 20, has commit position 1:
loop 0 over axis 240 is left open, loop 1 over axis 201 is closed. -/
theorem handle_closes_to_commit_witness :
    handle scenarioE domainsE 0 (initialGen scenarioE) = some scenarioEAfter0 ∧
      scenarioEAfter0.for_loops_ = [0] ∧ backDomain scenarioEAfter0 = some 240 ∧
      ∃ out st1 st2 st3 closed,
        (scenarioE.outputs 0).head? = some out ∧
        syncStep scenarioE 0 (initialGen scenarioE) = some st1 ∧
        openStep scenarioE domainsE out st1 = some st2 ∧
        placeStep scenarioE domainsE 0 out st2 = some st3 ∧
        st3.for_loops_ = scenarioEAfter0.for_loops_ ++ closed := by
  have h : handle scenarioE domainsE 0 (initialGen scenarioE) = some scenarioEAfter0 := by
    decide
  obtain ⟨out, st1, st2, st3, closed, h1, h2, h3, h4, h5, -⟩ :=
    handle_closes_to_commit scenarioE domainsE 0 (initialGen scenarioE) scenarioEAfter0
      (by decide) h
  exact ⟨h, by decide, by decide, out, st1, st2, st3, closed, h1, h2, h3, h4, h5⟩

/-! ### The open loops when `generate` returns -/

/-- An operation that is not a tensor operation leaves the open loops as they are. -/
theorem handle_plain_loops (F : Fusion) (D : Domains) (e : Expr) (st st' : Gen)
    (htv : F.isTVOp e = false) (h : handle F D e st = some st') :
    st'.for_loops_ = st.for_loops_ := by
  unfold handle at h
  rw [htv] at h
  simp only [Bool.not_false, if_true] at h
  cases hs : scalarAllocs F (F.outputs e) st with
  | none => rw [hs] at h; cases h
  | some st1 =>
    rw [hs] at h
    simp only at h
    obtain ⟨_, _, _, _, h1, _⟩ := scalarAllocs_spec F (F.outputs e) st st1 hs
    obtain ⟨_, _, _, h2, _⟩ := pushBack_spec _ _ st' h
    rw [h2]
    exact h1

theorem handleAll_plain_loops (F : Fusion) (D : Domains) (l : List Expr) (st st' : Gen)
    (htv : ∀ e ∈ l, F.isTVOp e = false) (h : handleAll F D l st = some st') :
    st'.for_loops_ = st.for_loops_ := by
  induction l generalizing st with
  | nil =>
    simp only [handleAll, Option.some.injEq] at h
    rw [← h]
  | cons e rest ih =>
    simp only [handleAll] at h
    cases hh : handle F D e st with
    | none => rw [hh] at h; cases h
    | some st1 =>
      rw [hh] at h
      rw [ih st1 (fun x hx => htv x (List.mem_cons_of_mem _ hx)) h]
      exact handle_plain_loops F D e st st1 (htv e (List.mem_cons_self _ _)) hh

/-- C18: when `generate` returns on a list of operations that holds the definition of every
target without compute-at, no loop is open. The accessors of the IR are taken to agree with
each other on the operations of the list: a tensor without compute-at has the compute-at
position 0, the score of an operation whose output has a compute-at is an axis position
(below `UINT_MAX`), and the tensor operations are the operations whose sole output is a
tensor. The last operation handled is then an operation without compute-at on its output,
after which `handle` closes every loop; a list without tensor operation opens none. -/
theorem generate_ends_closed (F : Fusion) (D : Domains) (fuel : Nat) (exprs : List Expr)
    (st' : Gen) (h : generate F D fuel exprs = some st')
    (hcomplete : ∀ e ∈ exprs, ∀ t s, findTargetTensor F fuel e = some (some t, s) →
      F.hasComputeAt t = false → ∃ d ∈ exprs, findOutputTensor F d = some (some t))
    (hpos : ∀ e ∈ exprs, ∀ out ∈ F.outputs e, F.hasComputeAt out = true →
      ∀ t s, findTargetTensor F fuel e = some (t, s) → s < UINT_MAX)
    (hroot : ∀ e ∈ exprs, ∀ out ∈ F.outputs e, F.hasComputeAt out = false →
      F.getThisComputeAtAxis out = 0)
    (htv : ∀ e ∈ exprs, (F.isTVOp e = true ↔ ∃ out, findOutputTensor F e = some (some out))) :
    st'.for_loops_ = [] := by
  unfold generate at h
  cases hh : handled F D fuel exprs with
  | none => rw [hh] at h; exact absurd h (by simp)
  | some st =>
    rw [hh] at h
    simp only [Option.some.injEq] at h
    subst h
    unfold handled at hh
    cases hr : reorderExprsForComputeAt F fuel exprs with
    | none => rw [hr] at hh; exact absurd hh (by simp)
    | some reordered =>
      rw [hr] at hh
      simp only at hh
      show st.for_loops_ = []
      have hmem := reorder_mem F fuel exprs reordered hr
      rcases reorder_last F fuel exprs reordered hr with hplain | ⟨e, t, s, hlast, he, ht, hca, hmax⟩
      · have hnot : ∀ x ∈ reordered, F.isTVOp x = false := by
          intro x hx
          obtain ⟨s, hs⟩ := hplain x hx
          cases hb : F.isTVOp x with
          | false => rfl
          | true =>
            exfalso
            obtain ⟨out, hout⟩ := (htv x ((hmem x).1 hx)).1 hb
            rcases findTargetTensor_cases F fuel x none s hs with ⟨_, h1⟩ | ⟨_, _, _, _, h2⟩
            · rw [hout] at h1
              cases h1
            · cases h2
        rw [handleAll_plain_loops F D reordered _ st hnot hh]
        rfl
      · obtain ⟨d, hd, hdo⟩ := hcomplete e he t s ht hca
        have hds := findTargetTensor_root F fuel d t hdo hca
        have hle : UINT_MAX ≤ s := hmax d UINT_MAX hd hds
        rcases findTargetTensor_cases F fuel e (some t) s ht with ⟨h1, _⟩ |
          ⟨out, hout, hfo, _, _⟩
        · cases h1
        · have hoca : F.hasComputeAt out = false := by
            cases hb : F.hasComputeAt out with
            | false => rfl
            | true =>
              exfalso
              have := hpos e he out (by rw [hout]; simp) hb (some t) s ht
              omega
          have hk : F.getThisComputeAtAxis out = 0 :=
            hroot e he out (by rw [hout]; simp) hoca
          have hop : F.isTVOp e = true := (htv e he).2 ⟨out, hfo⟩
          obtain ⟨front, hfront⟩ : ∃ front, reordered = front ++ [e] := by
            rcases List.eq_nil_or_concat reordered with hnil | ⟨front, b, hb⟩
            · rw [hnil] at hlast
              exact absurd hlast (by simp)
            · rw [hb, List.concat_eq_append, List.getLast?_append] at hlast
              simp only [List.getLast?_singleton] at hlast
              have hbe : some b = some e := hlast
              simp only [Option.some.injEq] at hbe
              exact ⟨front, by rw [hb, List.concat_eq_append, hbe]⟩
          rw [hfront, handleAll_append] at hh
          cases hm : handleAll F D front (initialGen F) with
          | none => rw [hm] at hh; exact absurd hh (by simp)
          | some stm =>
            rw [hm, Option.some_bind, handleAll_singleton] at hh
            obtain ⟨out', _, _, st3, ho, _, _, _, hc⟩ := handle_tv_steps F D e stm st hop hh
            rw [hout] at ho
            simp only [List.head?_cons, Option.some.injEq] at ho
            subst ho
            obtain ⟨c1, _⟩ := closeStep_spec F D out st3 st hc
            exact c1 hk

/-! ### The open loops after the loop-opening step -/

/-- C18, witness on scenario E: the list of the seven expressions holds the definition of
every target (expression 0 is computed at tensor 24, which expression 4 defines; the other
outputs have no compute-at), and `generate` returns on it with no loop open. -/
theorem generate_ends_closed_witness :
    ∃ st, generate scenarioE domainsE 12 [0, 1, 2, 4, 5, 6, 7] = some st ∧
      st.for_loops_ = [] := by
  have ht : ∀ e ∈ [0, 1, 2, 4, 5, 6, 7], findTargetTensor scenarioE 12 e =
      some (some (if e = 0 then 24 else 20 + e), if e = 0 then 1 else UINT_MAX) := by decide
  have hd : ∀ e ∈ [0, 1, 2, 4, 5, 6, 7], ∃ d ∈ [0, 1, 2, 4, 5, 6, 7],
      findOutputTensor scenarioE d = some (some (if e = 0 then 24 else 20 + e)) := by decide
  have hp : ∀ e ∈ [0, 1, 2, 4, 5, 6, 7], ∀ out ∈ scenarioE.outputs e,
      scenarioE.hasComputeAt out = true → (if e = 0 then 1 else UINT_MAX) < UINT_MAX := by
    decide
  have hfo : ∀ e ∈ [0, 1, 2, 4, 5, 6, 7],
      findOutputTensor scenarioE e = some (some (20 + e)) := by decide
  have hsome : (generate scenarioE domainsE 12 [0, 1, 2, 4, 5, 6, 7]).isSome = true := by
    decide
  obtain ⟨st, hst⟩ := Option.isSome_iff_exists.1 hsome
  refine ⟨st, hst,
    generate_ends_closed scenarioE domainsE 12 [0, 1, 2, 4, 5, 6, 7] st hst ?_ ?_ (by decide) ?_⟩
  · intro e he t s hts _
    rw [ht e he] at hts
    simp only [Option.some.injEq, Prod.mk.injEq] at hts
    rw [← hts.1]
    exact hd e he
  · intro e he out hout hca t s hts
    rw [ht e he] at hts
    simp only [Option.some.injEq, Prod.mk.injEq] at hts
    rw [← hts.2]
    exact hp e he out hout hca
  · intro e he
    exact ⟨fun _ => ⟨20 + e, hfo e he⟩, fun _ => rfl⟩

end LoopNest

namespace MaxPosCalculator

/-! ### The position of the first axis that is not allowed -/

theorem scanDomain_spec (ar av au : Bool) (tv : List Axis) (pos : Nat) :
    scanDomain ar av au tv pos = pos + (tv.takeWhile (fun id => isAllowedID id ar av au)).length := by
  induction tv generalizing pos with
  | nil => rfl
  | cons id rest ih =>
    unfold scanDomain
    by_cases h : isAllowedID id ar av au = true
    · rw [if_pos h, ih]
      simp only [List.takeWhile_cons, h, if_true, List.length_cons]
      omega
    · rw [if_neg h]
      simp [List.takeWhile_cons, h]

/-- C27: `getMaxPosSelf` returns a position that is at most the number of axes of `tv`;
every axis before the position is allowed under the three flags; the axis at the position,
when there is one, is not allowed, so the position is the index of the first axis that is
not allowed; it is the number of axes exactly when every axis is allowed; it is the length of
the longest prefix of allowed axes, at most the count of allowed axes and not equal to it in
general: of an allowed axis, a reduction and an allowed axis, with reductions disallowed, it
is 1 while two axes are allowed. -/
theorem getMaxPosSelf_first_blocking (tv : List Axis) (ar av au : Bool) :
    getMaxPosSelf tv ar av au ≤ tv.length ∧
    (∀ i id, tv.get? i = some id → i < getMaxPosSelf tv ar av au →
      isAllowedID id ar av au = true) ∧
    (∀ id, tv.get? (getMaxPosSelf tv ar av au) = some id → isAllowedID id ar av au = false) ∧
    (getMaxPosSelf tv ar av au = tv.length ↔ ∀ id ∈ tv, isAllowedID id ar av au = true) ∧
    getMaxPosSelf tv ar av au = (tv.takeWhile (fun id => isAllowedID id ar av au)).length ∧
    getMaxPosSelf tv ar av au ≤ tv.countP (fun id => isAllowedID id ar av au) ∧
    (getMaxPosSelf [plainAxis, reductionAxis, plainAxis] false false false = 1 ∧
      [plainAxis, reductionAxis, plainAxis].countP (fun id => isAllowedID id false false false)
        = 2) := by
  have hk : getMaxPosSelf tv ar av au =
      (tv.takeWhile (fun id => isAllowedID id ar av au)).length := by
    unfold getMaxPosSelf
    rw [scanDomain_spec]
    omega
  refine ⟨?_, ?_, ?_, ?_, hk, ?_, by decide⟩
  · rw [hk]
    exact (List.takeWhile_sublist _).length_le
  · rw [hk]
    clear hk
    induction tv with
    | nil => intro i id h; simp at h
    | cons x rest ih =>
      intro i id h hi
      by_cases hx : isAllowedID x ar av au = true
      · simp only [List.takeWhile_cons, hx, if_true, List.length_cons] at hi
        cases i with
        | zero =>
          simp only [List.get?_cons_zero, Option.some.injEq] at h
          rw [← h]
          exact hx
        | succ j =>
          simp only [List.get?_cons_succ] at h
          exact ih j id h (by simpa using hi)
      · simp [List.takeWhile_cons, hx] at hi
  · rw [hk]
    clear hk
    induction tv with
    | nil => intro id h; simp at h
    | cons x rest ih =>
      intro id h
      by_cases hx : isAllowedID x ar av au = true
      · simp only [List.takeWhile_cons, hx, if_true, List.length_cons, List.get?_cons_succ] at h
        exact ih id h
      · simp only [List.takeWhile_cons, hx, List.length_nil, List.get?_cons_zero, Option.some.injEq] at h
        simp only [Bool.false_eq_true, if_false, List.length_nil, List.get?_cons_zero, Option.some.injEq] at h
        rw [← h]
        simpa using hx
  · rw [hk]
    clear hk
    induction tv with
    | nil => simp
    | cons x rest ih =>
      by_cases hx : isAllowedID x ar av au = true
      · simp only [List.takeWhile_cons, hx, if_true, List.length_cons, Nat.add_right_cancel_iff, List.mem_cons, forall_eq_or_imp,
          true_and]
        exact ih
      · simp only [List.takeWhile_cons, hx, Bool.false_eq_true, if_false, List.length_nil, List.length_cons, List.mem_cons, forall_eq_or_imp]
        constructor
        · intro h
          omega
        · intro h
          exact h.1.elim
  · rw [hk]
    clear hk
    induction tv with
    | nil => simp
    | cons x rest ih =>
      by_cases hx : isAllowedID x ar av au = true
      · simp only [List.takeWhile_cons, hx, if_true, List.length_cons, List.countP_cons, if_true]
        omega
      · simp [List.takeWhile_cons, hx]

end MaxPosCalculator

namespace scheduler_utils

/-! ### `merge_3d`, `mergeReduction` and `mergeNonReduction` -/

/-- C33: on the axes `[I1, R2, I3, I4, R3{1}]` with `R3{1}` in `dont_merge`, `merge_3d`
returns 3 and leaves the axes `[I1, R3{1}, R2, I3*I4]`: the three merged axes are moved to the
last three positions, which puts `R3{1}` in front, where the last swaps exchange it with
`I1`. The result is not the `[I1, I3*I4, R2, R3{1}]` of the comment on the function. The
first call of `merge` and the first call of `reorder` are evaluated too. -/
theorem merge_3d_example :
    merge_3d exampleAxes exampleDontMerge =
      some (3, [IterDomain.axis 1 false, IterDomain.axis 5 true, IterDomain.axis 2 true,
        IterDomain.merged (IterDomain.axis 3 false) (IterDomain.axis 4 false)]) ∧
    merge_3d exampleAxes exampleDontMerge ≠
      some (3, [IterDomain.axis 1 false,
        IterDomain.merged (IterDomain.axis 3 false) (IterDomain.axis 4 false),
        IterDomain.axis 2 true, IterDomain.axis 5 true]) ∧
    merge exampleAxes 2 3 =
      some [IterDomain.axis 1 false, IterDomain.axis 2 true,
        IterDomain.merged (IterDomain.axis 3 false) (IterDomain.axis 4 false),
        IterDomain.axis 5 true] ∧
    reorder [IterDomain.axis 1 false, IterDomain.axis 2 true,
        IterDomain.merged (IterDomain.axis 3 false) (IterDomain.axis 4 false),
        IterDomain.axis 5 true] [(2, -1)] =
      some [IterDomain.axis 1 false, IterDomain.axis 2 true, IterDomain.axis 5 true,
        IterDomain.merged (IterDomain.axis 3 false) (IterDomain.axis 4 false)] := by
  decide

theorem get_of_mem_downFrom (tv : List IterDomain) (i : Nat) (h : i ∈ downFrom tv.length) :
    ∃ id, tv.get? i = some id ∧ id ∈ tv := by
  unfold downFrom at h
  rw [List.mem_reverse, List.mem_range] at h
  exact ⟨tv.get ⟨i, h⟩, List.get?_eq_get h, List.get_mem _ _ _⟩

/-- When every axis is passed over, the loop changes nothing. -/
theorem mergeLoop_skipped (skip dont_merge : IterDomain → Bool) (idxs : List Nat)
    (s : MergeState) (k : Nat)
    (h : ∀ i ∈ idxs, ∃ id, s.tv.get? i = some id ∧ (skip id || dont_merge id) = true) :
    mergeLoop skip dont_merge idxs (s, k) = (s, k) := by
  induction idxs with
  | nil => rfl
  | cons i rest ih =>
    obtain ⟨id, hid, hskip⟩ := h i (List.mem_cons_self _ _)
    rw [mergeLoop, hid]
    simp only [hskip, if_true]
    exact ih (fun j hj => h j (List.mem_cons_of_mem _ hj))

/-- C38: `mergeNonReduction` returns 0 and leaves the axes as they are when every axis is a
reduction or in `dont_merge`. `mergeReduction`, when no axis is a reduction outside
`dont_merge`, returns 0 after `reorder({{-1, 0}})`, because it tests `prev_i != 0` where
`mergeNonReduction` tests `prev_i != -1`: of two iteration axes `[I1, I2]` it makes
`[I2, I1]`, and without an axis the call of `reorder` has no axis to move. -/
theorem mergeReduction_moves_last_axis :
    (∀ tv dont_merge, (∀ id ∈ tv, id.isReduction = true ∨ dont_merge id = true) →
      mergeNonReduction tv dont_merge = some (0, tv)) ∧
    (∀ tv dont_merge, (∀ id ∈ tv, id.isReduction = false ∨ dont_merge id = true) →
      mergeReduction tv dont_merge = (reorder tv [(-1, 0)]).map (fun tv1 => (0, tv1))) ∧
    mergeReduction [IterDomain.axis 1 false, IterDomain.axis 2 false] (fun _ => false) =
      some (0, [IterDomain.axis 2 false, IterDomain.axis 1 false]) ∧
    mergeReduction [] (fun _ => false) = none ∧
    mergeNonReduction [IterDomain.axis 1 true, IterDomain.axis 2 true] (fun _ => false) =
      some (0, [IterDomain.axis 1 true, IterDomain.axis 2 true]) := by
  refine ⟨?_, ?_, by decide, by decide, by decide⟩
  · intro tv dont_merge h
    unfold mergeNonReduction
    by_cases hz : tv.length = 0
    · rw [if_pos hz]
    · rw [if_neg hz]
      have hl := mergeLoop_skipped (fun id => id.isReduction) dont_merge (downFrom tv.length)
        (loopEntry tv) 0 (by
          intro i hi
          obtain ⟨id, h1, h2⟩ := get_of_mem_downFrom tv i hi
          refine ⟨id, h1, ?_⟩
          rcases h id h2 with h3 | h3
          · simp [h3]
          · simp [h3])
      simp only [hl]
      simp [loopEntry]
  · intro tv dont_merge h
    unfold mergeReduction
    have hl := mergeLoop_skipped (fun id => !id.isReduction) dont_merge (downFrom tv.length)
      (loopEntry tv) 0 (by
        intro i hi
        obtain ⟨id, h1, h2⟩ := get_of_mem_downFrom tv i hi
        refine ⟨id, h1, ?_⟩
        rcases h id h2 with h3 | h3
        · simp [h3]
        · simp [h3])
    simp only [hl]
    simp only [loopEntry]
    cases reorder tv [(-1, 0)] <;> simp

/-! ### `computeAtBetween` -/

/-- C37: with the position -1 handed to `computeAtBetween`, the producer 1 and the consumers
2 (whose first axis is mapped to a trivial reduction) and 3 (without such an axis), the
position for consumer 3 by the description is -1; the function calls `computeAt` for
consumer 3 with position 1 when consumer 2 is processed before, and with -1 when consumer 3
is processed first: the assignment to the parameter `pos` for consumer 2 stays for the
consumers that follow. -/
theorem computeAtBetween_position_carried :
    positionFor exampleGraph exampleMapped (-1) 2 = 1 ∧
    positionFor exampleGraph exampleMapped (-1) 3 = -1 ∧
    computeAtBetween exampleGraph [1] [2, 3] (-1) exampleMapped =
      [{ producer := 1, consumer := 2, pos := 1 }, { producer := 1, consumer := 3, pos := 1 }] ∧
    computeAtBetween exampleGraph [1] [3, 2] (-1) exampleMapped =
      [{ producer := 1, consumer := 3, pos := -1 },
       { producer := 1, consumer := 2, pos := 1 }] := by
  decide

end scheduler_utils

namespace reduction_scheduler_utils

/-! ### The comparator `id_lt` -/

/-- C35: `id_lt(a, a)` is true for a serial iteration axis `a` whose extent is a symbol, for
a serial reduction axis whose extent is a symbol, and for an axis bound to a block dimension;
in general it is true for every axis that is not a trivial reduction, not a broadcast, not
bound to a thread and without a constant extent: the branch for two axes without constant
extent returns true unless the first is a reduction and the second is not. So for two such
axes of one kind `id_lt(a, b)` and `id_lt(b, a)` are both true. -/
theorem id_lt_not_strict :
    id_lt symbolicAxis symbolicAxis = some true ∧
    id_lt symbolicReduction symbolicReduction = some true ∧
    id_lt blockAxis blockAxis = some true ∧
    (∀ a : IterDomain,
      (a.isReduction && a.getParallelType == ParallelType.Serial && a.extentIsOneInt) = false →
      (a.isBroadcast || a.isImplicitBroadcast) = false →
      a.extentIsConstScalar = false → a.isThread = false → id_lt a a = some true) ∧
    (∀ a b : IterDomain,
      (a.isReduction && a.getParallelType == ParallelType.Serial && a.extentIsOneInt) = false →
      (b.isReduction && b.getParallelType == ParallelType.Serial && b.extentIsOneInt) = false →
      (a.isBroadcast || a.isImplicitBroadcast) = false →
      (b.isBroadcast || b.isImplicitBroadcast) = false →
      a.extentIsConstScalar = false → a.isThread = false →
      b.extentIsConstScalar = false → b.isThread = false →
      a.isReduction = b.isReduction →
      id_lt a b = some true ∧ id_lt b a = some true) := by
  refine ⟨by decide, by decide, by decide, ?_, ?_⟩
  · intro a h1 h2 h3 h4
    unfold id_lt
    simp only [h1, h2, h3, h4, Bool.false_eq_true, if_false, Bool.not_false, Bool.and_self,
      if_true]
    cases a.isReduction <;> simp
  · intro a b h1 h2 h3 h4 h5 h6 h7 h8 h9
    constructor
    · unfold id_lt
      simp only [h1, h2, h3, h4, h5, h6, h7, h8, Bool.false_eq_true, if_false, Bool.not_false,
        Bool.and_self, if_true]
      rw [h9]
      cases b.isReduction <;> simp
    · unfold id_lt
      simp only [h1, h2, h3, h4, h5, h6, h7, h8, Bool.false_eq_true, if_false, Bool.not_false,
        Bool.and_self, if_true]
      rw [h9]
      cases b.isReduction <;> simp

end reduction_scheduler_utils

namespace ExprMutator

/-! ### `ExprMutator::mutate` on a top-level mutation -/

/-- The position `std::find` returns for a reference that occurs: the length of the part of
the list before its first occurrence. -/
theorem find_first (pre post : List ExprPtr) (reference : ExprPtr) (h : reference ∉ pre) :
    find (pre ++ reference :: post) reference = some pre.length := by
  induction pre with
  | nil => simp [find]
  | cons a rest ih =>
    have ha : a ≠ reference := fun e => h (by rw [e]; exact List.mem_cons_self _ _)
    have hr : reference ∉ rest := fun hm => h (List.mem_cons_of_mem _ hm)
    simp [find, ha, ih hr]

/-- The position `std::find` returns for a reference that does not occur is `end()`. -/
theorem find_absent (exprs : List ExprPtr) (reference : ExprPtr) (h : reference ∉ exprs) :
    find exprs reference = none := by
  induction exprs with
  | nil => rfl
  | cons a rest ih =>
    have ha : a ≠ reference := fun e => h (by rw [e]; exact List.mem_cons_self _ _)
    have hr : reference ∉ rest := fun hm => h (List.mem_cons_of_mem _ hm)
    simp [find, ha, ih hr]

theorem insert_at_length (pre post : List ExprPtr) (expr : ExprPtr) :
    insert (pre ++ post) pre.length expr = pre ++ expr :: post := by
  simp [insert]

theorem erase_at_length (pre post : List ExprPtr) (expr : ExprPtr) :
    erase (pre ++ expr :: post) pre.length = pre ++ post := by
  simp [erase]

/-- One insertion at the top level: the new expression goes immediately before the first
occurrence of the reference for `BEFORE` and immediately after it otherwise. -/
theorem run_insertion_top_level (S : ScopeMethods) (st : Mutator) (info : MutationInformation)
    (pre post : List ExprPtr) (hs : info.scope = none)
    (hex : st.exprs_ = pre ++ info.reference :: post) (hpre : info.reference ∉ pre) :
    run_insertion S st info =
      some { st with
        exprs_ := if info.mode = MutationMode.BEFORE then
            pre ++ info.new_expr :: info.reference :: post
          else pre ++ info.reference :: info.new_expr :: post } := by
  unfold run_insertion
  rw [hs]
  simp only
  have hne : st.exprs_.isEmpty = false := by rw [hex]; cases pre <;> rfl
  rw [hne, Bool.false_and, if_neg (by decide), hex, find_first pre post _ hpre]
  simp only
  by_cases hm : info.mode = MutationMode.BEFORE
  · rw [if_pos hm, if_pos hm, insert_at_length]
  · rw [if_neg hm, if_neg hm]
    have h2 := insert_at_length (pre ++ [info.reference]) post info.new_expr
    simp only [List.append_assoc, List.singleton_append, List.length_append,
      List.length_singleton] at h2
    rw [h2]

/-- One replacement at the top level: the new expression takes the place of the first
occurrence of the reference. -/
theorem run_replacement_top_level (S : ScopeMethods) (st : Mutator)
    (info : MutationInformation) (pre post : List ExprPtr) (hs : info.scope = none)
    (hex : st.exprs_ = pre ++ info.reference :: post) (hpre : info.reference ∉ pre) :
    run_replacement S st info = some { st with exprs_ := pre ++ info.new_expr :: post } := by
  unfold run_replacement
  rw [hs]
  simp only
  rw [hex, find_first pre post _ hpre]
  simp only
  rw [insert_at_length]
  by_cases hn : info.new_expr = info.reference
  · rw [hn, find_first pre (info.reference :: post) _ hpre]
    simp only
    rw [erase_at_length]
  · have h2 := find_first (pre ++ [info.new_expr]) post info.reference (by
      intro hm
      rcases List.mem_append.1 hm with hm | hm
      · exact hpre hm
      · exact hn (List.mem_singleton.1 hm).symm)
    simp only [List.append_assoc, List.singleton_append, List.length_append,
      List.length_singleton] at h2
    rw [h2]
    simp only
    have h3 := erase_at_length (pre ++ [info.new_expr]) post info.reference
    simp only [List.append_assoc, List.singleton_append, List.length_append,
      List.length_singleton] at h3
    rw [h3]

/-- Whenever `mutate` returns, the list returned is the list the mutator keeps and nothing
is pending. -/
theorem mutate_clears (S : ScopeMethods) (st st1 : Mutator) (reverse_order : Bool)
    (result : List ExprPtr) (h : mutate S st reverse_order = some (result, st1)) :
    st1.insertions_ = [] ∧ st1.replacements_ = [] ∧ result = st1.exprs_ := by
  unfold mutate at h
  by_cases he : (st.insertions_.isEmpty && st.replacements_.isEmpty) = true
  · rw [if_pos he] at h
    have h2 := Option.some.inj h
    have h3 : st.exprs_ = result := congrArg Prod.fst h2
    have h4 : st = st1 := congrArg Prod.snd h2
    rw [Bool.and_eq_true, List.isEmpty_iff, List.isEmpty_iff] at he
    rw [← h4, ← h3]
    exact ⟨he.1, he.2, rfl⟩
  · rw [if_neg he] at h
    cases hi : insertionLoop S st
        (if reverse_order = true then st.insertions_.reverse else st.insertions_) with
    | none => rw [hi] at h; cases h
    | some s1 =>
      rw [hi] at h
      simp only at h
      cases hr : replacementLoop S s1 st.replacements_ with
      | none => rw [hr] at h; cases h
      | some s2 =>
        rw [hr] at h
        simp only at h
        have h2 := Option.some.inj h
        have h3 : s2.exprs_ = result := congrArg Prod.fst h2
        have h4 : ({ s2 with insertions_ := [], replacements_ := [] } : Mutator) = st1 :=
          congrArg Prod.snd h2
        rw [← h4, ← h3]
        exact ⟨rfl, rfl, rfl⟩

/-- C40: for a mutator with nothing pending, after `registerMutation` of a top-level
mutation (scope `nullptr`) whose reference occurs in the expression list, `mutate` returns
the list with the new expression immediately before the first occurrence of the reference
for `BEFORE`, immediately after it for `AFTER`, and in its place for `REPLACE` (the list keeps
its length), all other entries in order; it fails when the list is not empty and the
reference is not in it; and whenever `mutate` returns, the list returned is the list kept and
no insertion and no replacement is pending. -/
theorem mutate_top_level (S : ScopeMethods) (st : Mutator) (reference new_expr : ExprPtr)
    (mode : MutationMode) (reverse_order : Bool)
    (hi : st.insertions_ = []) (hr : st.replacements_ = []) :
    (∀ pre post : List ExprPtr, st.exprs_ = pre ++ reference :: post → reference ∉ pre →
      mutate S (registerMutation st reference new_expr none mode) reverse_order =
        some
          (match mode with
            | MutationMode.BEFORE => pre ++ new_expr :: reference :: post
            | MutationMode.AFTER => pre ++ reference :: new_expr :: post
            | MutationMode.REPLACE => pre ++ new_expr :: post,
           { st with
             exprs_ :=
               match mode with
               | MutationMode.BEFORE => pre ++ new_expr :: reference :: post
               | MutationMode.AFTER => pre ++ reference :: new_expr :: post
               | MutationMode.REPLACE => pre ++ new_expr :: post }) ∧
      (mode = MutationMode.REPLACE → (pre ++ new_expr :: post).length = st.exprs_.length)) ∧
    (st.exprs_ ≠ [] → reference ∉ st.exprs_ →
      mutate S (registerMutation st reference new_expr none mode) reverse_order = none) ∧
    (∀ (st0 st1 : Mutator) (order : Bool) (result : List ExprPtr),
      mutate S st0 order = some (result, st1) →
      st1.insertions_ = [] ∧ st1.replacements_ = [] ∧ result = st1.exprs_) := by
  refine ⟨?_, ?_, fun st0 st1 order result h => mutate_clears S st0 st1 order result h⟩
  · intro pre post hex hpre
    refine ⟨?_, fun _ => by rw [hex]; simp⟩
    cases mode with
    | BEFORE =>
      have hreg : registerMutation st reference new_expr none MutationMode.BEFORE =
          (⟨st.exprs_, [⟨reference, new_expr, none, MutationMode.BEFORE⟩], [], st.scopes⟩ :
            Mutator) := by
        unfold registerMutation
        simp [hi, hr]
      have h1 := run_insertion_top_level S (registerMutation st reference new_expr none
        MutationMode.BEFORE)
        { reference := reference, new_expr := new_expr, scope := none,
          mode := MutationMode.BEFORE } pre post rfl (by rw [hreg]; exact hex) hpre
      rw [hreg] at h1
      rw [hreg]
      simp only [if_true] at h1
      simp only [mutate, List.isEmpty_cons, Bool.false_and, Bool.false_eq_true, if_false,
        List.reverse_singleton, ite_self, insertionLoop, replacementLoop, h1, hi, hr]
    | AFTER =>
      have hreg : registerMutation st reference new_expr none MutationMode.AFTER =
          (⟨st.exprs_, [⟨reference, new_expr, none, MutationMode.AFTER⟩], [], st.scopes⟩ :
            Mutator) := by
        unfold registerMutation
        simp [hi, hr]
      have h1 := run_insertion_top_level S (registerMutation st reference new_expr none
        MutationMode.AFTER)
        { reference := reference, new_expr := new_expr, scope := none,
          mode := MutationMode.AFTER } pre post rfl (by rw [hreg]; exact hex) hpre
      rw [hreg] at h1
      rw [hreg]
      simp only [reduceCtorEq, if_false] at h1
      simp only [mutate, List.isEmpty_cons, Bool.false_and, Bool.false_eq_true, if_false,
        List.reverse_singleton, ite_self, insertionLoop, replacementLoop, h1, hi, hr]
    | REPLACE =>
      have hreg : registerMutation st reference new_expr none MutationMode.REPLACE =
          (⟨st.exprs_, [], [⟨reference, new_expr, none, MutationMode.REPLACE⟩], st.scopes⟩ :
            Mutator) := by
        unfold registerMutation
        simp [hi, hr]
      have h1 := run_replacement_top_level S (registerMutation st reference new_expr none
        MutationMode.REPLACE)
        { reference := reference, new_expr := new_expr, scope := none,
          mode := MutationMode.REPLACE } pre post rfl (by rw [hreg]; exact hex) hpre
      rw [hreg] at h1
      rw [hreg]
      simp only [mutate, List.isEmpty_cons, Bool.and_false, Bool.false_eq_true, if_false,
        List.reverse_nil, ite_self, insertionLoop, replacementLoop, h1, hi, hr]
  · intro hne hnot
    have hemp : st.exprs_.isEmpty = false := by
      cases hl : st.exprs_ with
      | nil => exact absurd hl hne
      | cons a rest => rfl
    have hf := find_absent st.exprs_ reference hnot
    cases mode with
    | BEFORE =>
      unfold mutate registerMutation
      simp only [hi, hr, true_or, if_true, List.nil_append, List.isEmpty_cons,
        Bool.false_and, Bool.false_eq_true, if_false, List.reverse_singleton, ite_self,
        insertionLoop, run_insertion, hemp, hf]
    | AFTER =>
      unfold mutate registerMutation
      simp only [hi, hr, or_true, if_true, List.nil_append, List.isEmpty_cons,
        Bool.false_and, Bool.false_eq_true, if_false, List.reverse_singleton, ite_self,
        insertionLoop, run_insertion, hemp, hf]
    | REPLACE =>
      unfold mutate registerMutation
      simp only [hi, hr, or_self, if_false, List.nil_append, List.isEmpty_cons,
        Bool.and_false, Bool.false_eq_true, List.reverse_nil, ite_self,
        insertionLoop, replacementLoop, run_replacement, hf, reduceCtorEq]

/-- C40, witness: on the list 1, 2, 3 with reference 2 and new expression 7, `REPLACE`
gives 1, 7, 3; with the reference 9, which is not in the list, `mutate` fails. -/
theorem mutate_top_level_witness :
    mutate noScopes (registerMutation exampleMutator (some 2) (some 7) none
        MutationMode.REPLACE) false =
      some ([some 1, some 7, some 3],
        { exampleMutator with exprs_ := [some 1, some 7, some 3] }) ∧
    mutate noScopes (registerMutation exampleMutator (some 9) (some 7) none
        MutationMode.REPLACE) false = none :=
  ⟨((mutate_top_level noScopes exampleMutator (some 2) (some 7) MutationMode.REPLACE false
      rfl rfl).1 [some 1] [some 3] rfl (by decide)).1,
   (mutate_top_level noScopes exampleMutator (some 9) (some 7) MutationMode.REPLACE false
      rfl rfl).2.1 (by decide) (by decide)⟩

end ExprMutator
